import Mathlib

/-!
# ChatYouCry: the symmetric cryptography engine

A shallow embedding of `src/algorithm/*.go` and theorems about it.

Conventions of the embedding

* a Go `byte` is a `Fin 256`; a `[]byte` is a `List Byte` (only the visible
  elements of a slice are modelled, every function of the source that is
  embedded here hands fresh buffers to the functions that write in place);
* `uint16` / `uint64` values are natural numbers, every operation that can
  overflow is followed by an explicit `% 2 ^ 16` / `% 2 ^ 64`;
* a Go function returning `(T, error)` returns `Result T`; a returned `error`
  is `Fault.error`, a run-time panic (index out of range, division by zero,
  explicit `panic(...)`) is `Fault.panic`;
* `for` loops are structural recursions on a counter of remaining iterations;
* the goroutines of `encryptECB`, `decryptECB` and `encryptCTR` are run in
  block order; `encryptECBScheduled` and `encryptCTRScheduled` run them in any
  given order;
* `crypto/rand.Read` takes its bytes from an explicit tape of random bytes;
* the functions of the context take the fields of the receiver as a value;
  `Method` gives `Encrypt`, `AddPadding`, `encryptCFB` and `encryptOFB` a
  second time with the receiver as explicit state.
-/

namespace ChatYouCry

/-! ## Results, bytes and slices -/

/-- The two ways a Go call can fail: a returned `error` or a run-time panic. -/
inductive Fault where
  | error (msg : String)
  | panic (msg : String)
  deriving Repr, DecidableEq

/-- Outcome of a Go call that may fail. -/
abbrev Result (α : Type) := Except Fault α

/-- A Go `byte`. -/
abbrev Byte := Fin 256

/-- A Go `[]byte`. -/
abbrev Bytes := List Byte

/-- The call returned a value. -/
def Result.isOk {α : Type} : Result α → Bool
  | .ok _ => true
  | .error _ => false

/-- The call returned a Go `error` (it did not panic). -/
def Result.isError {α : Type} : Result α → Bool
  | .error (.error _) => true
  | _ => false

/-- The call panicked. -/
def Result.isPanic {α : Type} : Result α → Bool
  | .error (.panic _) => true
  | _ => false

/-- Conversion `byte(n)` of a Go integer: the low eight bits. -/
def toByte (n : Nat) : Byte := ⟨n % 256, Nat.mod_lt _ (by decide)⟩

/-- Index expression `l[i]`; it panics when `i` is out of range. -/
def idx {α : Type} (l : List α) (i : Nat) : Result α :=
  match l.get? i with
  | some a => pure a
  | none => throw (.panic "index out of range")

/-- Slice expression `l[a:b]` on a slice whose capacity is its length. -/
def slice {α : Type} (l : List α) (a b : Nat) : Result (List α) :=
  if a ≤ b ∧ b ≤ l.length then pure ((l.drop a).take (b - a))
  else throw (.panic "slice bounds out of range")

/-- Builtin `copy(dst[off:], src)`: overwrites `dst` from offset `off` with as
many bytes of `src` as fit; the length of `dst` does not change. -/
def copyAt {α : Type} (dst : List α) (off : Nat) (src : List α) : List α :=
  dst.take off ++ (src.take (dst.length - off) ++ dst.drop (off + src.length))

/-- The expression `make([]byte, n)`. -/
def zeros (n : Nat) : Bytes := List.replicate n 0

/-- Bytewise `a[j] ^ b[j]`. -/
def xorBytes (a b : Bytes) : Bytes := List.zipWith (fun x y => x ^^^ y) a b

/-! ## Key agreement (`diffiehellman.go`) -/

/-- The method `big.Int.Exp(x, y, m)` for an exponent `y ≥ 0`: `x ^ y mod |m|`
(the result lies in `[0, |m|)`), and `x ^ y` when `m = 0`. -/
def bigExp (x : Int) (y : Nat) (m : Int) : Int :=
  if m = 0 then x ^ y else (x ^ y) % |m|

/-- Public key `g ^ privateKey mod prime`. -/
def GeneratePublicKey (g : Int) (privateKey : Nat) (prime : Int) : Int :=
  bigExp g privateKey prime

/-- Shared key `otherPublicKey ^ privateKey mod prime`. -/
def GenerateSharedKey (privateKey : Nat) (otherPublicKey : Int) (prime : Int) : Int :=
  bigExp otherPublicKey privateKey prime

/-! ## Padding (`symmetric.go`) -/

/-- Padding tags, Go `int` constants. -/
def Zeros : Nat := 0
def ANSIX923 : Nat := 1
def PKCS7 : Nat := 2
def ISO10126 : Nat := 3

/-- Mode tags, Go `int` constants. -/
def ECB : Nat := 0
def CBC : Nat := 1
def PCBC : Nat := 2
def CFB : Nat := 3
def OFB : Nat := 4
def CTR : Nat := 5
def RandomDelta : Nat := 6

/-- The call `rand.Read(buf)` with `len(buf) = n` on a tape of random bytes:
the bytes read and the rest of the tape, or an error when the entropy source
is exhausted. -/
def randRead (tape : Bytes) (n : Nat) : Result (Bytes × Bytes) :=
  if n ≤ tape.length then pure (tape.take n, tape.drop n)
  else throw (.error "entropy source failed")

def ZerosPadding (data : Bytes) (paddingLen : Nat) : Bytes :=
  data ++ List.replicate paddingLen 0

/-- Strips every trailing zero byte: `bytes.TrimRight(data, "\x00")`. -/
def removeZerosPadding (data : Bytes) : Bytes :=
  (data.reverse.dropWhile (fun b => b == 0)).reverse

/-- The source calls `bytes.Repeat([]byte{0}, paddingLen-1)`, which panics on a
negative count. -/
def ANSIX923Padding (data : Bytes) (paddingLen : Nat) : Result Bytes :=
  if paddingLen = 0 then throw (.panic "bytes: negative Repeat count")
  else pure (data ++ (List.replicate (paddingLen - 1) 0 ++ [toByte paddingLen]))

def removeANSIX923Padding (data : Bytes) : Result Bytes := do
  let last ← idx data (data.length - 1)
  let paddingLen := last.val
  if paddingLen > data.length then throw (.error "invalid padding length")
  else pure (data.take (data.length - paddingLen))

def PKCS7Padding (data : Bytes) (paddingLen : Nat) : Result Bytes :=
  if paddingLen < 1 ∨ paddingLen > 255 then
    throw (.panic "paddingLen must be between 1 and 255")
  else pure (data ++ List.replicate paddingLen (toByte paddingLen))

/-- The loop `for i := 1; i <= paddingLen; i++` of `removePKCS7Padding`, with
`fuel` iterations left. -/
def removePKCS7Padding.loop (data : Bytes) (paddingLen : Nat) : Nat → Nat → Result Unit
  | 0, _ => pure ()
  | fuel + 1, i => do
    let b ← idx data (data.length - i)
    if b ≠ toByte paddingLen then throw (.error "invalid PKCS7 padding")
    else removePKCS7Padding.loop data paddingLen fuel (i + 1)

def removePKCS7Padding (data : Bytes) : Result Bytes :=
  if data.length = 0 then throw (.error "data is empty")
  else do
    let last ← idx data (data.length - 1)
    let paddingLen := last.val
    if paddingLen = 0 ∨ paddingLen > data.length then
      throw (.error "invalid padding length")
    else do
      removePKCS7Padding.loop data paddingLen paddingLen 1
      pure (data.take (data.length - paddingLen))

def ISO10126Padding (tape : Bytes) (data : Bytes) (paddingLen : Nat) :
    Result (Bytes × Bytes) :=
  if paddingLen < 1 ∨ paddingLen > 255 then
    throw (.error "paddingLen must be between 1 and 255")
  else do
    let (fill, tape1) ← randRead tape (paddingLen - 1)
    pure (data ++ (fill ++ [toByte paddingLen]), tape1)

def removeISO10126Padding (data : Bytes) : Result Bytes :=
  if data.length = 0 then throw (.error "data is empty")
  else do
    let last ← idx data (data.length - 1)
    let paddingLen := last.val
    if paddingLen = 0 ∨ paddingLen > data.length then
      throw (.error "invalid padding length")
    else pure (data.take (data.length - paddingLen))

/-! ## Words and byte order -/

/-- Addition of two `uint64` values. -/
def add64 (x y : Nat) : Nat := (x + y) % 2 ^ 64

/-- Subtraction of two `uint64` values (it wraps around). -/
def sub64 (x y : Nat) : Nat := (x % 2 ^ 64 + (2 ^ 64 - y % 2 ^ 64)) % 2 ^ 64

/-- Shift `x << s` of a `uint64`; a shift by 64 or more yields 0. -/
def shl64 (x s : Nat) : Nat := (x <<< s) % 2 ^ 64

/-- Shift `x >> s` of a `uint64`; a shift by 64 or more yields 0. -/
def shr64 (x s : Nat) : Nat := (x % 2 ^ 64) >>> s

/-- The functions `binary.LittleEndian.Uint16/32/64` on a slice of 2/4/8 bytes. -/
def leUint : Bytes → Nat
  | [] => 0
  | b :: bs => b.val + 256 * leUint bs

/-- The functions `binary.LittleEndian.PutUint16/32/64`: the `n` low bytes of
`x`, least significant first. -/
def lePut : Nat → Nat → Bytes
  | 0, _ => []
  | n + 1, x => toByte x :: lePut n (x / 256)

/-! ## RC5 (`rc5.go`) -/

/-- The fields of the Go struct `RC5`. -/
structure RC5 where
  S : List Nat
  r : Nat
  w : Nat
  b : Nat
  deriving Repr, DecidableEq

def NewRC5 : RC5 := { S := [], r := 12, w := 64, b := 16 }

/-- Left rotation; every operation is the `uint64` one, the mask is
`(1 << w) - 1` computed in `uint64` (all ones for `w = 64`). -/
def rol (x y w : Nat) : Nat :=
  (shl64 x (y % w) ||| shr64 x (w - y % w)) &&& sub64 (shl64 1 w) 1

def ror (x y w : Nat) : Nat :=
  (shr64 x (y % w) ||| shl64 x (w - y % w)) &&& sub64 (shl64 1 w) 1

/-- Go `max` of `rc5.go`. -/
def goMax (a b : Nat) : Nat := if a > b then a else b

/-- The loop `for i := b - 1; i >= 0; i--` of `keyExpansion`; the counter is
the number of key bytes still to be packed, the current index is one less. -/
def RC5.keyExpansion.pack (K : Bytes) (u : Nat) : Nat → List Nat → Result (List Nat)
  | 0, L => pure L
  | i + 1, L => do
    let l ← idx L (i / u)
    let k ← idx K i
    RC5.keyExpansion.pack K u i (L.set (i / u) (add64 (shl64 l 8) k.val))

/-- The loop `for i := 1; i < t; i++` of `keyExpansion`. -/
def RC5.keyExpansion.init (Qw : Nat) : Nat → Nat → List Nat → Result (List Nat)
  | 0, _, S => pure S
  | fuel + 1, i, S => do
    let s ← idx S (i - 1)
    if i < S.length then RC5.keyExpansion.init Qw fuel (i + 1) (S.set i (add64 s Qw))
    else throw (.panic "index out of range")

/-- The mixing loop `for k := 0; k < n; k++` of `keyExpansion`. -/
def RC5.keyExpansion.mix (w t c : Nat) :
    Nat → Nat → Nat → Nat → Nat → List Nat → List Nat → Result (List Nat)
  | 0, _, _, _, _, S, _ => pure S
  | fuel + 1, i, j, A, B, S, L => do
    let s ← idx S i
    let A := rol (add64 (add64 s A) B) 3 w
    let S := S.set i A
    let l ← idx L j
    let B := rol (add64 (add64 l A) B) (add64 A B % w) w
    let L := L.set j B
    if t = 0 ∨ c = 0 then throw (.panic "integer divide by zero")
    else RC5.keyExpansion.mix w t c fuel ((i + 1) % t) ((j + 1) % c) A B S L

def RC5.keyExpansion (rc5 : RC5) (K : Bytes) : Result (List Nat) :=
  let w := rc5.w
  let r := rc5.r
  let b := rc5.b
  let t := 2 * (r + 1)
  if w ≠ 16 ∧ w ≠ 32 ∧ w ≠ 64 then throw (.panic "unsupported word size")
  else
    let Pw := if w = 16 then 0xb7e1 else if w = 32 then 0xb7e15163 else 0xb7e151628aed2a6b
    let Qw := if w = 16 then 0x9e37 else if w = 32 then 0x9e3779b9 else 0x9e3779b97f4a7c15
    let u := w / 8
    let c := (b + u - 1) / u
    do
      let L ← RC5.keyExpansion.pack K u b (List.replicate c 0)
      let S0 := (List.replicate t 0).set 0 Pw
      let S ← RC5.keyExpansion.init Qw (t - 1) 1 S0
      let n := 3 * goMax t c
      RC5.keyExpansion.mix w t c n 0 0 0 0 S L

def RC5.SetKey (rc5 : RC5) (key : Bytes) : Result RC5 :=
  if key.length = 0 then throw (.error "key cannot be empty")
  else do
    let rc5b := { rc5 with b := key.length }
    let S ← RC5.keyExpansion rc5b key
    pure { rc5b with S := S }

/-- The loop `for i := 1; i <= rc5.r; i++` of `encryptBlock`. -/
def RC5.encryptBlock.loop (rc5 : RC5) : Nat → Nat → Nat → Nat → Result (Nat × Nat)
  | 0, _, A, B => pure (A, B)
  | fuel + 1, i, A, B => do
    let s ← idx rc5.S (2 * i)
    let A := add64 (rol (A ^^^ B) (B % rc5.w) rc5.w) s
    let s1 ← idx rc5.S (2 * i + 1)
    let B := add64 (rol (B ^^^ A) (A % rc5.w) rc5.w) s1
    RC5.encryptBlock.loop rc5 fuel (i + 1) A B

/-- The three cases of the `switch rc5.w` read and write `w / 8` bytes per
word; they are merged into one branch. -/
def RC5.encryptBlock (rc5 : RC5) (block : Bytes) : Result Bytes :=
  let wordSizeBytes := rc5.w / 8
  if block.length ≠ wordSizeBytes * 2 then throw (.error "block size is wrong")
  else if rc5.w ≠ 16 ∧ rc5.w ≠ 32 ∧ rc5.w ≠ 64 then throw (.error "unsupported word size")
  else do
    let A := leUint (block.take wordSizeBytes)
    let B := leUint ((block.drop wordSizeBytes).take wordSizeBytes)
    let s0 ← idx rc5.S 0
    let A := add64 A s0
    let s1 ← idx rc5.S 1
    let B := add64 B s1
    let (A, B) ← RC5.encryptBlock.loop rc5 rc5.r 1 A B
    pure (lePut wordSizeBytes A ++ lePut wordSizeBytes B)

/-- The loop `for i := rc5.r; i >= 1; i--` of `decryptBlock`; the counter is
the round index `i`. -/
def RC5.decryptBlock.loop (rc5 : RC5) : Nat → Nat → Nat → Result (Nat × Nat)
  | 0, A, B => pure (A, B)
  | j + 1, A, B => do
    let i := j + 1
    let s1 ← idx rc5.S (2 * i + 1)
    let B := ror (sub64 B s1) (A % rc5.w) rc5.w ^^^ A
    let s ← idx rc5.S (2 * i)
    let A := ror (sub64 A s) (B % rc5.w) rc5.w ^^^ B
    RC5.decryptBlock.loop rc5 j A B

def RC5.decryptBlock (rc5 : RC5) (block : Bytes) : Result Bytes :=
  let wordSizeBytes := rc5.w / 8
  if block.length ≠ wordSizeBytes * 2 then throw (.error "block size is wrong")
  else if rc5.w ≠ 16 ∧ rc5.w ≠ 32 ∧ rc5.w ≠ 64 then throw (.error "unsupported word size")
  else do
    let A := leUint (block.take wordSizeBytes)
    let B := leUint ((block.drop wordSizeBytes).take wordSizeBytes)
    let (A, B) ← RC5.decryptBlock.loop rc5 rc5.r A B
    let s1 ← idx rc5.S 1
    let B := sub64 B s1
    let s0 ← idx rc5.S 0
    let A := sub64 A s0
    pure (lePut wordSizeBytes A ++ lePut wordSizeBytes B)

/-- The loop `for i := 0; i < len(data); i += blockSize` of `RC5.Encrypt` and
`RC5.Decrypt` over the `len(data) / blockSize` blocks of `data`. -/
def blocksLoop (blockFn : Bytes → Result Bytes) (data : Bytes) (blockSize : Nat) :
    Nat → Nat → Bytes → Result Bytes
  | 0, _, out => pure out
  | fuel + 1, i, out => do
    let blk ← slice data i (i + blockSize)
    let block ← blockFn blk
    blocksLoop blockFn data blockSize fuel (i + blockSize)
      (copyAt out i (block.take blockSize))

def RC5.Encrypt (rc5 : RC5) (data : Bytes) : Result Bytes :=
  let blockSize := rc5.w / 4
  if blockSize = 0 then throw (.panic "integer divide by zero")
  else if data.length % blockSize ≠ 0 then
    throw (.error "data length is not a multiple of block size")
  else blocksLoop rc5.encryptBlock data blockSize (data.length / blockSize) 0
    (zeros data.length)

def RC5.Decrypt (rc5 : RC5) (data : Bytes) : Result Bytes :=
  let blockSize := rc5.w / 4
  if blockSize = 0 then throw (.panic "integer divide by zero")
  else if data.length % blockSize ≠ 0 then
    throw (.error "data length is not a multiple of block size")
  else blocksLoop rc5.decryptBlock data blockSize (data.length / blockSize) 0
    (zeros data.length)

/-! ## The substitution-diffusion cipher (`magenta.go`) -/

/-- The fields of the Go struct `Magenta`. -/
structure Magenta where
  S : List Nat
  r : Nat
  w : Nat
  b : Nat
  deriving Repr, DecidableEq

def NewMagenta : Magenta := { S := [], r := 12, w := 64, b := 16 }

def Magenta.sbox (x : Nat) : Nat :=
  (shl64 x 3 &&& 0xFFFFFFFFFFFFFFFF) ^^^ (shr64 x 2 &&& 0xFFFFFFFFFFFFFFFF)

def Magenta.invSbox (x : Nat) : Nat :=
  (shr64 x 3 &&& 0xFFFFFFFFFFFFFFFF) ^^^ (shl64 x 2 &&& 0xFFFFFFFFFFFFFFFF)

def Magenta.hadamard (x : Nat) : Nat :=
  (x % 2 ^ 64 ^^^ shr64 x 1) &&& 0xFFFFFFFFFFFFFFFF

def Magenta.invHadamard (x : Nat) : Nat :=
  (x % 2 ^ 64 ^^^ shl64 x 1) &&& 0xFFFFFFFFFFFFFFFF

/-- The loop `for i := 0; i < size; i++` of `keyExpansion`. -/
def Magenta.keyExpansion.loop (key : Bytes) : Nat → Nat → List Nat → Result (List Nat)
  | 0, _, S => pure S
  | fuel + 1, i, S =>
    if key.length = 0 then throw (.panic "integer divide by zero")
    else do
      let k ← idx key (i % key.length)
      if i < S.length then
        Magenta.keyExpansion.loop key fuel (i + 1) (S.set i (shl64 i 32 ||| k.val))
      else throw (.panic "index out of range")

def Magenta.keyExpansion (m : Magenta) (key : Bytes) : Result (List Nat) :=
  let size := 2 * (m.r + 1)
  Magenta.keyExpansion.loop key size 0 (List.replicate size 0)

def Magenta.SetKey (m : Magenta) (key : Bytes) : Result Magenta :=
  if key.length = 0 then throw (.error "key cannot be empty")
  else do
    let mb := { m with b := key.length }
    let S ← Magenta.keyExpansion mb key
    pure { mb with S := S }

/-- The loop `for i := 0; i < m.r; i++` of `encryptBlock`. -/
def Magenta.encryptBlock.loop (m : Magenta) : Nat → Nat → Nat → Nat → Result (Nat × Nat)
  | 0, _, A, B => pure (A, B)
  | fuel + 1, i, A, B =>
    if m.S.length = 0 then throw (.panic "integer divide by zero")
    else do
      let s ← idx m.S (i % m.S.length)
      let A := Magenta.sbox A ^^^ s ^^^ B
      let B := Magenta.hadamard B ^^^ A
      Magenta.encryptBlock.loop m fuel (i + 1) A B

def Magenta.encryptBlock (m : Magenta) (block : Bytes) : Result Bytes :=
  let wordSizeBytes := m.w / 8
  if block.length ≠ wordSizeBytes * 2 then throw (.error "block size is wrong")
  else do
    let a ← slice block 0 8
    let b ← slice block 8 16
    let (A, B) ← Magenta.encryptBlock.loop m m.r 0 (leUint a) (leUint b)
    let out := zeros (wordSizeBytes * 2)
    let _ ← slice out 0 8
    let _ ← slice out 8 16
    pure (copyAt (copyAt out 0 (lePut 8 A)) 8 (lePut 8 B))

/-- The loop `for i := m.r - 1; i >= 0; i--` of `decryptBlock`; the counter is
`i + 1`. -/
def Magenta.decryptBlock.loop (m : Magenta) : Nat → Nat → Nat → Result (Nat × Nat)
  | 0, A, B => pure (A, B)
  | i + 1, A, B =>
    if m.S.length = 0 then throw (.panic "integer divide by zero")
    else do
      let B := Magenta.invHadamard B ^^^ A
      let s ← idx m.S (i % m.S.length)
      let A := Magenta.invSbox (A ^^^ s ^^^ B)
      Magenta.decryptBlock.loop m i A B

def Magenta.decryptBlock (m : Magenta) (block : Bytes) : Result Bytes :=
  let wordSizeBytes := m.w / 8
  if block.length ≠ wordSizeBytes * 2 then throw (.error "block size is wrong")
  else do
    let a ← slice block 0 8
    let b ← slice block 8 16
    let (A, B) ← Magenta.decryptBlock.loop m m.r (leUint a) (leUint b)
    let out := zeros (wordSizeBytes * 2)
    let _ ← slice out 0 8
    let _ ← slice out 8 16
    pure (copyAt (copyAt out 0 (lePut 8 A)) 8 (lePut 8 B))

def Magenta.Encrypt (m : Magenta) (data : Bytes) : Result Bytes :=
  let blockSize := m.w / 4
  if blockSize = 0 then throw (.panic "integer divide by zero")
  else if data.length % blockSize ≠ 0 then
    throw (.error "data length is not a multiple of block size")
  else blocksLoop m.encryptBlock data blockSize (data.length / blockSize) 0
    (zeros data.length)

def Magenta.Decrypt (m : Magenta) (data : Bytes) : Result Bytes :=
  let blockSize := m.w / 4
  if blockSize = 0 then throw (.panic "integer divide by zero")
  else if data.length % blockSize ≠ 0 then
    throw (.error "data length is not a multiple of block size")
  else blocksLoop m.decryptBlock data blockSize (data.length / blockSize) 0
    (zeros data.length)

/-! ## LOKI97 (`loki97.go`) -/

/-- The constant `Delta`. -/
def Delta : Nat := 0x9e3779b9

/-- The fields of the Go struct `Loki97`; `subKeys` is the array `[48][]byte`. -/
structure Loki97 where
  key : Bytes
  subKeys : List Bytes
  blockSize : Nat
  deriving Repr, DecidableEq

/-- The zero value `Loki97{}`. -/
def Loki97.zero : Loki97 := { key := [], subKeys := List.replicate 48 [], blockSize := 0 }

def KaKb (Key : Bytes) : Bytes × Bytes :=
  let size := Key.length / 2
  (Key.take size, Key.drop size)

def LRBlocks (block : Bytes) : Bytes × Bytes :=
  let size := block.length / 2
  (block.take size, block.drop size)

def XOR (a b : Bytes) : Result Bytes :=
  if a.length ≠ b.length then throw (.panic "Slices must have the same length")
  else pure (xorBytes a b)

/-- The loop of `Plus` on the two slices read from their last byte to their
first one: `sum = a[i] + b[i] + carry`, `result[i] = byte(sum & 0xFF)`,
`carry = sum >> 8`. -/
def Plus.loop : Bytes → Bytes → Nat → Bytes
  | x :: xs, y :: ys, carry =>
    let sum := x.val + y.val + carry
    toByte (sum &&& 0xFF) :: Plus.loop xs ys (sum >>> 8)
  | _, _, _ => []

def Plus (a b : Bytes) : Result Bytes :=
  if a.length ≠ b.length then throw (.panic "Slices must have the same length")
  else pure (Plus.loop a.reverse b.reverse 0).reverse

/-- The loop of `Minus` on the two slices read from their last byte to their
first one: `diff = a[i] - b[i] - borrow` as a signed integer. -/
def Minus.loop : Bytes → Bytes → Nat → Bytes
  | x :: xs, y :: ys, borrow =>
    let diff : Int := (x.val : Int) - (y.val : Int) - (borrow : Int)
    if diff < 0 then toByte ((diff + 256).toNat &&& 0xFF) :: Minus.loop xs ys 1
    else toByte (diff.toNat &&& 0xFF) :: Minus.loop xs ys 0
  | _, _, _ => []

def Minus (a b : Bytes) : Result Bytes :=
  if a.length ≠ b.length then throw (.panic "Slices must have the same length")
  else pure (Minus.loop a.reverse b.reverse 0).reverse

def makeCopy (src : Bytes) : Bytes := copyAt (zeros src.length) 0 src

/-- The loop of `uint64ToBytes`: `result[i] = byte(n >> (56 - 8*i))`. -/
def uint64ToBytes.loop (n : Nat) : Nat → Nat → Bytes → Bytes
  | 0, _, result => result
  | fuel + 1, i, result =>
    uint64ToBytes.loop n fuel (i + 1) (result.set i (toByte (shr64 n (56 - 8 * i))))

def uint64ToBytes (n : Nat) : Bytes := uint64ToBytes.loop n 8 0 (zeros 8)

/-- Multiplication in GF(2^bits) on `uint16` values; `fuel` iterations of
`for i := 0; i < bits; i++` are left. -/
def galoisMultiply.loop (mod bits : Nat) : Nat → Nat → Nat → Nat → Nat
  | 0, _, _, result => result
  | fuel + 1, ax, b, result =>
    let result := if b &&& 1 ≠ 0 then result ^^^ ax else result
    let ax := (ax <<< 1) % 2 ^ 16
    let ax := if ax &&& ((1 <<< bits) % 2 ^ 16) ≠ 0 then ax ^^^ mod else ax
    galoisMultiply.loop mod bits fuel ax (b >>> 1) result

def galoisMultiply (a b mod bits : Nat) : Nat :=
  galoisMultiply.loop mod bits bits a b 0

def galoisCube (x mod bits : Nat) : Nat :=
  let x2 := galoisMultiply x x mod bits
  let x3 := galoisMultiply x2 x mod bits
  x3

/-- The S-box over GF(2^13); `^x` is the complement of a `uint16`. -/
def S1 (x : Nat) : Byte :=
  let x := (65535 - x % 2 ^ 16) &&& 0x1FFF
  let xCubed := galoisCube x 0x2911 13
  toByte (xCubed &&& 0xFF)

/-- The S-box over GF(2^11). -/
def S2 (x : Nat) : Byte :=
  let x := (65535 - x % 2 ^ 16) &&& 0x7FF
  let xCubed := galoisCube x 0xA7 11
  toByte (xCubed &&& 0xFF)

/-- The loop `for i := 0; i < 8; i++` of `Sa`. -/
def Sa.loop (A : Bytes) : Nat → Nat → Bytes → Result Bytes
  | 0, _, result => pure result
  | fuel + 1, i, result => do
    let a ← idx A i
    if i % 2 = 0 then Sa.loop A fuel (i + 1) (result.set i (S1 a.val))
    else Sa.loop A fuel (i + 1) (result.set i (S2 a.val))

def Sa (A : Bytes) : Result Bytes := Sa.loop A 8 0 (zeros 8)

/-- The loop `for i := 0; i < 8; i++` of `Sb`. -/
def Sb.loop (A B : Bytes) : Nat → Nat → Bytes → Result Bytes
  | 0, _, result => pure result
  | fuel + 1, i, result =>
    if i % 2 = 0 then do
      let a ← idx A i
      Sb.loop A B fuel (i + 1) (result.set i (S2 a.val))
    else do
      let b ← idx B i
      Sb.loop A B fuel (i + 1) (result.set i (S1 b.val))

def Sb (A B : Bytes) : Result Bytes := Sb.loop A B 8 0 (zeros 8)

/-- The loop `for i := 0; i < len(SKr)*8; i++` of `KP` on the two halves `Al`
and `Ar` of `A`. -/
def KP.loop (SKr : Bytes) : Nat → Nat → Bytes → Bytes → Result (Bytes × Bytes)
  | 0, _, Al, Ar => pure (Al, Ar)
  | fuel + 1, i, Al, Ar => do
    let k ← idx SKr (i / 8)
    let bit := (k.val >>> (7 - i % 8)) &&& 1
    if bit = 1 then
      let byteIndex := i / 8
      let bitIndex := i % 8
      let al ← idx Al byteIndex
      let AlBit := (al.val >>> (7 - bitIndex)) &&& 1
      let ar ← idx Ar byteIndex
      let ArBit := (ar.val >>> (7 - bitIndex)) &&& 1
      if AlBit ≠ ArBit then
        KP.loop SKr fuel (i + 1)
          (Al.set byteIndex (al ^^^ toByte (1 <<< (7 - bitIndex))))
          (Ar.set byteIndex (ar ^^^ toByte (1 <<< (7 - bitIndex))))
      else KP.loop SKr fuel (i + 1) Al Ar
    else KP.loop SKr fuel (i + 1) Al Ar

def KP (A B : Bytes) : Result Bytes := do
  let (Al, Ar) := KaKb A
  let (_, SKr) := KaKb B
  let (Al, Ar) ← KP.loop SKr (SKr.length * 8) 0 Al Ar
  pure (Al ++ Ar)

/-- The expression `(b >> k) & m` on a byte. -/
def shrAnd (b : Byte) (k m : Nat) : Byte := toByte ((b.val >>> k) &&& m)

def E (input : Bytes) : Result Bytes :=
  if input.length ≠ 8 then throw (.panic "Input must be 64 bits (8 bytes)")
  else do
    let i0 ← idx input 0
    let i1 ← idx input 1
    let i2 ← idx input 2
    let i3 ← idx input 3
    let i4 ← idx input 4
    let i5 ← idx input 5
    let i6 ← idx input 6
    let i7 ← idx input 7
    pure [shrAnd i0 4 0x1F, shrAnd i7 6 0x3F, shrAnd i5 4 0xFF, shrAnd i4 4 0xFF,
      shrAnd i3 3 0xFF, shrAnd i2 2 0xFF, shrAnd i1 2 0xFF, shrAnd i7 0 0xFF,
      shrAnd i6 0 0xFF, shrAnd i5 5 0x1F, shrAnd i4 3 0xFF, shrAnd i3 6 0xFF]

/-- The table `perm` of `P`. -/
def perm : List Nat :=
  [56, 48, 40, 32, 24, 16, 8, 0,
   57, 49, 41, 33, 25, 17, 9, 1,
   58, 50, 42, 34, 26, 18, 10, 2,
   59, 51, 43, 35, 27, 19, 11, 3,
   60, 52, 44, 36, 28, 20, 12, 4,
   61, 53, 45, 37, 29, 21, 13, 5,
   62, 54, 46, 38, 30, 22, 14, 6,
   63, 55, 47, 39, 31, 23, 15, 7]

/-- The loop `for i, p := range perm` of `P` over the entries of `perm` that
are left. -/
def P.loop (input : Bytes) : List Nat → Nat → Bytes → Result Bytes
  | [], _, output => pure output
  | p :: rest, i, output => do
    let b ← idx input (p / 8)
    let bit := (b.val >>> (7 - p % 8)) &&& 1
    if bit = 1 then do
      let o ← idx output (i / 8)
      P.loop input rest (i + 1) (output.set (i / 8) (o ||| toByte (1 <<< (7 - i % 8))))
    else P.loop input rest (i + 1) output

def P (input : Bytes) : Result Bytes := P.loop input perm 0 (zeros 8)

/-- The round function; `KP` writes into its first argument, which every
caller creates fresh for the call. -/
def f (A B : Bytes) : Result Bytes := do
  let a1 ← KP A B
  let a2 ← E a1
  let a3 ← Sa a2
  let a4 ← P a3
  Sb a4 B

def g (K1 K3 K2 : Bytes) (i : Nat) : Result Bytes := do
  let deltaMultiplied := (Delta * i) % 2 ^ 64
  let s ← Plus K1 K3
  let Firts ← Plus s (uint64ToBytes deltaMultiplied)
  f Firts K2

def generatefirstkeys (Ka Kb : Bytes) : Result (Bytes × Bytes × Bytes × Bytes) := do
  let K4 := copyAt (zeros Ka.length) 0 Ka
  let K3 := copyAt (zeros Kb.length) 0 Kb
  let K2 ← f (makeCopy Kb) (makeCopy Ka)
  let K1 ← f (makeCopy Ka) (makeCopy Kb)
  pure (K1, K2, K3, K4)

/-- The loop `for i := 0; i < 48; i++` of `generateSubkeys`. -/
def generateSubkeys.loop :
    Nat → Nat → Bytes → Bytes → Bytes → Bytes → List Bytes → Result (List Bytes)
  | 0, _, _, _, _, _, SKeys => pure SKeys
  | fuel + 1, i, K1, K2, K3, K4, SKeys => do
    let gi ← g K1 K3 K2 i
    let sk ← XOR K1 gi
    generateSubkeys.loop fuel (i + 1) K4 K1 K2 K3 (SKeys.set i sk)

def generateSubkeys (K1 K2 K3 K4 : Bytes) : Result (List Bytes) :=
  generateSubkeys.loop 48 0 K1 K2 K3 K4 (List.replicate 48 [])

def Loki97.SetKey (l : Loki97) (key : Bytes) : Result Loki97 :=
  if key.length ≠ 16 then throw (.error "key size must be 16 bytes")
  else do
    let (Ka, Kb) := KaKb key
    let (K1, K2, K3, K4) ← generatefirstkeys Ka Kb
    let subKeys ← generateSubkeys K1 K2 K3 K4
    pure { l with subKeys := subKeys, key := key, blockSize := 16 }

/-- Access `SKeys[i]` to the array `[48][]byte`. -/
def subKey (SKeys : List Bytes) (i : Nat) : Bytes := SKeys.getD i []

/-- The loop `for i := 1; i <= 16; i++` of `FeistelNetwork`. -/
def FeistelNetwork.loop (SKeys : List Bytes) : Nat → Nat → Bytes → Bytes → Result (Bytes × Bytes)
  | 0, _, L, R => pure (L, R)
  | fuel + 1, i, L, R => do
    let SK3 := subKey SKeys ((3 * i) % 48)
    let SK2 := subKey SKeys ((3 * i - 1) % 48)
    let SK1 := subKey SKeys ((3 * i - 2) % 48)
    let p1 ← Plus R SK1
    let f1 ← f p1 SK2
    let newR ← XOR L f1
    let p2 ← Plus R SK1
    let newL ← Plus p2 SK3
    FeistelNetwork.loop SKeys fuel (i + 1) newL newR

def FeistelNetwork (L R : Bytes) (SKeys : List Bytes) : Result Bytes := do
  let (L, R) ← FeistelNetwork.loop SKeys 16 1 L R
  let result := zeros 16
  let result := copyAt result 0 (R.take 8)
  pure (copyAt result 8 L)

/-- The loop `for i := 16; i >= 1; i--` of `decr`; the counter is the round
index `i`. -/
def decr.loop (SKeys : List Bytes) : Nat → Bytes → Bytes → Result (Bytes × Bytes)
  | 0, L, R => pure (L, R)
  | j + 1, L, R => do
    let i := j + 1
    let SK3 := subKey SKeys ((3 * i) % 48)
    let SK2 := subKey SKeys ((3 * i - 1) % 48)
    let SK1 := subKey SKeys ((3 * i - 2) % 48)
    let m1 ← Minus R SK3
    let f1 ← f m1 SK2
    let newR ← XOR L f1
    let m2 ← Minus R SK3
    let newL ← Minus m2 SK1
    decr.loop SKeys j newL newR

def decr (L R : Bytes) (SKeys : List Bytes) : Result Bytes := do
  let (L, R) ← decr.loop SKeys 16 L R
  let result := zeros 16
  let result := copyAt result 0 (R.take 8)
  pure (copyAt result 8 L)

def Loki97.Encrypt (l : Loki97) (data : Bytes) : Result Bytes :=
  if data.length ≠ l.blockSize then throw (.error "data size must be 16 bytes")
  else
    let (L0, R0) := LRBlocks data
    FeistelNetwork L0 R0 l.subKeys

def Loki97.Decrypt (l : Loki97) (data : Bytes) : Result Bytes :=
  if data.length ≠ l.blockSize then throw (.error "data size must be exactly 16 bytes")
  else
    let (L0, R0) := LRBlocks data
    decr L0 R0 l.subKeys

/-! ## The cipher context (`symmetric.go`) -/

/-- The interface `SymmetricAlgorithm` for a cipher object whose fields have
type `σ`: `SetKey` returns the updated object, `Encrypt` and `Decrypt` read it. -/
structure SymmetricAlgorithm (σ : Type) where
  SetKey : σ → Bytes → Result σ
  Encrypt : σ → Bytes → Result Bytes
  Decrypt : σ → Bytes → Result Bytes

/-- The method table of `*RC5`. -/
def rc5Algorithm : SymmetricAlgorithm RC5 :=
  { SetKey := RC5.SetKey, Encrypt := RC5.Encrypt, Decrypt := RC5.Decrypt }

/-- The method table of `*Magenta`. -/
def magentaAlgorithm : SymmetricAlgorithm Magenta :=
  { SetKey := Magenta.SetKey, Encrypt := Magenta.Encrypt, Decrypt := Magenta.Decrypt }

/-- The method table of `*Loki97`. -/
def loki97Algorithm : SymmetricAlgorithm Loki97 :=
  { SetKey := Loki97.SetKey, Encrypt := Loki97.Encrypt, Decrypt := Loki97.Decrypt }

/-- The fields of the Go struct `CryptoSymmetricContext`; `cipher` and `obj`
are the method table and the fields of the cipher object. The map
`extraParams` is written by the constructor and never read. -/
structure CryptoSymmetricContext (σ : Type) where
  key : Bytes
  cipher : SymmetricAlgorithm σ
  obj : σ
  mode : Nat
  padding : Nat
  iv : Bytes
  blockSize : Nat

/-- The wrapping `fmt.Errorf(pre + ": %v", err)` of a returned error; a panic
is not caught. -/
def wrapf {α : Type} (pre : String) : Result α → Result α
  | .ok a => .ok a
  | .error (.error msg) => .error (.error (pre ++ ": " ++ msg))
  | .error (.panic msg) => .error (.panic msg)

def NewCryptoSymmetricContext {σ : Type} (key : Bytes) (cipher : SymmetricAlgorithm σ)
    (obj : σ) (mode padding : Nat) (iv : Bytes) (blockSize : Nat) :
    Result (CryptoSymmetricContext σ) :=
  if key.length ≠ blockSize ∧ key.length ≠ 16 ∧ key.length ≠ 24 ∧ key.length ≠ 32 then
    throw (.error "key size is invalid")
  else do
    let obj1 ← wrapf "failed to set key" (cipher.SetKey obj key)
    pure { key := key, cipher := cipher, obj := obj1, mode := mode, padding := padding,
           iv := iv, blockSize := blockSize }

/-- Padding of `data`; the second component is what is left of the tape of
random bytes. -/
def CryptoSymmetricContext.AddPadding {σ : Type} (cstc : CryptoSymmetricContext σ)
    (tape data : Bytes) : Result (Bytes × Bytes) :=
  let blockSize := cstc.blockSize
  if blockSize = 0 then throw (.panic "integer divide by zero")
  else
    let paddingLen := blockSize - data.length % blockSize
    let paddingLen := if paddingLen = 0 then blockSize else paddingLen
    if cstc.padding = Zeros then pure (ZerosPadding data paddingLen, tape)
    else if cstc.padding = ANSIX923 then do
      let r ← ANSIX923Padding data paddingLen
      pure (r, tape)
    else if cstc.padding = PKCS7 then do
      let r ← PKCS7Padding data paddingLen
      pure (r, tape)
    else if cstc.padding = ISO10126 then ISO10126Padding tape data paddingLen
    else throw (.error "unsupported padding mode")

def CryptoSymmetricContext.RemovePadding {σ : Type} (cstc : CryptoSymmetricContext σ)
    (data : Bytes) : Result Bytes :=
  if cstc.padding = Zeros then pure (removeZerosPadding data)
  else if cstc.padding = ANSIX923 then removeANSIX923Padding data
  else if cstc.padding = PKCS7 then removePKCS7Padding data
  else if cstc.padding = ISO10126 then removeISO10126Padding data
  else throw (.error "unsupported padding mode")

/-- The block workers of `encryptECB` (`op` is the cipher's `Encrypt`) and
`decryptECB` (`op` is its `Decrypt`), run in the order of the block index. -/
def ecbLoop (op : Bytes → Result Bytes) (data : Bytes) (blockSize : Nat) :
    Nat → Nat → Bytes → Result Bytes
  | 0, _, out => pure out
  | fuel + 1, blockIndex, out => do
    let bs := blockIndex * blockSize
    let block ← slice data bs (bs + blockSize)
    let outBlock ← wrapf "failed at block" (op block)
    ecbLoop op data blockSize fuel (blockIndex + 1) (copyAt out bs outBlock)

def CryptoSymmetricContext.encryptECB {σ : Type} (cstc : CryptoSymmetricContext σ)
    (data : Bytes) : Result Bytes :=
  let blockSize := cstc.blockSize
  if blockSize = 0 then throw (.panic "integer divide by zero")
  else if data.length % blockSize ≠ 0 then
    throw (.error "data length is not a multiple of block size")
  else
    let numBlocks := data.length / blockSize
    ecbLoop (cstc.cipher.Encrypt cstc.obj) data blockSize numBlocks 0 (zeros data.length)

def CryptoSymmetricContext.decryptECB {σ : Type} (cstc : CryptoSymmetricContext σ)
    (data : Bytes) : Result Bytes :=
  let blockSize := cstc.blockSize
  if blockSize = 0 then throw (.panic "integer divide by zero")
  else if data.length % blockSize ≠ 0 then
    throw (.error "data length is not a multiple of block size")
  else
    let numBlocks := data.length / blockSize
    ecbLoop (cstc.cipher.Decrypt cstc.obj) data blockSize numBlocks 0 (zeros data.length)

/-- The bytes `a[0], ..., a[n-1]` read one by one by an index expression;
the read panics when `a` is shorter. -/
def firstN (a : Bytes) (n : Nat) : Result Bytes :=
  if a.length < n then throw (.panic "index out of range")
  else pure (a.take n)

/-- The loop `for i := 0; i < numBlocks; i++` of `encryptCBC`. -/
def CryptoSymmetricContext.encryptCBC.loop {σ : Type} (cstc : CryptoSymmetricContext σ)
    (data : Bytes) : Nat → Nat → Bytes → Bytes → Result Bytes
  | 0, _, encrypted, _ => pure encrypted
  | fuel + 1, i, encrypted, previous => do
    let blockSize := cstc.blockSize
    let start := i * blockSize
    let block ← slice data start (start + blockSize)
    let inputBlock := xorBytes block previous
    let encryptedBlock ← wrapf "encryption failed at block"
      (cstc.cipher.Encrypt cstc.obj inputBlock)
    CryptoSymmetricContext.encryptCBC.loop cstc data fuel (i + 1)
      (copyAt encrypted start encryptedBlock) (copyAt previous 0 encryptedBlock)

def CryptoSymmetricContext.encryptCBC {σ : Type} (cstc : CryptoSymmetricContext σ)
    (data : Bytes) : Result Bytes :=
  let blockSize := cstc.blockSize
  if cstc.iv.length ≠ blockSize then throw (.error "invalid IV size")
  else if blockSize = 0 then throw (.panic "integer divide by zero")
  else
    let numBlocks := data.length / blockSize
    let previous := copyAt (zeros blockSize) 0 cstc.iv
    CryptoSymmetricContext.encryptCBC.loop cstc data numBlocks 0 (zeros data.length) previous

/-- The loop `for i := 0; i < numBlocks; i++` of `decryptCBC`. -/
def CryptoSymmetricContext.decryptCBC.loop {σ : Type} (cstc : CryptoSymmetricContext σ)
    (data : Bytes) : Nat → Nat → Bytes → Bytes → Result Bytes
  | 0, _, decrypted, _ => pure decrypted
  | fuel + 1, i, decrypted, previous => do
    let blockSize := cstc.blockSize
    let start := i * blockSize
    let block ← slice data start (start + blockSize)
    let decryptedBlock ← wrapf "decryption failed at block"
      (cstc.cipher.Decrypt cstc.obj block)
    let db ← firstN decryptedBlock blockSize
    let decrypted := copyAt decrypted start (xorBytes db previous)
    CryptoSymmetricContext.decryptCBC.loop cstc data fuel (i + 1) decrypted
      (copyAt previous 0 block)

def CryptoSymmetricContext.decryptCBC {σ : Type} (cstc : CryptoSymmetricContext σ)
    (data : Bytes) : Result Bytes :=
  let blockSize := cstc.blockSize
  if cstc.iv.length ≠ blockSize then throw (.error "invalid IV size")
  else if blockSize = 0 then throw (.panic "integer divide by zero")
  else if data.length % blockSize ≠ 0 then
    throw (.error "data length is not a multiple of block size")
  else
    let numBlocks := data.length / blockSize
    let previous := copyAt (zeros blockSize) 0 cstc.iv
    CryptoSymmetricContext.decryptCBC.loop cstc data numBlocks 0 (zeros data.length) previous

/-- The loop `for i := 0; i < numBlocks; i++` of `encryptPCBC`. -/
def CryptoSymmetricContext.encryptPCBC.loop {σ : Type} (cstc : CryptoSymmetricContext σ)
    (data : Bytes) : Nat → Nat → Bytes → Bytes → Bytes → Result Bytes
  | 0, _, encrypted, _, _ => pure encrypted
  | fuel + 1, i, encrypted, previousPlaintext, previousCiphertext => do
    let blockSize := cstc.blockSize
    let bs := i * blockSize
    let plaintextBlock ← slice data bs (bs + blockSize)
    let inputBlock := xorBytes (xorBytes plaintextBlock previousPlaintext) previousCiphertext
    let encryptedBlock ← wrapf "encryption failed at block"
      (cstc.cipher.Encrypt cstc.obj inputBlock)
    CryptoSymmetricContext.encryptPCBC.loop cstc data fuel (i + 1)
      (copyAt encrypted bs encryptedBlock) (copyAt previousPlaintext 0 plaintextBlock)
      (copyAt previousCiphertext 0 encryptedBlock)

def CryptoSymmetricContext.encryptPCBC {σ : Type} (cstc : CryptoSymmetricContext σ)
    (data : Bytes) : Result Bytes :=
  let blockSize := cstc.blockSize
  if cstc.iv.length ≠ blockSize then throw (.error "invalid IV size")
  else if blockSize = 0 then throw (.panic "integer divide by zero")
  else
    let numBlocks := data.length / blockSize
    let previousPlaintext := zeros blockSize
    let previousCiphertext := copyAt (zeros blockSize) 0 cstc.iv
    CryptoSymmetricContext.encryptPCBC.loop cstc data numBlocks 0 (zeros data.length)
      previousPlaintext previousCiphertext

/-- The loop `for i := 0; i < numBlocks; i++` of `decryptPCBC`. -/
def CryptoSymmetricContext.decryptPCBC.loop {σ : Type} (cstc : CryptoSymmetricContext σ)
    (data : Bytes) : Nat → Nat → Bytes → Bytes → Bytes → Result Bytes
  | 0, _, decrypted, _, _ => pure decrypted
  | fuel + 1, i, decrypted, previousPlaintext, previousCiphertext => do
    let blockSize := cstc.blockSize
    let bs := i * blockSize
    let block ← slice data bs (bs + blockSize)
    let decryptedBlock ← wrapf "decryption failed at block"
      (cstc.cipher.Decrypt cstc.obj block)
    let db ← firstN decryptedBlock blockSize
    let decrypted := copyAt decrypted bs
      (xorBytes (xorBytes db previousPlaintext) previousCiphertext)
    let written ← slice decrypted bs (bs + blockSize)
    CryptoSymmetricContext.decryptPCBC.loop cstc data fuel (i + 1) decrypted
      (copyAt previousPlaintext 0 written) (copyAt previousCiphertext 0 block)

def CryptoSymmetricContext.decryptPCBC {σ : Type} (cstc : CryptoSymmetricContext σ)
    (data : Bytes) : Result Bytes :=
  let blockSize := cstc.blockSize
  if cstc.iv.length ≠ blockSize then throw (.error "invalid IV size")
  else if blockSize = 0 then throw (.panic "integer divide by zero")
  else
    let numBlocks := data.length / blockSize
    let previousPlaintext := zeros blockSize
    let previousCiphertext := copyAt (zeros blockSize) 0 cstc.iv
    CryptoSymmetricContext.decryptPCBC.loop cstc data numBlocks 0 (zeros data.length)
      previousPlaintext previousCiphertext

/-- The loop `for i := 0; i < numBlocks; i++` of `encryptCFB`. -/
def CryptoSymmetricContext.encryptCFB.loop {σ : Type} (cstc : CryptoSymmetricContext σ)
    (data : Bytes) : Nat → Nat → Bytes → Bytes → Result Bytes
  | 0, _, encrypted, _ => pure encrypted
  | fuel + 1, i, encrypted, feedback => do
    let blockSize := cstc.blockSize
    let bs := i * blockSize
    let plaintextBlock ← slice data bs (bs + blockSize)
    let outputBlock ← wrapf "encryption failed at block"
      (cstc.cipher.Encrypt cstc.obj feedback)
    let ob ← firstN outputBlock blockSize
    let encrypted := copyAt encrypted bs (xorBytes plaintextBlock ob)
    let written ← slice encrypted bs (bs + blockSize)
    CryptoSymmetricContext.encryptCFB.loop cstc data fuel (i + 1) encrypted
      (copyAt feedback 0 written)

def CryptoSymmetricContext.encryptCFB {σ : Type} (cstc : CryptoSymmetricContext σ)
    (data : Bytes) : Result Bytes :=
  let blockSize := cstc.blockSize
  if cstc.iv.length ≠ blockSize then throw (.error "invalid IV size")
  else if blockSize = 0 then throw (.panic "integer divide by zero")
  else
    let numBlocks := data.length / blockSize
    let feedback := copyAt (zeros blockSize) 0 cstc.iv
    CryptoSymmetricContext.encryptCFB.loop cstc data numBlocks 0 (zeros data.length) feedback

/-- The loop `for i := 0; i < numBlocks; i++` of `decryptCFB`. -/
def CryptoSymmetricContext.decryptCFB.loop {σ : Type} (cstc : CryptoSymmetricContext σ)
    (data : Bytes) : Nat → Nat → Bytes → Bytes → Result Bytes
  | 0, _, decrypted, _ => pure decrypted
  | fuel + 1, i, decrypted, feedback => do
    let blockSize := cstc.blockSize
    let bs := i * blockSize
    let ciphertextBlock ← slice data bs (bs + blockSize)
    let outputBlock ← wrapf "encryption failed at block"
      (cstc.cipher.Encrypt cstc.obj feedback)
    let ob ← firstN outputBlock blockSize
    let decrypted := copyAt decrypted bs (xorBytes ciphertextBlock ob)
    CryptoSymmetricContext.decryptCFB.loop cstc data fuel (i + 1) decrypted
      (copyAt feedback 0 ciphertextBlock)

def CryptoSymmetricContext.decryptCFB {σ : Type} (cstc : CryptoSymmetricContext σ)
    (data : Bytes) : Result Bytes :=
  let blockSize := cstc.blockSize
  if cstc.iv.length ≠ blockSize then throw (.error "invalid IV size")
  else if blockSize = 0 then throw (.panic "integer divide by zero")
  else
    let numBlocks := data.length / blockSize
    let feedback := copyAt (zeros blockSize) 0 cstc.iv
    CryptoSymmetricContext.decryptCFB.loop cstc data numBlocks 0 (zeros data.length) feedback

/-- Writes `out[i+j] = data[i+j] ^ keystream[j]` for the bytes `i ≤ i+j < e` of
one block. -/
def xorChunk (out data : Bytes) (i e : Nat) (keystream : Bytes) : Result Bytes := do
  let ks ← firstN keystream (e - i)
  pure (copyAt out i (xorBytes ((data.drop i).take (e - i)) ks))

/-- The loop `for i := 0; i < len(data); i += blockSize` of `encryptOFB` over
its `⌈len(data) / blockSize⌉` iterations; `k` is `i / blockSize`. -/
def CryptoSymmetricContext.encryptOFB.loop {σ : Type} (cstc : CryptoSymmetricContext σ)
    (data : Bytes) : Nat → Nat → Bytes → Bytes → Result Bytes
  | 0, _, encrypted, _ => pure encrypted
  | fuel + 1, k, encrypted, feedback => do
    let blockSize := cstc.blockSize
    let i := k * blockSize
    let outputBlock ← wrapf "encryption failed at block"
      (cstc.cipher.Encrypt cstc.obj feedback)
    let encrypted ← xorChunk encrypted data i (min (i + blockSize) data.length) outputBlock
    CryptoSymmetricContext.encryptOFB.loop cstc data fuel (k + 1) encrypted
      (copyAt feedback 0 outputBlock)

/-- With `blockSize = 0` and a non-empty `data` the Go loop makes no progress
(or divides by zero while it formats the error of the cipher); the embedding
reports that case as a panic. With `blockSize = 0` and empty `data` the loop
does not run and the empty buffer is returned. -/
def CryptoSymmetricContext.encryptOFB {σ : Type} (cstc : CryptoSymmetricContext σ)
    (data : Bytes) : Result Bytes :=
  let blockSize := cstc.blockSize
  if cstc.iv.length ≠ blockSize then throw (.error "invalid IV size")
  else if blockSize = 0 ∧ data.length ≠ 0 then throw (.panic "loop without progress")
  else
    let feedback := copyAt (zeros blockSize) 0 cstc.iv
    CryptoSymmetricContext.encryptOFB.loop cstc data
      ((data.length + blockSize - 1) / blockSize) 0 (zeros data.length) feedback

def CryptoSymmetricContext.decryptOFB {σ : Type} (cstc : CryptoSymmetricContext σ)
    (data : Bytes) : Result Bytes :=
  cstc.encryptOFB data

/-- The loop of `incrementCounter` on the counter read from its last byte to
its first one. -/
def incrementCounter.loop : Bytes → Nat → Bytes
  | [], _ => []
  | c :: rest, carry =>
    if carry > 0 then
      let sum := c.val + (carry &&& 0xFF)
      toByte (sum &&& 0xFF) :: incrementCounter.loop rest ((carry >>> 8) + (sum >>> 8))
    else c :: rest

/-- The counter after `incrementCounter(counter, blockIndex)`. -/
def incrementCounter (counter : Bytes) (blockIndex : Nat) : Bytes :=
  (incrementCounter.loop counter.reverse blockIndex).reverse

/-- The block workers of `encryptCTR`, run in the order of the block index. -/
def CryptoSymmetricContext.encryptCTR.loop {σ : Type} (cstc : CryptoSymmetricContext σ)
    (data counter : Bytes) : Nat → Nat → Bytes → Result Bytes
  | 0, _, encrypted => pure encrypted
  | fuel + 1, blockIndex, encrypted => do
    let blockSize := cstc.blockSize
    let currentCounter := copyAt (zeros blockSize) 0 counter
    let currentCounter := incrementCounter currentCounter blockIndex
    let keystreamBlock ← wrapf "encryption failed at block"
      (cstc.cipher.Encrypt cstc.obj currentCounter)
    let bs := blockIndex * blockSize
    let be := bs + blockSize
    let be := if be > data.length then data.length else be
    let encrypted ← xorChunk encrypted data bs be keystreamBlock
    CryptoSymmetricContext.encryptCTR.loop cstc data counter fuel (blockIndex + 1) encrypted

def CryptoSymmetricContext.encryptCTR {σ : Type} (cstc : CryptoSymmetricContext σ)
    (data : Bytes) : Result Bytes :=
  let blockSize := cstc.blockSize
  if cstc.iv.length ≠ blockSize then throw (.error "invalid IV size")
  else if blockSize = 0 then throw (.panic "integer divide by zero")
  else
    let numBlocks := (data.length + blockSize - 1) / blockSize
    let counter := copyAt (zeros blockSize) 0 cstc.iv
    CryptoSymmetricContext.encryptCTR.loop cstc data counter numBlocks 0 (zeros data.length)

def CryptoSymmetricContext.decryptCTR {σ : Type} (cstc : CryptoSymmetricContext σ)
    (data : Bytes) : Result Bytes :=
  cstc.encryptCTR data

/-- Bytewise `block[j] + delta[j % blockSize]` for a block of at most
`blockSize = len(delta)` bytes. -/
def addBytes (block delta : Bytes) : Bytes := List.zipWith (fun x d => x + d) block delta

/-- Bytewise `block[j] - delta[j % blockSize]`. -/
def subBytes (block delta : Bytes) : Bytes := List.zipWith (fun x d => x - d) block delta

/-- The loop `for i := 0; i < len(data); i += blockSize` of `encryptRandomDelta`
(`op` is `addBytes`) and of `decryptRandomDelta` (`op` is `subBytes`) over its
`⌈len(data) / blockSize⌉` iterations; `k` is `i / blockSize`. -/
def deltaLoop (op : Bytes → Bytes → Bytes) (data delta : Bytes) (blockSize : Nat) :
    Nat → Nat → Bytes → Bytes
  | 0, _, out => out
  | fuel + 1, k, out =>
    let i := k * blockSize
    let blockEnd := i + blockSize
    let blockEnd := if blockEnd > data.length then data.length else blockEnd
    let block := (data.drop i).take (blockEnd - i)
    deltaLoop op data delta blockSize fuel (k + 1) (copyAt out i (op block delta))

/-- With `blockSize = 0` and a non-empty `data` the Go loop makes no progress;
the embedding reports that case as a panic. -/
def CryptoSymmetricContext.encryptRandomDelta {σ : Type} (cstc : CryptoSymmetricContext σ)
    (tape data : Bytes) : Result Bytes :=
  let blockSize := cstc.blockSize
  let encrypted := zeros data.length
  match randRead tape blockSize with
  | .error _ => throw (.error "failed to generate delta")
  | .ok (delta, _) =>
    if blockSize = 0 ∧ data.length ≠ 0 then throw (.panic "loop without progress")
    else
      let encrypted := deltaLoop addBytes data delta blockSize
        ((data.length + blockSize - 1) / blockSize) 0 encrypted
      pure (delta ++ encrypted)

def CryptoSymmetricContext.decryptRandomDelta {σ : Type} (cstc : CryptoSymmetricContext σ)
    (data : Bytes) : Result Bytes :=
  let blockSize := cstc.blockSize
  if data.length < blockSize then throw (.error "data too short to contain delta")
  else
    let delta := data.take blockSize
    let data := data.drop blockSize
    let decrypted := zeros data.length
    if blockSize = 0 ∧ data.length ≠ 0 then throw (.panic "loop without progress")
    else
      pure (deltaLoop subBytes data delta blockSize
        ((data.length + blockSize - 1) / blockSize) 0 decrypted)

/-- The method `Encrypt` of the context; `tape` holds the random bytes that
`crypto/rand` hands out during the call. -/
def CryptoSymmetricContext.Encrypt {σ : Type} (cstc : CryptoSymmetricContext σ)
    (tape data : Bytes) : Result Bytes :=
  if data.length = 0 then throw (.error "data cannot be nil or empty")
  else do
    let (dataPadded, tape) ← wrapf "failed to add padding" (cstc.AddPadding tape data)
    wrapf "encryption failed"
      (if cstc.mode = ECB then cstc.encryptECB dataPadded
       else if cstc.mode = CBC then cstc.encryptCBC dataPadded
       else if cstc.mode = PCBC then cstc.encryptPCBC dataPadded
       else if cstc.mode = CFB then cstc.encryptCFB dataPadded
       else if cstc.mode = OFB then cstc.encryptOFB dataPadded
       else if cstc.mode = CTR then cstc.encryptCTR dataPadded
       else if cstc.mode = RandomDelta then cstc.encryptRandomDelta tape dataPadded
       else throw (.error "unsupported cipher mode"))

def CryptoSymmetricContext.Decrypt {σ : Type} (cstc : CryptoSymmetricContext σ)
    (data : Bytes) : Result Bytes :=
  if data.length = 0 then throw (.error "data cannot be nil or empty")
  else do
    let decrypted ← wrapf "decryption failed"
      (if cstc.mode = ECB then cstc.decryptECB data
       else if cstc.mode = CBC then cstc.decryptCBC data
       else if cstc.mode = PCBC then cstc.decryptPCBC data
       else if cstc.mode = CFB then cstc.decryptCFB data
       else if cstc.mode = OFB then cstc.decryptOFB data
       else if cstc.mode = CTR then cstc.decryptCTR data
       else if cstc.mode = RandomDelta then cstc.decryptRandomDelta data
       else throw (.error "unsupported cipher mode"))
    wrapf "failed to remove padding" (cstc.RemovePadding decrypted)

/-! ## Notions used in the statements and in the proofs -/

/-- The last byte of `d` as a number (0 for the empty string). -/
def lastByte (d : Bytes) : Nat := (d.getLastD 0).val

/-- PKCS#7 padding is well formed: `d` is not empty, its last byte `n` is
between 1 and `len(d)`, and each of the last `n` bytes equals `n`. -/
def pkcs7WellFormed (d : Bytes) : Prop :=
  d ≠ [] ∧ 1 ≤ lastByte d ∧ lastByte d ≤ d.length ∧
    ∀ x ∈ d.drop (d.length - lastByte d), x.val = lastByte d

instance (d : Bytes) : Decidable (pkcs7WellFormed d) := by
  unfold pkcs7WellFormed
  infer_instance

/-- The value of a successful call (the empty string for a failed one). -/
def okOr (r : Result Bytes) : Bytes :=
  match r with
  | .ok c => c
  | .error _ => []

/-- The block function of the keyed cipher object of a context. -/
def CryptoSymmetricContext.encBlock {σ : Type} (cstc : CryptoSymmetricContext σ)
    (b : Bytes) : Bytes :=
  okOr (cstc.cipher.Encrypt cstc.obj b)

/-- ECB over `n` blocks of `bs` bytes with the block function `E`. -/
def ecbSpec (E : Bytes → Bytes) (bs : Nat) : Nat → Bytes → Bytes
  | 0, _ => []
  | n + 1, rest => E (rest.take bs) ++ ecbSpec E bs n (rest.drop bs)

/-- CBC over `n` blocks: each block is XORed with the previous ciphertext
block before it is encrypted. -/
def cbcSpec (E : Bytes → Bytes) (bs : Nat) : Nat → Bytes → Bytes → Bytes
  | 0, _, _ => []
  | n + 1, previous, rest =>
    let c := E (xorBytes (rest.take bs) previous)
    c ++ cbcSpec E bs n c (rest.drop bs)

/-- PCBC over `n` blocks: each block is XORed with the previous plaintext and
the previous ciphertext block before it is encrypted. -/
def pcbcSpec (E : Bytes → Bytes) (bs : Nat) : Nat → Bytes → Bytes → Bytes → Bytes
  | 0, _, _, _ => []
  | n + 1, pp, pc, rest =>
    let c := E (xorBytes (xorBytes (rest.take bs) pp) pc)
    c ++ pcbcSpec E bs n (rest.take bs) c (rest.drop bs)

/-- CFB over `n` blocks: the keystream block is the encrypted feedback, the
feedback is the ciphertext block. -/
def cfbSpec (E : Bytes → Bytes) (bs : Nat) : Nat → Bytes → Bytes → Bytes
  | 0, _, _ => []
  | n + 1, feedback, rest =>
    let c := xorBytes (rest.take bs) (E feedback)
    c ++ cfbSpec E bs n c (rest.drop bs)

/-- OFB over `n` blocks: the keystream block is the encrypted feedback, the
feedback is the keystream block. -/
def ofbSpec (E : Bytes → Bytes) (bs : Nat) : Nat → Bytes → Bytes → Bytes
  | 0, _, _ => []
  | n + 1, feedback, rest =>
    xorBytes (rest.take bs) (E feedback) ++ ofbSpec E bs n (E feedback) (rest.drop bs)

/-- CTR over `n` blocks from block index `k`: the keystream block is the
encrypted counter. -/
def ctrSpec (E : Bytes → Bytes) (bs : Nat) (counter : Bytes) : Nat → Nat → Bytes → Bytes
  | 0, _, _ => []
  | n + 1, k, rest =>
    xorBytes (rest.take bs) (E (incrementCounter counter k))
      ++ ctrSpec E bs counter n (k + 1) (rest.drop bs)

/-- What the round trips of the modes need of the cipher: on blocks of `bs`
bytes `Encrypt` returns the `bs` bytes `E b` and `Decrypt` undoes it. -/
structure BlockCipher {σ : Type} (cstc : CryptoSymmetricContext σ) (E : Bytes → Bytes)
    (bs : Nat) : Prop where
  enc : ∀ b, b.length = bs → cstc.cipher.Encrypt cstc.obj b = Except.ok (E b)
  len : ∀ b, b.length = bs → (E b).length = bs
  dec : ∀ b, b.length = bs → cstc.cipher.Decrypt cstc.obj (E b) = Except.ok b

/-- The value of a byte string read as a big-endian unsigned integer. -/
def beVal (c : Bytes) : Nat := c.foldl (fun acc b => acc * 256 + b.val) 0

/-! ## Streaming file encryption (`encryptFile` of `symmetric.go`)

The input file is the list `reads` of the byte strings that the successive
calls of `inputFile.Read` deliver before the call that returns `io.EOF`; the
result is the content of the output file when `encryptFile` returns `nil`.
Opening, reading and writing the files is assumed to succeed. -/

/-- The loop `for len(pendingData) >= blockSize` of `encryptFile`: it encrypts
the leading block, writes the result and drops the block. It returns what is
left of the pending data and the bytes written so far. -/
def encryptFile.blocks (encrypt : Bytes → Result Bytes) (blockSize : Nat) :
    Nat → Bytes → Bytes → Result (Bytes × Bytes)
  | 0, pending, out => pure (pending, out)
  | fuel + 1, pending, out =>
    if pending.length ≥ blockSize then do
      let block ← slice pending 0 blockSize
      let encryptedBlock ← wrapf "encryption failed" (encrypt block)
      encryptFile.blocks encrypt blockSize fuel (pending.drop blockSize)
        (out ++ encryptedBlock)
    else pure (pending, out)

/-- The loop `for { n, err := inputFile.Read(buffer) ... }` of `encryptFile`;
the iteration of the call that returns `io.EOF` appends nothing. -/
def encryptFile.read (encrypt : Bytes → Result Bytes) (blockSize : Nat) :
    List Bytes → Bytes → Bytes → Result (Bytes × Bytes)
  | [], pending, out =>
    encryptFile.blocks encrypt blockSize (pending.length / blockSize) pending out
  | chunk :: rest, pending, out => do
    let pending := pending ++ chunk
    let (pending, out) ←
      encryptFile.blocks encrypt blockSize (pending.length / blockSize) pending out
    encryptFile.read encrypt blockSize rest pending out

/-- With `blockSize = 0` the loop over the pending data never ends unless the
cipher rejects the empty block; the embedding reports the endless loop as a
panic. -/
def CryptoSymmetricContext.encryptFile {σ : Type} (cstc : CryptoSymmetricContext σ)
    (tape : Bytes) (reads : List Bytes) : Result Bytes :=
  let blockSize := cstc.blockSize
  let encrypt := cstc.cipher.Encrypt cstc.obj
  if blockSize = 0 then do
    let _ ← wrapf "encryption failed" (encrypt [])
    throw (.panic "loop without progress")
  else do
    let (pendingData, out) ← encryptFile.read encrypt blockSize reads [] []
    if pendingData.length > 0 then do
      let (paddedData, _) ← wrapf "failed to add padding" (cstc.AddPadding tape pendingData)
      let (_, out) ←
        encryptFile.blocks encrypt blockSize (paddedData.length / blockSize) paddedData out
      pure out
    else do
      let (paddedData, _) ← wrapf "failed to add padding" (cstc.AddPadding tape [])
      if paddedData.length > 0 then do
        let encryptedBlock ← wrapf "encryption failed" (encrypt paddedData)
        pure (out ++ encryptedBlock)
      else pure out

/-! ## The session cipher (`InitCipher` of `web/handlers/shipper.go`,
`initCipher` of `client/client.go`)

`sha256` stands for `sha256.Sum256`, a function to 32 bytes. `log.Fatalf` ends
the process; the embedding reports it as an error whose message starts with
`fatal`. -/

/-- The call of `log.Fatalf` on a returned error; a panic is not caught. -/
def fatal {α : Type} (msg : String) : Result α → Result α
  | .ok a => .ok a
  | .error (.error _) => .error (.error ("fatal: " ++ msg))
  | .error (.panic p) => .error (.panic p)

/-- The context returned over one of the two ciphers that can be selected. -/
inductive SessionContext where
  | rc5Context (ctx : CryptoSymmetricContext RC5)
  | magentaContext (ctx : CryptoSymmetricContext Magenta)

def SessionContext.key : SessionContext → Bytes
  | .rc5Context ctx => ctx.key
  | .magentaContext ctx => ctx.key

def SessionContext.iv : SessionContext → Bytes
  | .rc5Context ctx => ctx.iv
  | .magentaContext ctx => ctx.iv

/-- The `switch mode` of `InitCipher` and `initCipher`. -/
def sessionMode (mode : String) : Result Nat :=
  if mode = "ECB" then pure ECB
  else if mode = "CBC" then pure CBC
  else if mode = "CFB" then pure CFB
  else if mode = "OFB" then pure OFB
  else if mode = "CTR" then pure CTR
  else if mode = "RandomDelta" then pure RandomDelta
  else throw (.error "fatal: unknown cipher mode")

/-- The `switch padding` of `InitCipher` and `initCipher`. -/
def sessionPadding (padding : String) : Result Nat :=
  if padding = "Zeros" then pure Zeros
  else if padding = "ANSIX923" then pure ANSIX923
  else if padding = "PKCS7" then pure PKCS7
  else if padding = "ISO10126" then pure ISO10126
  else throw (.error "fatal: unknown padding mode")

/-- The part of `InitCipher` and of `initCipher` after the cipher object has
been created: `SetKey(finalKey)`, the two switches, the derivation of the IV
and the call of `NewCryptoSymmetricContext` with block size 16. -/
def sessionContext {σ : Type} (cipher : SymmetricAlgorithm σ) (obj : σ)
    (sha256 : Bytes → Bytes) (hashedSharedKey finalKey : Bytes) (mode padding : String) :
    Result (CryptoSymmetricContext σ) := do
  let obj ← fatal "SetKey" (cipher.SetKey obj finalKey)
  let cipherMode ← sessionMode mode
  let paddingMode ← sessionPadding padding
  let ivHash := sha256 hashedSharedKey
  let iv := ivHash.take 16
  fatal "NewCryptoSymmetricContext"
    (NewCryptoSymmetricContext finalKey cipher obj cipherMode paddingMode iv 16)

/-- The function `InitCipher` of the web handler. -/
def InitCipher (sha256 : Bytes → Bytes) (hashedSharedKey : Bytes)
    (algorithmName mode padding : String) : Result SessionContext :=
  let hashedKey := sha256 hashedSharedKey
  let finalKey := hashedKey.take 16
  if algorithmName = "magenta" then do
    let ctx ← sessionContext magentaAlgorithm NewMagenta sha256 hashedSharedKey finalKey
      mode padding
    pure (.magentaContext ctx)
  else if algorithmName = "rc5" then do
    let ctx ← sessionContext rc5Algorithm NewRC5 sha256 hashedSharedKey finalKey mode padding
    pure (.rc5Context ctx)
  else throw (.error "fatal: unknown algorithm")

/-- The function `initCipher` of the client; the result is the context it
stores through its pointer argument. -/
def initCipher (sha256 : Bytes → Bytes) (hashedSharedKey : Bytes)
    (algorithmName mode padding : String) : Result SessionContext :=
  let hashedKey := sha256 hashedSharedKey
  let finalKey := hashedKey.take 16
  if algorithmName = "rc5" then do
    let ctx ← sessionContext rc5Algorithm NewRC5 sha256 hashedSharedKey finalKey mode padding
    pure (.rc5Context ctx)
  else if algorithmName = "magenta" then do
    let ctx ← sessionContext magentaAlgorithm NewMagenta sha256 hashedSharedKey finalKey
      mode padding
    pure (.magentaContext ctx)
  else throw (.error "fatal: unknown algorithm")

/-! ## The worker goroutines of ECB and CTR under a schedule

`encryptECB` and `encryptCTR` start one goroutine per block and wait for all of
them. A goroutine reads `data`, the context and its own block index, and it
writes the shared buffer `encrypted` and the channel `errChan`; it reads
neither of the two. A schedule is therefore given by the order in which the
goroutines take effect, a list `order` of block indices. -/

/-- The body of the goroutine that `encryptECB` (`op` is the cipher's `Encrypt`)
and `decryptECB` (`op` is its `Decrypt`) start for the block `blockIndex`, as a
step on the shared buffer `out`. -/
def ecbWorker (op : Bytes → Result Bytes) (data : Bytes) (blockSize blockIndex : Nat)
    (out : Bytes) : Result Bytes := do
  let bs := blockIndex * blockSize
  let block ← slice data bs (bs + blockSize)
  let outBlock ← wrapf "failed at block" (op block)
  pure (copyAt out bs outBlock)

/-- The body of the goroutine that `encryptCTR` starts for the block
`blockIndex`, as a step on the shared buffer `encrypted`; `counter` is the copy
of the IV made before the goroutines start. -/
def CryptoSymmetricContext.ctrWorker {σ : Type} (cstc : CryptoSymmetricContext σ)
    (data counter : Bytes) (blockIndex : Nat) (encrypted : Bytes) : Result Bytes := do
  let blockSize := cstc.blockSize
  let currentCounter := copyAt (zeros blockSize) 0 counter
  let currentCounter := incrementCounter currentCounter blockIndex
  let keystreamBlock ← wrapf "encryption failed at block"
    (cstc.cipher.Encrypt cstc.obj currentCounter)
  let bs := blockIndex * blockSize
  let be := bs + blockSize
  let be := if be > data.length then data.length else be
  xorChunk encrypted data bs be keystreamBlock

/-- The goroutines `worker i` take effect in the order `order`. A goroutine
that fails with an error sends it to `errChan` and leaves the buffer as it is,
and the other goroutines still run; `err` is the first error sent so far. A
panic in a goroutine ends the program. After `wg.Wait()` the first error of
the channel is returned if there is one, else the buffer. -/
def runWorkers (worker : Nat → Bytes → Result Bytes) :
    List Nat → Bytes → Option String → Result Bytes
  | [], out, none => pure out
  | [], _, some msg => throw (.error msg)
  | i :: rest, out, err =>
    match worker i out with
    | .ok out1 => runWorkers worker rest out1 err
    | .error (.panic msg) => throw (.panic msg)
    | .error (.error msg) => runWorkers worker rest out (some (err.getD msg))

/-- The function `encryptECB` when its goroutines take effect in the order
`order`. -/
def CryptoSymmetricContext.encryptECBScheduled {σ : Type} (cstc : CryptoSymmetricContext σ)
    (order : List Nat) (data : Bytes) : Result Bytes :=
  let blockSize := cstc.blockSize
  if blockSize = 0 then throw (.panic "integer divide by zero")
  else if data.length % blockSize ≠ 0 then
    throw (.error "data length is not a multiple of block size")
  else
    runWorkers (ecbWorker (cstc.cipher.Encrypt cstc.obj) data blockSize) order
      (zeros data.length) none

/-- The function `encryptCTR` when its goroutines take effect in the order
`order`. -/
def CryptoSymmetricContext.encryptCTRScheduled {σ : Type} (cstc : CryptoSymmetricContext σ)
    (order : List Nat) (data : Bytes) : Result Bytes :=
  let blockSize := cstc.blockSize
  if cstc.iv.length ≠ blockSize then throw (.error "invalid IV size")
  else if blockSize = 0 then throw (.panic "integer divide by zero")
  else
    let counter := copyAt (zeros blockSize) 0 cstc.iv
    runWorkers (cstc.ctrWorker data counter) order (zeros data.length) none

/-! ## Methods of the context with the receiver as explicit state

The methods of `symmetric.go` have the receiver `cstc *CryptoSymmetricContext`.
Here a method maps the state before the call, the fields of the receiver and
the random bytes that `crypto/rand` has not handed out yet, to what the call
returns and the state after the call. Functions without a receiver (the
padding functions, the methods of the cipher object) cannot reach the fields
of the context; they enter as calls of their value-level definitions. -/

/-- The state a method of the context runs on. -/
structure CallState (σ : Type) where
  cstc : CryptoSymmetricContext σ
  tape : Bytes

/-- A method with receiver `cstc *CryptoSymmetricContext`. -/
structure Method (σ : Type) (α : Type) where
  run : CallState σ → Result α × CallState σ

/-- Sequencing of statements; a statement that fails ends the method with the
state reached so far. -/
instance {σ : Type} : Monad (Method σ) where
  pure a := ⟨fun s => (Except.ok a, s)⟩
  bind m f := ⟨fun s =>
    match m.run s with
    | (Except.ok a, s1) => (f a).run s1
    | (Except.error e, s1) => (Except.error e, s1)⟩

/-- A read of the fields of the receiver. -/
def Method.receiver {σ : Type} : Method σ (CryptoSymmetricContext σ) :=
  ⟨fun s => (Except.ok s.cstc, s)⟩

/-- An assignment through the receiver to the fields of the cipher object. -/
def Method.assignObj {σ : Type} (obj : σ) : Method σ Unit :=
  ⟨fun s => (Except.ok (), { s with cstc := { s.cstc with obj := obj } })⟩

/-- A call of a function that reaches neither the receiver nor the random
source. -/
def Method.call {σ α : Type} (r : Result α) : Method σ α :=
  ⟨fun s => (r, s)⟩

/-- A call of a function that reads the random source; a failed call leaves
the source as it is. -/
def Method.random {σ α : Type} (f : Bytes → Result (α × Bytes)) : Method σ α :=
  ⟨fun s =>
    match f s.tape with
    | Except.ok (a, tape1) => (Except.ok a, { s with tape := tape1 })
    | Except.error e => (Except.error e, s)⟩

/-- The wrapping `fmt.Errorf(pre + ": %v", err)` of the error of a call. -/
def Method.wrapf {σ α : Type} (pre : String) (m : Method σ α) : Method σ α :=
  ⟨fun s => (ChatYouCry.wrapf pre (m.run s).1, (m.run s).2)⟩

/-- The method `SetKey` of the context: it rekeys the cipher object. -/
def Method.SetKey {σ : Type} (key : Bytes) : Method σ Unit := do
  let cstc ← Method.receiver
  let obj ← Method.call (cstc.cipher.SetKey cstc.obj key)
  Method.assignObj obj

/-- The method `AddPadding`. -/
def Method.AddPadding {σ : Type} (data : Bytes) : Method σ Bytes := do
  let cstc ← Method.receiver
  let blockSize := cstc.blockSize
  if blockSize = 0 then Method.call (throw (.panic "integer divide by zero"))
  else
    let paddingLen := blockSize - data.length % blockSize
    let paddingLen := if paddingLen = 0 then blockSize else paddingLen
    if cstc.padding = Zeros then pure (ZerosPadding data paddingLen)
    else if cstc.padding = ANSIX923 then Method.call (ANSIX923Padding data paddingLen)
    else if cstc.padding = PKCS7 then Method.call (PKCS7Padding data paddingLen)
    else if cstc.padding = ISO10126 then
      Method.random (fun tape => ISO10126Padding tape data paddingLen)
    else Method.call (throw (.error "unsupported padding mode"))

/-- The loop `for i := 0; i < numBlocks; i++` of the method `encryptCFB`. -/
def Method.encryptCFB.loop {σ : Type} (data : Bytes) (blockSize : Nat) :
    Nat → Nat → Bytes → Bytes → Method σ Bytes
  | 0, _, encrypted, _ => pure encrypted
  | fuel + 1, i, encrypted, feedback => do
    let bs := i * blockSize
    let plaintextBlock ← Method.call (slice data bs (bs + blockSize))
    let cstc ← Method.receiver
    let outputBlock ← Method.call (ChatYouCry.wrapf "encryption failed at block"
      (cstc.cipher.Encrypt cstc.obj feedback))
    let ob ← Method.call (firstN outputBlock blockSize)
    let encrypted := copyAt encrypted bs (xorBytes plaintextBlock ob)
    let written ← Method.call (slice encrypted bs (bs + blockSize))
    Method.encryptCFB.loop data blockSize fuel (i + 1) encrypted (copyAt feedback 0 written)

/-- The method `encryptCFB`. -/
def Method.encryptCFB {σ : Type} (data : Bytes) : Method σ Bytes := do
  let cstc ← Method.receiver
  let blockSize := cstc.blockSize
  if cstc.iv.length ≠ blockSize then Method.call (throw (.error "invalid IV size"))
  else if blockSize = 0 then Method.call (throw (.panic "integer divide by zero"))
  else
    let numBlocks := data.length / blockSize
    let feedback := copyAt (zeros blockSize) 0 cstc.iv
    Method.encryptCFB.loop data blockSize numBlocks 0 (zeros data.length) feedback

/-- The loop `for i := 0; i < len(data); i += blockSize` of the method
`encryptOFB`; `k` is `i / blockSize`. -/
def Method.encryptOFB.loop {σ : Type} (data : Bytes) (blockSize : Nat) :
    Nat → Nat → Bytes → Bytes → Method σ Bytes
  | 0, _, encrypted, _ => pure encrypted
  | fuel + 1, k, encrypted, feedback => do
    let i := k * blockSize
    let cstc ← Method.receiver
    let outputBlock ← Method.call (ChatYouCry.wrapf "encryption failed at block"
      (cstc.cipher.Encrypt cstc.obj feedback))
    let encrypted ← Method.call
      (xorChunk encrypted data i (min (i + blockSize) data.length) outputBlock)
    Method.encryptOFB.loop data blockSize fuel (k + 1) encrypted (copyAt feedback 0 outputBlock)

/-- The method `encryptOFB`; the case of a loop without progress is reported as
in `CryptoSymmetricContext.encryptOFB`. -/
def Method.encryptOFB {σ : Type} (data : Bytes) : Method σ Bytes := do
  let cstc ← Method.receiver
  let blockSize := cstc.blockSize
  if cstc.iv.length ≠ blockSize then Method.call (throw (.error "invalid IV size"))
  else if blockSize = 0 ∧ data.length ≠ 0 then
    Method.call (throw (.panic "loop without progress"))
  else
    let feedback := copyAt (zeros blockSize) 0 cstc.iv
    Method.encryptOFB.loop data blockSize
      ((data.length + blockSize - 1) / blockSize) 0 (zeros data.length) feedback

/-- The method `encryptRandomDelta`, called on the receiver: it reads the fields
and `blockSize` bytes of the random source. -/
def Method.encryptRandomDelta {σ : Type} (data : Bytes) : Method σ Bytes := do
  let cstc ← Method.receiver
  Method.random (fun tape => do
    let r ← cstc.encryptRandomDelta tape data
    pure (r, tape.drop cstc.blockSize))

/-- The method `Encrypt`. -/
def Method.Encrypt {σ : Type} (data : Bytes) : Method σ Bytes :=
  if data.length = 0 then Method.call (throw (.error "data cannot be nil or empty"))
  else do
    let dataPadded ← Method.wrapf "failed to add padding" (Method.AddPadding data)
    let cstc ← Method.receiver
    Method.wrapf "encryption failed"
      (if cstc.mode = ECB then Method.call (cstc.encryptECB dataPadded)
       else if cstc.mode = CBC then Method.call (cstc.encryptCBC dataPadded)
       else if cstc.mode = PCBC then Method.call (cstc.encryptPCBC dataPadded)
       else if cstc.mode = CFB then Method.encryptCFB dataPadded
       else if cstc.mode = OFB then Method.encryptOFB dataPadded
       else if cstc.mode = CTR then Method.call (cstc.encryptCTR dataPadded)
       else if cstc.mode = RandomDelta then Method.encryptRandomDelta dataPadded
       else Method.call (throw (.error "unsupported cipher mode")))

/-! ## General lemmas -/

@[simp] theorem ok_bind {α β : Type} (a : α) (k : α → Result β) :
    ((Except.ok a : Result α) >>= k) = k a := rfl

@[simp] theorem error_bind {α β : Type} (e : Fault) (k : α → Result β) :
    ((Except.error e : Result α) >>= k) = Except.error e := rfl

@[simp] theorem pure_eq_ok {α : Type} (a : α) : (pure a : Result α) = Except.ok a := rfl

@[simp] theorem throw_eq_error {α : Type} (e : Fault) :
    (throw e : Result α) = Except.error e := rfl

theorem idx_of_lt {α : Type} (l : List α) (i : Nat) (h : i < l.length) :
    idx l i = Except.ok (l.get ⟨i, h⟩) := by
  simp only [idx, List.get?_eq_get h]
  rfl

theorem idx_of_le {α : Type} (l : List α) (i : Nat) (h : l.length ≤ i) :
    idx l i = Except.error (.panic "index out of range") := by
  simp only [idx, List.get?_eq_none.mpr h]
  rfl

/-! ## Key agreement -/

theorem bigExp_pos (x : Int) (y : Nat) (m : Int) (hm : 0 < m) : bigExp x y m = x ^ y % m := by
  unfold bigExp
  rw [if_neg (ne_of_gt hm), abs_of_pos hm]

/-- C7. Diffie-Hellman agreement: for every generator, positive modulus and
private keys `a`, `b`, both sides compute the same shared key, which is
`(g^b mod p)^a mod p = (g^a mod p)^b mod p`. -/
theorem diffie_hellman_agreement (g p : Int) (a b : Nat) (hp : 0 < p) :
    GenerateSharedKey a (GeneratePublicKey g b p) p
        = GenerateSharedKey b (GeneratePublicKey g a p) p ∧
      GenerateSharedKey a (GeneratePublicKey g b p) p = (g ^ b % p) ^ a % p ∧
      GenerateSharedKey b (GeneratePublicKey g a p) p = (g ^ a % p) ^ b % p := by
  have h1 : (g ^ b % p) ^ a % p = (g ^ a % p) ^ b % p := by
    have e1 : (g ^ b % p) ^ a ≡ (g ^ b) ^ a [ZMOD p] := (Int.mod_modEq _ _).pow a
    have e2 : (g ^ a % p) ^ b ≡ (g ^ a) ^ b [ZMOD p] := (Int.mod_modEq _ _).pow b
    have e3 : (g ^ b) ^ a = (g ^ a) ^ b := by rw [← pow_mul, ← pow_mul, Nat.mul_comm]
    exact (e1.trans (e3 ▸ e2.symm))
  rw [GenerateSharedKey, GeneratePublicKey, GenerateSharedKey, GeneratePublicKey,
    bigExp_pos _ _ _ hp, bigExp_pos _ _ _ hp, bigExp_pos _ _ _ hp, bigExp_pos _ _ _ hp]
  exact ⟨h1, rfl, rfl⟩

theorem diffie_hellman_agreement_witness :
    (0 : Int) < 23 ∧
      (GenerateSharedKey 6 (GeneratePublicKey 5 15 23) 23
          = GenerateSharedKey 15 (GeneratePublicKey 5 6 23) 23 ∧
        GenerateSharedKey 6 (GeneratePublicKey 5 15 23) 23 = ((5 : Int) ^ 15 % 23) ^ 6 % 23 ∧
        GenerateSharedKey 15 (GeneratePublicKey 5 6 23) 23 = ((5 : Int) ^ 6 % 23) ^ 15 % 23) :=
  ⟨by decide, diffie_hellman_agreement 5 23 6 15 (by decide)⟩

/-! ## PKCS#7 removal -/

theorem toByte_val (b : Byte) : toByte b.val = b := by
  apply Fin.ext
  simp [toByte, Nat.mod_eq_of_lt b.isLt]

/-- The verification loop succeeds when every inspected byte is the padding
byte and returns the PKCS#7 error otherwise. -/
theorem removePKCS7Padding_loop_spec (data : Bytes) (n : Nat) :
    ∀ (fuel i : Nat), 1 ≤ i → i + fuel ≤ data.length + 1 →
      (removePKCS7Padding.loop data n fuel i = Except.ok () ∧
          ∀ k, i ≤ k → k < i + fuel → data.get? (data.length - k) = some (toByte n)) ∨
        (removePKCS7Padding.loop data n fuel i
            = Except.error (.error "invalid PKCS7 padding") ∧
          ∃ k, i ≤ k ∧ k < i + fuel ∧ data.get? (data.length - k) ≠ some (toByte n)) := by
  intro fuel
  induction fuel with
  | zero =>
    intro i _ _
    left
    refine ⟨rfl, ?_⟩
    intro k h1 h2
    omega
  | succ fuel ih =>
    intro i hi hle
    have hlt : data.length - i < data.length := by omega
    rw [removePKCS7Padding.loop, idx_of_lt _ _ hlt, ok_bind]
    by_cases hb : data.get ⟨data.length - i, hlt⟩ = toByte n
    · rw [if_neg (by simpa using hb)]
      rcases ih (i + 1) (by omega) (by omega) with ⟨h1, h2⟩ | ⟨h1, k, hk1, hk2, hk3⟩
      · left
        refine ⟨h1, ?_⟩
        intro k hk1 hk2
        by_cases hki : k = i
        · subst hki
          rw [List.get?_eq_get hlt, hb]
        · exact h2 k (by omega) (by omega)
      · right
        exact ⟨h1, k, by omega, by omega, hk3⟩
    · rw [if_pos (by simpa using hb)]
      right
      refine ⟨rfl, i, le_refl _, by omega, ?_⟩
      rw [List.get?_eq_get hlt]
      simpa using hb

theorem idx_last (d : Bytes) (h : d ≠ []) :
    idx d (d.length - 1) = Except.ok (d.getLastD 0) := by
  have hl : 0 < d.length := List.length_pos.mpr h
  rw [idx_of_lt _ _ (by omega)]
  congr 1
  rw [List.getLastD_eq_getLast?, List.getLast?_eq_getLast _ h, List.getLast_eq_getElem]
  simp

theorem mem_drop_iff_get? {α : Type} (l : List α) (m : Nat) (x : α) :
    x ∈ l.drop m ↔ ∃ j, m ≤ j ∧ l.get? j = some x := by
  constructor
  · intro h
    obtain ⟨j, hj⟩ := List.mem_iff_get?.mp h
    refine ⟨m + j, by omega, ?_⟩
    rw [← hj]
    simp [List.getElem?_drop]
  · rintro ⟨j, hj1, hj2⟩
    apply List.mem_iff_get?.mpr
    refine ⟨j - m, ?_⟩
    rw [← hj2]
    simp only [List.get?_eq_getElem?, List.getElem?_drop]
    congr 1
    omega

theorem removePKCS7Padding_spec (d : Bytes) :
    (pkcs7WellFormed d →
        removePKCS7Padding d = Except.ok (d.take (d.length - lastByte d))) ∧
      (¬ pkcs7WellFormed d → (removePKCS7Padding d).isError = true) := by
  unfold removePKCS7Padding
  by_cases he : d = []
  · subst he
    refine ⟨fun h => absurd rfl h.1, fun _ => rfl⟩
  have hl : d.length ≠ 0 := fun h => he (List.length_eq_zero.mp h)
  rw [if_neg hl, idx_last d he, ok_bind]
  show (pkcs7WellFormed d → (if lastByte d = 0 ∨ lastByte d > d.length then _ else _) = _) ∧
    (¬ pkcs7WellFormed d →
      Result.isError (if lastByte d = 0 ∨ lastByte d > d.length then _ else _) = true)
  by_cases hn : lastByte d = 0 ∨ lastByte d > d.length
  · rw [if_pos hn]
    refine ⟨fun h => ?_, fun _ => rfl⟩
    obtain ⟨_, h1, h2, _⟩ := h
    omega
  rw [if_neg hn]
  have hn1 : 1 ≤ lastByte d := by omega
  have hn2 : lastByte d ≤ d.length := by omega
  have hb : toByte (lastByte d) = d.getLastD 0 := toByte_val _
  rcases removePKCS7Padding_loop_spec d (lastByte d) (lastByte d) 1 (le_refl _) (by omega)
    with ⟨h1, h2⟩ | ⟨h1, k, hk1, hk2, hk3⟩
  · have h1c := h1
    unfold lastByte at h1c
    rw [h1c]
    refine ⟨fun _ => rfl, fun h => absurd ?_ h⟩
    refine ⟨he, hn1, hn2, ?_⟩
    intro x hx
    obtain ⟨j, hj1, hj2⟩ := (mem_drop_iff_get? _ _ _).mp hx
    have hjl : j < d.length := by
      by_contra hc
      rw [List.get?_eq_none.mpr (by omega)] at hj2
      exact absurd hj2 (by simp)
    have := h2 (d.length - j) (by omega) (by omega)
    rw [show d.length - (d.length - j) = j by omega, hj2] at this
    rw [Option.some.inj this]
    simp [toByte, lastByte, Nat.mod_eq_of_lt (d.getLastD 0).isLt]
  · have h1c := h1
    unfold lastByte at h1c
    rw [h1c]
    refine ⟨fun h => absurd ?_ hk3, fun _ => rfl⟩
    obtain ⟨_, _, _, h4⟩ := h
    have hlt : d.length - k < d.length := by omega
    rw [List.get?_eq_get hlt]
    congr 1
    apply Fin.ext
    rw [h4 _ ((mem_drop_iff_get? _ _ _).mpr ⟨d.length - k, by omega, List.get?_eq_get hlt⟩)]
    exact (Nat.mod_eq_of_lt (d.getLastD 0).isLt).symm

/-- C6. PKCS#7 removal is strict: it succeeds exactly on a non-empty string
whose last byte `n` satisfies `1 ≤ n ≤ len(d)` and whose last `n` bytes all
equal `n`; then it returns `d` without its last `n` bytes, and in every other
case it returns an error. -/
theorem removePKCS7Padding_strict (d : Bytes) :
    ((removePKCS7Padding d).isOk = true ↔ pkcs7WellFormed d) ∧
      (pkcs7WellFormed d →
        removePKCS7Padding d = Except.ok (d.take (d.length - lastByte d))) ∧
      (¬ pkcs7WellFormed d → (removePKCS7Padding d).isError = true) := by
  obtain ⟨h1, h2⟩ := removePKCS7Padding_spec d
  refine ⟨⟨fun h => ?_, fun h => ?_⟩, h1, h2⟩
  · by_contra hc
    have := h2 hc
    cases hr : removePKCS7Padding d with
    | ok r => rw [hr] at this; exact absurd this (by simp [Result.isError])
    | error e => rw [hr] at h; exact absurd h (by simp [Result.isOk])
  · rw [h1 h]
    rfl

/-! ## Words -/

theorem add64_lt (x y : Nat) : add64 x y < 2 ^ 64 := Nat.mod_lt _ (by norm_num)

theorem sub64_lt (x y : Nat) : sub64 x y < 2 ^ 64 := Nat.mod_lt _ (by norm_num)

theorem sub64_add64 (x s : Nat) (hx : x < 2 ^ 64) : sub64 (add64 x s) s = x := by
  unfold sub64 add64
  omega

theorem mask64 : sub64 (shl64 1 64) 1 = 2 ^ 64 - 1 := by decide

theorem testBit_of_lt64 (x j : Nat) (hx : x < 2 ^ 64) (hj : 64 ≤ j) : x.testBit j = false :=
  Nat.testBit_eq_false_of_lt (lt_of_lt_of_le hx (Nat.pow_le_pow_right (by norm_num) hj))

theorem rol64_lt (x y : Nat) : rol x y 64 < 2 ^ 64 := by
  unfold rol
  rw [mask64, Nat.and_pow_two_sub_one_eq_mod]
  exact Nat.mod_lt _ (by norm_num)

theorem ror64_lt (x y : Nat) : ror x y 64 < 2 ^ 64 := by
  unfold ror
  rw [mask64, Nat.and_pow_two_sub_one_eq_mod]
  exact Nat.mod_lt _ (by norm_num)

theorem testBit_rol64 (x y i : Nat) (hx : x < 2 ^ 64) :
    (rol x y 64).testBit i =
      (decide (i < 64) && ((decide (y % 64 ≤ i) && x.testBit (i - y % 64))
        || x.testBit (64 - y % 64 + i))) := by
  unfold rol
  rw [mask64, Nat.and_pow_two_sub_one_eq_mod]
  simp only [shl64, shr64, Nat.mod_eq_of_lt hx, Nat.testBit_mod_two_pow, Nat.testBit_or,
    Nat.testBit_shiftLeft, Nat.testBit_shiftRight]
  by_cases h : i < 64 <;> simp [h]

theorem testBit_ror64 (x y i : Nat) (hx : x < 2 ^ 64) :
    (ror x y 64).testBit i =
      (decide (i < 64) && (x.testBit (y % 64 + i)
        || (decide (64 - y % 64 ≤ i) && x.testBit (i - (64 - y % 64))))) := by
  unfold ror
  rw [mask64, Nat.and_pow_two_sub_one_eq_mod]
  simp only [shl64, shr64, Nat.mod_eq_of_lt hx, Nat.testBit_mod_two_pow, Nat.testBit_or,
    Nat.testBit_shiftLeft, Nat.testBit_shiftRight]
  by_cases h : i < 64 <;> simp [h]

theorem ror64_rol64 (x y : Nat) (hx : x < 2 ^ 64) : ror (rol x y 64) y 64 = x := by
  apply Nat.eq_of_testBit_eq
  intro i
  rw [testBit_ror64 _ _ _ (rol64_lt x y), testBit_rol64 _ _ _ hx, testBit_rol64 _ _ _ hx]
  have hs : y % 64 < 64 := Nat.mod_lt _ (by norm_num)
  by_cases hi : i < 64
  · by_cases h1 : y % 64 + i < 64
    · have e1 : y % 64 + i - y % 64 = i := by omega
      have e2 : x.testBit (64 - y % 64 + (y % 64 + i)) = false :=
        testBit_of_lt64 _ _ hx (by omega)
      have e3 : ¬ (64 - y % 64 ≤ i) := by omega
      simp [hi, h1, e1, e2, e3]
    · have e1 : ¬ (y % 64 ≤ i - (64 - y % 64)) := by omega
      have e2 : 64 - y % 64 + (i - (64 - y % 64)) = i := by omega
      have e3 : 64 - y % 64 ≤ i := by omega
      have e4 : i - (64 - y % 64) < 64 := by omega
      simp [hi, h1, e1, e2, e3, e4]
  · simp [hi, testBit_of_lt64 x i hx (by omega)]

theorem xor_lt64 (a b : Nat) (ha : a < 2 ^ 64) (hb : b < 2 ^ 64) : a ^^^ b < 2 ^ 64 :=
  Nat.xor_lt_two_pow ha hb

theorem xor_xor_cancel (a b : Nat) : a ^^^ b ^^^ b = a := by
  rw [Nat.xor_assoc, Nat.xor_self, Nat.xor_zero]

/-! ## Byte order -/

theorem leUint_lt (b : Bytes) : leUint b < 256 ^ b.length := by
  induction b with
  | nil => simp [leUint]
  | cons x xs ih =>
    have hx := x.isLt
    simp only [leUint, List.length_cons, pow_succ]
    omega

theorem lePut_length (n x : Nat) : (lePut n x).length = n := by
  induction n generalizing x with
  | zero => rfl
  | succ n ih => simp [lePut, ih]

theorem lePut_leUint (b : Bytes) : lePut b.length (leUint b) = b := by
  induction b with
  | nil => rfl
  | cons x xs ih =>
    have hx := x.isLt
    simp only [leUint, List.length_cons, lePut]
    have e1 : toByte (x.val + 256 * leUint xs) = x := by
      apply Fin.ext
      simp only [toByte]
      omega
    have e2 : (x.val + 256 * leUint xs) / 256 = leUint xs := by omega
    rw [e1, e2, ih]

theorem leUint_lePut (n x : Nat) (hx : x < 256 ^ n) : leUint (lePut n x) = x := by
  induction n generalizing x with
  | zero =>
    simp at hx
    simp [lePut, leUint, hx]
  | succ n ih =>
    have h2 : x / 256 < 256 ^ n := by
      rw [pow_succ] at hx
      exact Nat.div_lt_of_lt_mul (by rw [Nat.mul_comm]; exact hx)
    simp only [lePut, leUint, ih _ h2, toByte]
    omega

/-! ## RC5 -/

/-- One round of `decryptBlock` undoes one round of `encryptBlock` with the
same two subkeys `s` and `t`. -/
theorem rc5_round_inverse (A B s t : Nat) (hA : A < 2 ^ 64) (hB : B < 2 ^ 64) :
    ror (sub64 (add64 (rol (B ^^^ add64 (rol (A ^^^ B) (B % 64) 64) s)
        (add64 (rol (A ^^^ B) (B % 64) 64) s % 64) 64) t) t)
        (add64 (rol (A ^^^ B) (B % 64) 64) s % 64) 64
        ^^^ add64 (rol (A ^^^ B) (B % 64) 64) s = B ∧
      ror (sub64 (add64 (rol (A ^^^ B) (B % 64) 64) s) s) (B % 64) 64 ^^^ B = A := by
  constructor
  · rw [sub64_add64 _ _ (rol64_lt _ _), ror64_rol64 _ _ (xor_lt64 _ _ hB (add64_lt _ _)),
      xor_xor_cancel]
  · rw [sub64_add64 _ _ (rol64_lt _ _), ror64_rol64 _ _ (xor_lt64 _ _ hA hB), xor_xor_cancel]

theorem rc5_loops_inverse (rc5 : RC5) (hw : rc5.w = 64) :
    ∀ (fuel i : Nat) (A B : Nat), 1 ≤ i → 2 * (i + fuel) ≤ rc5.S.length →
      A < 2 ^ 64 → B < 2 ^ 64 →
      ∃ A1 B1, RC5.encryptBlock.loop rc5 fuel i A B = Except.ok (A1, B1) ∧
        A1 < 2 ^ 64 ∧ B1 < 2 ^ 64 ∧
        RC5.decryptBlock.loop rc5 (i + fuel - 1) A1 B1
          = RC5.decryptBlock.loop rc5 (i - 1) A B := by
  intro fuel
  induction fuel with
  | zero =>
    intro i A B _ _ hA hB
    exact ⟨A, B, rfl, hA, hB, rfl⟩
  | succ fuel ih =>
    intro i A B hi hlen hA hB
    have h1 : 2 * i < rc5.S.length := by omega
    have h2 : 2 * i + 1 < rc5.S.length := by omega
    rw [RC5.encryptBlock.loop, idx_of_lt _ _ h1, ok_bind, idx_of_lt _ _ h2, ok_bind]
    obtain ⟨A1, B1, e1, e2, e3, e4⟩ := ih (i + 1) _ _ (by omega) (by omega)
      (add64_lt (rol (A ^^^ B) (B % rc5.w) rc5.w) (rc5.S.get ⟨2 * i, h1⟩))
      (add64_lt (rol (B ^^^ add64 (rol (A ^^^ B) (B % rc5.w) rc5.w) (rc5.S.get ⟨2 * i, h1⟩))
        (add64 (rol (A ^^^ B) (B % rc5.w) rc5.w) (rc5.S.get ⟨2 * i, h1⟩) % rc5.w) rc5.w)
        (rc5.S.get ⟨2 * i + 1, h2⟩))
    refine ⟨A1, B1, e1, e2, e3, ?_⟩
    rw [show i + (fuel + 1) - 1 = i + 1 + fuel - 1 by omega, e4]
    obtain ⟨j, rfl⟩ : ∃ j, i = j + 1 := ⟨i - 1, by omega⟩
    rw [show j + 1 + 1 - 1 = j + 1 by omega, show j + 1 - 1 = j by omega]
    conv_lhs => rw [RC5.decryptBlock.loop]
    rw [idx_of_lt _ _ h2, ok_bind, idx_of_lt _ _ h1, ok_bind]
    have hr := rc5_round_inverse A B (rc5.S.get ⟨2 * (j + 1), h1⟩)
      (rc5.S.get ⟨2 * (j + 1) + 1, h2⟩) hA hB
    simp only [hw] at hr ⊢
    rw [hr.1, hr.2]

/-! ## Slices and `copy` -/

theorem copyAt_length {α : Type} (dst : List α) (off : Nat) (src : List α) :
    (copyAt dst off src).length = dst.length := by
  simp only [copyAt, List.length_append, List.length_take, List.length_drop]
  omega

theorem copyAt_zero_full {α : Type} (dst src : List α) (h : src.length = dst.length) :
    copyAt dst 0 src = src := by
  unfold copyAt
  rw [← h]
  simp [h]

theorem slice_full {α : Type} (l : List α) (n : Nat) (h : l.length = n) :
    slice l 0 n = Except.ok l := by
  subst h
  simp [slice]

theorem zeros_length (n : Nat) : (zeros n).length = n := by simp [zeros]

/-! ## RC5 key schedule -/

theorem rc5_pack_ok (K : Bytes) (u n : Nat) :
    ∀ (i : Nat) (L : List Nat), i ≤ K.length → L.length = n → (∀ j, j < i → j / u < n) →
      ∃ L1, RC5.keyExpansion.pack K u i L = Except.ok L1 ∧ L1.length = n := by
  intro i
  induction i with
  | zero =>
    intro L _ hn _
    exact ⟨L, rfl, hn⟩
  | succ i ih =>
    intro L hi hn hL
    rw [RC5.keyExpansion.pack, idx_of_lt _ _ (show i / u < L.length by rw [hn]; exact hL i (by omega)),
      ok_bind, idx_of_lt _ _ (show i < K.length by omega), ok_bind]
    exact ih _ (by omega) (by rw [List.length_set]; exact hn) (fun j hj => hL j (by omega))

theorem rc5_init_ok (Qw n : Nat) :
    ∀ (fuel i : Nat) (S : List Nat), 1 ≤ i → S.length = n → i + fuel ≤ n →
      ∃ S1, RC5.keyExpansion.init Qw fuel i S = Except.ok S1 ∧ S1.length = n := by
  intro fuel
  induction fuel with
  | zero =>
    intro i S _ hn _
    exact ⟨S, rfl, hn⟩
  | succ fuel ih =>
    intro i S hi hn hS
    rw [RC5.keyExpansion.init, idx_of_lt _ _ (show i - 1 < S.length by omega), ok_bind,
      if_pos (show i < S.length by omega)]
    exact ih _ _ (by omega) (by rw [List.length_set]; exact hn) (by omega)

theorem rc5_mix_ok (w t c : Nat) (ht : 0 < t) (hc : 0 < c) :
    ∀ (fuel i j A B : Nat) (S L : List Nat), S.length = t → L.length = c → i < t → j < c →
      ∃ S1, RC5.keyExpansion.mix w t c fuel i j A B S L = Except.ok S1 ∧ S1.length = t := by
  intro fuel
  induction fuel with
  | zero =>
    intro i j A B S L hS _ _ _
    exact ⟨S, rfl, hS⟩
  | succ fuel ih =>
    intro i j A B S L hS hL hi hj
    rw [RC5.keyExpansion.mix, idx_of_lt _ _ (show i < S.length by omega), ok_bind,
      idx_of_lt _ _ (show j < L.length by omega), ok_bind,
      if_neg (show ¬ (t = 0 ∨ c = 0) by omega)]
    exact ih _ _ _ _ _ _ (by rw [List.length_set]; exact hS)
      (by rw [List.length_set]; exact hL) (Nat.mod_lt _ ht) (Nat.mod_lt _ hc)

theorem rc5_keyExpansion_ok (rc5 : RC5) (K : Bytes) (hw : rc5.w = 64) (hb : rc5.b = K.length)
    (hK : K ≠ []) :
    ∃ S, RC5.keyExpansion rc5 K = Except.ok S ∧ S.length = 2 * (rc5.r + 1) := by
  have hl : 0 < K.length := List.length_pos.mpr hK
  unfold RC5.keyExpansion
  simp only [hw, hb]
  rw [if_neg (by decide)]
  obtain ⟨L1, e1, e2⟩ := rc5_pack_ok K (64 / 8) ((K.length + 64 / 8 - 1) / (64 / 8)) K.length
    (List.replicate ((K.length + 64 / 8 - 1) / (64 / 8)) 0) (le_refl _)
    (List.length_replicate _ _)
    (fun j hj => by
      simp only [Nat.reduceDiv]
      omega)
  rw [e1, ok_bind]
  obtain ⟨S1, e3, e4⟩ := rc5_init_ok
    (if 64 = 16 then 0x9e37 else if 64 = 32 then 0x9e3779b9 else 0x9e3779b97f4a7c15)
    (2 * (rc5.r + 1)) (2 * (rc5.r + 1) - 1) 1
    ((List.replicate (2 * (rc5.r + 1)) 0).set 0
      (if 64 = 16 then 0xb7e1 else if 64 = 32 then 0xb7e15163 else 0xb7e151628aed2a6b))
    (le_refl _) (by rw [List.length_set, List.length_replicate]) (by omega)
  rw [e3, ok_bind]
  exact rc5_mix_ok 64 _ _ (by omega) (by simp only [Nat.reduceDiv]; omega) _ 0 0 0 0 S1 L1 e4 e2
    (by omega) (by simp only [Nat.reduceDiv]; omega)

theorem rc5_SetKey_ok (rc5 : RC5) (k : Bytes) (hw : rc5.w = 64) (hk : k ≠ []) :
    ∃ S, RC5.SetKey rc5 k = Except.ok { S := S, r := rc5.r, w := 64, b := k.length } ∧
      S.length = 2 * (rc5.r + 1) := by
  have hl : k.length ≠ 0 := fun h => hk (List.length_eq_zero.mp h)
  obtain ⟨S, e1, e2⟩ := rc5_keyExpansion_ok { rc5 with b := k.length } k hw rfl hk
  refine ⟨S, ?_, e2⟩
  unfold RC5.SetKey
  rw [if_neg hl]
  dsimp only
  rw [e1, ok_bind, hw]
  rfl

/-! ## RC5 blocks -/

theorem rc5_block_round_trip (rc5 : RC5) (hw : rc5.w = 64)
    (hS : 2 * (rc5.r + 1) ≤ rc5.S.length) (b : Bytes) (hb : b.length = 16) :
    ∃ c, RC5.encryptBlock rc5 b = Except.ok c ∧ c.length = 16 ∧
      RC5.decryptBlock rc5 c = Except.ok b := by
  have h0 : 0 < rc5.S.length := by omega
  have h1 : 1 < rc5.S.length := by omega
  have ha : leUint (b.take 8) < 2 ^ 64 := by
    have := leUint_lt (b.take 8)
    rw [List.length_take, hb] at this
    exact this
  have hd : leUint ((b.drop 8).take 8) < 2 ^ 64 := by
    have := leUint_lt ((b.drop 8).take 8)
    rw [List.length_take, List.length_drop, hb] at this
    exact this
  obtain ⟨A1, B1, e1, e2, e3, e4⟩ := rc5_loops_inverse rc5 hw rc5.r 1
    (add64 (leUint (b.take 8)) (rc5.S.get ⟨0, h0⟩))
    (add64 (leUint ((b.drop 8).take 8)) (rc5.S.get ⟨1, h1⟩))
    (le_refl _) (by omega) (add64_lt _ _) (add64_lt _ _)
  have t1 : (lePut 8 A1 ++ lePut 8 B1).take 8 = lePut 8 A1 :=
    List.take_left' (lePut_length 8 A1)
  have t2 : ((lePut 8 A1 ++ lePut 8 B1).drop 8).take 8 = lePut 8 B1 := by
    rw [List.drop_left' (lePut_length 8 A1)]
    exact List.take_of_length_le (by rw [lePut_length])
  refine ⟨lePut 8 A1 ++ lePut 8 B1, ?_, ?_, ?_⟩
  · unfold RC5.encryptBlock
    simp only [hw, Nat.reduceDiv, Nat.reduceMul]
    rw [if_neg (by simp [hb]), if_neg (by decide), idx_of_lt _ _ h0, ok_bind,
      idx_of_lt _ _ h1, ok_bind, e1]
    rfl
  · simp [lePut_length]
  · unfold RC5.decryptBlock
    simp only [hw, Nat.reduceDiv, Nat.reduceMul]
    rw [if_neg (by simp [lePut_length]), if_neg (by decide), t1, t2,
      leUint_lePut 8 A1 (by norm_num; exact e2),
      leUint_lePut 8 B1 (by norm_num; exact e3)]
    rw [show rc5.r = 1 + rc5.r - 1 by omega, e4]
    simp only [Nat.sub_self, RC5.decryptBlock.loop, ok_bind, pure_eq_ok]
    rw [idx_of_lt _ _ h1, ok_bind, idx_of_lt _ _ h0, ok_bind, sub64_add64 _ _ ha,
      sub64_add64 _ _ hd]
    have l1 : (b.take 8).length = 8 := by rw [List.length_take, hb]; rfl
    have l2 : ((b.drop 8).take 8).length = 8 := by
      rw [List.length_take, List.length_drop, hb]; rfl
    have p1 := lePut_leUint (b.take 8)
    have p2 := lePut_leUint ((b.drop 8).take 8)
    rw [l1] at p1
    rw [l2] at p2
    rw [p1, p2]
    congr 1
    have : (b.drop 8).take 8 = b.drop 8 := by
      apply List.take_of_length_le
      rw [List.length_drop, hb]
    rw [this, List.take_append_drop]

/-- On a single block of `blockSize` bytes the block loop returns what the
block function returns. -/
theorem blocksLoop_single (fn : Bytes → Result Bytes) (data c : Bytes) (n : Nat)
    (hd : data.length = n) (hc : c.length = n) (h : fn data = Except.ok c) :
    blocksLoop fn data n 1 0 (zeros data.length) = Except.ok c := by
  rw [blocksLoop, Nat.zero_add, slice_full data n hd, ok_bind, h, ok_bind, blocksLoop]
  have e1 : c.take n = c := List.take_of_length_le (by omega)
  rw [e1, copyAt_zero_full _ _ (by rw [zeros_length, hc, hd])]
  rfl

theorem rc5_Encrypt_block (rc5 : RC5) (hw : rc5.w = 64) (b c : Bytes) (hb : b.length = 16)
    (hc : c.length = 16) (h : RC5.encryptBlock rc5 b = Except.ok c) :
    RC5.Encrypt rc5 b = Except.ok c := by
  unfold RC5.Encrypt
  simp only [hw, hb, Nat.reduceDiv, Nat.reduceMod]
  rw [if_neg (by decide), if_neg (by decide)]
  have := blocksLoop_single rc5.encryptBlock b c 16 hb hc h
  rw [hb] at this
  exact this

theorem rc5_Decrypt_block (rc5 : RC5) (hw : rc5.w = 64) (b c : Bytes) (hb : b.length = 16)
    (hc : c.length = 16) (h : RC5.decryptBlock rc5 b = Except.ok c) :
    RC5.Decrypt rc5 b = Except.ok c := by
  unfold RC5.Decrypt
  simp only [hw, hb, Nat.reduceDiv, Nat.reduceMod]
  rw [if_neg (by decide), if_neg (by decide)]
  have := blocksLoop_single rc5.decryptBlock b c 16 hb hc h
  rw [hb] at this
  exact this

/-- A keyed RC5 object with 64-bit words is a block cipher on 16-byte blocks. -/
theorem rc5_cipher_round_trip (rc5 : RC5) (hw : rc5.w = 64)
    (hS : 2 * (rc5.r + 1) ≤ rc5.S.length) (b : Bytes) (hb : b.length = 16) :
    ∃ c, RC5.Encrypt rc5 b = Except.ok c ∧ c.length = 16 ∧
      RC5.Decrypt rc5 c = Except.ok b := by
  obtain ⟨c, e1, e2, e3⟩ := rc5_block_round_trip rc5 hw hS b hb
  exact ⟨c, rc5_Encrypt_block rc5 hw b c hb e2 e1, e2, rc5_Decrypt_block rc5 hw c b e2 hb e3⟩

/-- C2. RC5 block round trip at the default parameters (64-bit words, 12
rounds): for every non-empty key and every 16-byte block, `SetKey` succeeds,
`Encrypt` succeeds and `Decrypt` of the ciphertext returns the block. -/
theorem rc5_round_trip (k b : Bytes) (hk : k ≠ []) (hb : b.length = 16) :
    ∃ rc5 c, RC5.SetKey NewRC5 k = Except.ok rc5 ∧ RC5.Encrypt rc5 b = Except.ok c ∧
      RC5.Decrypt rc5 c = Except.ok b := by
  obtain ⟨S, e1, e2⟩ := rc5_SetKey_ok NewRC5 k rfl hk
  obtain ⟨c, e3, _, e5⟩ := rc5_cipher_round_trip
    { S := S, r := NewRC5.r, w := 64, b := k.length } rfl (by rw [e2]) b hb
  exact ⟨_, c, e1, e3, e5⟩

theorem rc5_round_trip_witness :
    ([1, 2, 3] : Bytes) ≠ [] ∧ (List.replicate 16 (7 : Byte)).length = 16 ∧
      ∃ rc5 c, RC5.SetKey NewRC5 [1, 2, 3] = Except.ok rc5 ∧
        RC5.Encrypt rc5 (List.replicate 16 7) = Except.ok c ∧
        RC5.Decrypt rc5 c = Except.ok (List.replicate 16 7) :=
  ⟨by decide, by decide, rc5_round_trip [1, 2, 3] (List.replicate 16 7) (by decide) (by decide)⟩

/-- C3. The substitution-diffusion cipher does not round-trip: with the key
`1, 2, ..., 16` the all-zero block is encrypted to a ciphertext that `Decrypt`
turns into a block other than the all-zero one. -/
theorem magenta_round_trip_fails :
    ∃ m c d, Magenta.SetKey NewMagenta [1, 2, 3, 4, 5, 6, 7, 8, 9, 10, 11, 12, 13, 14, 15, 16]
          = Except.ok m ∧
      Magenta.Encrypt m (List.replicate 16 0) = Except.ok c ∧
      Magenta.Decrypt m c = Except.ok d ∧
      c = [34, 135, 229, 133, 254, 207, 151, 81, 244, 62, 192, 177, 86, 42, 26, 94] ∧
      d = [87, 187, 79, 174, 246, 47, 133, 241, 85, 121, 159, 26, 30, 30, 57, 97] ∧
      d ≠ List.replicate 16 0 :=
  ⟨_, _, _, rfl, rfl, rfl, rfl, rfl, by decide⟩

/-! ## Byte-array arithmetic of LOKI97 -/

theorem and_255 (n : Nat) : n &&& 0xFF = n % 256 :=
  Nat.and_pow_two_sub_one_eq_mod n 8

theorem shr_8 (n : Nat) : n >>> 8 = n / 256 := by
  rw [Nat.shiftRight_eq_div_pow]

theorem Plus_loop_length : ∀ (xs ys : Bytes) (c : Nat), xs.length = ys.length →
    (Plus.loop xs ys c).length = xs.length := by
  intro xs
  induction xs with
  | nil => intro ys c _; cases ys <;> simp [Plus.loop]
  | cons x xs ih =>
    intro ys c h
    cases ys with
    | nil => simp at h
    | cons y ys =>
      simp only [Plus.loop, List.length_cons]
      rw [ih ys _ (by simpa using h)]

theorem Minus_loop_length : ∀ (xs ys : Bytes) (c : Nat), xs.length = ys.length →
    (Minus.loop xs ys c).length = xs.length := by
  intro xs
  induction xs with
  | nil => intro ys c _; cases ys <;> simp [Minus.loop]
  | cons x xs ih =>
    intro ys c h
    cases ys with
    | nil => simp at h
    | cons y ys =>
      simp only [Minus.loop, List.length_cons]
      split
      · simp only [List.length_cons]
        rw [ih ys _ (by simpa using h)]
      · simp only [List.length_cons]
        rw [ih ys _ (by simpa using h)]

theorem Minus_loop_Plus_loop : ∀ (xs ys : Bytes) (c : Nat), xs.length = ys.length → c ≤ 1 →
    Minus.loop (Plus.loop xs ys c) ys c = xs := by
  intro xs
  induction xs with
  | nil => intro ys c _ _; cases ys <;> simp [Plus.loop, Minus.loop]
  | cons x xs ih =>
    intro ys c h hc
    cases ys with
    | nil => simp at h
    | cons y ys =>
      have hx := x.isLt
      have hy := y.isLt
      have hl : xs.length = ys.length := by simpa using h
      simp only [Plus.loop, Minus.loop, and_255, shr_8, toByte]
      by_cases hs : x.val + y.val + c < 256
      · have e1 : (x.val + y.val + c) % 256 % 256 = x.val + y.val + c := by omega
        have e2 : (x.val + y.val + c) / 256 = 0 := by omega
        simp only [e1, e2]
        rw [if_neg (by omega)]
        congr 1
        · apply Fin.ext
          simp only
          omega
        · exact ih ys 0 hl (by omega)
      · have e1 : (x.val + y.val + c) % 256 % 256 = x.val + y.val + c - 256 := by omega
        have e2 : (x.val + y.val + c) / 256 = 1 := by omega
        simp only [e1, e2]
        rw [if_pos (by omega)]
        congr 1
        · apply Fin.ext
          simp only
          omega
        · exact ih ys 1 hl (by omega)

theorem Plus_ok (a b : Bytes) (h : a.length = b.length) :
    ∃ r, Plus a b = Except.ok r ∧ r.length = a.length := by
  refine ⟨(Plus.loop a.reverse b.reverse 0).reverse, ?_, ?_⟩
  · unfold Plus
    rw [if_neg (by simpa using h)]
    rfl
  · rw [List.length_reverse, Plus_loop_length _ _ _ (by simpa using h), List.length_reverse]

theorem Minus_ok (a b : Bytes) (h : a.length = b.length) :
    ∃ r, Minus a b = Except.ok r ∧ r.length = a.length := by
  refine ⟨(Minus.loop a.reverse b.reverse 0).reverse, ?_, ?_⟩
  · unfold Minus
    rw [if_neg (by simpa using h)]
    rfl
  · rw [List.length_reverse, Minus_loop_length _ _ _ (by simpa using h), List.length_reverse]

/-- Byte-array subtraction undoes byte-array addition. -/
theorem Minus_Plus (a b p : Bytes) (h : a.length = b.length) (hp : Plus a b = Except.ok p) :
    Minus p b = Except.ok a := by
  unfold Plus at hp
  rw [if_neg (by simpa using h)] at hp
  have hp1 : p = (Plus.loop a.reverse b.reverse 0).reverse := (Except.ok.inj hp).symm
  have hl : p.length = b.length := by
    rw [hp1, List.length_reverse, Plus_loop_length _ _ _ (by simpa using h),
      List.length_reverse, h]
  unfold Minus
  rw [if_neg (by simpa using hl), hp1, List.reverse_reverse,
    Minus_loop_Plus_loop _ _ _ (by simpa using h) (by omega), List.reverse_reverse]
  rfl

theorem xorBytes_length (a b : Bytes) (h : a.length = b.length) :
    (xorBytes a b).length = a.length := by
  simp [xorBytes, h]

theorem byte_xor_cancel (x y : Byte) : x ^^^ y ^^^ y = x := by
  apply Fin.ext
  show ((x.val ^^^ y.val) % 256 ^^^ y.val) % 256 = x.val
  have h1 : x.val ^^^ y.val < 256 := Nat.xor_lt_two_pow (n := 8) x.isLt y.isLt
  rw [Nat.mod_eq_of_lt h1, xor_xor_cancel, Nat.mod_eq_of_lt x.isLt]

theorem xorBytes_cancel : ∀ (a b : Bytes), a.length = b.length →
    xorBytes (xorBytes a b) b = a := by
  intro a
  induction a with
  | nil => intro b _; cases b <;> rfl
  | cons x xs ih =>
    intro b h
    cases b with
    | nil => simp at h
    | cons y ys =>
      simp only [xorBytes, List.zipWith_cons_cons]
      rw [byte_xor_cancel]
      congr 1
      exact ih ys (by simpa using h)

theorem XOR_ok (a b : Bytes) (h : a.length = b.length) :
    XOR a b = Except.ok (xorBytes a b) := by
  unfold XOR
  rw [if_neg (by simpa using h)]
  rfl

/-! ## The round function of LOKI97 is total on 8-byte arguments -/

theorem Sa_loop_ok (A : Bytes) (n : Nat) :
    ∀ (fuel i : Nat) (result : Bytes), i + fuel ≤ A.length → result.length = n →
      ∃ r, Sa.loop A fuel i result = Except.ok r ∧ r.length = n := by
  intro fuel
  induction fuel with
  | zero => intro i result _ hn; exact ⟨result, rfl, hn⟩
  | succ fuel ih =>
    intro i result hi hn
    rw [Sa.loop, idx_of_lt _ _ (show i < A.length by omega), ok_bind]
    split
    · exact ih _ _ (by omega) (by rw [List.length_set]; exact hn)
    · exact ih _ _ (by omega) (by rw [List.length_set]; exact hn)

theorem Sa_ok (A : Bytes) (h : 8 ≤ A.length) : ∃ r, Sa A = Except.ok r ∧ r.length = 8 :=
  Sa_loop_ok A 8 8 0 (zeros 8) (by omega) (zeros_length 8)

theorem Sb_loop_ok (A B : Bytes) (n : Nat) :
    ∀ (fuel i : Nat) (result : Bytes), i + fuel ≤ A.length → i + fuel ≤ B.length →
      result.length = n → ∃ r, Sb.loop A B fuel i result = Except.ok r ∧ r.length = n := by
  intro fuel
  induction fuel with
  | zero => intro i result _ _ hn; exact ⟨result, rfl, hn⟩
  | succ fuel ih =>
    intro i result hi hj hn
    rw [Sb.loop]
    split
    · rw [idx_of_lt _ _ (show i < A.length by omega), ok_bind]
      exact ih _ _ (by omega) (by omega) (by rw [List.length_set]; exact hn)
    · rw [idx_of_lt _ _ (show i < B.length by omega), ok_bind]
      exact ih _ _ (by omega) (by omega) (by rw [List.length_set]; exact hn)

theorem Sb_ok (A B : Bytes) (hA : 8 ≤ A.length) (hB : 8 ≤ B.length) :
    ∃ r, Sb A B = Except.ok r ∧ r.length = 8 :=
  Sb_loop_ok A B 8 8 0 (zeros 8) (by omega) (by omega) (zeros_length 8)

theorem KP_loop_ok (SKr : Bytes) (n : Nat) :
    ∀ (fuel i : Nat) (Al Ar : Bytes), i + fuel ≤ SKr.length * 8 → SKr.length ≤ n →
      Al.length = n → Ar.length = n →
      ∃ Al1 Ar1, KP.loop SKr fuel i Al Ar = Except.ok (Al1, Ar1) ∧
        Al1.length = n ∧ Ar1.length = n := by
  intro fuel
  induction fuel with
  | zero => intro i Al Ar _ _ h1 h2; exact ⟨Al, Ar, rfl, h1, h2⟩
  | succ fuel ih =>
    intro i Al Ar hi hn h1 h2
    have hk : i / 8 < SKr.length := by omega
    rw [KP.loop, idx_of_lt _ _ hk, ok_bind]
    dsimp only
    split
    · rw [idx_of_lt _ _ (show i / 8 < Al.length by omega), ok_bind,
        idx_of_lt _ _ (show i / 8 < Ar.length by omega), ok_bind]
      split
      · exact ih _ _ _ (by omega) hn (by rw [List.length_set]; exact h1)
          (by rw [List.length_set]; exact h2)
      · exact ih _ _ _ (by omega) hn h1 h2
    · exact ih _ _ _ (by omega) hn h1 h2

theorem KP_ok (A B : Bytes) (hA : A.length = 8) (hB : B.length = 8) :
    ∃ r, KP A B = Except.ok r ∧ r.length = 8 := by
  obtain ⟨Al1, Ar1, e1, e2, e3⟩ := KP_loop_ok (B.drop (B.length / 2)) 4
    ((B.drop (B.length / 2)).length * 8) 0 (A.take (A.length / 2)) (A.drop (A.length / 2))
    (by omega) (by simp [hB]) (by simp [hA]) (by simp [hA])
  refine ⟨Al1 ++ Ar1, ?_, by simp [e2, e3]⟩
  unfold KP KaKb
  dsimp only
  rw [e1]
  rfl

theorem E_ok (input : Bytes) (h : input.length = 8) :
    ∃ r, E input = Except.ok r ∧ r.length = 12 := by
  unfold E
  rw [if_neg (by simp [h]), idx_of_lt _ _ (show 0 < input.length by omega), ok_bind,
    idx_of_lt _ _ (show 1 < input.length by omega), ok_bind,
    idx_of_lt _ _ (show 2 < input.length by omega), ok_bind,
    idx_of_lt _ _ (show 3 < input.length by omega), ok_bind,
    idx_of_lt _ _ (show 4 < input.length by omega), ok_bind,
    idx_of_lt _ _ (show 5 < input.length by omega), ok_bind,
    idx_of_lt _ _ (show 6 < input.length by omega), ok_bind,
    idx_of_lt _ _ (show 7 < input.length by omega), ok_bind]
  exact ⟨_, rfl, rfl⟩

theorem P_loop_ok (input : Bytes) (n : Nat) :
    ∀ (rest : List Nat) (i : Nat) (output : Bytes), (∀ p ∈ rest, p / 8 < input.length) →
      i + rest.length ≤ 8 * n → output.length = n →
      ∃ r, P.loop input rest i output = Except.ok r ∧ r.length = n := by
  intro rest
  induction rest with
  | nil => intro i output _ _ hn; exact ⟨output, rfl, hn⟩
  | cons p rest ih =>
    intro i output hp hi hn
    have hi1 : i + rest.length + 1 ≤ 8 * n := by simpa [Nat.add_assoc] using hi
    rw [P.loop, idx_of_lt _ _ (hp p (List.mem_cons_self _ _)), ok_bind]
    dsimp only
    split
    · rw [idx_of_lt _ _ (show i / 8 < output.length by omega), ok_bind]
      exact ih _ _ (fun q hq => hp q (List.mem_cons_of_mem _ hq)) (by omega)
        (by rw [List.length_set]; exact hn)
    · exact ih _ _ (fun q hq => hp q (List.mem_cons_of_mem _ hq)) (by omega) hn

theorem perm_lt : ∀ p ∈ perm, p / 8 < 8 := by decide

theorem P_ok (input : Bytes) (h : input.length = 8) :
    ∃ r, P input = Except.ok r ∧ r.length = 8 :=
  P_loop_ok input 8 perm 0 (zeros 8) (by rw [h]; exact perm_lt) (by decide) (zeros_length 8)

theorem f_ok (A B : Bytes) (hA : A.length = 8) (hB : B.length = 8) :
    ∃ r, f A B = Except.ok r ∧ r.length = 8 := by
  obtain ⟨a1, e1, l1⟩ := KP_ok A B hA hB
  obtain ⟨a2, e2, l2⟩ := E_ok a1 l1
  obtain ⟨a3, e3, l3⟩ := Sa_ok a2 (by omega)
  obtain ⟨a4, e4, l4⟩ := P_ok a3 l3
  obtain ⟨a5, e5, l5⟩ := Sb_ok a4 B (by omega) (by omega)
  refine ⟨a5, ?_, l5⟩
  unfold f
  rw [e1, ok_bind, e2, ok_bind, e3, ok_bind, e4, ok_bind, e5]

/-! ## The key schedule of LOKI97 -/

theorem uint64ToBytes_loop_length (n : Nat) :
    ∀ (fuel i : Nat) (result : Bytes),
      (uint64ToBytes.loop n fuel i result).length = result.length := by
  intro fuel
  induction fuel with
  | zero => intro i result; rfl
  | succ fuel ih =>
    intro i result
    rw [uint64ToBytes.loop, ih, List.length_set]

theorem uint64ToBytes_length (n : Nat) : (uint64ToBytes n).length = 8 := by
  rw [uint64ToBytes, uint64ToBytes_loop_length, zeros_length]

theorem makeCopy_eq (src : Bytes) : makeCopy src = src :=
  copyAt_zero_full _ _ (by rw [zeros_length])

theorem g_ok (K1 K3 K2 : Bytes) (i : Nat) (h1 : K1.length = 8) (h3 : K3.length = 8)
    (h2 : K2.length = 8) : ∃ r, g K1 K3 K2 i = Except.ok r ∧ r.length = 8 := by
  obtain ⟨s, e1, l1⟩ := Plus_ok K1 K3 (by omega)
  obtain ⟨t, e2, l2⟩ := Plus_ok s (uint64ToBytes (Delta * i % 2 ^ 64))
    (by rw [uint64ToBytes_length]; omega)
  obtain ⟨r, e3, l3⟩ := f_ok t K2 (by omega) h2
  refine ⟨r, ?_, l3⟩
  unfold g
  dsimp only
  rw [e1, ok_bind, e2, ok_bind, e3]

theorem generatefirstkeys_ok (Ka Kb : Bytes) (ha : Ka.length = 8) (hb : Kb.length = 8) :
    ∃ K1 K2 K3 K4, generatefirstkeys Ka Kb = Except.ok (K1, K2, K3, K4) ∧
      K1.length = 8 ∧ K2.length = 8 ∧ K3.length = 8 ∧ K4.length = 8 := by
  obtain ⟨K2, e2, l2⟩ := f_ok Kb Ka hb ha
  obtain ⟨K1, e1, l1⟩ := f_ok Ka Kb ha hb
  refine ⟨K1, K2, Kb, Ka, ?_, l1, l2, hb, ha⟩
  unfold generatefirstkeys
  rw [makeCopy_eq, makeCopy_eq, e2, ok_bind, e1, ok_bind,
    copyAt_zero_full _ _ (by rw [zeros_length]), copyAt_zero_full _ _ (by rw [zeros_length])]
  rfl

theorem subKey_set (SKeys : List Bytes) (i j : Nat) (sk : Bytes) (hi : i < SKeys.length) :
    subKey (SKeys.set i sk) j = if i = j then sk else subKey SKeys j := by
  unfold subKey
  rw [List.getD_eq_getElem?_getD, List.getD_eq_getElem?_getD, List.getElem?_set]
  by_cases h : i = j
  · subst h
    simp [hi]
  · simp [h]

theorem generateSubkeys_loop_ok :
    ∀ (fuel i : Nat) (K1 K2 K3 K4 : Bytes) (SKeys : List Bytes),
      K1.length = 8 → K2.length = 8 → K3.length = 8 → K4.length = 8 →
      SKeys.length = 48 → i + fuel ≤ 48 → (∀ j, j < i → (subKey SKeys j).length = 8) →
      ∃ r, generateSubkeys.loop fuel i K1 K2 K3 K4 SKeys = Except.ok r ∧ r.length = 48 ∧
        ∀ j, j < i + fuel → (subKey r j).length = 8 := by
  intro fuel
  induction fuel with
  | zero =>
    intro i K1 K2 K3 K4 SKeys _ _ _ _ hS _ hj
    exact ⟨SKeys, rfl, hS, hj⟩
  | succ fuel ih =>
    intro i K1 K2 K3 K4 SKeys h1 h2 h3 h4 hS hi hj
    obtain ⟨gi, e1, l1⟩ := g_ok K1 K3 K2 i h1 h3 h2
    rw [generateSubkeys.loop, e1, ok_bind, XOR_ok _ _ (by omega), ok_bind]
    obtain ⟨r, e2, l2, l3⟩ := ih (i + 1) K4 K1 K2 K3 (SKeys.set i (xorBytes K1 gi))
      h4 h1 h2 h3 (by rw [List.length_set]; exact hS) (by omega)
      (fun j hjlt => by
        rw [subKey_set _ _ _ _ (by omega)]
        by_cases h : i = j
        · rw [if_pos h, xorBytes_length _ _ (by omega)]
          exact h1
        · rw [if_neg h]
          exact hj j (by omega))
    exact ⟨r, e2, l2, fun j hjlt => l3 j (by omega)⟩

theorem Loki97_SetKey_ok (l : Loki97) (key : Bytes) (hk : key.length = 16) :
    ∃ subKeys, Loki97.SetKey l key
        = Except.ok { key := key, subKeys := subKeys, blockSize := 16 } ∧
      ∀ j, j < 48 → (subKey subKeys j).length = 8 := by
  obtain ⟨K1, K2, K3, K4, e1, l1, l2, l3, l4⟩ := generatefirstkeys_ok
    (key.take (key.length / 2)) (key.drop (key.length / 2)) (by simp [hk]) (by simp [hk])
  obtain ⟨r, e2, _, l6⟩ := generateSubkeys_loop_ok 48 0 K1 K2 K3 K4 (List.replicate 48 [])
    l1 l2 l3 l4 (List.length_replicate _ _) (by omega) (fun j hj => by omega)
  refine ⟨r, ?_, fun j hj => l6 j (by omega)⟩
  unfold Loki97.SetKey KaKb
  rw [if_neg (by simp [hk])]
  dsimp only
  rw [e1, ok_bind]
  dsimp only
  unfold generateSubkeys
  rw [e2, ok_bind]
  rfl

/-! ## The Feistel network and its inverse -/

theorem feistel_loops_inverse (SKeys : List Bytes)
    (hS : ∀ j, j < 48 → (subKey SKeys j).length = 8) :
    ∀ (fuel i : Nat) (L R : Bytes), 1 ≤ i → L.length = 8 → R.length = 8 →
      ∃ L1 R1, FeistelNetwork.loop SKeys fuel i L R = Except.ok (L1, R1) ∧
        L1.length = 8 ∧ R1.length = 8 ∧
        decr.loop SKeys (i + fuel - 1) R1 L1 = decr.loop SKeys (i - 1) R L := by
  intro fuel
  induction fuel with
  | zero =>
    intro i L R _ hL hR
    exact ⟨L, R, rfl, hL, hR, rfl⟩
  | succ fuel ih =>
    intro i L R hi hL hR
    have k3 := hS (3 * i % 48) (Nat.mod_lt _ (by norm_num))
    have k2 := hS ((3 * i - 1) % 48) (Nat.mod_lt _ (by norm_num))
    have k1 := hS ((3 * i - 2) % 48) (Nat.mod_lt _ (by norm_num))
    obtain ⟨p1, e1, l1⟩ := Plus_ok R (subKey SKeys ((3 * i - 2) % 48)) (by omega)
    obtain ⟨f1, e2, l2⟩ := f_ok p1 (subKey SKeys ((3 * i - 1) % 48)) (by omega) k2
    obtain ⟨p2, e3, l3⟩ := Plus_ok p1 (subKey SKeys (3 * i % 48)) (by omega)
    rw [FeistelNetwork.loop]
    rw [e1, ok_bind, e2, ok_bind, XOR_ok _ _ (by omega), ok_bind, ok_bind, e3, ok_bind]
    obtain ⟨L1, R1, e4, l4, l5, e5⟩ := ih (i + 1) p2 (xorBytes L f1) (by omega) (by omega)
      (by rw [xorBytes_length _ _ (by omega)]; exact hL)
    refine ⟨L1, R1, e4, l4, l5, ?_⟩
    rw [show i + (fuel + 1) - 1 = i + 1 + fuel - 1 by omega, e5]
    obtain ⟨j, rfl⟩ : ∃ j, i = j + 1 := ⟨i - 1, by omega⟩
    rw [show j + 1 + 1 - 1 = j + 1 by omega, show j + 1 - 1 = j by omega]
    conv_lhs => rw [decr.loop]
    rw [Minus_Plus p1 _ p2 (by omega) e3, ok_bind, e2, ok_bind,
      XOR_ok _ _ (by rw [xorBytes_length _ _ (by omega)]; omega), ok_bind, ok_bind,
      Minus_Plus R _ p1 (by omega) e1, ok_bind, xorBytes_cancel _ _ (by omega)]

theorem halves_join (L R : Bytes) (hL : L.length = 8) (hR : R.length = 8) :
    copyAt (copyAt (zeros 16) 0 (R.take 8)) 8 L = R ++ L := by
  have e1 : R.take 8 = R := List.take_of_length_le (by omega)
  have e2 : copyAt (zeros 16) 0 R = R ++ zeros 8 := by
    unfold copyAt
    have : R.take 16 = R := List.take_of_length_le (by omega)
    simp [zeros, hR, this]
  have e3 : (R ++ zeros 8).take 8 = R := List.take_left' hR
  have e4 : L.take 8 = L := List.take_of_length_le (by omega)
  rw [e1, e2]
  unfold copyAt
  rw [e3]
  simp [zeros, hL, hR, e4]

theorem loki97_block_round_trip (l : Loki97) (hb : l.blockSize = 16)
    (hS : ∀ j, j < 48 → (subKey l.subKeys j).length = 8) (b : Bytes) (h : b.length = 16) :
    ∃ c, Loki97.Encrypt l b = Except.ok c ∧ c.length = 16 ∧
      Loki97.Decrypt l c = Except.ok b := by
  obtain ⟨L1, R1, e1, l1, l2, e2⟩ := feistel_loops_inverse l.subKeys hS 16 1
    (b.take 8) (b.drop 8) (le_refl _) (by simp [h]) (by simp [h])
  refine ⟨R1 ++ L1, ?_, by simp [l1, l2], ?_⟩
  · unfold Loki97.Encrypt LRBlocks FeistelNetwork
    rw [if_neg (by rw [hb, h]; decide)]
    simp only [h, Nat.reduceDiv]
    rw [e1, ok_bind]
    dsimp only
    rw [halves_join _ _ l1 l2]
    rfl
  · unfold Loki97.Decrypt LRBlocks decr
    rw [if_neg (by rw [hb]; simp [l1, l2])]
    have hl : (R1 ++ L1).length = 16 := by simp [l1, l2]
    simp only [hl, Nat.reduceDiv]
    rw [List.take_left' l2, List.drop_left' l2]
    rw [show (16 : Nat) = 1 + 16 - 1 by rfl, e2]
    simp only [Nat.sub_self, decr.loop, ok_bind, pure_eq_ok]
    rw [halves_join _ _ (by simp [h]) (by simp [h]), List.take_append_drop]

/-- C1. LOKI97 block round trip: for every 16-byte key and every 16-byte
block, `SetKey` succeeds (on any `Loki97` object), `Encrypt` succeeds with a
16-byte ciphertext and `Decrypt` of that ciphertext returns the block. -/
theorem loki97_round_trip (l0 : Loki97) (k b : Bytes) (hk : k.length = 16)
    (hb : b.length = 16) :
    ∃ l c, Loki97.SetKey l0 k = Except.ok l ∧ Loki97.Encrypt l b = Except.ok c ∧
      c.length = 16 ∧ Loki97.Decrypt l c = Except.ok b := by
  obtain ⟨subKeys, e1, e2⟩ := Loki97_SetKey_ok l0 k hk
  obtain ⟨c, e3, e4, e5⟩ := loki97_block_round_trip
    { key := k, subKeys := subKeys, blockSize := 16 } rfl e2 b hb
  exact ⟨_, c, e1, e3, e4, e5⟩

theorem loki97_round_trip_witness :
    (List.replicate 16 (1 : Byte)).length = 16 ∧ (List.replicate 16 (2 : Byte)).length = 16 ∧
      ∃ l c, Loki97.SetKey Loki97.zero (List.replicate 16 1) = Except.ok l ∧
        Loki97.Encrypt l (List.replicate 16 2) = Except.ok c ∧
        c.length = 16 ∧ Loki97.Decrypt l c = Except.ok (List.replicate 16 2) :=
  ⟨by decide, by decide,
    loki97_round_trip Loki97.zero (List.replicate 16 1) (List.replicate 16 2) (by decide)
      (by decide)⟩

/-! ## The constructor of the context -/

@[simp] theorem wrapf_ok {α : Type} (pre : String) (a : α) :
    wrapf pre (Except.ok a : Result α) = Except.ok a := rfl

theorem wrapf_isOk {α : Type} (pre : String) (r : Result α) :
    (wrapf pre r).isOk = r.isOk := by
  rcases r with (_ | _) | _ <;> rfl

theorem wrapf_isError {α : Type} (pre : String) (r : Result α) :
    (wrapf pre r).isError = r.isError := by
  rcases r with (_ | _) | _ <;> rfl

theorem wrapf_isPanic {α : Type} (pre : String) (r : Result α) :
    (wrapf pre r).isPanic = r.isPanic := by
  rcases r with (_ | _) | _ <;> rfl

theorem isError_of_error {α : Type} (msg : String) :
    Result.isError (Except.error (Fault.error msg) : Result α) = true := rfl

/-- C9. Key-length validation at construction: a key whose length is none of
16, 24, 32 and `blockSize` is rejected with an error; for a key of one of those
lengths the constructor succeeds exactly when the cipher's `SetKey` succeeds
(and returns an error, respectively panics, exactly when `SetKey` does), and
the context it returns stores the key, the mode, the padding, the IV and the
block size it was given, together with the keyed cipher object. -/
theorem NewCryptoSymmetricContext_key_validation {σ : Type} (key : Bytes)
    (cipher : SymmetricAlgorithm σ) (obj : σ) (mode padding : Nat) (iv : Bytes)
    (blockSize : Nat) :
    ((key.length ≠ blockSize ∧ key.length ≠ 16 ∧ key.length ≠ 24 ∧ key.length ≠ 32) →
        (NewCryptoSymmetricContext key cipher obj mode padding iv blockSize).isError = true) ∧
      ((key.length = blockSize ∨ key.length = 16 ∨ key.length = 24 ∨ key.length = 32) →
        (NewCryptoSymmetricContext key cipher obj mode padding iv blockSize).isOk
            = (cipher.SetKey obj key).isOk ∧
          (NewCryptoSymmetricContext key cipher obj mode padding iv blockSize).isError
            = (cipher.SetKey obj key).isError ∧
          (NewCryptoSymmetricContext key cipher obj mode padding iv blockSize).isPanic
            = (cipher.SetKey obj key).isPanic ∧
          ∀ ctx, NewCryptoSymmetricContext key cipher obj mode padding iv blockSize
              = Except.ok ctx →
            ctx.key = key ∧ ctx.mode = mode ∧ ctx.padding = padding ∧ ctx.iv = iv ∧
              ctx.blockSize = blockSize ∧ cipher.SetKey obj key = Except.ok ctx.obj) := by
  constructor
  · intro h
    unfold NewCryptoSymmetricContext
    rw [if_pos h]
    rfl
  · intro h
    unfold NewCryptoSymmetricContext
    rw [if_neg (by omega)]
    rcases hs : cipher.SetKey obj key with (m | m) | obj1
    · exact ⟨rfl, rfl, rfl, fun ctx hctx => by simp [wrapf] at hctx⟩
    · exact ⟨rfl, rfl, rfl, fun ctx hctx => by simp [wrapf] at hctx⟩
    · refine ⟨rfl, rfl, rfl, fun ctx hctx => ?_⟩
      simp only [wrapf_ok, ok_bind, pure_eq_ok, Except.ok.injEq] at hctx
      subst hctx
      exact ⟨rfl, rfl, rfl, rfl, rfl, rfl⟩

theorem NewCryptoSymmetricContext_ok {σ : Type} (key : Bytes)
    (cipher : SymmetricAlgorithm σ) (obj obj1 : σ) (mode padding : Nat) (iv : Bytes)
    (blockSize : Nat)
    (hk : key.length = blockSize ∨ key.length = 16 ∨ key.length = 24 ∨ key.length = 32)
    (hs : cipher.SetKey obj key = Except.ok obj1) :
    NewCryptoSymmetricContext key cipher obj mode padding iv blockSize
      = Except.ok { key := key, cipher := cipher, obj := obj1, mode := mode,
                    padding := padding, iv := iv, blockSize := blockSize } := by
  unfold NewCryptoSymmetricContext
  rw [if_neg (by omega), hs]
  rfl

theorem NewCryptoSymmetricContext_fields {σ : Type} (key : Bytes)
    (cipher : SymmetricAlgorithm σ) (obj : σ) (mode padding : Nat) (iv : Bytes)
    (blockSize : Nat) (ctx : CryptoSymmetricContext σ)
    (h : NewCryptoSymmetricContext key cipher obj mode padding iv blockSize = Except.ok ctx) :
    ctx.key = key ∧ ctx.cipher = cipher ∧ ctx.mode = mode ∧ ctx.padding = padding ∧
      ctx.iv = iv ∧ ctx.blockSize = blockSize ∧ cipher.SetKey obj key = Except.ok ctx.obj := by
  unfold NewCryptoSymmetricContext at h
  split at h
  · simp at h
  · rcases hs : cipher.SetKey obj key with (m | m) | obj1
    · rw [hs] at h; simp [wrapf] at h
    · rw [hs] at h; simp [wrapf] at h
    · rw [hs] at h
      simp only [wrapf_ok, ok_bind, pure_eq_ok, Except.ok.injEq] at h
      subst h
      exact ⟨rfl, rfl, rfl, rfl, rfl, rfl, rfl⟩

/-! ## Padding round trip -/

theorem toByte_val_of_lt (n : Nat) (h : n < 256) : (toByte n).val = n :=
  Nat.mod_eq_of_lt h

theorem lastByte_append_singleton (p : Bytes) (x : Byte) : lastByte (p ++ [x]) = x.val := by
  simp [lastByte]

theorem padLen_bounds (bs len : Nat) (hbs : 1 ≤ bs) :
    1 ≤ bs - len % bs ∧ bs - len % bs ≤ bs := by
  have := Nat.mod_lt len (show 0 < bs by omega)
  omega

theorem padded_length (bs len : Nat) (hbs : 1 ≤ bs) :
    len + (bs - len % bs) = bs * (len / bs + 1) := by
  have h1 := Nat.mod_lt len (show 0 < bs by omega)
  have h2 := Nat.div_add_mod len bs
  rw [Nat.mul_add, Nat.mul_one]
  omega

/-- Removal that trusts the final byte returns `p` from `p ++ fill ++ [n]` when
`n` is the length of the padding. -/
theorem removeISO10126Padding_padded (p fill : Bytes) (n : Nat) (hn : n < 256)
    (hf : fill.length + 1 = n) :
    removeISO10126Padding (p ++ (fill ++ [toByte n])) = Except.ok p := by
  have hne : p ++ (fill ++ [toByte n]) ≠ [] := by simp
  have hlen : (p ++ (fill ++ [toByte n])).length = p.length + n := by
    simp only [List.length_append, List.length_singleton]
    omega
  have hlast : (p ++ (fill ++ [toByte n])).getLastD 0 = toByte n := by
    rw [← List.append_assoc]
    simp
  unfold removeISO10126Padding
  rw [if_neg (by rw [hlen]; omega), idx_last _ hne, ok_bind, hlast, toByte_val_of_lt n hn,
    if_neg (by rw [hlen]; omega), hlen]
  simp

theorem removeANSIX923Padding_padded (p fill : Bytes) (n : Nat) (hn : n < 256)
    (hf : fill.length + 1 = n) :
    removeANSIX923Padding (p ++ (fill ++ [toByte n])) = Except.ok p := by
  have hne : p ++ (fill ++ [toByte n]) ≠ [] := by simp
  have hlen : (p ++ (fill ++ [toByte n])).length = p.length + n := by
    simp only [List.length_append, List.length_singleton]
    omega
  have hlast : (p ++ (fill ++ [toByte n])).getLastD 0 = toByte n := by
    rw [← List.append_assoc]
    simp
  unfold removeANSIX923Padding
  rw [idx_last _ hne, ok_bind, hlast, toByte_val_of_lt n hn,
    if_neg (by rw [hlen]; omega), hlen]
  simp

theorem removePKCS7Padding_padded (p : Bytes) (n : Nat) (hn : n < 256) (h1 : 1 ≤ n) :
    removePKCS7Padding (p ++ List.replicate n (toByte n)) = Except.ok p := by
  have hlen : (p ++ List.replicate n (toByte n)).length = p.length + n := by simp
  have hlast : lastByte (p ++ List.replicate n (toByte n)) = n := by
    obtain ⟨m, rfl⟩ : ∃ m, n = m + 1 := ⟨n - 1, by omega⟩
    rw [List.replicate_succ', ← List.append_assoc, lastByte_append_singleton,
      toByte_val_of_lt _ hn]
  have hwf : pkcs7WellFormed (p ++ List.replicate n (toByte n)) := by
    refine ⟨?_, ?_, ?_, ?_⟩
    · intro h
      have := congrArg List.length h
      rw [hlen] at this
      simp at this
      omega
    · rw [hlast]; exact h1
    · rw [hlast, hlen]; omega
    · rw [hlast, hlen]
      intro x hx
      rw [show p.length + n - n = p.length by omega, List.drop_left] at hx
      rw [List.eq_of_mem_replicate hx, toByte_val_of_lt _ hn]
  rw [(removePKCS7Padding_spec _).1 hwf, hlast, hlen]
  simp

/-- Padding with ANSI X9.23, PKCS#7 or ISO 10126 succeeds, yields a whole
number of blocks and is undone by `RemovePadding`. -/
theorem padding_round_trip {σ : Type} (cstc : CryptoSymmetricContext σ) (tape p : Bytes)
    (hbs : 1 ≤ cstc.blockSize) (hbs2 : cstc.blockSize ≤ 255)
    (hpad : cstc.padding = ANSIX923 ∨ cstc.padding = PKCS7 ∨ cstc.padding = ISO10126)
    (ht : cstc.padding = ISO10126 → cstc.blockSize - 1 ≤ tape.length) :
    ∃ padded tape1, cstc.AddPadding tape p = Except.ok (padded, tape1) ∧
      padded.length = cstc.blockSize * (p.length / cstc.blockSize + 1) ∧
      cstc.RemovePadding padded = Except.ok p := by
  obtain ⟨b1, b2⟩ := padLen_bounds cstc.blockSize p.length hbs
  have hl := padded_length cstc.blockSize p.length hbs
  unfold CryptoSymmetricContext.AddPadding CryptoSymmetricContext.RemovePadding
  rw [if_neg (by omega)]
  dsimp only
  rw [if_neg (show ¬ (cstc.blockSize - p.length % cstc.blockSize = 0) by omega)]
  rcases hpad with h | h | h
  · rw [h, if_neg (by decide), if_pos rfl]
    unfold ANSIX923Padding
    rw [if_neg (by omega)]
    refine ⟨_, tape, rfl, ?_, ?_⟩
    · rw [← hl]
      simp only [List.length_append, List.length_replicate, List.length_singleton]
      omega
    · rw [if_neg (by decide), if_pos rfl]
      exact removeANSIX923Padding_padded p _ _ (by omega) (by rw [List.length_replicate]; omega)
  · rw [h, if_neg (by decide), if_neg (by decide), if_pos rfl]
    unfold PKCS7Padding
    rw [if_neg (by omega)]
    refine ⟨_, tape, rfl, ?_, ?_⟩
    · rw [← hl]
      simp only [List.length_append, List.length_replicate]
    · rw [if_neg (by decide), if_neg (by decide), if_pos rfl]
      exact removePKCS7Padding_padded p _ (by omega) b1
  · have ht1 := ht h
    rw [h, if_neg (by decide), if_neg (by decide), if_neg (by decide), if_pos rfl]
    unfold ISO10126Padding randRead
    rw [if_neg (by omega), if_pos (by omega)]
    refine ⟨_, _, rfl, ?_, ?_⟩
    · rw [← hl]
      simp only [List.length_append, List.length_take, List.length_singleton]
      omega
    · rw [if_neg (by decide), if_neg (by decide), if_neg (by decide), if_pos rfl]
      exact removeISO10126Padding_padded p _ _ (by omega)
        (by rw [List.length_take]; omega)

/-! ## `copy` into a buffer, block by block -/

theorem copyAt_fit {α : Type} (dst src : List α) (a : Nat) (h : a + src.length ≤ dst.length) :
    copyAt dst a src = dst.take a ++ (src ++ dst.drop (a + src.length)) := by
  unfold copyAt
  rw [List.take_of_length_le (show src.length ≤ dst.length - a by omega)]

theorem copyAt_take_end {α : Type} (dst src : List α) (a : Nat)
    (h : a + src.length ≤ dst.length) :
    (copyAt dst a src).take (a + src.length) = dst.take a ++ src := by
  rw [copyAt_fit _ _ _ h, ← List.append_assoc]
  apply List.take_left'
  rw [List.length_append, List.length_take]
  omega

theorem copyAt_drop_end {α : Type} (dst src : List α) (a k : Nat)
    (h : a + src.length ≤ dst.length) :
    (copyAt dst a src).drop (a + src.length + k) = dst.drop (a + src.length + k) := by
  rw [copyAt_fit _ _ _ h, ← List.append_assoc]
  have hl : (dst.take a ++ src).length = a + src.length := by
    rw [List.length_append, List.length_take]
    omega
  rw [← hl, List.drop_append, List.drop_drop, hl]

theorem slice_block {α : Type} (l : List α) (a bs : Nat) (h : a + bs ≤ l.length) :
    slice l a (a + bs) = Except.ok ((l.drop a).take bs) := by
  unfold slice
  rw [if_pos ⟨by omega, h⟩, Nat.add_sub_cancel_left]
  rfl

theorem block_length {α : Type} (l : List α) (a bs : Nat) (h : a + bs ≤ l.length) :
    ((l.drop a).take bs).length = bs := by
  rw [List.length_take, List.length_drop]
  omega

theorem firstN_full (a : Bytes) (n : Nat) (h : a.length = n) : firstN a n = Except.ok a := by
  unfold firstN
  rw [if_neg (by omega), List.take_of_length_le (by omega)]
  rfl

/-! ## ECB -/

theorem ecb_encrypt_loop {σ : Type} (cstc : CryptoSymmetricContext σ) (E : Bytes → Bytes)
    (bs : Nat) (hc : BlockCipher cstc E bs) (data : Bytes) :
    ∀ (n i : Nat) (out : Bytes), out.length = data.length → i * bs + n * bs ≤ data.length →
      ecbLoop (cstc.cipher.Encrypt cstc.obj) data bs n i out
        = Except.ok (out.take (i * bs) ++ (ecbSpec E bs n (data.drop (i * bs))
            ++ out.drop (i * bs + n * bs))) := by
  intro n
  induction n with
  | zero =>
    intro i out _ _
    simp [ecbLoop, ecbSpec]
  | succ n ih =>
    intro i out ho hi
    have e1 : (n + 1) * bs = bs + n * bs := by ring
    have e2 : (i + 1) * bs = i * bs + bs := by ring
    have hb : i * bs + bs ≤ data.length := by omega
    have hbl := block_length data (i * bs) bs hb
    have hEl := hc.len _ hbl
    rw [ecbLoop, slice_block _ _ _ hb, ok_bind, hc.enc _ hbl, wrapf_ok, ok_bind,
      ih (i + 1) _ (by rw [copyAt_length]; exact ho) (by omega), ecbSpec, e2]
    congr 1
    have h1 := copyAt_take_end out (E ((data.drop (i * bs)).take bs)) (i * bs)
      (by rw [hEl]; omega)
    have h2 := copyAt_drop_end out (E ((data.drop (i * bs)).take bs)) (i * bs) (n * bs)
      (by rw [hEl]; omega)
    rw [hEl] at h1 h2
    rw [h1, h2, List.drop_drop, List.append_assoc, List.append_assoc]
    congr 3
    congr 1
    omega

theorem ecb_decrypt_loop {σ : Type} (cstc : CryptoSymmetricContext σ) (E : Bytes → Bytes)
    (bs : Nat) (hc : BlockCipher cstc E bs) (ct : Bytes) :
    ∀ (n i : Nat) (out pt : Bytes), out.length = ct.length → pt.length = n * bs →
      ct.drop (i * bs) = ecbSpec E bs n pt → ct.length = i * bs + n * bs →
      ecbLoop (cstc.cipher.Decrypt cstc.obj) ct bs n i out
        = Except.ok (out.take (i * bs) ++ pt) := by
  intro n
  induction n with
  | zero =>
    intro i out pt ho hp _ hl
    have : pt = [] := List.length_eq_zero.mp (by omega)
    subst this
    rw [ecbLoop, List.append_nil, List.take_of_length_le (by omega)]
    rfl
  | succ n ih =>
    intro i out pt ho hp hct hl
    have e1 : (n + 1) * bs = bs + n * bs := by ring
    have e2 : (i + 1) * bs = i * bs + bs := by ring
    have hb : i * bs + bs ≤ ct.length := by omega
    have hpl : (pt.take bs).length = bs := by rw [List.length_take]; omega
    have hEl := hc.len _ hpl
    rw [ecbSpec] at hct
    have hblk : (ct.drop (i * bs)).take bs = E (pt.take bs) := by
      rw [hct]; exact List.take_left' hEl
    have hrest : ct.drop ((i + 1) * bs) = ecbSpec E bs n (pt.drop bs) := by
      rw [e2, ← List.drop_drop, hct]; exact List.drop_left' hEl
    rw [ecbLoop, slice_block _ _ _ hb, ok_bind, hblk, hc.dec _ hpl, wrapf_ok, ok_bind,
      ih (i + 1) _ (pt.drop bs) (by rw [copyAt_length]; exact ho)
        (by rw [List.length_drop]; omega) hrest (by omega), e2]
    have h1 := copyAt_take_end out (pt.take bs) (i * bs) (by rw [hpl]; omega)
    rw [hpl] at h1
    rw [h1, List.append_assoc, List.take_append_drop]

/-! ## XOR of byte strings -/

theorem byte_xor_val (x y : Byte) : (x ^^^ y).val = x.val ^^^ y.val := by
  show (x.val ^^^ y.val) % 256 = x.val ^^^ y.val
  exact Nat.mod_eq_of_lt (Nat.xor_lt_two_pow (n := 8) x.isLt y.isLt)

theorem byte_xor_comm (x y : Byte) : x ^^^ y = y ^^^ x := by
  apply Fin.ext
  rw [byte_xor_val, byte_xor_val, Nat.xor_comm]

theorem byte_xor_cancel_left (x y : Byte) : x ^^^ (x ^^^ y) = y := by
  apply Fin.ext
  rw [byte_xor_val, byte_xor_val, ← Nat.xor_assoc, Nat.xor_self, Nat.zero_xor]

theorem byte_xor_pcbc (p a b : Byte) : p ^^^ a ^^^ b ^^^ a ^^^ b = p := by
  apply Fin.ext
  simp only [byte_xor_val]
  rw [Nat.xor_assoc (p.val ^^^ a.val), Nat.xor_comm b.val, ← Nat.xor_assoc, xor_xor_cancel,
    xor_xor_cancel]

theorem xorBytes_pcbc : ∀ (p a b : Bytes), p.length = a.length → p.length = b.length →
    xorBytes (xorBytes (xorBytes (xorBytes p a) b) a) b = p := by
  intro p
  induction p with
  | nil => intro a b _ _; cases a <;> rfl
  | cons x xs ih =>
    intro a b ha hb
    cases a with
    | nil => simp at ha
    | cons y ys =>
      cases b with
      | nil => simp at hb
      | cons z zs =>
        simp only [xorBytes, List.zipWith_cons_cons]
        rw [byte_xor_pcbc]
        congr 1
        exact ih ys zs (by simpa using ha) (by simpa using hb)

theorem copyAt_read {α : Type} (dst src : List α) (a : Nat) (h : a + src.length ≤ dst.length) :
    ((copyAt dst a src).drop a).take src.length = src := by
  rw [copyAt_fit _ _ _ h, List.drop_left' (by rw [List.length_take]; omega)]
  exact List.take_left' rfl

/-! ## CBC -/

theorem cbc_encrypt_loop {σ : Type} (cstc : CryptoSymmetricContext σ) (E : Bytes → Bytes)
    (hc : BlockCipher cstc E cstc.blockSize) (data : Bytes) :
    ∀ (n i : Nat) (out prev : Bytes), out.length = data.length →
      prev.length = cstc.blockSize → i * cstc.blockSize + n * cstc.blockSize ≤ data.length →
      CryptoSymmetricContext.encryptCBC.loop cstc data n i out prev
        = Except.ok (out.take (i * cstc.blockSize)
            ++ (cbcSpec E cstc.blockSize n prev (data.drop (i * cstc.blockSize))
            ++ out.drop (i * cstc.blockSize + n * cstc.blockSize))) := by
  intro n
  induction n with
  | zero =>
    intro i out prev _ _ _
    simp [CryptoSymmetricContext.encryptCBC.loop, cbcSpec]
  | succ n ih =>
    intro i out prev ho hp hi
    generalize hbs : cstc.blockSize = bs at *
    have e1 : (n + 1) * bs = bs + n * bs := by ring
    have e2 : (i + 1) * bs = i * bs + bs := by ring
    have hb : i * bs + bs ≤ data.length := by omega
    have hbl := block_length data (i * bs) bs hb
    have hxl : (xorBytes ((data.drop (i * bs)).take bs) prev).length = bs := by
      rw [xorBytes_length _ _ (by omega)]; exact hbl
    have hEl := hc.len _ hxl
    rw [CryptoSymmetricContext.encryptCBC.loop]
    simp only [hbs]
    rw [slice_block _ _ _ hb, ok_bind, hc.enc _ hxl, wrapf_ok, ok_bind,
      copyAt_zero_full prev _ (by omega),
      ih (i + 1) _ _ (by rw [copyAt_length]; exact ho) hEl (by omega), cbcSpec, e2]
    congr 1
    have h1 := copyAt_take_end out (E (xorBytes ((data.drop (i * bs)).take bs) prev)) (i * bs)
      (by rw [hEl]; omega)
    have h2 := copyAt_drop_end out (E (xorBytes ((data.drop (i * bs)).take bs) prev)) (i * bs)
      (n * bs) (by rw [hEl]; omega)
    rw [hEl] at h1 h2
    rw [h1, h2, List.drop_drop, List.append_assoc, List.append_assoc]
    congr 3
    congr 1
    omega

theorem cbc_decrypt_loop {σ : Type} (cstc : CryptoSymmetricContext σ) (E : Bytes → Bytes)
    (hc : BlockCipher cstc E cstc.blockSize) (ct : Bytes) :
    ∀ (n i : Nat) (out prev pt : Bytes), out.length = ct.length →
      prev.length = cstc.blockSize → pt.length = n * cstc.blockSize →
      ct.drop (i * cstc.blockSize) = cbcSpec E cstc.blockSize n prev pt →
      ct.length = i * cstc.blockSize + n * cstc.blockSize →
      CryptoSymmetricContext.decryptCBC.loop cstc ct n i out prev
        = Except.ok (out.take (i * cstc.blockSize) ++ pt) := by
  intro n
  induction n with
  | zero =>
    intro i out prev pt ho _ hp _ hl
    have : pt = [] := List.length_eq_zero.mp (by omega)
    subst this
    rw [CryptoSymmetricContext.decryptCBC.loop, List.append_nil,
      List.take_of_length_le (by omega)]
    rfl
  | succ n ih =>
    intro i out prev pt ho hpv hp hct hl
    generalize hbs : cstc.blockSize = bs at *
    have e1 : (n + 1) * bs = bs + n * bs := by ring
    have e2 : (i + 1) * bs = i * bs + bs := by ring
    have hb : i * bs + bs ≤ ct.length := by omega
    have hpl : (pt.take bs).length = bs := by rw [List.length_take]; omega
    have hxl : (xorBytes (pt.take bs) prev).length = bs := by
      rw [xorBytes_length _ _ (by omega)]; exact hpl
    have hEl := hc.len _ hxl
    rw [cbcSpec] at hct
    have hblk : (ct.drop (i * bs)).take bs = E (xorBytes (pt.take bs) prev) := by
      rw [hct]; exact List.take_left' hEl
    have hrest : ct.drop ((i + 1) * bs)
        = cbcSpec E bs n (E (xorBytes (pt.take bs) prev)) (pt.drop bs) := by
      rw [e2, ← List.drop_drop, hct]; exact List.drop_left' hEl
    rw [CryptoSymmetricContext.decryptCBC.loop]
    simp only [hbs]
    rw [slice_block _ _ _ hb, ok_bind, hblk, hc.dec _ hxl, wrapf_ok, ok_bind,
      firstN_full _ _ hxl, ok_bind, xorBytes_cancel _ _ (by omega),
      copyAt_zero_full prev _ (by omega),
      ih (i + 1) _ _ (pt.drop bs) (by rw [copyAt_length]; exact ho) hEl
        (by rw [List.length_drop]; omega) hrest (by omega), e2]
    have h1 := copyAt_take_end out (pt.take bs) (i * bs) (by rw [hpl]; omega)
    rw [hpl] at h1
    rw [h1, List.append_assoc, List.take_append_drop]

/-! ## PCBC -/

theorem pcbc_encrypt_loop {σ : Type} (cstc : CryptoSymmetricContext σ) (E : Bytes → Bytes)
    (hc : BlockCipher cstc E cstc.blockSize) (data : Bytes) :
    ∀ (n i : Nat) (out pp pc : Bytes), out.length = data.length →
      pp.length = cstc.blockSize → pc.length = cstc.blockSize →
      i * cstc.blockSize + n * cstc.blockSize ≤ data.length →
      CryptoSymmetricContext.encryptPCBC.loop cstc data n i out pp pc
        = Except.ok (out.take (i * cstc.blockSize)
            ++ (pcbcSpec E cstc.blockSize n pp pc (data.drop (i * cstc.blockSize))
            ++ out.drop (i * cstc.blockSize + n * cstc.blockSize))) := by
  intro n
  induction n with
  | zero =>
    intro i out pp pc _ _ _ _
    simp [CryptoSymmetricContext.encryptPCBC.loop, pcbcSpec]
  | succ n ih =>
    intro i out pp pc ho hpp hpc hi
    generalize hbs : cstc.blockSize = bs at *
    have e1 : (n + 1) * bs = bs + n * bs := by ring
    have e2 : (i + 1) * bs = i * bs + bs := by ring
    have hb : i * bs + bs ≤ data.length := by omega
    have hbl := block_length data (i * bs) bs hb
    have hx1 : (xorBytes ((data.drop (i * bs)).take bs) pp).length = bs := by
      rw [xorBytes_length _ _ (by omega)]; exact hbl
    have hxl : (xorBytes (xorBytes ((data.drop (i * bs)).take bs) pp) pc).length = bs := by
      rw [xorBytes_length _ _ (by omega)]; exact hx1
    have hEl := hc.len _ hxl
    rw [CryptoSymmetricContext.encryptPCBC.loop]
    simp only [hbs]
    rw [slice_block _ _ _ hb, ok_bind, hc.enc _ hxl, wrapf_ok, ok_bind,
      copyAt_zero_full pp _ (by omega), copyAt_zero_full pc _ (by omega),
      ih (i + 1) _ _ _ (by rw [copyAt_length]; exact ho) hbl hEl (by omega), pcbcSpec, e2]
    congr 1
    have h1 := copyAt_take_end out
      (E (xorBytes (xorBytes ((data.drop (i * bs)).take bs) pp) pc)) (i * bs)
      (by rw [hEl]; omega)
    have h2 := copyAt_drop_end out
      (E (xorBytes (xorBytes ((data.drop (i * bs)).take bs) pp) pc)) (i * bs)
      (n * bs) (by rw [hEl]; omega)
    rw [hEl] at h1 h2
    rw [h1, h2, List.drop_drop, List.append_assoc, List.append_assoc]
    congr 3
    congr 1
    omega

theorem pcbc_decrypt_loop {σ : Type} (cstc : CryptoSymmetricContext σ) (E : Bytes → Bytes)
    (hc : BlockCipher cstc E cstc.blockSize) (ct : Bytes) :
    ∀ (n i : Nat) (out pp pc pt : Bytes), out.length = ct.length →
      pp.length = cstc.blockSize → pc.length = cstc.blockSize →
      pt.length = n * cstc.blockSize →
      ct.drop (i * cstc.blockSize) = pcbcSpec E cstc.blockSize n pp pc pt →
      ct.length = i * cstc.blockSize + n * cstc.blockSize →
      CryptoSymmetricContext.decryptPCBC.loop cstc ct n i out pp pc
        = Except.ok (out.take (i * cstc.blockSize) ++ pt) := by
  intro n
  induction n with
  | zero =>
    intro i out pp pc pt ho _ _ hp _ hl
    have : pt = [] := List.length_eq_zero.mp (by omega)
    subst this
    rw [CryptoSymmetricContext.decryptPCBC.loop, List.append_nil,
      List.take_of_length_le (by omega)]
    rfl
  | succ n ih =>
    intro i out pp pc pt ho hpp hpc hp hct hl
    generalize hbs : cstc.blockSize = bs at *
    have e1 : (n + 1) * bs = bs + n * bs := by ring
    have e2 : (i + 1) * bs = i * bs + bs := by ring
    have hb : i * bs + bs ≤ ct.length := by omega
    have hpl : (pt.take bs).length = bs := by rw [List.length_take]; omega
    have hx1 : (xorBytes (pt.take bs) pp).length = bs := by
      rw [xorBytes_length _ _ (by omega)]; exact hpl
    have hxl : (xorBytes (xorBytes (pt.take bs) pp) pc).length = bs := by
      rw [xorBytes_length _ _ (by omega)]; exact hx1
    have hEl := hc.len _ hxl
    rw [pcbcSpec] at hct
    have hblk : (ct.drop (i * bs)).take bs = E (xorBytes (xorBytes (pt.take bs) pp) pc) := by
      rw [hct]; exact List.take_left' hEl
    have hrest : ct.drop ((i + 1) * bs)
        = pcbcSpec E bs n (pt.take bs) (E (xorBytes (xorBytes (pt.take bs) pp) pc))
            (pt.drop bs) := by
      rw [e2, ← List.drop_drop, hct]; exact List.drop_left' hEl
    have hfit : i * bs + (pt.take bs).length ≤ out.length := by rw [hpl]; omega
    have hw := copyAt_read out (pt.take bs) (i * bs) hfit
    rw [hpl] at hw
    rw [CryptoSymmetricContext.decryptPCBC.loop]
    simp only [hbs]
    rw [slice_block _ _ _ hb, ok_bind, hblk, hc.dec _ hxl, wrapf_ok, ok_bind,
      firstN_full _ _ hxl, ok_bind, xorBytes_pcbc _ _ _ (by omega) (by omega),
      slice_block _ _ _ (by rw [copyAt_length]; omega), ok_bind, hw,
      copyAt_zero_full pp _ (by omega), copyAt_zero_full pc _ (by omega),
      ih (i + 1) _ _ _ (pt.drop bs) (by rw [copyAt_length]; exact ho) hpl hEl
        (by rw [List.length_drop]; omega) hrest (by omega), e2]
    have h1 := copyAt_take_end out (pt.take bs) (i * bs) hfit
    rw [hpl] at h1
    rw [h1, List.append_assoc, List.take_append_drop]

/-! ## CFB -/

theorem cfb_encrypt_loop {σ : Type} (cstc : CryptoSymmetricContext σ) (E : Bytes → Bytes)
    (hc : BlockCipher cstc E cstc.blockSize) (data : Bytes) :
    ∀ (n i : Nat) (out fb : Bytes), out.length = data.length →
      fb.length = cstc.blockSize → i * cstc.blockSize + n * cstc.blockSize ≤ data.length →
      CryptoSymmetricContext.encryptCFB.loop cstc data n i out fb
        = Except.ok (out.take (i * cstc.blockSize)
            ++ (cfbSpec E cstc.blockSize n fb (data.drop (i * cstc.blockSize))
            ++ out.drop (i * cstc.blockSize + n * cstc.blockSize))) := by
  intro n
  induction n with
  | zero =>
    intro i out fb _ _ _
    simp [CryptoSymmetricContext.encryptCFB.loop, cfbSpec]
  | succ n ih =>
    intro i out fb ho hf hi
    generalize hbs : cstc.blockSize = bs at *
    have e1 : (n + 1) * bs = bs + n * bs := by ring
    have e2 : (i + 1) * bs = i * bs + bs := by ring
    have hb : i * bs + bs ≤ data.length := by omega
    have hbl := block_length data (i * bs) bs hb
    have hEl := hc.len _ hf
    have hxl : (xorBytes ((data.drop (i * bs)).take bs) (E fb)).length = bs := by
      rw [xorBytes_length _ _ (by omega)]; exact hbl
    have hfit : i * bs + (xorBytes ((data.drop (i * bs)).take bs) (E fb)).length
        ≤ out.length := by rw [hxl]; omega
    have hw := copyAt_read out _ (i * bs) hfit
    rw [hxl] at hw
    rw [CryptoSymmetricContext.encryptCFB.loop]
    simp only [hbs]
    rw [slice_block _ _ _ hb, ok_bind, hc.enc _ hf, wrapf_ok, ok_bind,
      firstN_full _ _ hEl, ok_bind,
      slice_block _ _ _ (by rw [copyAt_length]; omega), ok_bind, hw,
      copyAt_zero_full fb _ (by omega),
      ih (i + 1) _ _ (by rw [copyAt_length]; exact ho) hxl (by omega), cfbSpec, e2]
    congr 1
    have h1 := copyAt_take_end out _ (i * bs) hfit
    have h2 := copyAt_drop_end out _ (i * bs) (n * bs) hfit
    rw [hxl] at h1 h2
    rw [h1, h2, List.drop_drop, List.append_assoc, List.append_assoc]
    congr 3
    congr 1
    omega

theorem cfb_decrypt_loop {σ : Type} (cstc : CryptoSymmetricContext σ) (E : Bytes → Bytes)
    (hc : BlockCipher cstc E cstc.blockSize) (ct : Bytes) :
    ∀ (n i : Nat) (out fb pt : Bytes), out.length = ct.length →
      fb.length = cstc.blockSize → pt.length = n * cstc.blockSize →
      ct.drop (i * cstc.blockSize) = cfbSpec E cstc.blockSize n fb pt →
      ct.length = i * cstc.blockSize + n * cstc.blockSize →
      CryptoSymmetricContext.decryptCFB.loop cstc ct n i out fb
        = Except.ok (out.take (i * cstc.blockSize) ++ pt) := by
  intro n
  induction n with
  | zero =>
    intro i out fb pt ho _ hp _ hl
    have : pt = [] := List.length_eq_zero.mp (by omega)
    subst this
    rw [CryptoSymmetricContext.decryptCFB.loop, List.append_nil,
      List.take_of_length_le (by omega)]
    rfl
  | succ n ih =>
    intro i out fb pt ho hf hp hct hl
    generalize hbs : cstc.blockSize = bs at *
    have e1 : (n + 1) * bs = bs + n * bs := by ring
    have e2 : (i + 1) * bs = i * bs + bs := by ring
    have hb : i * bs + bs ≤ ct.length := by omega
    have hpl : (pt.take bs).length = bs := by rw [List.length_take]; omega
    have hEl := hc.len _ hf
    have hxl : (xorBytes (pt.take bs) (E fb)).length = bs := by
      rw [xorBytes_length _ _ (by omega)]; exact hpl
    rw [cfbSpec] at hct
    have hblk : (ct.drop (i * bs)).take bs = xorBytes (pt.take bs) (E fb) := by
      rw [hct]; exact List.take_left' hxl
    have hrest : ct.drop ((i + 1) * bs)
        = cfbSpec E bs n (xorBytes (pt.take bs) (E fb)) (pt.drop bs) := by
      rw [e2, ← List.drop_drop, hct]; exact List.drop_left' hxl
    rw [CryptoSymmetricContext.decryptCFB.loop]
    simp only [hbs]
    rw [slice_block _ _ _ hb, ok_bind, hblk, hc.enc _ hf, wrapf_ok, ok_bind,
      firstN_full _ _ hEl, ok_bind, xorBytes_cancel _ _ (by omega),
      copyAt_zero_full fb _ (by omega),
      ih (i + 1) _ _ (pt.drop bs) (by rw [copyAt_length]; exact ho) hxl
        (by rw [List.length_drop]; omega) hrest (by omega), e2]
    have h1 := copyAt_take_end out (pt.take bs) (i * bs) (by rw [hpl]; omega)
    rw [hpl] at h1
    rw [h1, List.append_assoc, List.take_append_drop]

/-! ## OFB -/

theorem xorChunk_block (out data ks : Bytes) (i bs : Nat) (hk : ks.length = bs) :
    xorChunk out data i (i + bs) ks
      = Except.ok (copyAt out i (xorBytes ((data.drop i).take bs) ks)) := by
  unfold xorChunk
  rw [Nat.add_sub_cancel_left, firstN_full _ _ hk]
  rfl

theorem ofb_loop {σ : Type} (cstc : CryptoSymmetricContext σ) (E : Bytes → Bytes)
    (hc : BlockCipher cstc E cstc.blockSize) (data : Bytes) :
    ∀ (n k : Nat) (out fb : Bytes), out.length = data.length →
      fb.length = cstc.blockSize → k * cstc.blockSize + n * cstc.blockSize ≤ data.length →
      CryptoSymmetricContext.encryptOFB.loop cstc data n k out fb
        = Except.ok (out.take (k * cstc.blockSize)
            ++ (ofbSpec E cstc.blockSize n fb (data.drop (k * cstc.blockSize))
            ++ out.drop (k * cstc.blockSize + n * cstc.blockSize))) := by
  intro n
  induction n with
  | zero =>
    intro k out fb _ _ _
    simp [CryptoSymmetricContext.encryptOFB.loop, ofbSpec]
  | succ n ih =>
    intro k out fb ho hf hi
    generalize hbs : cstc.blockSize = bs at *
    have e1 : (n + 1) * bs = bs + n * bs := by ring
    have e2 : (k + 1) * bs = k * bs + bs := by ring
    have hb : k * bs + bs ≤ data.length := by omega
    have hbl := block_length data (k * bs) bs hb
    have hEl := hc.len _ hf
    have hxl : (xorBytes ((data.drop (k * bs)).take bs) (E fb)).length = bs := by
      rw [xorBytes_length _ _ (by omega)]; exact hbl
    have hfit : k * bs + (xorBytes ((data.drop (k * bs)).take bs) (E fb)).length
        ≤ out.length := by rw [hxl]; omega
    rw [CryptoSymmetricContext.encryptOFB.loop]
    simp only [hbs]
    rw [hc.enc _ hf, wrapf_ok, ok_bind, Nat.min_eq_left hb, xorChunk_block _ _ _ _ _ hEl,
      ok_bind, copyAt_zero_full fb _ (by omega),
      ih (k + 1) _ _ (by rw [copyAt_length]; exact ho) hEl (by omega), ofbSpec, e2]
    congr 1
    have h1 := copyAt_take_end out _ (k * bs) hfit
    have h2 := copyAt_drop_end out _ (k * bs) (n * bs) hfit
    rw [hxl] at h1 h2
    rw [h1, h2, List.drop_drop, List.append_assoc, List.append_assoc]
    congr 3
    congr 1
    omega

theorem ofbSpec_length (E : Bytes → Bytes) (bs : Nat)
    (hE : ∀ b, b.length = bs → (E b).length = bs) :
    ∀ (n : Nat) (fb pt : Bytes), fb.length = bs → pt.length = n * bs →
      (ofbSpec E bs n fb pt).length = n * bs := by
  intro n
  induction n with
  | zero => intro fb pt _ _; simp [ofbSpec]
  | succ n ih =>
    intro fb pt hf hp
    have e1 : (n + 1) * bs = bs + n * bs := by ring
    have hpl : (pt.take bs).length = bs := by rw [List.length_take]; omega
    rw [ofbSpec, List.length_append, xorBytes_length _ _ (by rw [hE _ hf]; exact hpl), hpl,
      ih _ _ (hE _ hf) (by rw [List.length_drop]; omega)]
    omega

theorem ofbSpec_involutive (E : Bytes → Bytes) (bs : Nat)
    (hE : ∀ b, b.length = bs → (E b).length = bs) :
    ∀ (n : Nat) (fb pt : Bytes), fb.length = bs → pt.length = n * bs →
      ofbSpec E bs n fb (ofbSpec E bs n fb pt) = pt := by
  intro n
  induction n with
  | zero =>
    intro fb pt _ hp
    have : pt = [] := List.length_eq_zero.mp (by omega)
    subst this
    rfl
  | succ n ih =>
    intro fb pt hf hp
    have e1 : (n + 1) * bs = bs + n * bs := by ring
    have hpl : (pt.take bs).length = bs := by rw [List.length_take]; omega
    have hxl : (xorBytes (pt.take bs) (E fb)).length = bs := by
      rw [xorBytes_length _ _ (by rw [hE _ hf]; exact hpl)]; exact hpl
    rw [ofbSpec, ofbSpec, List.take_left' hxl, List.drop_left' hxl,
      xorBytes_cancel _ _ (by rw [hE _ hf]; exact hpl),
      ih _ _ (hE _ hf) (by rw [List.length_drop]; omega), List.take_append_drop]

/-! ## CTR -/

theorem incrementCounter_loop_length :
    ∀ (c : Bytes) (carry : Nat), (incrementCounter.loop c carry).length = c.length := by
  intro c
  induction c with
  | nil => intro carry; rfl
  | cons x xs ih =>
    intro carry
    rw [incrementCounter.loop]
    split
    · simp only [List.length_cons, ih]
    · rfl

theorem incrementCounter_length (c : Bytes) (k : Nat) :
    (incrementCounter c k).length = c.length := by
  rw [incrementCounter, List.length_reverse, incrementCounter_loop_length,
    List.length_reverse]

theorem ctr_loop {σ : Type} (cstc : CryptoSymmetricContext σ) (E : Bytes → Bytes)
    (hc : BlockCipher cstc E cstc.blockSize) (data counter : Bytes)
    (hcl : counter.length = cstc.blockSize) :
    ∀ (n k : Nat) (out : Bytes), out.length = data.length →
      k * cstc.blockSize + n * cstc.blockSize ≤ data.length →
      CryptoSymmetricContext.encryptCTR.loop cstc data counter n k out
        = Except.ok (out.take (k * cstc.blockSize)
            ++ (ctrSpec E cstc.blockSize counter n k (data.drop (k * cstc.blockSize))
            ++ out.drop (k * cstc.blockSize + n * cstc.blockSize))) := by
  intro n
  induction n with
  | zero =>
    intro k out _ _
    simp [CryptoSymmetricContext.encryptCTR.loop, ctrSpec]
  | succ n ih =>
    intro k out ho hi
    generalize hbs : cstc.blockSize = bs at *
    have e1 : (n + 1) * bs = bs + n * bs := by ring
    have e2 : (k + 1) * bs = k * bs + bs := by ring
    have hb : k * bs + bs ≤ data.length := by omega
    have hbl := block_length data (k * bs) bs hb
    have hil : (incrementCounter counter k).length = bs := by
      rw [incrementCounter_length]; exact hcl
    have hEl := hc.len _ hil
    have hxl : (xorBytes ((data.drop (k * bs)).take bs)
        (E (incrementCounter counter k))).length = bs := by
      rw [xorBytes_length _ _ (by omega)]; exact hbl
    have hfit : k * bs + (xorBytes ((data.drop (k * bs)).take bs)
        (E (incrementCounter counter k))).length ≤ out.length := by rw [hxl]; omega
    rw [CryptoSymmetricContext.encryptCTR.loop]
    simp only [hbs]
    rw [copyAt_zero_full (zeros bs) counter (by rw [zeros_length]; exact hcl),
      hc.enc _ hil, wrapf_ok, ok_bind, if_neg (by omega), xorChunk_block _ _ _ _ _ hEl,
      ok_bind, ih (k + 1) _ (by rw [copyAt_length]; exact ho) (by omega), ctrSpec, e2]
    congr 1
    have h1 := copyAt_take_end out _ (k * bs) hfit
    have h2 := copyAt_drop_end out _ (k * bs) (n * bs) hfit
    rw [hxl] at h1 h2
    rw [h1, h2, List.drop_drop, List.append_assoc, List.append_assoc]
    congr 3
    congr 1
    omega

theorem ctrSpec_involutive (E : Bytes → Bytes) (bs : Nat) (counter : Bytes)
    (hcl : counter.length = bs) (hE : ∀ b, b.length = bs → (E b).length = bs) :
    ∀ (n k : Nat) (pt : Bytes), pt.length = n * bs →
      ctrSpec E bs counter n k (ctrSpec E bs counter n k pt) = pt := by
  intro n
  induction n with
  | zero =>
    intro k pt hp
    have : pt = [] := List.length_eq_zero.mp (by omega)
    subst this
    rfl
  | succ n ih =>
    intro k pt hp
    have e1 : (n + 1) * bs = bs + n * bs := by ring
    have hpl : (pt.take bs).length = bs := by rw [List.length_take]; omega
    have hil : (incrementCounter counter k).length = bs := by
      rw [incrementCounter_length]; exact hcl
    have hxl : (xorBytes (pt.take bs) (E (incrementCounter counter k))).length = bs := by
      rw [xorBytes_length _ _ (by rw [hE _ hil]; exact hpl)]; exact hpl
    rw [ctrSpec, ctrSpec, List.take_left' hxl, List.drop_left' hxl,
      xorBytes_cancel _ _ (by rw [hE _ hil]; exact hpl),
      ih _ _ (by rw [List.length_drop]; omega), List.take_append_drop]

/-! ## Every mode returns as many bytes as it is given -/

theorem bind_eq_ok {α β : Type} {x : Result α} {k : α → Result β} {b : β}
    (h : (x >>= k) = Except.ok b) : ∃ a, x = Except.ok a ∧ k a = Except.ok b := by
  cases x with
  | error e => exact absurd h (by simp)
  | ok a => exact ⟨a, rfl, h⟩

theorem wrapf_eq_ok {α : Type} {pre : String} {r : Result α} {a : α}
    (h : wrapf pre r = Except.ok a) : r = Except.ok a := by
  rcases r with (_ | _) | _
  · exact absurd h (by simp [wrapf])
  · exact absurd h (by simp [wrapf])
  · exact h

theorem ecbLoop_length (op : Bytes → Result Bytes) (data : Bytes) (bs : Nat) :
    ∀ (n i : Nat) (out r : Bytes), ecbLoop op data bs n i out = Except.ok r →
      r.length = out.length := by
  intro n
  induction n with
  | zero =>
    intro i out r h
    rw [ecbLoop] at h
    rw [← Except.ok.inj h]
  | succ n ih =>
    intro i out r h
    rw [ecbLoop] at h
    obtain ⟨blk, _, h⟩ := bind_eq_ok h
    obtain ⟨ob, _, h⟩ := bind_eq_ok h
    rw [ih _ _ _ h, copyAt_length]

theorem encryptCBC_loop_length {σ : Type} (cstc : CryptoSymmetricContext σ) (data : Bytes) :
    ∀ (n i : Nat) (out prev r : Bytes),
      CryptoSymmetricContext.encryptCBC.loop cstc data n i out prev = Except.ok r →
      r.length = out.length := by
  intro n
  induction n with
  | zero =>
    intro i out prev r h
    rw [CryptoSymmetricContext.encryptCBC.loop] at h
    rw [← Except.ok.inj h]
  | succ n ih =>
    intro i out prev r h
    rw [CryptoSymmetricContext.encryptCBC.loop] at h
    obtain ⟨blk, _, h⟩ := bind_eq_ok h
    obtain ⟨ob, _, h⟩ := bind_eq_ok h
    rw [ih _ _ _ _ h, copyAt_length]

theorem encryptPCBC_loop_length {σ : Type} (cstc : CryptoSymmetricContext σ) (data : Bytes) :
    ∀ (n i : Nat) (out pp pc r : Bytes),
      CryptoSymmetricContext.encryptPCBC.loop cstc data n i out pp pc = Except.ok r →
      r.length = out.length := by
  intro n
  induction n with
  | zero =>
    intro i out pp pc r h
    rw [CryptoSymmetricContext.encryptPCBC.loop] at h
    rw [← Except.ok.inj h]
  | succ n ih =>
    intro i out pp pc r h
    rw [CryptoSymmetricContext.encryptPCBC.loop] at h
    obtain ⟨blk, _, h⟩ := bind_eq_ok h
    obtain ⟨ob, _, h⟩ := bind_eq_ok h
    rw [ih _ _ _ _ _ h, copyAt_length]

theorem encryptCFB_loop_length {σ : Type} (cstc : CryptoSymmetricContext σ) (data : Bytes) :
    ∀ (n i : Nat) (out fb r : Bytes),
      CryptoSymmetricContext.encryptCFB.loop cstc data n i out fb = Except.ok r →
      r.length = out.length := by
  intro n
  induction n with
  | zero =>
    intro i out fb r h
    rw [CryptoSymmetricContext.encryptCFB.loop] at h
    rw [← Except.ok.inj h]
  | succ n ih =>
    intro i out fb r h
    rw [CryptoSymmetricContext.encryptCFB.loop] at h
    obtain ⟨blk, _, h⟩ := bind_eq_ok h
    obtain ⟨ob, _, h⟩ := bind_eq_ok h
    obtain ⟨ob1, _, h⟩ := bind_eq_ok h
    obtain ⟨w, _, h⟩ := bind_eq_ok h
    rw [ih _ _ _ _ h, copyAt_length]

theorem xorChunk_length (out data ks r : Bytes) (i e : Nat)
    (h : xorChunk out data i e ks = Except.ok r) : r.length = out.length := by
  unfold xorChunk at h
  obtain ⟨k1, _, h⟩ := bind_eq_ok h
  rw [← Except.ok.inj h, copyAt_length]

theorem encryptOFB_loop_length {σ : Type} (cstc : CryptoSymmetricContext σ) (data : Bytes) :
    ∀ (n k : Nat) (out fb r : Bytes),
      CryptoSymmetricContext.encryptOFB.loop cstc data n k out fb = Except.ok r →
      r.length = out.length := by
  intro n
  induction n with
  | zero =>
    intro k out fb r h
    rw [CryptoSymmetricContext.encryptOFB.loop] at h
    rw [← Except.ok.inj h]
  | succ n ih =>
    intro k out fb r h
    rw [CryptoSymmetricContext.encryptOFB.loop] at h
    obtain ⟨ob, _, h⟩ := bind_eq_ok h
    obtain ⟨e1, he, h⟩ := bind_eq_ok h
    rw [ih _ _ _ _ h, xorChunk_length _ _ _ _ _ _ he]

theorem encryptCTR_loop_length {σ : Type} (cstc : CryptoSymmetricContext σ)
    (data counter : Bytes) :
    ∀ (n k : Nat) (out r : Bytes),
      CryptoSymmetricContext.encryptCTR.loop cstc data counter n k out = Except.ok r →
      r.length = out.length := by
  intro n
  induction n with
  | zero =>
    intro k out r h
    rw [CryptoSymmetricContext.encryptCTR.loop] at h
    rw [← Except.ok.inj h]
  | succ n ih =>
    intro k out r h
    rw [CryptoSymmetricContext.encryptCTR.loop] at h
    obtain ⟨ob, _, h⟩ := bind_eq_ok h
    obtain ⟨e1, he, h⟩ := bind_eq_ok h
    rw [ih _ _ _ h, xorChunk_length _ _ _ _ _ _ he]

theorem deltaLoop_length (op : Bytes → Bytes → Bytes) (data delta : Bytes) (bs : Nat) :
    ∀ (n k : Nat) (out : Bytes), (deltaLoop op data delta bs n k out).length = out.length := by
  intro n
  induction n with
  | zero => intro k out; rfl
  | succ n ih =>
    intro k out
    rw [deltaLoop, ih, copyAt_length]

/-- A block mode that returns a ciphertext returns as many bytes as it is
given; RandomDelta returns one block more. -/
theorem mode_encrypt_length {σ : Type} (cstc : CryptoSymmetricContext σ)
    (tape data c : Bytes) :
    (cstc.encryptECB data = Except.ok c → c.length = data.length) ∧
      (cstc.encryptCBC data = Except.ok c → c.length = data.length) ∧
      (cstc.encryptPCBC data = Except.ok c → c.length = data.length) ∧
      (cstc.encryptCFB data = Except.ok c → c.length = data.length) ∧
      (cstc.encryptOFB data = Except.ok c → c.length = data.length) ∧
      (cstc.encryptCTR data = Except.ok c → c.length = data.length) ∧
      (cstc.encryptRandomDelta tape data = Except.ok c →
        c.length = data.length + cstc.blockSize) := by
  refine ⟨?_, ?_, ?_, ?_, ?_, ?_, ?_⟩
  · intro h
    unfold CryptoSymmetricContext.encryptECB at h
    dsimp only at h
    split at h
    · simp at h
    split at h
    · simp at h
    rw [ecbLoop_length _ _ _ _ _ _ _ h, zeros_length]
  · intro h
    unfold CryptoSymmetricContext.encryptCBC at h
    dsimp only at h
    split at h
    · simp at h
    split at h
    · simp at h
    rw [encryptCBC_loop_length _ _ _ _ _ _ _ h, zeros_length]
  · intro h
    unfold CryptoSymmetricContext.encryptPCBC at h
    dsimp only at h
    split at h
    · simp at h
    split at h
    · simp at h
    rw [encryptPCBC_loop_length _ _ _ _ _ _ _ _ h, zeros_length]
  · intro h
    unfold CryptoSymmetricContext.encryptCFB at h
    dsimp only at h
    split at h
    · simp at h
    split at h
    · simp at h
    rw [encryptCFB_loop_length _ _ _ _ _ _ _ h, zeros_length]
  · intro h
    unfold CryptoSymmetricContext.encryptOFB at h
    dsimp only at h
    split at h
    · simp at h
    split at h
    · simp at h
    rw [encryptOFB_loop_length _ _ _ _ _ _ _ h, zeros_length]
  · intro h
    unfold CryptoSymmetricContext.encryptCTR at h
    dsimp only at h
    split at h
    · simp at h
    split at h
    · simp at h
    rw [encryptCTR_loop_length _ _ _ _ _ _ _ h, zeros_length]
  · intro h
    unfold CryptoSymmetricContext.encryptRandomDelta randRead at h
    dsimp only at h
    by_cases hle : cstc.blockSize ≤ tape.length
    · rw [if_pos hle] at h
      simp only [pure_eq_ok] at h
      split at h
      · simp at h
      · simp only [Except.ok.injEq] at h
        rw [← h, List.length_append, deltaLoop_length, zeros_length, List.length_take]
        omega
    · rw [if_neg hle] at h
      simp at h

/-! ## Round trip of each mode on a whole number of blocks -/

theorem frame_zero (out X : Bytes) (bs n : Nat) (h : out.length = n * bs) :
    out.take (0 * bs) ++ (X ++ out.drop (0 * bs + n * bs)) = X := by
  rw [Nat.zero_mul, Nat.zero_add, List.take_zero, List.nil_append,
    List.drop_of_length_le (by omega), List.append_nil]

theorem frame_zero_dec (out pt : Bytes) (bs : Nat) : out.take (0 * bs) ++ pt = pt := by
  rw [Nat.zero_mul, List.take_zero, List.nil_append]

theorem aligned_facts (len bs n : Nat) (hbs : 1 ≤ bs) (h : len = n * bs) :
    len % bs = 0 ∧ len / bs = n ∧ (len + bs - 1) / bs = n := by
  subst h
  refine ⟨Nat.mul_mod_left _ _, Nat.mul_div_cancel _ (by omega), ?_⟩
  have h1 : n * bs + bs - 1 = bs - 1 + bs * n := by
    rw [Nat.mul_comm]; omega
  rw [h1, Nat.add_mul_div_left _ _ (by omega), Nat.div_eq_of_lt (by omega), Nat.zero_add]

theorem ecb_round_trip {σ : Type} (cstc : CryptoSymmetricContext σ) (E : Bytes → Bytes)
    (hc : BlockCipher cstc E cstc.blockSize) (hbs : 1 ≤ cstc.blockSize) (data : Bytes)
    (n : Nat) (hd : data.length = n * cstc.blockSize) :
    ∃ ct, cstc.encryptECB data = Except.ok ct ∧ cstc.decryptECB ct = Except.ok data := by
  obtain ⟨a1, a2, _⟩ := aligned_facts data.length cstc.blockSize n hbs hd
  have he : cstc.encryptECB data = Except.ok (ecbSpec E cstc.blockSize n data) := by
    unfold CryptoSymmetricContext.encryptECB
    dsimp only
    rw [if_neg (by omega), if_neg (by omega), a2,
      ecb_encrypt_loop cstc E _ hc data n 0 _ (zeros_length _) (by omega),
      frame_zero _ _ _ _ (by rw [zeros_length]; exact hd), Nat.zero_mul, List.drop_zero]
  have hl := (mode_encrypt_length cstc [] data _).1 he
  obtain ⟨b1, b2, _⟩ := aligned_facts _ cstc.blockSize n hbs (hl.trans hd)
  refine ⟨_, he, ?_⟩
  unfold CryptoSymmetricContext.decryptECB
  dsimp only
  rw [if_neg (by omega), if_neg (by omega), b2,
    ecb_decrypt_loop cstc E _ hc _ n 0 _ data (zeros_length _) hd
      (by rw [Nat.zero_mul, List.drop_zero]) (by omega), frame_zero_dec]

theorem iv_copy {σ : Type} (cstc : CryptoSymmetricContext σ)
    (hiv : cstc.iv.length = cstc.blockSize) :
    copyAt (zeros cstc.blockSize) 0 cstc.iv = cstc.iv :=
  copyAt_zero_full _ _ (by rw [zeros_length]; exact hiv)

theorem cbc_round_trip {σ : Type} (cstc : CryptoSymmetricContext σ) (E : Bytes → Bytes)
    (hc : BlockCipher cstc E cstc.blockSize) (hbs : 1 ≤ cstc.blockSize)
    (hiv : cstc.iv.length = cstc.blockSize) (data : Bytes)
    (n : Nat) (hd : data.length = n * cstc.blockSize) :
    ∃ ct, cstc.encryptCBC data = Except.ok ct ∧ cstc.decryptCBC ct = Except.ok data := by
  obtain ⟨a1, a2, _⟩ := aligned_facts data.length cstc.blockSize n hbs hd
  have he : cstc.encryptCBC data = Except.ok (cbcSpec E cstc.blockSize n cstc.iv data) := by
    unfold CryptoSymmetricContext.encryptCBC
    dsimp only
    rw [if_neg (by omega), if_neg (by omega), a2, iv_copy cstc hiv,
      cbc_encrypt_loop cstc E hc data n 0 _ _ (zeros_length _) hiv (by omega),
      frame_zero _ _ _ _ (by rw [zeros_length]; exact hd), Nat.zero_mul, List.drop_zero]
  have hl := (mode_encrypt_length cstc [] data _).2.1 he
  obtain ⟨b1, b2, _⟩ := aligned_facts _ cstc.blockSize n hbs (hl.trans hd)
  refine ⟨_, he, ?_⟩
  unfold CryptoSymmetricContext.decryptCBC
  dsimp only
  rw [if_neg (by omega), if_neg (by omega), if_neg (by omega), b2, iv_copy cstc hiv,
    cbc_decrypt_loop cstc E hc _ n 0 _ _ data (zeros_length _) hiv hd
      (by rw [Nat.zero_mul, List.drop_zero]) (by omega), frame_zero_dec]

theorem pcbc_round_trip {σ : Type} (cstc : CryptoSymmetricContext σ) (E : Bytes → Bytes)
    (hc : BlockCipher cstc E cstc.blockSize) (hbs : 1 ≤ cstc.blockSize)
    (hiv : cstc.iv.length = cstc.blockSize) (data : Bytes)
    (n : Nat) (hd : data.length = n * cstc.blockSize) :
    ∃ ct, cstc.encryptPCBC data = Except.ok ct ∧ cstc.decryptPCBC ct = Except.ok data := by
  obtain ⟨a1, a2, _⟩ := aligned_facts data.length cstc.blockSize n hbs hd
  have he : cstc.encryptPCBC data
      = Except.ok (pcbcSpec E cstc.blockSize n (zeros cstc.blockSize) cstc.iv data) := by
    unfold CryptoSymmetricContext.encryptPCBC
    dsimp only
    rw [if_neg (by omega), if_neg (by omega), a2, iv_copy cstc hiv,
      pcbc_encrypt_loop cstc E hc data n 0 _ _ _ (zeros_length _) (zeros_length _) hiv
        (by omega),
      frame_zero _ _ _ _ (by rw [zeros_length]; exact hd), Nat.zero_mul, List.drop_zero]
  have hl := (mode_encrypt_length cstc [] data _).2.2.1 he
  obtain ⟨b1, b2, _⟩ := aligned_facts _ cstc.blockSize n hbs (hl.trans hd)
  refine ⟨_, he, ?_⟩
  unfold CryptoSymmetricContext.decryptPCBC
  dsimp only
  rw [if_neg (by omega), if_neg (by omega), b2, iv_copy cstc hiv,
    pcbc_decrypt_loop cstc E hc _ n 0 _ _ _ data (zeros_length _) (zeros_length _) hiv hd
      (by rw [Nat.zero_mul, List.drop_zero]) (by omega), frame_zero_dec]

theorem cfb_round_trip {σ : Type} (cstc : CryptoSymmetricContext σ) (E : Bytes → Bytes)
    (hc : BlockCipher cstc E cstc.blockSize) (hbs : 1 ≤ cstc.blockSize)
    (hiv : cstc.iv.length = cstc.blockSize) (data : Bytes)
    (n : Nat) (hd : data.length = n * cstc.blockSize) :
    ∃ ct, cstc.encryptCFB data = Except.ok ct ∧ cstc.decryptCFB ct = Except.ok data := by
  obtain ⟨a1, a2, _⟩ := aligned_facts data.length cstc.blockSize n hbs hd
  have he : cstc.encryptCFB data = Except.ok (cfbSpec E cstc.blockSize n cstc.iv data) := by
    unfold CryptoSymmetricContext.encryptCFB
    dsimp only
    rw [if_neg (by omega), if_neg (by omega), a2, iv_copy cstc hiv,
      cfb_encrypt_loop cstc E hc data n 0 _ _ (zeros_length _) hiv (by omega),
      frame_zero _ _ _ _ (by rw [zeros_length]; exact hd), Nat.zero_mul, List.drop_zero]
  have hl := (mode_encrypt_length cstc [] data _).2.2.2.1 he
  obtain ⟨b1, b2, _⟩ := aligned_facts _ cstc.blockSize n hbs (hl.trans hd)
  refine ⟨_, he, ?_⟩
  unfold CryptoSymmetricContext.decryptCFB
  dsimp only
  rw [if_neg (by omega), if_neg (by omega), b2, iv_copy cstc hiv,
    cfb_decrypt_loop cstc E hc _ n 0 _ _ data (zeros_length _) hiv hd
      (by rw [Nat.zero_mul, List.drop_zero]) (by omega), frame_zero_dec]

theorem ofb_encrypt_aligned {σ : Type} (cstc : CryptoSymmetricContext σ) (E : Bytes → Bytes)
    (hc : BlockCipher cstc E cstc.blockSize) (hbs : 1 ≤ cstc.blockSize)
    (hiv : cstc.iv.length = cstc.blockSize) (data : Bytes)
    (n : Nat) (hd : data.length = n * cstc.blockSize) :
    cstc.encryptOFB data = Except.ok (ofbSpec E cstc.blockSize n cstc.iv data) := by
  obtain ⟨a1, a2, a3⟩ := aligned_facts data.length cstc.blockSize n hbs hd
  unfold CryptoSymmetricContext.encryptOFB
  dsimp only
  rw [if_neg (by omega), if_neg (by omega), a3, iv_copy cstc hiv,
    ofb_loop cstc E hc data n 0 _ _ (zeros_length _) hiv (by omega),
    frame_zero _ _ _ _ (by rw [zeros_length]; exact hd), Nat.zero_mul, List.drop_zero]

theorem ofb_round_trip {σ : Type} (cstc : CryptoSymmetricContext σ) (E : Bytes → Bytes)
    (hc : BlockCipher cstc E cstc.blockSize) (hbs : 1 ≤ cstc.blockSize)
    (hiv : cstc.iv.length = cstc.blockSize) (data : Bytes)
    (n : Nat) (hd : data.length = n * cstc.blockSize) :
    ∃ ct, cstc.encryptOFB data = Except.ok ct ∧ cstc.decryptOFB ct = Except.ok data := by
  have he := ofb_encrypt_aligned cstc E hc hbs hiv data n hd
  have hl := (mode_encrypt_length cstc [] data _).2.2.2.2.1 he
  refine ⟨_, he, ?_⟩
  unfold CryptoSymmetricContext.decryptOFB
  rw [ofb_encrypt_aligned cstc E hc hbs hiv _ n (hl.trans hd),
    ofbSpec_involutive E _ hc.len n _ _ hiv hd]

theorem ctr_encrypt_aligned {σ : Type} (cstc : CryptoSymmetricContext σ) (E : Bytes → Bytes)
    (hc : BlockCipher cstc E cstc.blockSize) (hbs : 1 ≤ cstc.blockSize)
    (hiv : cstc.iv.length = cstc.blockSize) (data : Bytes)
    (n : Nat) (hd : data.length = n * cstc.blockSize) :
    cstc.encryptCTR data = Except.ok (ctrSpec E cstc.blockSize cstc.iv n 0 data) := by
  obtain ⟨a1, a2, a3⟩ := aligned_facts data.length cstc.blockSize n hbs hd
  unfold CryptoSymmetricContext.encryptCTR
  dsimp only
  rw [if_neg (by omega), if_neg (by omega), a3, iv_copy cstc hiv,
    ctr_loop cstc E hc data _ hiv n 0 _ (zeros_length _) (by omega),
    frame_zero _ _ _ _ (by rw [zeros_length]; exact hd), Nat.zero_mul, List.drop_zero]

theorem ctr_round_trip {σ : Type} (cstc : CryptoSymmetricContext σ) (E : Bytes → Bytes)
    (hc : BlockCipher cstc E cstc.blockSize) (hbs : 1 ≤ cstc.blockSize)
    (hiv : cstc.iv.length = cstc.blockSize) (data : Bytes)
    (n : Nat) (hd : data.length = n * cstc.blockSize) :
    ∃ ct, cstc.encryptCTR data = Except.ok ct ∧ cstc.decryptCTR ct = Except.ok data := by
  have he := ctr_encrypt_aligned cstc E hc hbs hiv data n hd
  have hl := (mode_encrypt_length cstc [] data _).2.2.2.2.2.1 he
  refine ⟨_, he, ?_⟩
  unfold CryptoSymmetricContext.decryptCTR
  rw [ctr_encrypt_aligned cstc E hc hbs hiv _ n (hl.trans hd),
    ctrSpec_involutive E _ _ hiv hc.len n 0 _ hd]

/-! ## Round trip of the context -/

theorem blockCipher_of_round_trip {σ : Type} (cstc : CryptoSymmetricContext σ)
    (h : ∀ b : Bytes, b.length = cstc.blockSize →
      ∃ c, cstc.cipher.Encrypt cstc.obj b = Except.ok c ∧ c.length = cstc.blockSize ∧
        cstc.cipher.Decrypt cstc.obj c = Except.ok b) :
    BlockCipher cstc cstc.encBlock cstc.blockSize := by
  refine ⟨fun b hb => ?_, fun b hb => ?_, fun b hb => ?_⟩
  · obtain ⟨c, e1, _, _⟩ := h b hb
    rw [CryptoSymmetricContext.encBlock, e1]
    rfl
  · obtain ⟨c, e1, e2, _⟩ := h b hb
    rw [CryptoSymmetricContext.encBlock, e1]
    exact e2
  · obtain ⟨c, e1, _, e3⟩ := h b hb
    rw [CryptoSymmetricContext.encBlock, e1]
    exact e3

/-- Round trip of a context in a block mode with a padding other than Zeros. -/
theorem context_round_trip_aux {σ : Type} (cstc : CryptoSymmetricContext σ) (tape p : Bytes)
    (hcipher : ∀ b : Bytes, b.length = cstc.blockSize →
      ∃ c, cstc.cipher.Encrypt cstc.obj b = Except.ok c ∧ c.length = cstc.blockSize ∧
        cstc.cipher.Decrypt cstc.obj c = Except.ok b)
    (hbs1 : 1 ≤ cstc.blockSize) (hbs2 : cstc.blockSize ≤ 255)
    (hiv : cstc.iv.length = cstc.blockSize)
    (hmode : cstc.mode = ECB ∨ cstc.mode = CBC ∨ cstc.mode = PCBC ∨ cstc.mode = CFB ∨
      cstc.mode = OFB ∨ cstc.mode = CTR)
    (hpad : cstc.padding = ANSIX923 ∨ cstc.padding = PKCS7 ∨ cstc.padding = ISO10126)
    (htape : cstc.padding = ISO10126 → cstc.blockSize - 1 ≤ tape.length)
    (hp : p ≠ []) :
    ∃ c, cstc.Encrypt tape p = Except.ok c ∧
      c.length = cstc.blockSize * (p.length / cstc.blockSize + 1) ∧
      cstc.Decrypt c = Except.ok p := by
  have hc := blockCipher_of_round_trip cstc hcipher
  obtain ⟨padded, tape1, e1, e2, e3⟩ := padding_round_trip cstc tape p hbs1 hbs2 hpad htape
  have hd : padded.length = (p.length / cstc.blockSize + 1) * cstc.blockSize := by
    rw [e2, Nat.mul_comm]
  have hpl : p.length ≠ 0 := fun h => hp (List.length_eq_zero.mp h)
  have key : ∀ (enc dec : Bytes → Result Bytes),
      (∃ ct, enc padded = Except.ok ct ∧ dec ct = Except.ok padded) →
      (∀ ct, enc padded = Except.ok ct → ct.length = padded.length) →
      ∃ ct, enc padded = Except.ok ct ∧ ct.length ≠ 0 ∧
        ct.length = cstc.blockSize * (p.length / cstc.blockSize + 1) ∧
        dec ct = Except.ok padded := by
    intro enc dec ⟨ct, h1, h2⟩ hl
    have h3 := hl ct h1
    refine ⟨ct, h1, ?_, by rw [h3, e2], h2⟩
    rw [h3, hd]
    exact Nat.mul_ne_zero (Nat.succ_ne_zero _) (Nat.pos_iff_ne_zero.mp hbs1)
  have hlen := mode_encrypt_length cstc tape1 padded
  unfold CryptoSymmetricContext.Encrypt CryptoSymmetricContext.Decrypt
  rw [if_neg hpl, e1, wrapf_ok, ok_bind]
  dsimp only
  rcases hmode with h | h | h | h | h | h
  · obtain ⟨ct, h1, h2, h3, h4⟩ := key _ _ (ecb_round_trip cstc _ hc hbs1 padded _ hd)
      (fun ct => (hlen ct).1)
    refine ⟨ct, ?_, h3, ?_⟩
    · rw [h, if_pos rfl, h1, wrapf_ok]
    · rw [if_neg h2, h, if_pos rfl, h4, wrapf_ok, ok_bind, e3, wrapf_ok]
  · obtain ⟨ct, h1, h2, h3, h4⟩ := key _ _ (cbc_round_trip cstc _ hc hbs1 hiv padded _ hd)
      (fun ct => (hlen ct).2.1)
    refine ⟨ct, ?_, h3, ?_⟩
    · rw [h, if_neg (by decide), if_pos rfl, h1, wrapf_ok]
    · rw [if_neg h2, h, if_neg (by decide), if_pos rfl, h4, wrapf_ok, ok_bind, e3, wrapf_ok]
  · obtain ⟨ct, h1, h2, h3, h4⟩ := key _ _ (pcbc_round_trip cstc _ hc hbs1 hiv padded _ hd)
      (fun ct => (hlen ct).2.2.1)
    refine ⟨ct, ?_, h3, ?_⟩
    · rw [h, if_neg (by decide), if_neg (by decide), if_pos rfl, h1, wrapf_ok]
    · rw [if_neg h2, h, if_neg (by decide), if_neg (by decide), if_pos rfl, h4, wrapf_ok,
        ok_bind, e3, wrapf_ok]
  · obtain ⟨ct, h1, h2, h3, h4⟩ := key _ _ (cfb_round_trip cstc _ hc hbs1 hiv padded _ hd)
      (fun ct => (hlen ct).2.2.2.1)
    refine ⟨ct, ?_, h3, ?_⟩
    · rw [h, if_neg (by decide), if_neg (by decide), if_neg (by decide), if_pos rfl, h1,
        wrapf_ok]
    · rw [if_neg h2, h, if_neg (by decide), if_neg (by decide), if_neg (by decide),
        if_pos rfl, h4, wrapf_ok, ok_bind, e3, wrapf_ok]
  · obtain ⟨ct, h1, h2, h3, h4⟩ := key _ _ (ofb_round_trip cstc _ hc hbs1 hiv padded _ hd)
      (fun ct => (hlen ct).2.2.2.2.1)
    refine ⟨ct, ?_, h3, ?_⟩
    · rw [h, if_neg (by decide), if_neg (by decide), if_neg (by decide), if_neg (by decide),
        if_pos rfl, h1, wrapf_ok]
    · rw [if_neg h2, h, if_neg (by decide), if_neg (by decide), if_neg (by decide),
        if_neg (by decide), if_pos rfl, h4, wrapf_ok, ok_bind, e3, wrapf_ok]
  · obtain ⟨ct, h1, h2, h3, h4⟩ := key _ _ (ctr_round_trip cstc _ hc hbs1 hiv padded _ hd)
      (fun ct => (hlen ct).2.2.2.2.2.1)
    refine ⟨ct, ?_, h3, ?_⟩
    · rw [h, if_neg (by decide), if_neg (by decide), if_neg (by decide), if_neg (by decide),
        if_neg (by decide), if_pos rfl, h1, wrapf_ok]
    · rw [if_neg h2, h, if_neg (by decide), if_neg (by decide), if_neg (by decide),
        if_neg (by decide), if_neg (by decide), if_pos rfl, h4, wrapf_ok, ok_bind, e3,
        wrapf_ok]

/-- C4. Context round trip: for a context built by `NewCryptoSymmetricContext`
over a block cipher whose `Decrypt` undoes `Encrypt` on blocks of `blockSize`
bytes, with `1 ≤ blockSize ≤ 255`, an IV of `blockSize` bytes, a mode among
ECB, CBC, PCBC, CFB, OFB, CTR, a padding among ANSI X9.23, PKCS#7, ISO 10126
(whatever random bytes ISO 10126 draws) and a non-empty plaintext, `Encrypt`
succeeds and `Decrypt` of the ciphertext returns the plaintext. -/
theorem context_round_trip {σ : Type} (key : Bytes) (cipher : SymmetricAlgorithm σ) (obj : σ)
    (mode padding : Nat) (iv : Bytes) (blockSize : Nat) (ctx : CryptoSymmetricContext σ)
    (tape p : Bytes)
    (hnew : NewCryptoSymmetricContext key cipher obj mode padding iv blockSize = Except.ok ctx)
    (hcipher : ∀ b : Bytes, b.length = blockSize →
      ∃ c, ctx.cipher.Encrypt ctx.obj b = Except.ok c ∧ c.length = blockSize ∧
        ctx.cipher.Decrypt ctx.obj c = Except.ok b)
    (hbs1 : 1 ≤ blockSize) (hbs2 : blockSize ≤ 255) (hiv : iv.length = blockSize)
    (hmode : mode = ECB ∨ mode = CBC ∨ mode = PCBC ∨ mode = CFB ∨ mode = OFB ∨ mode = CTR)
    (hpad : padding = ANSIX923 ∨ padding = PKCS7 ∨ padding = ISO10126)
    (htape : padding = ISO10126 → blockSize - 1 ≤ tape.length)
    (hp : p ≠ []) :
    ∃ c, ctx.Encrypt tape p = Except.ok c ∧ ctx.Decrypt c = Except.ok p := by
  obtain ⟨_, _, f3, f4, f5, f6, _⟩ :=
    NewCryptoSymmetricContext_fields key cipher obj mode padding iv blockSize ctx hnew
  subst f3 f4 f5 f6
  obtain ⟨c, h1, _, h3⟩ :=
    context_round_trip_aux ctx tape p hcipher hbs1 hbs2 hiv hmode hpad htape hp
  exact ⟨c, h1, h3⟩

theorem context_round_trip_witness :
    ∃ ctx c,
      NewCryptoSymmetricContext (List.replicate 16 1) rc5Algorithm NewRC5 CBC ISO10126
          (List.replicate 16 0) 16 = Except.ok ctx ∧
        ctx.Encrypt (List.replicate 15 9) [104, 101, 108, 108, 111] = Except.ok c ∧
        ctx.Decrypt c = Except.ok [104, 101, 108, 108, 111] := by
  obtain ⟨S, e1, e2⟩ := rc5_SetKey_ok NewRC5 (List.replicate 16 1) rfl (by decide)
  have hnew := NewCryptoSymmetricContext_ok (List.replicate 16 1) rc5Algorithm NewRC5 _
    CBC ISO10126 (List.replicate 16 0) 16 (Or.inl rfl) e1
  obtain ⟨c, h1, h2⟩ := context_round_trip (List.replicate 16 1) rc5Algorithm NewRC5
    CBC ISO10126 (List.replicate 16 0) 16 _ (List.replicate 15 9) [104, 101, 108, 108, 111]
    hnew (fun b hb => rc5_cipher_round_trip _ rfl (by rw [e2]) b hb)
    (by decide) (by decide) (by decide) (Or.inr (Or.inl rfl)) (Or.inr (Or.inr rfl))
    (fun _ => by decide) (by decide)
  exact ⟨_, c, hnew, h1, h2⟩

/-! ## Length of the ciphertext -/

theorem AddPadding_length {σ : Type} (cstc : CryptoSymmetricContext σ)
    (tape p padded tape1 : Bytes) (hbs : 1 ≤ cstc.blockSize)
    (h : cstc.AddPadding tape p = Except.ok (padded, tape1)) :
    padded.length = cstc.blockSize * (p.length / cstc.blockSize + 1) := by
  obtain ⟨b1, b2⟩ := padLen_bounds cstc.blockSize p.length hbs
  rw [← padded_length cstc.blockSize p.length hbs]
  unfold CryptoSymmetricContext.AddPadding at h
  rw [if_neg (by omega)] at h
  dsimp only at h
  rw [if_neg (show ¬ (cstc.blockSize - p.length % cstc.blockSize = 0) by omega)] at h
  split at h
  · simp only [pure_eq_ok, Except.ok.injEq, Prod.mk.injEq] at h
    rw [← h.1, ZerosPadding, List.length_append, List.length_replicate]
  split at h
  · unfold ANSIX923Padding at h
    rw [if_neg (by omega)] at h
    simp only [pure_eq_ok, ok_bind, Except.ok.injEq, Prod.mk.injEq] at h
    rw [← h.1]
    simp only [List.length_append, List.length_replicate, List.length_singleton]
    omega
  split at h
  · unfold PKCS7Padding at h
    split at h
    · simp at h
    · simp only [pure_eq_ok, ok_bind, Except.ok.injEq, Prod.mk.injEq] at h
      rw [← h.1, List.length_append, List.length_replicate]
  split at h
  · unfold ISO10126Padding randRead at h
    split at h
    · simp at h
    · split at h
      · simp only [pure_eq_ok, ok_bind, Except.ok.injEq, Prod.mk.injEq] at h
        rw [← h.1]
        simp only [List.length_append, List.length_take, List.length_singleton]
        omega
      · simp at h
  · simp at h

theorem Encrypt_length {σ : Type} (cstc : CryptoSymmetricContext σ) (tape p c : Bytes)
    (hbs : 1 ≤ cstc.blockSize) (henc : cstc.Encrypt tape p = Except.ok c) :
    ((cstc.mode = ECB ∨ cstc.mode = CBC ∨ cstc.mode = PCBC ∨ cstc.mode = CFB ∨
        cstc.mode = OFB ∨ cstc.mode = CTR) →
        c.length = cstc.blockSize * (p.length / cstc.blockSize + 1)) ∧
      (cstc.mode = RandomDelta →
        c.length = cstc.blockSize * (p.length / cstc.blockSize + 1) + cstc.blockSize) := by
  unfold CryptoSymmetricContext.Encrypt at henc
  split at henc
  · simp at henc
  obtain ⟨⟨padded, tape1⟩, h1, h2⟩ := bind_eq_ok henc
  have hl := AddPadding_length cstc tape p padded tape1 hbs (wrapf_eq_ok h1)
  have h3 := wrapf_eq_ok h2
  have hm := mode_encrypt_length cstc tape1 padded c
  constructor
  · intro hmode
    rw [← hl]
    rcases hmode with h | h | h | h | h | h
    · rw [h, if_pos rfl] at h3
      exact hm.1 h3
    · rw [h, if_neg (by decide), if_pos rfl] at h3
      exact hm.2.1 h3
    · rw [h, if_neg (by decide), if_neg (by decide), if_pos rfl] at h3
      exact hm.2.2.1 h3
    · rw [h, if_neg (by decide), if_neg (by decide), if_neg (by decide), if_pos rfl] at h3
      exact hm.2.2.2.1 h3
    · rw [h, if_neg (by decide), if_neg (by decide), if_neg (by decide), if_neg (by decide),
        if_pos rfl] at h3
      exact hm.2.2.2.2.1 h3
    · rw [h, if_neg (by decide), if_neg (by decide), if_neg (by decide), if_neg (by decide),
        if_neg (by decide), if_pos rfl] at h3
      exact hm.2.2.2.2.2.1 h3
  · intro h
    rw [h, if_neg (by decide), if_neg (by decide), if_neg (by decide), if_neg (by decide),
      if_neg (by decide), if_neg (by decide), if_pos rfl] at h3
    rw [← hl]
    exact hm.2.2.2.2.2.2 h3

/-- C5. Ciphertext length: when `Encrypt` succeeds on a plaintext `p` (which
is then not empty) in a context with block size `bs ≥ 1`, the ciphertext has
`bs * (len(p) / bs + 1)` bytes in the modes ECB, CBC, PCBC, CFB, OFB and CTR and one block more in
RandomDelta, which is more than `len(p)` (the padding is never empty); in
particular, with RC5 under a 16-byte key, a zero IV, CBC and PKCS#7, a 20-byte
plaintext yields 32 bytes that decrypt to the plaintext. -/
theorem ciphertext_length {σ : Type} (cstc : CryptoSymmetricContext σ) (tape p c : Bytes)
    (key q : Bytes) (hbs : 1 ≤ cstc.blockSize)
    (henc : cstc.Encrypt tape p = Except.ok c) (hkey : key.length = 16)
    (hq : q.length = 20) :
    ((cstc.mode = ECB ∨ cstc.mode = CBC ∨ cstc.mode = PCBC ∨ cstc.mode = CFB ∨
        cstc.mode = OFB ∨ cstc.mode = CTR) →
        c.length = cstc.blockSize * (p.length / cstc.blockSize + 1)) ∧
      (cstc.mode = RandomDelta →
        c.length = cstc.blockSize * (p.length / cstc.blockSize + 1) + cstc.blockSize) ∧
      p.length < cstc.blockSize * (p.length / cstc.blockSize + 1) ∧
      ∃ ctx ct, NewCryptoSymmetricContext key rc5Algorithm NewRC5 CBC PKCS7 (zeros 16) 16
            = Except.ok ctx ∧
          ctx.Encrypt tape q = Except.ok ct ∧ ct.length = 32 ∧
          ctx.Decrypt ct = Except.ok q := by
  obtain ⟨h1, h2⟩ := Encrypt_length cstc tape p c hbs henc
  refine ⟨h1, h2, ?_, ?_⟩
  · have := padded_length cstc.blockSize p.length hbs
    have := padLen_bounds cstc.blockSize p.length hbs
    omega
  · have hk : key ≠ [] := by
      intro h
      rw [h] at hkey
      exact absurd hkey (by decide)
    obtain ⟨S, e1, e2⟩ := rc5_SetKey_ok NewRC5 key rfl hk
    have hnew := NewCryptoSymmetricContext_ok key rc5Algorithm NewRC5 _ CBC PKCS7 (zeros 16)
      16 (Or.inr (Or.inl hkey)) e1
    have hq0 : q ≠ [] := by
      intro h
      rw [h] at hq
      exact absurd hq (by decide)
    obtain ⟨ct, h3, h4, h5⟩ := context_round_trip_aux
      { key := key, cipher := rc5Algorithm,
        obj := { S := S, r := NewRC5.r, w := 64, b := key.length },
        mode := CBC, padding := PKCS7, iv := zeros 16, blockSize := 16 }
      tape q (fun b hb => rc5_cipher_round_trip _ rfl (by rw [e2]) b hb)
      (show 1 ≤ 16 by decide) (show 16 ≤ 255 by decide) rfl (Or.inr (Or.inl rfl))
      (Or.inr (Or.inl rfl)) (fun h => absurd h (show ¬ (PKCS7 = ISO10126) by decide)) hq0
    refine ⟨_, ct, hnew, h3, ?_, h5⟩
    rw [h4]
    show 16 * (q.length / 16 + 1) = 32
    rw [hq]

theorem ciphertext_length_witness :
    ∃ ctx c ct,
      NewCryptoSymmetricContext (List.replicate 16 1) rc5Algorithm NewRC5 CBC PKCS7
          (zeros 16) 16 = Except.ok ctx ∧
        ctx.Encrypt [] (List.replicate 20 65) = Except.ok c ∧
        c.length = 16 * (20 / 16 + 1) ∧
        ctx.Encrypt [] (List.replicate 20 65) = Except.ok ct ∧ ct.length = 32 ∧
        ctx.Decrypt ct = Except.ok (List.replicate 20 65) := by
  obtain ⟨S, e1, e2⟩ := rc5_SetKey_ok NewRC5 (List.replicate 16 1) rfl (by decide)
  have hnew := NewCryptoSymmetricContext_ok (List.replicate 16 1) rc5Algorithm NewRC5 _
    CBC PKCS7 (zeros 16) 16 (Or.inl rfl) e1
  obtain ⟨c, h1, _⟩ := context_round_trip_aux
    { key := List.replicate 16 1, cipher := rc5Algorithm,
      obj := { S := S, r := NewRC5.r, w := 64, b := (List.replicate 16 (1 : Byte)).length },
      mode := CBC, padding := PKCS7, iv := zeros 16, blockSize := 16 }
    [] (List.replicate 20 65) (fun b hb => rc5_cipher_round_trip _ rfl (by rw [e2]) b hb)
    (show 1 ≤ 16 by decide) (show 16 ≤ 255 by decide) rfl (Or.inr (Or.inl rfl))
    (Or.inr (Or.inl rfl)) (fun h => absurd h (show ¬ (PKCS7 = ISO10126) by decide))
    (by decide)
  obtain ⟨g1, _, _, ctx, ct, g4, g5, g6, g7⟩ := ciphertext_length _ [] (List.replicate 20 65) c
    (List.replicate 16 1) (List.replicate 20 65) (show 1 ≤ 16 by decide) h1
    (by decide) (by decide)
  rw [hnew] at g4
  cases g4
  exact ⟨_, c, ct, hnew, h1, g1 (Or.inr (Or.inl rfl)), g5, g6, g7⟩

/-! ## Configuration errors -/

theorem isError_bind {α β : Type} (r : Result α) (k : α → Result β)
    (h : r.isError = true) : Result.isError (r >>= k) = true := by
  rcases r with (_ | _) | _
  · rfl
  · exact absurd h (by simp [Result.isError])
  · exact absurd h (by simp [Result.isError])

theorem wrapf_error_isError {α : Type} (pre msg : String) :
    Result.isError (wrapf pre (Except.error (Fault.error msg) : Result α)) = true := rfl

/-- With a block size between 1 and 255 `AddPadding` never panics, and it
returns a padded buffer only under a defined padding tag. -/
theorem AddPadding_cases {σ : Type} (cstc : CryptoSymmetricContext σ) (tape p : Bytes)
    (hbs1 : 1 ≤ cstc.blockSize) (hbs2 : cstc.blockSize ≤ 255) :
    (∃ r, cstc.AddPadding tape p = Except.ok r ∧ cstc.padding ≤ 3) ∨
      (∃ msg, cstc.AddPadding tape p = Except.error (.error msg)) := by
  obtain ⟨b1, b2⟩ := padLen_bounds cstc.blockSize p.length hbs1
  unfold CryptoSymmetricContext.AddPadding
  rw [if_neg (by omega)]
  dsimp only
  rw [if_neg (show ¬ (cstc.blockSize - p.length % cstc.blockSize = 0) by omega)]
  by_cases h0 : cstc.padding = Zeros
  · rw [if_pos h0]
    exact Or.inl ⟨_, rfl, by rw [h0]; decide⟩
  rw [if_neg h0]
  by_cases h1 : cstc.padding = ANSIX923
  · rw [if_pos h1]
    unfold ANSIX923Padding
    rw [if_neg (by omega)]
    exact Or.inl ⟨_, rfl, by rw [h1]; decide⟩
  rw [if_neg h1]
  by_cases h2 : cstc.padding = PKCS7
  · rw [if_pos h2]
    unfold PKCS7Padding
    rw [if_neg (by omega)]
    exact Or.inl ⟨_, rfl, by rw [h2]; decide⟩
  rw [if_neg h2]
  by_cases h3 : cstc.padding = ISO10126
  · rw [if_pos h3]
    unfold ISO10126Padding randRead
    rw [if_neg (by omega)]
    by_cases ht : cstc.blockSize - p.length % cstc.blockSize - 1 ≤ tape.length
    · rw [if_pos ht]
      exact Or.inl ⟨_, rfl, by rw [h3]; decide⟩
    · rw [if_neg ht]
      exact Or.inr ⟨_, rfl⟩
  rw [if_neg h3]
  exact Or.inr ⟨_, rfl⟩

theorem chained_encrypt_rejects_iv {σ : Type} (cstc : CryptoSymmetricContext σ) (data : Bytes)
    (hiv : cstc.iv.length ≠ cstc.blockSize) :
    (cstc.encryptCBC data).isError = true ∧ (cstc.encryptPCBC data).isError = true ∧
      (cstc.encryptCFB data).isError = true ∧ (cstc.encryptOFB data).isError = true ∧
      (cstc.encryptCTR data).isError = true := by
  refine ⟨?_, ?_, ?_, ?_, ?_⟩
  · unfold CryptoSymmetricContext.encryptCBC
    dsimp only
    rw [if_pos hiv]
    rfl
  · unfold CryptoSymmetricContext.encryptPCBC
    dsimp only
    rw [if_pos hiv]
    rfl
  · unfold CryptoSymmetricContext.encryptCFB
    dsimp only
    rw [if_pos hiv]
    rfl
  · unfold CryptoSymmetricContext.encryptOFB
    dsimp only
    rw [if_pos hiv]
    rfl
  · unfold CryptoSymmetricContext.encryptCTR
    dsimp only
    rw [if_pos hiv]
    rfl

theorem chained_decrypt_rejects_iv {σ : Type} (cstc : CryptoSymmetricContext σ) (data : Bytes)
    (hiv : cstc.iv.length ≠ cstc.blockSize) :
    (cstc.decryptCBC data).isError = true ∧ (cstc.decryptPCBC data).isError = true ∧
      (cstc.decryptCFB data).isError = true ∧ (cstc.decryptOFB data).isError = true ∧
      (cstc.decryptCTR data).isError = true := by
  refine ⟨?_, ?_, ?_, (chained_encrypt_rejects_iv cstc data hiv).2.2.2.1,
    (chained_encrypt_rejects_iv cstc data hiv).2.2.2.2⟩
  · unfold CryptoSymmetricContext.decryptCBC
    dsimp only
    rw [if_pos hiv]
    rfl
  · unfold CryptoSymmetricContext.decryptPCBC
    dsimp only
    rw [if_pos hiv]
    rfl
  · unfold CryptoSymmetricContext.decryptCFB
    dsimp only
    rw [if_pos hiv]
    rfl

/-- The mode dispatch of `Encrypt` returns an error under an undefined mode
tag and under a chained mode whose IV has the wrong length. -/
theorem encrypt_dispatch_error {σ : Type} (cstc : CryptoSymmetricContext σ)
    (tape data : Bytes)
    (h : ((cstc.mode = CBC ∨ cstc.mode = PCBC ∨ cstc.mode = CFB ∨ cstc.mode = OFB ∨
        cstc.mode = CTR) ∧ cstc.iv.length ≠ cstc.blockSize) ∨ 6 < cstc.mode) :
    Result.isError
      (if cstc.mode = ECB then cstc.encryptECB data
       else if cstc.mode = CBC then cstc.encryptCBC data
       else if cstc.mode = PCBC then cstc.encryptPCBC data
       else if cstc.mode = CFB then cstc.encryptCFB data
       else if cstc.mode = OFB then cstc.encryptOFB data
       else if cstc.mode = CTR then cstc.encryptCTR data
       else if cstc.mode = RandomDelta then cstc.encryptRandomDelta tape data
       else throw (Fault.error "unsupported cipher mode")) = true := by
  rcases h with ⟨hm, hiv⟩ | hm
  · obtain ⟨c1, c2, c3, c4, c5⟩ := chained_encrypt_rejects_iv cstc data hiv
    rcases hm with h | h | h | h | h
    · rw [h, if_neg (by decide), if_pos rfl]; exact c1
    · rw [h, if_neg (by decide), if_neg (by decide), if_pos rfl]; exact c2
    · rw [h, if_neg (by decide), if_neg (by decide), if_neg (by decide), if_pos rfl]
      exact c3
    · rw [h, if_neg (by decide), if_neg (by decide), if_neg (by decide), if_neg (by decide),
        if_pos rfl]
      exact c4
    · rw [h, if_neg (by decide), if_neg (by decide), if_neg (by decide), if_neg (by decide),
        if_neg (by decide), if_pos rfl]
      exact c5
  · simp only [ECB, CBC, PCBC, CFB, OFB, CTR, RandomDelta]
    rw [if_neg (by omega), if_neg (by omega), if_neg (by omega), if_neg (by omega),
      if_neg (by omega), if_neg (by omega), if_neg (by omega)]
    rfl

theorem decrypt_dispatch_error {σ : Type} (cstc : CryptoSymmetricContext σ) (data : Bytes)
    (h : ((cstc.mode = CBC ∨ cstc.mode = PCBC ∨ cstc.mode = CFB ∨ cstc.mode = OFB ∨
        cstc.mode = CTR) ∧ cstc.iv.length ≠ cstc.blockSize) ∨ 6 < cstc.mode) :
    Result.isError
      (if cstc.mode = ECB then cstc.decryptECB data
       else if cstc.mode = CBC then cstc.decryptCBC data
       else if cstc.mode = PCBC then cstc.decryptPCBC data
       else if cstc.mode = CFB then cstc.decryptCFB data
       else if cstc.mode = OFB then cstc.decryptOFB data
       else if cstc.mode = CTR then cstc.decryptCTR data
       else if cstc.mode = RandomDelta then cstc.decryptRandomDelta data
       else throw (Fault.error "unsupported cipher mode")) = true := by
  rcases h with ⟨hm, hiv⟩ | hm
  · obtain ⟨c1, c2, c3, c4, c5⟩ := chained_decrypt_rejects_iv cstc data hiv
    rcases hm with h | h | h | h | h
    · rw [h, if_neg (by decide), if_pos rfl]; exact c1
    · rw [h, if_neg (by decide), if_neg (by decide), if_pos rfl]; exact c2
    · rw [h, if_neg (by decide), if_neg (by decide), if_neg (by decide), if_pos rfl]
      exact c3
    · rw [h, if_neg (by decide), if_neg (by decide), if_neg (by decide), if_neg (by decide),
        if_pos rfl]
      exact c4
    · rw [h, if_neg (by decide), if_neg (by decide), if_neg (by decide), if_neg (by decide),
        if_neg (by decide), if_pos rfl]
      exact c5
  · simp only [ECB, CBC, PCBC, CFB, OFB, CTR, RandomDelta]
    rw [if_neg (by omega), if_neg (by omega), if_neg (by omega), if_neg (by omega),
      if_neg (by omega), if_neg (by omega), if_neg (by omega)]
    rfl

/-- C8, counterexample. The constructor returns a context although the IV of
a chained mode has the wrong length, although the block size is 0, although
the mode tag is undefined and although the padding tag is undefined. -/
theorem constructor_accepts_bad_configuration :
    (NewCryptoSymmetricContext (List.replicate 16 1) rc5Algorithm NewRC5 CBC PKCS7 []
        16).isOk = true ∧
      (NewCryptoSymmetricContext (List.replicate 16 1) rc5Algorithm NewRC5 ECB PKCS7 []
        0).isOk = true ∧
      (NewCryptoSymmetricContext (List.replicate 16 1) rc5Algorithm NewRC5 7 PKCS7
        (List.replicate 16 0) 16).isOk = true ∧
      (NewCryptoSymmetricContext (List.replicate 16 1) rc5Algorithm NewRC5 ECB 4
        (List.replicate 16 0) 16).isOk = true := by
  obtain ⟨S, e1, _⟩ := rc5_SetKey_ok NewRC5 (List.replicate 16 1) rfl (by decide)
  have h1 := NewCryptoSymmetricContext_ok (List.replicate 16 1) rc5Algorithm NewRC5 _
    CBC PKCS7 [] 16 (Or.inl rfl) e1
  have h2 := NewCryptoSymmetricContext_ok (List.replicate 16 1) rc5Algorithm NewRC5 _
    ECB PKCS7 [] 0 (Or.inr (Or.inl rfl)) e1
  have h3 := NewCryptoSymmetricContext_ok (List.replicate 16 1) rc5Algorithm NewRC5 _
    7 PKCS7 (List.replicate 16 0) 16 (Or.inl rfl) e1
  have h4 := NewCryptoSymmetricContext_ok (List.replicate 16 1) rc5Algorithm NewRC5 _
    ECB 4 (List.replicate 16 0) 16 (Or.inl rfl) e1
  rw [h1, h2, h3, h4]
  exact ⟨rfl, rfl, rfl, rfl⟩

/-- C8, amended. The constructor validates the key only: once it succeeds for
a key it succeeds with that key for every mode tag, padding tag and IV. These
configuration errors are returned at first use: for a constructed context with
`1 ≤ blockSize ≤ 255` and non-empty data, `Encrypt` returns an error when the
mode is chained and `len(iv) ≠ blockSize`, when the mode tag is undefined and
when the padding tag is undefined, and `Decrypt` returns an error when the mode
is chained and `len(iv) ≠ blockSize` and when the mode tag is undefined. -/
theorem configuration_errors_at_first_use {σ : Type} (key : Bytes)
    (cipher : SymmetricAlgorithm σ) (obj : σ) (mode padding : Nat) (iv : Bytes)
    (blockSize : Nat) (ctx : CryptoSymmetricContext σ) (tape data : Bytes)
    (hnew : NewCryptoSymmetricContext key cipher obj mode padding iv blockSize = Except.ok ctx)
    (hbs1 : 1 ≤ blockSize) (hbs2 : blockSize ≤ 255) (hd : data ≠ []) :
    (∀ (mode1 padding1 : Nat) (iv1 : Bytes),
        (NewCryptoSymmetricContext key cipher obj mode1 padding1 iv1 blockSize).isOk = true) ∧
      ((((mode = CBC ∨ mode = PCBC ∨ mode = CFB ∨ mode = OFB ∨ mode = CTR) ∧
            iv.length ≠ blockSize) ∨ 6 < mode ∨ 3 < padding) →
        (ctx.Encrypt tape data).isError = true) ∧
      ((((mode = CBC ∨ mode = PCBC ∨ mode = CFB ∨ mode = OFB ∨ mode = CTR) ∧
            iv.length ≠ blockSize) ∨ 6 < mode) →
        (ctx.Decrypt data).isError = true) := by
  have hk : key.length = blockSize ∨ key.length = 16 ∨ key.length = 24 ∨ key.length = 32 := by
    by_contra hc
    unfold NewCryptoSymmetricContext at hnew
    rw [if_pos (by omega)] at hnew
    exact absurd hnew (by simp)
  obtain ⟨_, _, f3, f4, f5, f6, f7⟩ :=
    NewCryptoSymmetricContext_fields key cipher obj mode padding iv blockSize ctx hnew
  have hdl : data.length ≠ 0 := fun h => hd (List.length_eq_zero.mp h)
  refine ⟨fun m1 p1 i1 => ?_, fun h => ?_, fun h => ?_⟩
  · rw [NewCryptoSymmetricContext_ok key cipher obj _ m1 p1 i1 blockSize hk f7]
    rfl
  · subst f3 f4 f5 f6
    unfold CryptoSymmetricContext.Encrypt
    rw [if_neg hdl]
    rcases AddPadding_cases ctx tape data hbs1 hbs2 with ⟨⟨padded, tape1⟩, e1, e2⟩ | ⟨msg, e1⟩
    · rw [e1, wrapf_ok, ok_bind]
      dsimp only
      rw [wrapf_isError]
      apply encrypt_dispatch_error
      rcases h with h | h | h
      · exact Or.inl h
      · exact Or.inr h
      · omega
    · rw [e1]
      rfl
  · subst f3 f4 f5 f6
    unfold CryptoSymmetricContext.Decrypt
    rw [if_neg hdl]
    apply isError_bind
    rw [wrapf_isError]
    exact decrypt_dispatch_error ctx data h

theorem configuration_errors_at_first_use_witness :
    ∃ ctx, NewCryptoSymmetricContext (List.replicate 16 1) rc5Algorithm NewRC5 CBC PKCS7 []
          16 = Except.ok ctx ∧
      (ctx.Encrypt [] [1, 2, 3]).isError = true ∧ (ctx.Decrypt [1, 2, 3]).isError = true := by
  obtain ⟨S, e1, _⟩ := rc5_SetKey_ok NewRC5 (List.replicate 16 1) rfl (by decide)
  have hnew := NewCryptoSymmetricContext_ok (List.replicate 16 1) rc5Algorithm NewRC5 _
    CBC PKCS7 [] 16 (Or.inl rfl) e1
  obtain ⟨_, h3, h4⟩ := configuration_errors_at_first_use (List.replicate 16 1)
    rc5Algorithm NewRC5 CBC PKCS7 [] 16 _ [] [1, 2, 3] hnew (by decide) (by decide) (by decide)
  exact ⟨_, hnew, h3 (Or.inl ⟨Or.inl rfl, by decide⟩), h4 (Or.inl ⟨Or.inl rfl, by decide⟩)⟩

/-! ## Ciphertext that is not a whole number of blocks -/

set_option maxRecDepth 1000000 in
/-- C10. `Decrypt` returns a plaintext for a ciphertext of 17 bytes with block
size 16 in the modes PCBC and CFB (RC5 under the key `1, ..., 16`, zero IV,
Zeros padding), whereas ECB and CBC reject the same ciphertext with an error. -/
theorem decrypt_accepts_unaligned_ciphertext :
    ∃ ctxPCBC ctxCFB ctxECB ctxCBC,
      NewCryptoSymmetricContext [1, 2, 3, 4, 5, 6, 7, 8, 9, 10, 11, 12, 13, 14, 15, 16]
          rc5Algorithm NewRC5 PCBC Zeros (List.replicate 16 0) 16 = Except.ok ctxPCBC ∧
        ctxPCBC.Decrypt (List.replicate 17 0)
          = Except.ok [189, 232, 76, 220, 59, 15, 138, 210, 225, 36, 185, 199, 2, 146, 46, 21] ∧
      NewCryptoSymmetricContext [1, 2, 3, 4, 5, 6, 7, 8, 9, 10, 11, 12, 13, 14, 15, 16]
          rc5Algorithm NewRC5 CFB Zeros (List.replicate 16 0) 16 = Except.ok ctxCFB ∧
        ctxCFB.Decrypt (List.replicate 17 0)
          = Except.ok [81, 106, 176, 25, 10, 7, 67, 126, 223, 10, 105, 59, 152, 131, 169, 36] ∧
      NewCryptoSymmetricContext [1, 2, 3, 4, 5, 6, 7, 8, 9, 10, 11, 12, 13, 14, 15, 16]
          rc5Algorithm NewRC5 ECB Zeros (List.replicate 16 0) 16 = Except.ok ctxECB ∧
        (ctxECB.Decrypt (List.replicate 17 0)).isError = true ∧
      NewCryptoSymmetricContext [1, 2, 3, 4, 5, 6, 7, 8, 9, 10, 11, 12, 13, 14, 15, 16]
          rc5Algorithm NewRC5 CBC Zeros (List.replicate 16 0) 16 = Except.ok ctxCBC ∧
        (ctxCBC.Decrypt (List.replicate 17 0)).isError = true :=
  ⟨_, _, _, _, rfl, rfl, rfl, rfl, rfl, rfl, rfl, rfl⟩

/-! ## Removal of ANSI X9.23 and ISO 10126 padding -/

/-- C14. `removeANSIX923Padding` does not reject a final byte 0: on the two
bytes `1, 0` it returns the two bytes unchanged, where `removeISO10126Padding`
and `removePKCS7Padding` return an error; a final byte larger than the length
is rejected by all of them. -/
theorem removeANSIX923Padding_accepts_zero :
    removeANSIX923Padding [1, 0] = Except.ok [1, 0] ∧
      (removeISO10126Padding [1, 0]).isError = true ∧
      (removePKCS7Padding [1, 0]).isError = true ∧
      (removeANSIX923Padding [1, 3]).isError = true ∧
      (removeISO10126Padding [1, 3]).isError = true ∧
      removeANSIX923Padding [7, 8, 9, 2] = Except.ok [7, 8] ∧
      removeISO10126Padding [7, 8, 9, 2] = Except.ok [7, 8] :=
  ⟨rfl, rfl, rfl, rfl, rfl, rfl, rfl⟩

/-! ## Zeros padding -/

theorem dropWhile_replicate_append (p : Byte → Bool) (x : Byte) (hx : p x = true) (k : Nat)
    (l : Bytes) : (List.replicate k x ++ l).dropWhile p = l.dropWhile p := by
  induction k with
  | zero => rfl
  | succ k ih =>
    rw [List.replicate_succ, List.cons_append, List.dropWhile_cons_of_pos hx, ih]

theorem removeZerosPadding_append_zeros (d : Bytes) (k : Nat) :
    removeZerosPadding (d ++ List.replicate k 0) = removeZerosPadding d := by
  unfold removeZerosPadding
  rw [List.reverse_append, List.reverse_replicate,
    dropWhile_replicate_append _ 0 (by decide)]

theorem takeWhile_zero_eq_replicate : ∀ (l : Bytes),
    l.takeWhile (fun b => b == 0) = List.replicate (l.takeWhile (fun b => b == 0)).length 0 := by
  intro l
  induction l with
  | nil => rfl
  | cons x xs ih =>
    by_cases hx : x = 0
    · subst hx
      rw [List.takeWhile_cons_of_pos (by decide), List.length_cons, List.replicate_succ, ← ih]
    · rw [List.takeWhile_cons_of_neg (by simpa using hx)]
      rfl

/-- What `removeZerosPadding` returns: the string without its trailing zero
bytes. -/
theorem removeZerosPadding_spec (d : Bytes) :
    (∃ k, d = removeZerosPadding d ++ List.replicate k 0) ∧
      (removeZerosPadding d = [] ∨ lastByte (removeZerosPadding d) ≠ 0) := by
  constructor
  · refine ⟨(d.reverse.takeWhile (fun b => b == 0)).length, ?_⟩
    have h := List.takeWhile_append_dropWhile (fun b => b == 0) d.reverse
    have h2 := congrArg List.reverse h
    rw [List.reverse_append, List.reverse_reverse, takeWhile_zero_eq_replicate,
      List.reverse_replicate] at h2
    exact h2.symm
  · unfold removeZerosPadding
    cases hr : d.reverse.dropWhile (fun b => b == 0) with
    | nil => left; rfl
    | cons x xs =>
      right
      have hx : ¬ ((x == 0) = true) := by
        have := List.head_dropWhile_not (fun b => b == 0) d.reverse (by rw [hr]; simp)
        simpa [hr] using this
      rw [List.reverse_cons, lastByte_append_singleton]
      intro h0
      apply hx
      have : x = 0 := Fin.ext h0
      rw [this]
      rfl

theorem removeZerosPadding_eq_self_iff (d : Bytes) :
    removeZerosPadding d = d ↔ d = [] ∨ lastByte d ≠ 0 := by
  constructor
  · intro h
    have := (removeZerosPadding_spec d).2
    rw [h] at this
    exact this
  · intro h
    rcases h with h | h
    · subst h
      rfl
    · unfold removeZerosPadding
      cases hr : d.reverse with
      | nil =>
        have : d = [] := by simpa using hr
        subst this
        rfl
      | cons x xs =>
        have hd : d = xs.reverse ++ [x] := by
          have := congrArg List.reverse hr
          rw [List.reverse_reverse, List.reverse_cons] at this
          exact this
        have hx : (x == 0) = false := by
          rw [hd, lastByte_append_singleton] at h
          have : x ≠ 0 := fun h0 => h (by rw [h0]; rfl)
          simpa using this
        rw [List.dropWhile_cons_of_neg (by simp [hx]), List.reverse_cons, hd]

/-- C13. Zeros padding: for every block size `bs ≥ 1` and every byte string
`d`, padding succeeds and `RemovePadding` of the padded string returns `d`
without its trailing zero bytes (a string `r` with `d = r ++ 0...0` that is
empty or ends in a non-zero byte); this is `d` exactly when `d` is empty or the
last byte of `d` is not zero. -/
theorem zeros_padding_round_trip {σ : Type} (cstc : CryptoSymmetricContext σ) (tape d : Bytes)
    (hbs : 1 ≤ cstc.blockSize) (hpad : cstc.padding = Zeros) :
    ∃ padded r, cstc.AddPadding tape d = Except.ok (padded, tape) ∧
      cstc.RemovePadding padded = Except.ok r ∧
      (∃ k, d = r ++ List.replicate k 0) ∧ (r = [] ∨ lastByte r ≠ 0) ∧
      (r = d ↔ d = [] ∨ lastByte d ≠ 0) := by
  obtain ⟨b1, b2⟩ := padLen_bounds cstc.blockSize d.length hbs
  refine ⟨d ++ List.replicate (cstc.blockSize - d.length % cstc.blockSize) 0,
    removeZerosPadding d, ?_, ?_, (removeZerosPadding_spec d).1, (removeZerosPadding_spec d).2,
    removeZerosPadding_eq_self_iff d⟩
  · unfold CryptoSymmetricContext.AddPadding
    rw [if_neg (by omega)]
    dsimp only
    rw [if_neg (show ¬ (cstc.blockSize - d.length % cstc.blockSize = 0) by omega),
      if_pos hpad]
    rfl
  · unfold CryptoSymmetricContext.RemovePadding
    rw [if_pos hpad, removeZerosPadding_append_zeros]
    rfl

theorem zeros_padding_round_trip_witness :
    ∃ padded r,
      CryptoSymmetricContext.AddPadding
          { key := [], cipher := rc5Algorithm, obj := NewRC5, mode := ECB, padding := Zeros,
            iv := [], blockSize := 4 } [] [5, 0, 6, 0, 0] = Except.ok (padded, []) ∧
        CryptoSymmetricContext.RemovePadding
          { key := [], cipher := rc5Algorithm, obj := NewRC5, mode := ECB, padding := Zeros,
            iv := [], blockSize := 4 } padded = Except.ok r ∧
        (∃ k, ([5, 0, 6, 0, 0] : Bytes) = r ++ List.replicate k 0) ∧ (r = [] ∨ lastByte r ≠ 0) ∧
        (r = [5, 0, 6, 0, 0] ↔ ([5, 0, 6, 0, 0] : Bytes) = [] ∨ lastByte [5, 0, 6, 0, 0] ≠ 0) :=
  zeros_padding_round_trip _ [] [5, 0, 6, 0, 0] (by decide) rfl

/-! ## Size checks of LOKI97 -/

theorem feistel_loop_ok (SKeys : List Bytes)
    (hS : ∀ j, j < 48 → (subKey SKeys j).length = 8) :
    ∀ (fuel i : Nat) (L R : Bytes), L.length = 8 → R.length = 8 →
      ∃ L1 R1, FeistelNetwork.loop SKeys fuel i L R = Except.ok (L1, R1) ∧
        L1.length = 8 ∧ R1.length = 8 := by
  intro fuel
  induction fuel with
  | zero =>
    intro i L R hL hR
    exact ⟨L, R, rfl, hL, hR⟩
  | succ fuel ih =>
    intro i L R hL hR
    have k3 := hS (3 * i % 48) (Nat.mod_lt _ (by norm_num))
    have k2 := hS ((3 * i - 1) % 48) (Nat.mod_lt _ (by norm_num))
    have k1 := hS ((3 * i - 2) % 48) (Nat.mod_lt _ (by norm_num))
    obtain ⟨p1, e1, l1⟩ := Plus_ok R (subKey SKeys ((3 * i - 2) % 48)) (by omega)
    obtain ⟨f1, e2, l2⟩ := f_ok p1 (subKey SKeys ((3 * i - 1) % 48)) (by omega) k2
    obtain ⟨p2, e3, l3⟩ := Plus_ok p1 (subKey SKeys (3 * i % 48)) (by omega)
    rw [FeistelNetwork.loop]
    rw [e1, ok_bind, e2, ok_bind, XOR_ok _ _ (by omega), ok_bind, ok_bind, e3, ok_bind]
    exact ih (i + 1) p2 (xorBytes L f1) (by omega)
      (by rw [xorBytes_length _ _ (by omega)]; exact hL)

theorem decr_loop_ok (SKeys : List Bytes)
    (hS : ∀ j, j < 48 → (subKey SKeys j).length = 8) :
    ∀ (j : Nat) (L R : Bytes), L.length = 8 → R.length = 8 →
      ∃ L1 R1, decr.loop SKeys j L R = Except.ok (L1, R1) ∧
        L1.length = 8 ∧ R1.length = 8 := by
  intro j
  induction j with
  | zero =>
    intro L R hL hR
    exact ⟨L, R, rfl, hL, hR⟩
  | succ j ih =>
    intro L R hL hR
    have k3 := hS (3 * (j + 1) % 48) (Nat.mod_lt _ (by norm_num))
    have k2 := hS ((3 * (j + 1) - 1) % 48) (Nat.mod_lt _ (by norm_num))
    have k1 := hS ((3 * (j + 1) - 2) % 48) (Nat.mod_lt _ (by norm_num))
    obtain ⟨m1, e1, l1⟩ := Minus_ok R (subKey SKeys (3 * (j + 1) % 48)) (by omega)
    obtain ⟨f1, e2, l2⟩ := f_ok m1 (subKey SKeys ((3 * (j + 1) - 1) % 48)) (by omega) k2
    obtain ⟨m2, e3, l3⟩ := Minus_ok m1 (subKey SKeys ((3 * (j + 1) - 2) % 48)) (by omega)
    rw [decr.loop]
    rw [e1, ok_bind, e2, ok_bind, XOR_ok _ _ (by omega), ok_bind, ok_bind, e3, ok_bind]
    exact ih m2 (xorBytes L f1) (by omega)
      (by rw [xorBytes_length _ _ (by omega)]; exact hL)

theorem loki97_Encrypt_ok (l : Loki97) (hb : l.blockSize = 16)
    (hS : ∀ j, j < 48 → (subKey l.subKeys j).length = 8) (d : Bytes) (h : d.length = 16) :
    ∃ c, Loki97.Encrypt l d = Except.ok c ∧ c.length = 16 := by
  obtain ⟨L1, R1, e1, l1, l2⟩ := feistel_loop_ok l.subKeys hS 16 1 (d.take 8) (d.drop 8)
    (by simp [h]) (by simp [h])
  refine ⟨R1 ++ L1, ?_, by simp [l1, l2]⟩
  unfold Loki97.Encrypt LRBlocks FeistelNetwork
  rw [if_neg (by rw [hb, h]; decide)]
  simp only [h, Nat.reduceDiv]
  rw [e1, ok_bind]
  dsimp only
  rw [halves_join _ _ l1 l2]
  rfl

theorem loki97_Decrypt_ok (l : Loki97) (hb : l.blockSize = 16)
    (hS : ∀ j, j < 48 → (subKey l.subKeys j).length = 8) (d : Bytes) (h : d.length = 16) :
    ∃ c, Loki97.Decrypt l d = Except.ok c ∧ c.length = 16 := by
  obtain ⟨L1, R1, e1, l1, l2⟩ := decr_loop_ok l.subKeys hS 16 (d.take 8) (d.drop 8)
    (by simp [h]) (by simp [h])
  refine ⟨R1 ++ L1, ?_, by simp [l1, l2]⟩
  unfold Loki97.Decrypt LRBlocks decr
  rw [if_neg (by rw [hb, h]; decide)]
  simp only [h, Nat.reduceDiv]
  rw [e1, ok_bind]
  dsimp only
  rw [halves_join _ _ l1 l2]
  rfl

/-- C12. LOKI97 size checks: `SetKey` returns an error exactly when the key
does not have 16 bytes; on an object keyed by `SetKey`, `Encrypt` and `Decrypt`
return an error exactly when the data does not have 16 bytes, and return 16
bytes otherwise. -/
theorem loki97_size_checks (l0 : Loki97) (k d : Bytes) :
    ((Loki97.SetKey l0 k).isError = true ↔ k.length ≠ 16) ∧
      ((Loki97.SetKey l0 k).isOk = true ↔ k.length = 16) ∧
      ∀ l, Loki97.SetKey l0 k = Except.ok l →
        ((Loki97.Encrypt l d).isError = true ↔ d.length ≠ 16) ∧
        ((Loki97.Decrypt l d).isError = true ↔ d.length ≠ 16) ∧
        (d.length = 16 →
          ∃ c p, Loki97.Encrypt l d = Except.ok c ∧ c.length = 16 ∧
            Loki97.Decrypt l d = Except.ok p ∧ p.length = 16) := by
  have hset : k.length ≠ 16 → Loki97.SetKey l0 k
      = Except.error (Fault.error "key size must be 16 bytes") := by
    intro h
    unfold Loki97.SetKey
    rw [if_pos h]
    rfl
  refine ⟨?_, ?_, ?_⟩
  · constructor
    · intro h hk
      obtain ⟨s, e, _⟩ := Loki97_SetKey_ok l0 k hk
      rw [e] at h
      exact absurd h (by simp [Result.isError])
    · intro h
      rw [hset h]
      rfl
  · constructor
    · intro h
      by_contra hk
      rw [hset hk] at h
      exact absurd h (by simp [Result.isOk])
    · intro hk
      obtain ⟨s, e, _⟩ := Loki97_SetKey_ok l0 k hk
      rw [e]
      rfl
  · intro l hl
    have hk : k.length = 16 := by
      by_contra hk
      rw [hset hk] at hl
      exact absurd hl (by simp)
    obtain ⟨s, e, hS⟩ := Loki97_SetKey_ok l0 k hk
    rw [e] at hl
    have hl2 := (Except.ok.inj hl).symm
    subst hl2
    have henc : d.length ≠ 16 →
        Loki97.Encrypt { key := k, subKeys := s, blockSize := 16 } d
          = Except.error (Fault.error "data size must be 16 bytes") := by
      intro h
      unfold Loki97.Encrypt
      rw [if_pos h]
      rfl
    have hdec : d.length ≠ 16 →
        Loki97.Decrypt { key := k, subKeys := s, blockSize := 16 } d
          = Except.error (Fault.error "data size must be exactly 16 bytes") := by
      intro h
      unfold Loki97.Decrypt
      rw [if_pos h]
      rfl
    refine ⟨?_, ?_, ?_⟩
    · constructor
      · intro h hd
        obtain ⟨c, e1, _⟩ := loki97_Encrypt_ok { key := k, subKeys := s, blockSize := 16 }
          rfl hS d hd
        rw [e1] at h
        exact absurd h (by simp [Result.isError])
      · intro h
        rw [henc h]
        rfl
    · constructor
      · intro h hd
        obtain ⟨c, e1, _⟩ := loki97_Decrypt_ok { key := k, subKeys := s, blockSize := 16 }
          rfl hS d hd
        rw [e1] at h
        exact absurd h (by simp [Result.isError])
      · intro h
        rw [hdec h]
        rfl
    · intro hd
      obtain ⟨c, e1, l1⟩ := loki97_Encrypt_ok { key := k, subKeys := s, blockSize := 16 }
        rfl hS d hd
      obtain ⟨p, e2, l2⟩ := loki97_Decrypt_ok { key := k, subKeys := s, blockSize := 16 }
        rfl hS d hd
      exact ⟨c, p, e1, l1, e2, l2⟩

/-! ## Length checks of RC5 -/

theorem rc5_encrypt_loop_ok (rc5 : RC5) :
    ∀ (fuel i A B : Nat), 2 * (i + fuel) ≤ rc5.S.length →
      ∃ A1 B1, RC5.encryptBlock.loop rc5 fuel i A B = Except.ok (A1, B1) := by
  intro fuel
  induction fuel with
  | zero => intro i A B _; exact ⟨A, B, rfl⟩
  | succ fuel ih =>
    intro i A B h
    rw [RC5.encryptBlock.loop, idx_of_lt _ _ (show 2 * i < rc5.S.length by omega), ok_bind,
      idx_of_lt _ _ (show 2 * i + 1 < rc5.S.length by omega), ok_bind]
    exact ih _ _ _ (by omega)

theorem rc5_decrypt_loop_ok (rc5 : RC5) :
    ∀ (j A B : Nat), 2 * (j + 1) ≤ rc5.S.length →
      ∃ A1 B1, RC5.decryptBlock.loop rc5 j A B = Except.ok (A1, B1) := by
  intro j
  induction j with
  | zero => intro A B _; exact ⟨A, B, rfl⟩
  | succ j ih =>
    intro A B h
    rw [RC5.decryptBlock.loop, idx_of_lt _ _ (show 2 * (j + 1) + 1 < rc5.S.length by omega),
      ok_bind, idx_of_lt _ _ (show 2 * (j + 1) < rc5.S.length by omega), ok_bind]
    exact ih _ _ (by omega)

theorem rc5_encryptBlock_ok (rc5 : RC5) (hw : rc5.w = 64)
    (hS : 2 * (rc5.r + 1) ≤ rc5.S.length) (b : Bytes) (hb : b.length = 16) :
    ∃ c, RC5.encryptBlock rc5 b = Except.ok c ∧ c.length = 16 := by
  obtain ⟨A1, B1, e1⟩ := rc5_encrypt_loop_ok rc5 rc5.r 1
    (add64 (leUint (b.take 8)) (rc5.S.get ⟨0, by omega⟩))
    (add64 (leUint ((b.drop 8).take 8)) (rc5.S.get ⟨1, by omega⟩)) (by omega)
  refine ⟨lePut 8 A1 ++ lePut 8 B1, ?_, by simp [lePut_length]⟩
  unfold RC5.encryptBlock
  simp only [hw, Nat.reduceDiv, Nat.reduceMul]
  rw [if_neg (by simp [hb]), if_neg (by decide), idx_of_lt _ _ (show 0 < rc5.S.length by omega),
    ok_bind, idx_of_lt _ _ (show 1 < rc5.S.length by omega), ok_bind, e1]
  rfl

theorem rc5_decryptBlock_ok (rc5 : RC5) (hw : rc5.w = 64)
    (hS : 2 * (rc5.r + 1) ≤ rc5.S.length) (b : Bytes) (hb : b.length = 16) :
    ∃ c, RC5.decryptBlock rc5 b = Except.ok c ∧ c.length = 16 := by
  obtain ⟨A1, B1, e1⟩ := rc5_decrypt_loop_ok rc5 rc5.r (leUint (b.take 8))
    (leUint ((b.drop 8).take 8)) (by omega)
  refine ⟨lePut 8 (sub64 A1 (rc5.S.get ⟨0, by omega⟩))
    ++ lePut 8 (sub64 B1 (rc5.S.get ⟨1, by omega⟩)), ?_, by simp [lePut_length]⟩
  unfold RC5.decryptBlock
  simp only [hw, Nat.reduceDiv, Nat.reduceMul]
  rw [if_neg (by simp [hb]), if_neg (by decide), e1, ok_bind]
  dsimp only
  rw [idx_of_lt _ _ (show 1 < rc5.S.length by omega), ok_bind,
    idx_of_lt _ _ (show 0 < rc5.S.length by omega), ok_bind]
  rfl

/-- The block loop succeeds when the block function succeeds on every block. -/
theorem blocksLoop_ok (fn : Bytes → Result Bytes) (data : Bytes) (bs : Nat)
    (hfn : ∀ b : Bytes, b.length = bs → ∃ c, fn b = Except.ok c) :
    ∀ (n i : Nat) (out : Bytes), i + n * bs ≤ data.length →
      ∃ r, blocksLoop fn data bs n i out = Except.ok r ∧ r.length = out.length := by
  intro n
  induction n with
  | zero => intro i out _; exact ⟨out, rfl, rfl⟩
  | succ n ih =>
    intro i out h
    have e1 : (n + 1) * bs = bs + n * bs := by ring
    have hb : i + bs ≤ data.length := by omega
    obtain ⟨c, hc⟩ := hfn _ (block_length data i bs hb)
    rw [blocksLoop, slice_block _ _ _ hb, ok_bind, hc, ok_bind]
    obtain ⟨r, e2, e3⟩ := ih (i + bs) (copyAt out i (c.take bs)) (by omega)
    exact ⟨r, e2, by rw [e3, copyAt_length]⟩

theorem rc5_Encrypt_cases (rc5 : RC5) (hw : rc5.w = 64)
    (hS : 2 * (rc5.r + 1) ≤ rc5.S.length) (d : Bytes) :
    (d.length % 16 ≠ 0 → (RC5.Encrypt rc5 d).isError = true) ∧
      (d.length % 16 = 0 → ∃ c, RC5.Encrypt rc5 d = Except.ok c ∧ c.length = d.length) := by
  unfold RC5.Encrypt
  simp only [hw, Nat.reduceDiv]
  rw [if_neg (by decide)]
  constructor
  · intro h
    rw [if_pos h]
    rfl
  · intro h
    rw [if_neg (by omega)]
    obtain ⟨r, e1, e2⟩ := blocksLoop_ok rc5.encryptBlock d 16
      (fun b hb => (rc5_encryptBlock_ok rc5 hw hS b hb).imp fun c hc => hc.1)
      (d.length / 16) 0 (zeros d.length) (by omega)
    exact ⟨r, e1, by rw [e2, zeros_length]⟩

theorem rc5_Decrypt_cases (rc5 : RC5) (hw : rc5.w = 64)
    (hS : 2 * (rc5.r + 1) ≤ rc5.S.length) (d : Bytes) :
    (d.length % 16 ≠ 0 → (RC5.Decrypt rc5 d).isError = true) ∧
      (d.length % 16 = 0 → ∃ c, RC5.Decrypt rc5 d = Except.ok c ∧ c.length = d.length) := by
  unfold RC5.Decrypt
  simp only [hw, Nat.reduceDiv]
  rw [if_neg (by decide)]
  constructor
  · intro h
    rw [if_pos h]
    rfl
  · intro h
    rw [if_neg (by omega)]
    obtain ⟨r, e1, e2⟩ := blocksLoop_ok rc5.decryptBlock d 16
      (fun b hb => (rc5_decryptBlock_ok rc5 hw hS b hb).imp fun c hc => hc.1)
      (d.length / 16) 0 (zeros d.length) (by omega)
    exact ⟨r, e1, by rw [e2, zeros_length]⟩

theorem rc5_block_length_error (rc5 : RC5) (hw : rc5.w = 64) (d : Bytes)
    (h : d.length ≠ 16) :
    (RC5.encryptBlock rc5 d).isError = true ∧ (RC5.decryptBlock rc5 d).isError = true := by
  unfold RC5.encryptBlock RC5.decryptBlock
  simp only [hw, Nat.reduceDiv, Nat.reduceMul]
  rw [if_pos h, if_pos h]
  exact ⟨rfl, rfl⟩

/-- C11, counterexample. A keyed default RC5 object encrypts and decrypts an
input of 32 bytes, and the empty input, without an error. -/
theorem rc5_accepts_several_blocks :
    ∃ rc5 c p, RC5.SetKey NewRC5 [1, 2, 3] = Except.ok rc5 ∧
      RC5.Encrypt rc5 (List.replicate 32 0) = Except.ok c ∧ c.length = 32 ∧
      RC5.Decrypt rc5 (List.replicate 32 0) = Except.ok p ∧ p.length = 32 ∧
      RC5.Encrypt rc5 [] = Except.ok [] ∧ RC5.Decrypt rc5 [] = Except.ok [] := by
  obtain ⟨S, e1, e2⟩ := rc5_SetKey_ok NewRC5 [1, 2, 3] rfl (by decide)
  obtain ⟨c, h1, h2⟩ := (rc5_Encrypt_cases { S := S, r := NewRC5.r, w := 64, b := 3 } rfl
    (by rw [e2]) (List.replicate 32 0)).2 (by decide)
  obtain ⟨p, h3, h4⟩ := (rc5_Decrypt_cases { S := S, r := NewRC5.r, w := 64, b := 3 } rfl
    (by rw [e2]) (List.replicate 32 0)).2 (by decide)
  obtain ⟨c0, h5, h6⟩ := (rc5_Encrypt_cases { S := S, r := NewRC5.r, w := 64, b := 3 } rfl
    (by rw [e2]) []).2 (by decide)
  obtain ⟨p0, h7, h8⟩ := (rc5_Decrypt_cases { S := S, r := NewRC5.r, w := 64, b := 3 } rfl
    (by rw [e2]) []).2 (by decide)
  rw [List.length_eq_zero.mp h6] at h5
  rw [List.length_eq_zero.mp h8] at h7
  exact ⟨_, c, p, e1, h1, by rw [h2]; rfl, h3, by rw [h4]; rfl, h5, h7⟩

/-- C11, amended. On a default RC5 object keyed by `SetKey`, `Encrypt` and
`Decrypt` return an error exactly for the inputs whose length is not a multiple
of 16 bytes and process every other input block by block, returning as many
bytes as they are given; the block functions `encryptBlock` and `decryptBlock`
return an error for every input that does not have exactly 16 bytes; `SetKey`
returns an error exactly when the key is empty. -/
theorem rc5_length_checks (k d : Bytes) :
    ((RC5.SetKey NewRC5 k).isError = true ↔ k = []) ∧
      ((RC5.SetKey NewRC5 k).isOk = true ↔ k ≠ []) ∧
      ∀ rc5, RC5.SetKey NewRC5 k = Except.ok rc5 →
        ((RC5.Encrypt rc5 d).isError = true ↔ d.length % 16 ≠ 0) ∧
        ((RC5.Decrypt rc5 d).isError = true ↔ d.length % 16 ≠ 0) ∧
        (d.length % 16 = 0 →
          ∃ c p, RC5.Encrypt rc5 d = Except.ok c ∧ c.length = d.length ∧
            RC5.Decrypt rc5 d = Except.ok p ∧ p.length = d.length) ∧
        (d.length ≠ 16 → (RC5.encryptBlock rc5 d).isError = true ∧
          (RC5.decryptBlock rc5 d).isError = true) := by
  have hempty : k = [] → RC5.SetKey NewRC5 k
      = Except.error (Fault.error "key cannot be empty") := by
    intro h
    subst h
    rfl
  refine ⟨?_, ?_, ?_⟩
  · constructor
    · intro h
      by_contra hk
      obtain ⟨S, e, _⟩ := rc5_SetKey_ok NewRC5 k rfl hk
      rw [e] at h
      exact absurd h (by simp [Result.isError])
    · intro h
      rw [hempty h]
      rfl
  · constructor
    · intro h hk
      rw [hempty hk] at h
      exact absurd h (by simp [Result.isOk])
    · intro hk
      obtain ⟨S, e, _⟩ := rc5_SetKey_ok NewRC5 k rfl hk
      rw [e]
      rfl
  · intro rc5 hrc5
    have hk : k ≠ [] := by
      intro hk
      rw [hempty hk] at hrc5
      exact absurd hrc5 (by simp)
    obtain ⟨S, e, hS⟩ := rc5_SetKey_ok NewRC5 k rfl hk
    rw [e] at hrc5
    have h2 := (Except.ok.inj hrc5).symm
    subst h2
    obtain ⟨a1, a2⟩ := rc5_Encrypt_cases { S := S, r := NewRC5.r, w := 64, b := k.length } rfl
      (by rw [hS]) d
    obtain ⟨b1, b2⟩ := rc5_Decrypt_cases { S := S, r := NewRC5.r, w := 64, b := k.length } rfl
      (by rw [hS]) d
    refine ⟨⟨fun h hd => ?_, a1⟩, ⟨fun h hd => ?_, b1⟩, fun hd => ?_, fun hd => ?_⟩
    · obtain ⟨c, e1, _⟩ := a2 hd
      rw [e1] at h
      exact absurd h (by simp [Result.isError])
    · obtain ⟨c, e1, _⟩ := b2 hd
      rw [e1] at h
      exact absurd h (by simp [Result.isError])
    · obtain ⟨c, e1, l1⟩ := a2 hd
      obtain ⟨p, e2, l2⟩ := b2 hd
      exact ⟨c, p, e1, l1, e2, l2⟩
    · exact rc5_block_length_error _ rfl d hd

/-! ## OFB and CTR on data of any length -/

theorem copyAt_fit_sub {α : Type} (dst src : List α) (a : Nat)
    (h : src.length ≤ dst.length - a) :
    copyAt dst a src = dst.take a ++ (src ++ dst.drop (a + src.length)) := by
  unfold copyAt
  rw [List.take_of_length_le h]

/-- Writing the chunk `X` of block `i / bs` and then the rest `R` of the output
gives the output of the blocks from `i` on, also when the chunk is the last,
shorter one. -/
theorem chunk_frame (out X R : Bytes) (i bs m : Nat)
    (hX : X.length = min bs (out.length - i)) :
    (copyAt out i X).take (i + bs) ++ (R ++ (copyAt out i X).drop (i + bs + m))
      = out.take i ++ ((X ++ R) ++ out.drop (i + (bs + m))) := by
  by_cases h : i + bs ≤ out.length
  · have hXl : X.length = bs := by omega
    have hfit : i + X.length ≤ out.length := by omega
    have h1 := copyAt_take_end out X i hfit
    have h2 := copyAt_drop_end out X i m hfit
    rw [hXl] at h1 h2
    rw [h1, h2, List.append_assoc, List.append_assoc, Nat.add_assoc]
  · have hl : (copyAt out i X).length = out.length := copyAt_length _ _ _
    rw [List.take_of_length_le (by omega), List.drop_of_length_le (by omega),
      List.drop_of_length_le (show out.length ≤ i + (bs + m) by omega),
      copyAt_fit_sub out X i (by omega),
      List.drop_of_length_le (show out.length ≤ i + X.length by omega)]
    simp

theorem xorBytes_take_min (A ks : Bytes) (bs m : Nat) (hk : ks.length = bs)
    (hm : m = min bs A.length) :
    xorBytes (A.take m) (ks.take m) = xorBytes (A.take bs) ks := by
  have h1 : xorBytes (A.take bs) ks = (xorBytes A ks).take bs := by
    unfold xorBytes
    rw [List.take_zipWith, List.take_of_length_le (show ks.length ≤ bs by omega)]
  have h2 : (xorBytes A ks).length = m := by
    unfold xorBytes
    rw [List.length_zipWith]
    omega
  rw [h1]
  unfold xorBytes at *
  rw [← List.take_zipWith, List.take_of_length_le (by omega),
    List.take_of_length_le (by omega)]

theorem xorChunk_general (out data ks : Bytes) (i bs e : Nat) (hk : ks.length = bs)
    (he : e = min (i + bs) data.length) :
    xorChunk out data i e ks
      = Except.ok (copyAt out i (xorBytes ((data.drop i).take bs) ks)) := by
  unfold xorChunk firstN
  rw [if_neg (by omega), pure_eq_ok, ok_bind,
    xorBytes_take_min (data.drop i) ks bs (e - i) hk (by rw [List.length_drop]; omega)]
  rfl

theorem xorBytes_chunk_length (A ks : Bytes) (bs : Nat) (hk : ks.length = bs) :
    (xorBytes (A.take bs) ks).length = min bs A.length := by
  unfold xorBytes
  rw [List.length_zipWith, List.length_take]
  omega

theorem xorBytes_nil (b : Bytes) : xorBytes [] b = [] := rfl

theorem xorBytes_cancel_le : ∀ (a b : Bytes), a.length ≤ b.length →
    xorBytes (xorBytes a b) b = a := by
  intro a
  induction a with
  | nil => intro b _; rfl
  | cons x xs ih =>
    intro b h
    cases b with
    | nil => simp at h
    | cons y ys =>
      simp only [xorBytes, List.zipWith_cons_cons]
      rw [byte_xor_cancel]
      congr 1
      exact ih ys (by simpa using h)

theorem ofbSpec_nil (E : Bytes → Bytes) (bs : Nat) :
    ∀ (n : Nat) (fb : Bytes), ofbSpec E bs n fb [] = [] := by
  intro n
  induction n with
  | zero => intro fb; rfl
  | succ n ih =>
    intro fb
    rw [ofbSpec, List.take_nil, List.drop_nil, ih]
    rfl

theorem ctrSpec_nil (E : Bytes → Bytes) (bs : Nat) (counter : Bytes) :
    ∀ (n k : Nat), ctrSpec E bs counter n k [] = [] := by
  intro n
  induction n with
  | zero => intro k; rfl
  | succ n ih =>
    intro k
    rw [ctrSpec, List.take_nil, List.drop_nil, ih]
    rfl

theorem ofb_loop_general {σ : Type} (cstc : CryptoSymmetricContext σ) (E : Bytes → Bytes)
    (henc : ∀ b : Bytes, b.length = cstc.blockSize →
      cstc.cipher.Encrypt cstc.obj b = Except.ok (E b))
    (hlen : ∀ b : Bytes, b.length = cstc.blockSize → (E b).length = cstc.blockSize)
    (data : Bytes) :
    ∀ (n k : Nat) (out fb : Bytes), out.length = data.length →
      fb.length = cstc.blockSize →
      CryptoSymmetricContext.encryptOFB.loop cstc data n k out fb
        = Except.ok (out.take (k * cstc.blockSize)
            ++ (ofbSpec E cstc.blockSize n fb (data.drop (k * cstc.blockSize))
            ++ out.drop (k * cstc.blockSize + n * cstc.blockSize))) := by
  intro n
  induction n with
  | zero =>
    intro k out fb _ _
    simp [CryptoSymmetricContext.encryptOFB.loop, ofbSpec]
  | succ n ih =>
    intro k out fb ho hf
    generalize hbs : cstc.blockSize = bs at *
    have e1 : (n + 1) * bs = bs + n * bs := by ring
    have e2 : (k + 1) * bs = k * bs + bs := by ring
    have hEl := hlen _ hf
    rw [CryptoSymmetricContext.encryptOFB.loop]
    simp only [hbs]
    rw [henc _ hf, wrapf_ok, ok_bind, xorChunk_general _ _ _ _ bs _ hEl rfl,
      ok_bind, copyAt_zero_full fb _ (by omega),
      ih (k + 1) _ _ (by rw [copyAt_length]; exact ho) hEl, ofbSpec, e2, e1,
      ← List.drop_drop]
    congr 1
    apply chunk_frame
    rw [xorBytes_chunk_length _ _ _ hEl, List.length_drop, ho]

theorem ctr_loop_general {σ : Type} (cstc : CryptoSymmetricContext σ) (E : Bytes → Bytes)
    (henc : ∀ b : Bytes, b.length = cstc.blockSize →
      cstc.cipher.Encrypt cstc.obj b = Except.ok (E b))
    (hlen : ∀ b : Bytes, b.length = cstc.blockSize → (E b).length = cstc.blockSize)
    (data counter : Bytes) (hcl : counter.length = cstc.blockSize) :
    ∀ (n k : Nat) (out : Bytes), out.length = data.length →
      CryptoSymmetricContext.encryptCTR.loop cstc data counter n k out
        = Except.ok (out.take (k * cstc.blockSize)
            ++ (ctrSpec E cstc.blockSize counter n k (data.drop (k * cstc.blockSize))
            ++ out.drop (k * cstc.blockSize + n * cstc.blockSize))) := by
  intro n
  induction n with
  | zero =>
    intro k out _
    simp [CryptoSymmetricContext.encryptCTR.loop, ctrSpec]
  | succ n ih =>
    intro k out ho
    generalize hbs : cstc.blockSize = bs at *
    have e1 : (n + 1) * bs = bs + n * bs := by ring
    have e2 : (k + 1) * bs = k * bs + bs := by ring
    have hil : (incrementCounter counter k).length = bs := by
      rw [incrementCounter_length]; exact hcl
    have hEl := hlen _ hil
    rw [CryptoSymmetricContext.encryptCTR.loop]
    simp only [hbs]
    rw [copyAt_zero_full (zeros bs) counter (by rw [zeros_length]; exact hcl),
      henc _ hil, wrapf_ok, ok_bind,
      xorChunk_general _ _ _ _ bs _ hEl (by split <;> omega),
      ok_bind, ih (k + 1) _ (by rw [copyAt_length]; exact ho), ctrSpec, e2, e1,
      ← List.drop_drop]
    congr 1
    apply chunk_frame
    rw [xorBytes_chunk_length _ _ _ hEl, List.length_drop, ho]

theorem ofbSpec_length_general (E : Bytes → Bytes) (bs : Nat)
    (hE : ∀ b, b.length = bs → (E b).length = bs) :
    ∀ (n : Nat) (fb pt : Bytes), fb.length = bs → pt.length ≤ n * bs →
      (ofbSpec E bs n fb pt).length = pt.length := by
  intro n
  induction n with
  | zero =>
    intro fb pt _ hp
    have : pt = [] := List.length_eq_zero.mp (by omega)
    subst this
    rfl
  | succ n ih =>
    intro fb pt hf hp
    have e1 : (n + 1) * bs = bs + n * bs := by ring
    rw [ofbSpec, List.length_append, xorBytes_chunk_length _ _ _ (hE _ hf),
      ih _ _ (hE _ hf) (by rw [List.length_drop]; omega), List.length_drop]
    omega

theorem ctrSpec_length_general (E : Bytes → Bytes) (bs : Nat) (counter : Bytes)
    (hcl : counter.length = bs) (hE : ∀ b, b.length = bs → (E b).length = bs) :
    ∀ (n k : Nat) (pt : Bytes), pt.length ≤ n * bs →
      (ctrSpec E bs counter n k pt).length = pt.length := by
  intro n
  induction n with
  | zero =>
    intro k pt hp
    have : pt = [] := List.length_eq_zero.mp (by omega)
    subst this
    rfl
  | succ n ih =>
    intro k pt hp
    have e1 : (n + 1) * bs = bs + n * bs := by ring
    have hil : (incrementCounter counter k).length = bs := by
      rw [incrementCounter_length]; exact hcl
    rw [ctrSpec, List.length_append, xorBytes_chunk_length _ _ _ (hE _ hil),
      ih _ _ (by rw [List.length_drop]; omega), List.length_drop]
    omega

/-- One step of the involution: XORing the first chunk twice with the same
keystream block gives the chunk back. -/
theorem chunk_involution (pt ks S : Bytes) (bs : Nat) (hk : ks.length = bs)
    (hS : pt.length < bs → S = []) :
    xorBytes ((xorBytes (pt.take bs) ks ++ S).take bs) ks = pt.take bs ∧
      (xorBytes (pt.take bs) ks ++ S).drop bs = S := by
  have hxl := xorBytes_chunk_length pt ks bs hk
  by_cases h : bs ≤ pt.length
  · have hx : (xorBytes (pt.take bs) ks).length = bs := by omega
    rw [List.take_left' hx, List.drop_left' hx,
      xorBytes_cancel_le _ _ (by rw [List.length_take]; omega)]
    exact ⟨rfl, rfl⟩
  · rw [hS (by omega), List.append_nil, List.take_of_length_le (by omega),
      List.drop_of_length_le (by omega),
      xorBytes_cancel_le _ _ (by rw [List.length_take]; omega)]
    exact ⟨rfl, rfl⟩

theorem ofbSpec_involutive_general (E : Bytes → Bytes) (bs : Nat)
    (hE : ∀ b, b.length = bs → (E b).length = bs) :
    ∀ (n : Nat) (fb pt : Bytes), fb.length = bs → pt.length ≤ n * bs →
      ofbSpec E bs n fb (ofbSpec E bs n fb pt) = pt := by
  intro n
  induction n with
  | zero =>
    intro fb pt _ hp
    have : pt = [] := List.length_eq_zero.mp (by omega)
    subst this
    rfl
  | succ n ih =>
    intro fb pt hf hp
    have e1 : (n + 1) * bs = bs + n * bs := by ring
    obtain ⟨h1, h2⟩ := chunk_involution pt (E fb) (ofbSpec E bs n (E fb) (pt.drop bs)) bs
      (hE _ hf) (fun h => by
        rw [List.drop_of_length_le (by omega), ofbSpec_nil])
    rw [ofbSpec, ofbSpec, h1, h2, ih _ _ (hE _ hf) (by rw [List.length_drop]; omega),
      List.take_append_drop]

theorem ctrSpec_involutive_general (E : Bytes → Bytes) (bs : Nat) (counter : Bytes)
    (hcl : counter.length = bs) (hE : ∀ b, b.length = bs → (E b).length = bs) :
    ∀ (n k : Nat) (pt : Bytes), pt.length ≤ n * bs →
      ctrSpec E bs counter n k (ctrSpec E bs counter n k pt) = pt := by
  intro n
  induction n with
  | zero =>
    intro k pt hp
    have : pt = [] := List.length_eq_zero.mp (by omega)
    subst this
    rfl
  | succ n ih =>
    intro k pt hp
    have e1 : (n + 1) * bs = bs + n * bs := by ring
    have hil : (incrementCounter counter k).length = bs := by
      rw [incrementCounter_length]; exact hcl
    obtain ⟨h1, h2⟩ := chunk_involution pt (E (incrementCounter counter k))
      (ctrSpec E bs counter n (k + 1) (pt.drop bs)) bs (hE _ hil) (fun h => by
        rw [List.drop_of_length_le (by omega), ctrSpec_nil])
    rw [ctrSpec, ctrSpec, h1, h2, ih _ _ (by rw [List.length_drop]; omega),
      List.take_append_drop]

/-- The number of iterations `⌈len / bs⌉` covers the data. -/
theorem ceil_blocks (len bs : Nat) (hbs : 1 ≤ bs) : len ≤ (len + bs - 1) / bs * bs := by
  have h1 := Nat.div_add_mod (len + bs - 1) bs
  have h2 := Nat.mod_lt (len + bs - 1) (show 0 < bs by omega)
  have h3 : bs * ((len + bs - 1) / bs) = (len + bs - 1) / bs * bs := Nat.mul_comm _ _
  omega

theorem frame_zero_general (out X : Bytes) (bs n : Nat) (h : out.length ≤ n * bs) :
    out.take (0 * bs) ++ (X ++ out.drop (0 * bs + n * bs)) = X := by
  rw [Nat.zero_mul, Nat.zero_add, List.take_zero, List.nil_append,
    List.drop_of_length_le h, List.append_nil]

/-- An encrypting cipher object determines its block function. -/
theorem encBlock_spec {σ : Type} (cstc : CryptoSymmetricContext σ)
    (h : ∀ b : Bytes, b.length = cstc.blockSize →
      ∃ c, cstc.cipher.Encrypt cstc.obj b = Except.ok c ∧ c.length = cstc.blockSize) :
    (∀ b : Bytes, b.length = cstc.blockSize →
        cstc.cipher.Encrypt cstc.obj b = Except.ok (cstc.encBlock b)) ∧
      (∀ b : Bytes, b.length = cstc.blockSize →
        (cstc.encBlock b).length = cstc.blockSize) := by
  constructor
  · intro b hb
    obtain ⟨c, e1, _⟩ := h b hb
    rw [CryptoSymmetricContext.encBlock, e1]
    rfl
  · intro b hb
    obtain ⟨c, e1, e2⟩ := h b hb
    rw [CryptoSymmetricContext.encBlock, e1]
    exact e2

theorem ofb_encrypt_general {σ : Type} (cstc : CryptoSymmetricContext σ) (E : Bytes → Bytes)
    (henc : ∀ b : Bytes, b.length = cstc.blockSize →
      cstc.cipher.Encrypt cstc.obj b = Except.ok (E b))
    (hlen : ∀ b : Bytes, b.length = cstc.blockSize → (E b).length = cstc.blockSize)
    (hbs : 1 ≤ cstc.blockSize) (hiv : cstc.iv.length = cstc.blockSize) (data : Bytes) :
    cstc.encryptOFB data = Except.ok (ofbSpec E cstc.blockSize
      ((data.length + cstc.blockSize - 1) / cstc.blockSize) cstc.iv data) := by
  unfold CryptoSymmetricContext.encryptOFB
  dsimp only
  rw [if_neg (by omega), if_neg (by omega), iv_copy cstc hiv,
    ofb_loop_general cstc E henc hlen data _ 0 _ _ (zeros_length _) hiv,
    frame_zero_general _ _ _ _ (by rw [zeros_length]; exact ceil_blocks _ _ hbs),
    Nat.zero_mul, List.drop_zero]

theorem ctr_encrypt_general {σ : Type} (cstc : CryptoSymmetricContext σ) (E : Bytes → Bytes)
    (henc : ∀ b : Bytes, b.length = cstc.blockSize →
      cstc.cipher.Encrypt cstc.obj b = Except.ok (E b))
    (hlen : ∀ b : Bytes, b.length = cstc.blockSize → (E b).length = cstc.blockSize)
    (hbs : 1 ≤ cstc.blockSize) (hiv : cstc.iv.length = cstc.blockSize) (data : Bytes) :
    cstc.encryptCTR data = Except.ok (ctrSpec E cstc.blockSize cstc.iv
      ((data.length + cstc.blockSize - 1) / cstc.blockSize) 0 data) := by
  unfold CryptoSymmetricContext.encryptCTR
  dsimp only
  rw [if_neg (by omega), if_neg (by omega), iv_copy cstc hiv,
    ctr_loop_general cstc E henc hlen data _ hiv _ 0 _ (zeros_length _),
    frame_zero_general _ _ _ _ (by rw [zeros_length]; exact ceil_blocks _ _ hbs),
    Nat.zero_mul, List.drop_zero]

/-- A keyed RC5 object at 64-bit words encrypts every 16-byte block to a
16-byte block. -/
theorem rc5_encrypts_blocks (rc5 : RC5) (hw : rc5.w = 64)
    (hS : 2 * (rc5.r + 1) ≤ rc5.S.length) (b : Bytes) (hb : b.length = 16) :
    ∃ c, RC5.Encrypt rc5 b = Except.ok c ∧ c.length = 16 := by
  obtain ⟨c, e1, e2⟩ := (rc5_Encrypt_cases rc5 hw hS b).2 (by rw [hb])
  exact ⟨c, e1, e2.trans hb⟩

/-- C17. OFB and CTR are self-inverse: in a context with `len(iv) = blockSize ≥ 1`
whose cipher encrypts every block of `blockSize` bytes to a block of
`blockSize` bytes, `encryptOFB` and `encryptCTR` succeed on every byte string
`x` of any length, return as many bytes as `x` has, and applied to their own
output return `x`; `decryptOFB` and `decryptCTR` are the functions `encryptOFB`
and `encryptCTR`. -/
theorem ofb_ctr_self_inverse {σ : Type} (cstc : CryptoSymmetricContext σ) (x : Bytes)
    (hbs : 1 ≤ cstc.blockSize) (hiv : cstc.iv.length = cstc.blockSize)
    (hcipher : ∀ b : Bytes, b.length = cstc.blockSize →
      ∃ c, cstc.cipher.Encrypt cstc.obj b = Except.ok c ∧ c.length = cstc.blockSize) :
    (∃ y, cstc.encryptOFB x = Except.ok y ∧ y.length = x.length ∧
        cstc.encryptOFB y = Except.ok x) ∧
      (∃ z, cstc.encryptCTR x = Except.ok z ∧ z.length = x.length ∧
        cstc.encryptCTR z = Except.ok x) ∧
      cstc.decryptOFB = cstc.encryptOFB ∧ cstc.decryptCTR = cstc.encryptCTR := by
  obtain ⟨henc, hlen⟩ := encBlock_spec cstc hcipher
  have hn := ceil_blocks x.length cstc.blockSize hbs
  refine ⟨?_, ?_, rfl, rfl⟩
  · have he := ofb_encrypt_general cstc _ henc hlen hbs hiv x
    have hl := ofbSpec_length_general cstc.encBlock cstc.blockSize hlen _ cstc.iv x hiv hn
    refine ⟨_, he, hl, ?_⟩
    rw [ofb_encrypt_general cstc _ henc hlen hbs hiv, hl,
      ofbSpec_involutive_general _ _ hlen _ _ _ hiv hn]
  · have he := ctr_encrypt_general cstc _ henc hlen hbs hiv x
    have hl := ctrSpec_length_general cstc.encBlock cstc.blockSize cstc.iv hiv hlen _ 0 x hn
    refine ⟨_, he, hl, ?_⟩
    rw [ctr_encrypt_general cstc _ henc hlen hbs hiv, hl,
      ctrSpec_involutive_general _ _ _ hiv hlen _ _ _ hn]

theorem ofb_ctr_self_inverse_witness :
    ∃ ctx y z,
      NewCryptoSymmetricContext (List.replicate 16 1) rc5Algorithm NewRC5 OFB PKCS7
          (List.replicate 16 0) 16 = Except.ok ctx ∧
        ctx.encryptOFB [104, 101, 108, 108, 111] = Except.ok y ∧ y.length = 5 ∧
        ctx.encryptOFB y = Except.ok [104, 101, 108, 108, 111] ∧
        ctx.encryptCTR [104, 101, 108, 108, 111] = Except.ok z ∧ z.length = 5 ∧
        ctx.encryptCTR z = Except.ok [104, 101, 108, 108, 111] := by
  obtain ⟨S, e1, e2⟩ := rc5_SetKey_ok NewRC5 (List.replicate 16 1) rfl (by decide)
  have hnew := NewCryptoSymmetricContext_ok (List.replicate 16 1) rc5Algorithm NewRC5 _
    OFB PKCS7 (List.replicate 16 0) 16 (Or.inl rfl) e1
  obtain ⟨⟨y, h1, h2, h3⟩, ⟨z, h4, h5, h6⟩, _⟩ := ofb_ctr_self_inverse
    { key := List.replicate 16 1, cipher := rc5Algorithm,
      obj := { S := S, r := NewRC5.r, w := 64, b := (List.replicate 16 1).length },
      mode := OFB, padding := PKCS7, iv := List.replicate 16 0, blockSize := 16 }
    [104, 101, 108, 108, 111] (show 1 ≤ 16 by decide)
    (show (List.replicate 16 (0 : Byte)).length = 16 by decide)
    (fun b hb => rc5_encrypts_blocks _ rfl (by rw [e2]) b hb)
  exact ⟨_, y, z, hnew, h1, h2, h3, h4, h5, h6⟩

/-! ## The counter of CTR -/

theorem leUint_append_singleton (l : Bytes) (x : Byte) :
    leUint (l ++ [x]) = leUint l + 256 ^ l.length * x.val := by
  induction l with
  | nil => simp [leUint]
  | cons y ys ih =>
    rw [List.cons_append, leUint, ih, leUint, List.length_cons, pow_succ]
    ring

theorem foldl_beVal : ∀ (c : Bytes) (a : Nat),
    c.foldl (fun acc b => acc * 256 + b.val) a = a * 256 ^ c.length + leUint c.reverse := by
  intro c
  induction c with
  | nil => intro a; simp [leUint]
  | cons x xs ih =>
    intro a
    rw [List.foldl_cons, ih, List.reverse_cons, leUint_append_singleton, List.length_reverse,
      List.length_cons, pow_succ]
    ring

theorem beVal_eq_leUint_reverse (c : Bytes) : beVal c = leUint c.reverse := by
  rw [beVal, foldl_beVal, Nat.zero_mul, Nat.zero_add]

/-- The loop adds the carry to the little-endian value of the bytes it is given,
modulo `256 ^ len`. -/
theorem incrementCounter_loop_value : ∀ (c : Bytes) (carry : Nat),
    leUint (incrementCounter.loop c carry) = (leUint c + carry) % 256 ^ c.length := by
  intro c
  induction c with
  | nil => intro carry; simp [incrementCounter.loop, leUint, Nat.mod_one]
  | cons x xs ih =>
    intro carry
    rw [incrementCounter.loop]
    split
    · dsimp only
      rw [leUint, ih, and_255, and_255, shr_8, shr_8, toByte_val_of_lt _ (Nat.mod_lt _ (by decide)),
        leUint, List.length_cons, pow_succ, Nat.mul_comm (256 ^ xs.length) 256,
        Nat.mod_mul]
      have hx := x.isLt
      have h1 : (x.val + 256 * leUint xs + carry) % 256 = (x.val + carry % 256) % 256 := by
        omega
      have h2 : (x.val + 256 * leUint xs + carry) / 256
          = leUint xs + (carry / 256 + (x.val + carry % 256) / 256) := by
        omega
      rw [h1, h2]
    · have h0 : carry = 0 := by omega
      subst h0
      rw [Nat.add_zero, Nat.mod_eq_of_lt (leUint_lt _)]

/-- The counter after `incrementCounter(c, k)`, read as a big-endian number, is
`(value(c) + k) mod 256 ^ len(c)`. -/
theorem incrementCounter_value (c : Bytes) (k : Nat) :
    beVal (incrementCounter c k) = (beVal c + k) % 256 ^ c.length := by
  rw [beVal_eq_leUint_reverse, beVal_eq_leUint_reverse, incrementCounter, List.reverse_reverse,
    incrementCounter_loop_value, List.length_reverse]

theorem zipWith_getD (f : Byte → Byte → Byte) : ∀ (a b : Bytes) (i : Nat),
    i < a.length → i < b.length →
    (List.zipWith f a b).getD i 0 = f (a.getD i 0) (b.getD i 0) := by
  intro a
  induction a with
  | nil => intro b i h _; simp at h
  | cons x xs ih =>
    intro b i ha hb
    cases b with
    | nil => simp at hb
    | cons y ys =>
      cases i with
      | zero => rfl
      | succ i =>
        simp only [List.zipWith_cons_cons, List.getD_cons_succ]
        exact ih ys i (by simpa using ha) (by simpa using hb)

theorem getD_take (l : Bytes) (n i : Nat) (h : i < n) : (l.take n).getD i 0 = l.getD i 0 := by
  rw [List.getD_eq_getElem?_getD, List.getD_eq_getElem?_getD, List.getElem?_take_of_lt h]

theorem getD_drop (l : Bytes) (n i : Nat) : (l.drop n).getD i 0 = l.getD (n + i) 0 := by
  rw [List.getD_eq_getElem?_getD, List.getD_eq_getElem?_getD, List.getElem?_drop]

/-- Byte `j` of block `m` of the CTR output is the data byte XORed with byte
`j` of the encrypted counter of that block. -/
theorem ctrSpec_getD (E : Bytes → Bytes) (bs : Nat) (counter : Bytes)
    (hcl : counter.length = bs) (hE : ∀ b, b.length = bs → (E b).length = bs) :
    ∀ (n k : Nat) (rest : Bytes) (m j : Nat), m < n → j < bs → m * bs + j < rest.length →
      (ctrSpec E bs counter n k rest).getD (m * bs + j) 0
        = rest.getD (m * bs + j) 0 ^^^ (E (incrementCounter counter (k + m))).getD j 0 := by
  intro n
  induction n with
  | zero => intro k rest m j hm; omega
  | succ n ih =>
    intro k rest m j hm hj hr
    have hil : (incrementCounter counter k).length = bs := by
      rw [incrementCounter_length]; exact hcl
    have hEl := hE _ hil
    have hxl := xorBytes_chunk_length rest (E (incrementCounter counter k)) bs hEl
    rw [ctrSpec]
    cases m with
    | zero =>
      rw [Nat.zero_mul, Nat.zero_add] at hr ⊢
      rw [List.getD_append _ _ _ _ (by omega), Nat.add_zero]
      unfold xorBytes
      rw [zipWith_getD _ _ _ _ (by rw [List.length_take]; omega) (by omega),
        getD_take _ _ _ hj]
    | succ m =>
      have e1 : (m + 1) * bs + j = bs + (m * bs + j) := by ring
      rw [e1] at hr ⊢
      rw [List.getD_append_right _ _ _ _ (by omega), hxl,
        show min bs rest.length = bs by omega, Nat.add_sub_cancel_left,
        ih (k + 1) (rest.drop bs) m j (by omega) hj (by rw [List.length_drop]; omega),
        getD_drop, show k + 1 + m = k + (m + 1) by omega]

/-- C18. CTR counter arithmetic: `incrementCounter(c, k)` keeps the length of
`c` and turns its value, read as a big-endian unsigned integer, into
`(value(c) + k) mod 256 ^ len(c)`. In a context with `len(iv) = blockSize ≥ 1`
whose cipher encrypts blocks to blocks, `encryptCTR` succeeds on every `x`, and
byte `j` of block `k` of its output is the data byte XORed with byte `j` of
`Encrypt` of the counter `incrementCounter(iv, k)`, whose value is
`(value(iv) + k) mod 256 ^ blockSize`. -/
theorem ctr_counter_arithmetic {σ : Type} (cstc : CryptoSymmetricContext σ) (x : Bytes)
    (hbs : 1 ≤ cstc.blockSize) (hiv : cstc.iv.length = cstc.blockSize)
    (hcipher : ∀ b : Bytes, b.length = cstc.blockSize →
      ∃ c, cstc.cipher.Encrypt cstc.obj b = Except.ok c ∧ c.length = cstc.blockSize) :
    (∀ (c : Bytes) (k : Nat), (incrementCounter c k).length = c.length ∧
        beVal (incrementCounter c k) = (beVal c + k) % 256 ^ c.length) ∧
      ∃ y, cstc.encryptCTR x = Except.ok y ∧ y.length = x.length ∧
        ∀ k j : Nat, j < cstc.blockSize → k * cstc.blockSize + j < x.length →
          cstc.cipher.Encrypt cstc.obj (incrementCounter cstc.iv k)
              = Except.ok (cstc.encBlock (incrementCounter cstc.iv k)) ∧
            beVal (incrementCounter cstc.iv k)
              = (beVal cstc.iv + k) % 256 ^ cstc.blockSize ∧
            y.getD (k * cstc.blockSize + j) 0
              = x.getD (k * cstc.blockSize + j) 0
                ^^^ (cstc.encBlock (incrementCounter cstc.iv k)).getD j 0 := by
  obtain ⟨henc, hlen⟩ := encBlock_spec cstc hcipher
  have hn := ceil_blocks x.length cstc.blockSize hbs
  refine ⟨fun c k => ⟨incrementCounter_length c k, incrementCounter_value c k⟩, ?_⟩
  refine ⟨_, ctr_encrypt_general cstc _ henc hlen hbs hiv x,
    ctrSpec_length_general cstc.encBlock cstc.blockSize cstc.iv hiv hlen _ 0 x hn, ?_⟩
  intro k j hj hk
  refine ⟨henc _ (by rw [incrementCounter_length]; exact hiv), ?_, ?_⟩
  · rw [incrementCounter_value, hiv]
  · have hkn : k < (x.length + cstc.blockSize - 1) / cstc.blockSize := by
      by_contra hc
      have h1 : (x.length + cstc.blockSize - 1) / cstc.blockSize * cstc.blockSize
          ≤ k * cstc.blockSize := Nat.mul_le_mul_right _ (by omega)
      omega
    rw [ctrSpec_getD cstc.encBlock cstc.blockSize cstc.iv hiv hlen _ 0 x k j hkn hj hk,
      Nat.zero_add]

theorem ctr_counter_arithmetic_witness :
    ∃ ctx y,
      NewCryptoSymmetricContext (List.replicate 16 1) rc5Algorithm NewRC5 CTR PKCS7
          (List.replicate 16 255) 16 = Except.ok ctx ∧
        ctx.encryptCTR (List.replicate 20 7) = Except.ok y ∧ y.length = 20 ∧
        beVal (incrementCounter (List.replicate 16 255) 1) = 0 := by
  obtain ⟨S, e1, e2⟩ := rc5_SetKey_ok NewRC5 (List.replicate 16 1) rfl (by decide)
  have hnew := NewCryptoSymmetricContext_ok (List.replicate 16 1) rc5Algorithm NewRC5 _
    CTR PKCS7 (List.replicate 16 255) 16 (Or.inl rfl) e1
  obtain ⟨h0, y, h1, h2, _⟩ := ctr_counter_arithmetic
    { key := List.replicate 16 1, cipher := rc5Algorithm,
      obj := { S := S, r := NewRC5.r, w := 64, b := (List.replicate 16 1).length },
      mode := CTR, padding := PKCS7, iv := List.replicate 16 255, blockSize := 16 }
    (List.replicate 20 7) (show 1 ≤ 16 by decide)
    (show (List.replicate 16 (255 : Byte)).length = 16 by decide)
    (fun b hb => rc5_encrypts_blocks _ rfl (by rw [e2]) b hb)
  refine ⟨_, y, hnew, h1, h2, ?_⟩
  rw [(h0 (List.replicate 16 255) 1).2]
  decide

/-! ## CFB with a cipher that only encrypts -/

theorem cfb_encrypt_loop_enc {σ : Type} (cstc : CryptoSymmetricContext σ) (E : Bytes → Bytes)
    (henc : ∀ b : Bytes, b.length = cstc.blockSize →
      cstc.cipher.Encrypt cstc.obj b = Except.ok (E b))
    (hlen : ∀ b : Bytes, b.length = cstc.blockSize → (E b).length = cstc.blockSize)
    (data : Bytes) :
    ∀ (n i : Nat) (out fb : Bytes), out.length = data.length →
      fb.length = cstc.blockSize → i * cstc.blockSize + n * cstc.blockSize ≤ data.length →
      CryptoSymmetricContext.encryptCFB.loop cstc data n i out fb
        = Except.ok (out.take (i * cstc.blockSize)
            ++ (cfbSpec E cstc.blockSize n fb (data.drop (i * cstc.blockSize))
            ++ out.drop (i * cstc.blockSize + n * cstc.blockSize))) := by
  intro n
  induction n with
  | zero =>
    intro i out fb _ _ _
    simp [CryptoSymmetricContext.encryptCFB.loop, cfbSpec]
  | succ n ih =>
    intro i out fb ho hf hi
    generalize hbs : cstc.blockSize = bs at *
    have e1 : (n + 1) * bs = bs + n * bs := by ring
    have e2 : (i + 1) * bs = i * bs + bs := by ring
    have hb : i * bs + bs ≤ data.length := by omega
    have hbl := block_length data (i * bs) bs hb
    have hEl := hlen _ hf
    have hxl : (xorBytes ((data.drop (i * bs)).take bs) (E fb)).length = bs := by
      rw [xorBytes_length _ _ (by omega)]; exact hbl
    have hfit : i * bs + (xorBytes ((data.drop (i * bs)).take bs) (E fb)).length
        ≤ out.length := by rw [hxl]; omega
    have hw := copyAt_read out _ (i * bs) hfit
    rw [hxl] at hw
    rw [CryptoSymmetricContext.encryptCFB.loop]
    simp only [hbs]
    rw [slice_block _ _ _ hb, ok_bind, henc _ hf, wrapf_ok, ok_bind,
      firstN_full _ _ hEl, ok_bind,
      slice_block _ _ _ (by rw [copyAt_length]; omega), ok_bind, hw,
      copyAt_zero_full fb _ (by omega),
      ih (i + 1) _ _ (by rw [copyAt_length]; exact ho) hxl (by omega), cfbSpec, e2]
    congr 1
    have h1 := copyAt_take_end out _ (i * bs) hfit
    have h2 := copyAt_drop_end out _ (i * bs) (n * bs) hfit
    rw [hxl] at h1 h2
    rw [h1, h2, List.drop_drop, List.append_assoc, List.append_assoc]
    congr 3
    congr 1
    omega

theorem cfb_decrypt_loop_enc {σ : Type} (cstc : CryptoSymmetricContext σ) (E : Bytes → Bytes)
    (henc : ∀ b : Bytes, b.length = cstc.blockSize →
      cstc.cipher.Encrypt cstc.obj b = Except.ok (E b))
    (hlen : ∀ b : Bytes, b.length = cstc.blockSize → (E b).length = cstc.blockSize)
    (ct : Bytes) :
    ∀ (n i : Nat) (out fb pt : Bytes), out.length = ct.length →
      fb.length = cstc.blockSize → pt.length = n * cstc.blockSize →
      ct.drop (i * cstc.blockSize) = cfbSpec E cstc.blockSize n fb pt →
      ct.length = i * cstc.blockSize + n * cstc.blockSize →
      CryptoSymmetricContext.decryptCFB.loop cstc ct n i out fb
        = Except.ok (out.take (i * cstc.blockSize) ++ pt) := by
  intro n
  induction n with
  | zero =>
    intro i out fb pt ho _ hp _ hl
    have : pt = [] := List.length_eq_zero.mp (by omega)
    subst this
    rw [CryptoSymmetricContext.decryptCFB.loop, List.append_nil,
      List.take_of_length_le (by omega)]
    rfl
  | succ n ih =>
    intro i out fb pt ho hf hp hct hl
    generalize hbs : cstc.blockSize = bs at *
    have e1 : (n + 1) * bs = bs + n * bs := by ring
    have e2 : (i + 1) * bs = i * bs + bs := by ring
    have hb : i * bs + bs ≤ ct.length := by omega
    have hpl : (pt.take bs).length = bs := by rw [List.length_take]; omega
    have hEl := hlen _ hf
    have hxl : (xorBytes (pt.take bs) (E fb)).length = bs := by
      rw [xorBytes_length _ _ (by omega)]; exact hpl
    rw [cfbSpec] at hct
    have hblk : (ct.drop (i * bs)).take bs = xorBytes (pt.take bs) (E fb) := by
      rw [hct]; exact List.take_left' hxl
    have hrest : ct.drop ((i + 1) * bs)
        = cfbSpec E bs n (xorBytes (pt.take bs) (E fb)) (pt.drop bs) := by
      rw [e2, ← List.drop_drop, hct]; exact List.drop_left' hxl
    rw [CryptoSymmetricContext.decryptCFB.loop]
    simp only [hbs]
    rw [slice_block _ _ _ hb, ok_bind, hblk, henc _ hf, wrapf_ok, ok_bind,
      firstN_full _ _ hEl, ok_bind, xorBytes_cancel _ _ (by omega),
      copyAt_zero_full fb _ (by omega),
      ih (i + 1) _ _ (pt.drop bs) (by rw [copyAt_length]; exact ho) hxl
        (by rw [List.length_drop]; omega) hrest (by omega), e2]
    have h1 := copyAt_take_end out (pt.take bs) (i * bs) (by rw [hpl]; omega)
    rw [hpl] at h1
    rw [h1, List.append_assoc, List.take_append_drop]

theorem cfb_round_trip_enc {σ : Type} (cstc : CryptoSymmetricContext σ) (E : Bytes → Bytes)
    (henc : ∀ b : Bytes, b.length = cstc.blockSize →
      cstc.cipher.Encrypt cstc.obj b = Except.ok (E b))
    (hlen : ∀ b : Bytes, b.length = cstc.blockSize → (E b).length = cstc.blockSize)
    (hbs : 1 ≤ cstc.blockSize) (hiv : cstc.iv.length = cstc.blockSize) (data : Bytes)
    (n : Nat) (hd : data.length = n * cstc.blockSize) :
    ∃ ct, cstc.encryptCFB data = Except.ok ct ∧ ct.length = data.length ∧
      cstc.decryptCFB ct = Except.ok data := by
  obtain ⟨a1, a2, _⟩ := aligned_facts data.length cstc.blockSize n hbs hd
  have he : cstc.encryptCFB data = Except.ok (cfbSpec E cstc.blockSize n cstc.iv data) := by
    unfold CryptoSymmetricContext.encryptCFB
    dsimp only
    rw [if_neg (by omega), if_neg (by omega), a2, iv_copy cstc hiv,
      cfb_encrypt_loop_enc cstc E henc hlen data n 0 _ _ (zeros_length _) hiv (by omega),
      frame_zero _ _ _ _ (by rw [zeros_length]; exact hd), Nat.zero_mul, List.drop_zero]
  have hl := (mode_encrypt_length cstc [] data _).2.2.2.1 he
  obtain ⟨b1, b2, _⟩ := aligned_facts _ cstc.blockSize n hbs (hl.trans hd)
  refine ⟨_, he, hl, ?_⟩
  unfold CryptoSymmetricContext.decryptCFB
  dsimp only
  rw [if_neg (by omega), if_neg (by omega), b2, iv_copy cstc hiv,
    cfb_decrypt_loop_enc cstc E henc hlen _ n 0 _ _ data (zeros_length _) hiv hd
      (by rw [Nat.zero_mul, List.drop_zero]) (by omega), frame_zero_dec]

/-- The loop of `decryptCFB` does not depend on the method `Decrypt` of the
cipher. -/
theorem decryptCFB_loop_ignores_Decrypt {σ : Type} (cstc : CryptoSymmetricContext σ)
    (D : σ → Bytes → Result Bytes) (data : Bytes) :
    ∀ (n i : Nat) (out fb : Bytes),
      CryptoSymmetricContext.decryptCFB.loop
          { cstc with cipher := { cstc.cipher with Decrypt := D } } data n i out fb
        = CryptoSymmetricContext.decryptCFB.loop cstc data n i out fb := by
  intro n
  induction n with
  | zero => intro i out fb; rfl
  | succ n ih =>
    intro i out fb
    rw [CryptoSymmetricContext.decryptCFB.loop, CryptoSymmetricContext.decryptCFB.loop]
    simp only [ih]

/-! ## The substitution-diffusion cipher encrypts blocks to blocks -/

theorem magenta_encrypt_loop_ok (m : Magenta) (hS : m.S.length ≠ 0) :
    ∀ (fuel i A B : Nat),
      ∃ A1 B1, Magenta.encryptBlock.loop m fuel i A B = Except.ok (A1, B1) := by
  intro fuel
  induction fuel with
  | zero => intro i A B; exact ⟨A, B, rfl⟩
  | succ fuel ih =>
    intro i A B
    rw [Magenta.encryptBlock.loop, if_neg hS,
      idx_of_lt _ _ (Nat.mod_lt _ (Nat.pos_of_ne_zero hS)), ok_bind]
    exact ih _ _ _

theorem magenta_encryptBlock_ok (m : Magenta) (hw : m.w = 64) (hS : m.S.length ≠ 0)
    (b : Bytes) (hb : b.length = 16) :
    ∃ c, Magenta.encryptBlock m b = Except.ok c := by
  obtain ⟨A1, B1, e1⟩ := magenta_encrypt_loop_ok m hS m.r 0 (leUint ((b.drop 0).take (8 - 0)))
    (leUint ((b.drop 8).take (16 - 8)))
  unfold Magenta.encryptBlock slice
  simp only [hw, Nat.reduceDiv, Nat.reduceMul, zeros_length]
  rw [if_neg (by simp [hb]), if_pos (by omega), if_pos (by omega), pure_eq_ok, ok_bind,
    pure_eq_ok, ok_bind, e1, ok_bind]
  dsimp only
  rw [if_pos (by omega), if_pos (by omega), pure_eq_ok, ok_bind, pure_eq_ok, ok_bind]
  exact ⟨_, rfl⟩

theorem magenta_encrypts_blocks (m : Magenta) (hw : m.w = 64) (hS : m.S.length ≠ 0)
    (b : Bytes) (hb : b.length = 16) :
    ∃ c, Magenta.Encrypt m b = Except.ok c ∧ c.length = 16 := by
  unfold Magenta.Encrypt
  simp only [hw, Nat.reduceDiv]
  rw [if_neg (by decide), if_neg (by omega)]
  obtain ⟨r, e1, e2⟩ := blocksLoop_ok m.encryptBlock b 16
    (fun d hd => magenta_encryptBlock_ok m hw hS d hd) (b.length / 16) 0 (zeros b.length)
    (by omega)
  exact ⟨r, e1, by rw [e2, zeros_length, hb]⟩

/-- C19. CFB needs only the encrypt direction of the cipher: in a context with
`len(iv) = blockSize ≥ 1` whose cipher `Encrypt` returns a block of `blockSize`
bytes on every block of `blockSize` bytes (nothing is assumed of `Decrypt`),
for every `x` whose length is a multiple of `blockSize`, `encryptCFB` succeeds
and `decryptCFB` of its output returns `x`; and `decryptCFB` returns the same
result on every input when the method `Decrypt` of the cipher is replaced by
any other function, so it never uses it. -/
theorem cfb_needs_encrypt_only {σ : Type} (cstc : CryptoSymmetricContext σ) (x : Bytes)
    (n : Nat) (hbs : 1 ≤ cstc.blockSize) (hiv : cstc.iv.length = cstc.blockSize)
    (hcipher : ∀ b : Bytes, b.length = cstc.blockSize →
      ∃ c, cstc.cipher.Encrypt cstc.obj b = Except.ok c ∧ c.length = cstc.blockSize)
    (hx : x.length = n * cstc.blockSize) :
    (∃ ct, cstc.encryptCFB x = Except.ok ct ∧ ct.length = x.length ∧
        cstc.decryptCFB ct = Except.ok x) ∧
      ∀ (D : σ → Bytes → Result Bytes) (y : Bytes),
        CryptoSymmetricContext.decryptCFB
            { cstc with cipher := { cstc.cipher with Decrypt := D } } y
          = cstc.decryptCFB y := by
  obtain ⟨henc, hlen⟩ := encBlock_spec cstc hcipher
  refine ⟨cfb_round_trip_enc cstc _ henc hlen hbs hiv x n hx, ?_⟩
  intro D y
  unfold CryptoSymmetricContext.decryptCFB
  dsimp only
  rw [decryptCFB_loop_ignores_Decrypt]

theorem cfb_needs_encrypt_only_witness :
    ∃ m ct,
      Magenta.SetKey NewMagenta [1, 2, 3, 4, 5, 6, 7, 8, 9, 10, 11, 12, 13, 14, 15, 16]
          = Except.ok m ∧
        CryptoSymmetricContext.encryptCFB
            { key := [1, 2, 3, 4, 5, 6, 7, 8, 9, 10, 11, 12, 13, 14, 15, 16],
              cipher := magentaAlgorithm, obj := m, mode := CFB, padding := PKCS7,
              iv := List.replicate 16 0, blockSize := 16 } (List.replicate 32 7)
          = Except.ok ct ∧
        CryptoSymmetricContext.decryptCFB
            { key := [1, 2, 3, 4, 5, 6, 7, 8, 9, 10, 11, 12, 13, 14, 15, 16],
              cipher := magentaAlgorithm, obj := m, mode := CFB, padding := PKCS7,
              iv := List.replicate 16 0, blockSize := 16 } ct
          = Except.ok (List.replicate 32 7) := by
  have hm : ∃ m, Magenta.SetKey NewMagenta
        [1, 2, 3, 4, 5, 6, 7, 8, 9, 10, 11, 12, 13, 14, 15, 16] = Except.ok m ∧
      m.w = 64 ∧ m.S.length = 26 := ⟨_, rfl, rfl, rfl⟩
  obtain ⟨m, e1, e2, e3⟩ := hm
  obtain ⟨⟨ct, h1, _, h3⟩, _⟩ := cfb_needs_encrypt_only
    { key := [1, 2, 3, 4, 5, 6, 7, 8, 9, 10, 11, 12, 13, 14, 15, 16],
      cipher := magentaAlgorithm, obj := m, mode := CFB, padding := PKCS7,
      iv := List.replicate 16 0, blockSize := 16 } (List.replicate 32 7) 2
    (show 1 ≤ 16 by decide) (show (List.replicate 16 (0 : Byte)).length = 16 by decide)
    (fun b hb => magenta_encrypts_blocks m e2 (by rw [e3]; decide) b hb)
    (show (List.replicate 32 (7 : Byte)).length = 2 * 16 by decide)
  exact ⟨m, ct, e1, h1, h3⟩

/-! ## RandomDelta -/

theorem addBytes_chunk_length (A d : Bytes) (bs : Nat) (hd : d.length = bs) :
    (addBytes (A.take bs) d).length = min bs A.length := by
  unfold addBytes
  rw [List.length_zipWith, List.length_take]
  omega

theorem subBytes_chunk_length (A d : Bytes) (bs : Nat) (hd : d.length = bs) :
    (subBytes (A.take bs) d).length = min bs A.length := by
  unfold subBytes
  rw [List.length_zipWith, List.length_take]
  omega

theorem take_min_length {α : Type} (l : List α) (m bs : Nat) (h : m = min bs l.length) :
    l.take m = l.take bs := by
  subst h
  rw [List.take_eq_take]
  omega

theorem deltaLoop_general (op : Bytes → Bytes → Bytes) (data delta : Bytes) (bs : Nat)
    (hop : ∀ A : Bytes, (op (A.take bs) delta).length = min bs A.length) :
    ∀ (n k : Nat) (out : Bytes), out.length = data.length →
      deltaLoop op data delta bs n k out
        = out.take (k * bs) ++ (ecbSpec (fun b => op b delta) bs n (data.drop (k * bs))
            ++ out.drop (k * bs + n * bs)) := by
  intro n
  induction n with
  | zero =>
    intro k out _
    simp [deltaLoop, ecbSpec]
  | succ n ih =>
    intro k out ho
    have e1 : (n + 1) * bs = bs + n * bs := by ring
    have e2 : (k + 1) * bs = k * bs + bs := by ring
    rw [deltaLoop]
    rw [take_min_length (data.drop (k * bs)) _ bs (by rw [List.length_drop]; split <;> omega),
      ih (k + 1) _ (by rw [copyAt_length]; exact ho), ecbSpec, e2, e1, ← List.drop_drop]
    apply chunk_frame
    rw [hop, List.length_drop, ho]

theorem ecbSpec_length_general (F : Bytes → Bytes) (bs : Nat)
    (hF : ∀ A : Bytes, (F (A.take bs)).length = min bs A.length) :
    ∀ (n : Nat) (pt : Bytes), pt.length ≤ n * bs → (ecbSpec F bs n pt).length = pt.length := by
  intro n
  induction n with
  | zero =>
    intro pt hp
    have : pt = [] := List.length_eq_zero.mp (by omega)
    subst this
    rfl
  | succ n ih =>
    intro pt hp
    have e1 : (n + 1) * bs = bs + n * bs := by ring
    rw [ecbSpec, List.length_append, hF, ih _ (by rw [List.length_drop]; omega),
      List.length_drop]
    omega

theorem byte_add_sub_cancel (x y : Byte) : x + y - y = x := add_sub_cancel_right x y

theorem subBytes_addBytes : ∀ (a d : Bytes), subBytes (addBytes a d) d = a.take d.length := by
  intro a
  induction a with
  | nil => intro d; cases d <;> rfl
  | cons x xs ih =>
    intro d
    cases d with
    | nil => rfl
    | cons y ys =>
      simp only [subBytes, addBytes, List.zipWith_cons_cons, List.length_cons,
        List.take_succ_cons]
      rw [byte_add_sub_cancel]
      congr 1
      exact ih ys

theorem ecbSpec_nil (F : Bytes → Bytes) (bs : Nat) (hF : F [] = []) :
    ∀ n : Nat, ecbSpec F bs n [] = [] := by
  intro n
  induction n with
  | zero => rfl
  | succ n ih => rw [ecbSpec, List.take_nil, List.drop_nil, ih, hF]; rfl

/-- Subtracting the delta from the sum of the data and the delta, block by
block, gives the data back. -/
theorem delta_spec_round_trip (d : Bytes) (bs : Nat) (hd : d.length = bs) :
    ∀ (n : Nat) (pt : Bytes), pt.length ≤ n * bs →
      ecbSpec (fun b => subBytes b d) bs n (ecbSpec (fun b => addBytes b d) bs n pt) = pt := by
  intro n
  induction n with
  | zero =>
    intro pt hp
    have : pt = [] := List.length_eq_zero.mp (by omega)
    subst this
    rfl
  | succ n ih =>
    intro pt hp
    have e1 : (n + 1) * bs = bs + n * bs := by ring
    have hxl := addBytes_chunk_length pt d bs hd
    rw [ecbSpec, ecbSpec]
    by_cases h : bs ≤ pt.length
    · have hx : (addBytes (pt.take bs) d).length = bs := by omega
      rw [List.take_left' hx, List.drop_left' hx, subBytes_addBytes, hd, List.take_take,
        Nat.min_self, ih _ (by rw [List.length_drop]; omega), List.take_append_drop]
    · rw [List.drop_of_length_le (show pt.length ≤ bs by omega),
        ecbSpec_nil _ _ rfl, List.append_nil, List.take_of_length_le (by omega),
        List.drop_of_length_le (by omega), ecbSpec_nil _ _ rfl, List.append_nil,
        subBytes_addBytes, hd, List.take_take, Nat.min_self,
        List.take_of_length_le (show pt.length ≤ bs by omega)]

/-- Byte `i` of the RandomDelta output is the data byte plus byte `i mod bs` of
the delta. -/
theorem delta_spec_getD (d : Bytes) (bs : Nat) (hd : d.length = bs) :
    ∀ (n : Nat) (rest : Bytes) (i : Nat), i < rest.length → rest.length ≤ n * bs →
      (ecbSpec (fun b => addBytes b d) bs n rest).getD i 0
        = rest.getD i 0 + d.getD (i % bs) 0 := by
  intro n
  induction n with
  | zero => intro rest i hi hr; omega
  | succ n ih =>
    intro rest i hi hr
    have e1 : (n + 1) * bs = bs + n * bs := by ring
    have hxl := addBytes_chunk_length rest d bs hd
    rw [ecbSpec]
    by_cases h : i < bs
    · rw [List.getD_append _ _ _ _ (by omega), Nat.mod_eq_of_lt h]
      unfold addBytes
      rw [zipWith_getD _ _ _ _ (by rw [List.length_take]; omega) (by omega),
        getD_take _ _ _ h]
    · have hi2 : i = bs + (i - bs) := by omega
      have hmod : i % bs = (i - bs) % bs := by
        conv_lhs => rw [hi2]
        rw [Nat.add_mod_left]
      rw [List.getD_append_right _ _ _ _ (by omega), hxl,
        show min bs rest.length = bs by omega,
        ih (rest.drop bs) (i - bs) (by rw [List.length_drop]; omega)
          (by rw [List.length_drop]; omega), getD_drop, ← hi2, hmod]

theorem randRead_ok (tape d rest : Bytes) (n : Nat)
    (h : randRead tape n = Except.ok (d, rest)) : d.length = n := by
  unfold randRead at h
  split at h
  · have h1 := Except.ok.inj h
    rw [← (Prod.mk.inj h1).1, List.length_take]
    omega
  · exact absurd h (by simp)

/-- C20. RandomDelta format and round trip: for a block size `bs ≥ 1`, a delta
block `d` that `encryptRandomDelta` draws (it has `bs` bytes) and every byte
string `x`, the output is `d` followed by bytes `y` with `len(y) = len(x)` and
`y[i] = (x[i] + d[i mod bs]) mod 256` for `i < len(x)`, its length is
`len(x) + bs`, and `decryptRandomDelta` of the output returns `x`. -/
theorem random_delta_round_trip {σ : Type} (cstc : CryptoSymmetricContext σ)
    (tape d rest x : Bytes) (hbs : 1 ≤ cstc.blockSize)
    (hd : randRead tape cstc.blockSize = Except.ok (d, rest)) :
    d.length = cstc.blockSize ∧
      ∃ y, cstc.encryptRandomDelta tape x = Except.ok (d ++ y) ∧ y.length = x.length ∧
        (∀ i : Nat, i < x.length →
          (y.getD i 0).val
            = ((x.getD i 0).val + (d.getD (i % cstc.blockSize) 0).val) % 256) ∧
        (d ++ y).length = x.length + cstc.blockSize ∧
        cstc.decryptRandomDelta (d ++ y) = Except.ok x := by
  have hdl := randRead_ok tape d rest _ hd
  have hn := ceil_blocks x.length cstc.blockSize hbs
  have hyl := ecbSpec_length_general (fun b => addBytes b d) cstc.blockSize
    (fun A => addBytes_chunk_length A d _ hdl) _ x hn
  refine ⟨hdl, ecbSpec (fun b => addBytes b d) cstc.blockSize
    ((x.length + cstc.blockSize - 1) / cstc.blockSize) x, ?_, hyl, ?_, ?_, ?_⟩
  · unfold CryptoSymmetricContext.encryptRandomDelta
    dsimp only
    rw [hd]
    dsimp only
    rw [if_neg (by omega),
      deltaLoop_general addBytes x d cstc.blockSize
        (fun A => addBytes_chunk_length A d _ hdl) _ 0 _ (zeros_length _),
      frame_zero_general _ _ _ _ (by rw [zeros_length]; exact hn), Nat.zero_mul,
      List.drop_zero]
    rfl
  · intro i hi
    rw [delta_spec_getD d cstc.blockSize hdl _ x i hi hn, Fin.val_add]
  · rw [List.length_append, hyl, hdl, Nat.add_comm]
  · unfold CryptoSymmetricContext.decryptRandomDelta
    dsimp only
    rw [if_neg (by rw [List.length_append]; omega), if_neg (by omega),
      List.take_left' hdl, List.drop_left' hdl,
      deltaLoop_general subBytes _ d cstc.blockSize
        (fun A => subBytes_chunk_length A d _ hdl) _ 0 _ (zeros_length _),
      frame_zero_general _ _ _ _ (by rw [zeros_length]; exact ceil_blocks _ _ hbs),
      Nat.zero_mul, List.drop_zero, hyl, delta_spec_round_trip d _ hdl _ x hn]
    rfl

theorem random_delta_round_trip_witness :
    CryptoSymmetricContext.encryptRandomDelta
          { key := [1, 2, 3, 4], cipher := rc5Algorithm, obj := NewRC5, mode := RandomDelta,
            padding := PKCS7, iv := [], blockSize := 4 }
          [200, 100, 50, 25, 9, 9] [1, 2, 3, 4, 5, 250]
        = Except.ok [200, 100, 50, 25, 201, 102, 53, 29, 205, 94] ∧
      CryptoSymmetricContext.decryptRandomDelta
          { key := [1, 2, 3, 4], cipher := rc5Algorithm, obj := NewRC5, mode := RandomDelta,
            padding := PKCS7, iv := [], blockSize := 4 }
          [200, 100, 50, 25, 201, 102, 53, 29, 205, 94]
        = Except.ok [1, 2, 3, 4, 5, 250] := by
  obtain ⟨_, y, h1, _, _, _, h5⟩ := random_delta_round_trip
    { key := [1, 2, 3, 4], cipher := rc5Algorithm, obj := NewRC5, mode := RandomDelta,
      padding := PKCS7, iv := [], blockSize := 4 }
    [200, 100, 50, 25, 9, 9] [200, 100, 50, 25] [9, 9] [1, 2, 3, 4, 5, 250]
    (show 1 ≤ 4 by decide) rfl
  have h6 : CryptoSymmetricContext.encryptRandomDelta
      { key := [1, 2, 3, 4], cipher := rc5Algorithm, obj := NewRC5, mode := RandomDelta,
        padding := PKCS7, iv := [], blockSize := 4 }
      [200, 100, 50, 25, 9, 9] [1, 2, 3, 4, 5, 250]
      = Except.ok [200, 100, 50, 25, 201, 102, 53, 29, 205, 94] := rfl
  rw [h6] at h1
  rw [← Except.ok.inj h1] at h5
  exact ⟨h6, h5⟩

/-! ## Two `Encrypt` calls on the same context -/

set_option maxRecDepth 1000000 in
/-- C15, counterexample. With ISO 10126 padding two `Encrypt` calls on the same
context with the same plaintext return different ciphertexts when the random
fill of the padding differs, in CFB and in OFB (RC5 under the key `1, ..., 16`,
zero IV, block size 16, plaintext `hello`). -/
theorem iso10126_encrypt_depends_on_fill :
    ∃ ctxCFB ctxOFB,
      NewCryptoSymmetricContext [1, 2, 3, 4, 5, 6, 7, 8, 9, 10, 11, 12, 13, 14, 15, 16]
          rc5Algorithm NewRC5 CFB ISO10126 (List.replicate 16 0) 16 = Except.ok ctxCFB ∧
        ctxCFB.Encrypt (List.replicate 10 0) [104, 101, 108, 108, 111]
          = Except.ok [57, 15, 220, 117, 101, 7, 67, 126, 223, 10, 105, 59, 152, 131, 169, 47] ∧
        ctxCFB.Encrypt (List.replicate 10 1) [104, 101, 108, 108, 111]
          = Except.ok [57, 15, 220, 117, 101, 6, 66, 127, 222, 11, 104, 58, 153, 130, 168, 47] ∧
      NewCryptoSymmetricContext [1, 2, 3, 4, 5, 6, 7, 8, 9, 10, 11, 12, 13, 14, 15, 16]
          rc5Algorithm NewRC5 OFB ISO10126 (List.replicate 16 0) 16 = Except.ok ctxOFB ∧
        ctxOFB.Encrypt (List.replicate 10 0) [104, 101, 108, 108, 111]
          = Except.ok [57, 15, 220, 117, 101, 7, 67, 126, 223, 10, 105, 59, 152, 131, 169, 47] ∧
        ctxOFB.Encrypt (List.replicate 10 1) [104, 101, 108, 108, 111]
          = Except.ok [57, 15, 220, 117, 101, 6, 66, 127, 222, 11, 104, 58, 153, 130, 168, 47] ∧
      ([57, 15, 220, 117, 101, 7, 67, 126, 223, 10, 105, 59, 152, 131, 169, 47] : Bytes)
        ≠ [57, 15, 220, 117, 101, 6, 66, 127, 222, 11, 104, 58, 153, 130, 168, 47] :=
  ⟨_, _, rfl, rfl, rfl, rfl, rfl, rfl, by decide⟩

/-- With the paddings Zeros, ANSI X9.23 and PKCS#7 the result of `AddPadding`
does not depend on the random bytes, and the random bytes are left untouched. -/
theorem AddPadding_tape_free {σ : Type} (cstc : CryptoSymmetricContext σ) (p : Bytes)
    (hpad : cstc.padding = Zeros ∨ cstc.padding = ANSIX923 ∨ cstc.padding = PKCS7) :
    (∃ padded, ∀ tape, cstc.AddPadding tape p = Except.ok (padded, tape)) ∨
      (∃ e, ∀ tape, cstc.AddPadding tape p = Except.error e) := by
  by_cases h0 : cstc.blockSize = 0
  · right
    refine ⟨Fault.panic "integer divide by zero", fun tape => ?_⟩
    unfold CryptoSymmetricContext.AddPadding
    dsimp only
    rw [if_pos h0]
    rfl
  rcases hpad with h | h | h
  · left
    refine ⟨ZerosPadding p (if cstc.blockSize - p.length % cstc.blockSize = 0
      then cstc.blockSize else cstc.blockSize - p.length % cstc.blockSize), fun tape => ?_⟩
    unfold CryptoSymmetricContext.AddPadding
    dsimp only
    rw [if_neg h0, if_pos h]
    rfl
  · by_cases hL : (if cstc.blockSize - p.length % cstc.blockSize = 0 then cstc.blockSize
        else cstc.blockSize - p.length % cstc.blockSize) = 0
    · right
      refine ⟨Fault.panic "bytes: negative Repeat count", fun tape => ?_⟩
      unfold CryptoSymmetricContext.AddPadding ANSIX923Padding
      dsimp only
      rw [if_neg h0, h, if_neg (show ¬ (ANSIX923 = Zeros) by decide), if_pos rfl, if_pos hL]
      rfl
    · left
      refine ⟨p ++ (List.replicate ((if cstc.blockSize - p.length % cstc.blockSize = 0
          then cstc.blockSize else cstc.blockSize - p.length % cstc.blockSize) - 1) 0
        ++ [toByte (if cstc.blockSize - p.length % cstc.blockSize = 0
          then cstc.blockSize else cstc.blockSize - p.length % cstc.blockSize)]), fun tape => ?_⟩
      unfold CryptoSymmetricContext.AddPadding ANSIX923Padding
      dsimp only
      rw [if_neg h0, h, if_neg (show ¬ (ANSIX923 = Zeros) by decide), if_pos rfl, if_neg hL]
      rfl
  · by_cases hL : (if cstc.blockSize - p.length % cstc.blockSize = 0 then cstc.blockSize
          else cstc.blockSize - p.length % cstc.blockSize) < 1 ∨
        (if cstc.blockSize - p.length % cstc.blockSize = 0 then cstc.blockSize
          else cstc.blockSize - p.length % cstc.blockSize) > 255
    · right
      refine ⟨Fault.panic "paddingLen must be between 1 and 255", fun tape => ?_⟩
      unfold CryptoSymmetricContext.AddPadding PKCS7Padding
      dsimp only
      rw [if_neg h0, h, if_neg (show ¬ (PKCS7 = Zeros) by decide),
        if_neg (show ¬ (PKCS7 = ANSIX923) by decide), if_pos rfl, if_pos hL]
      rfl
    · left
      refine ⟨p ++ List.replicate (if cstc.blockSize - p.length % cstc.blockSize = 0
          then cstc.blockSize else cstc.blockSize - p.length % cstc.blockSize)
        (toByte (if cstc.blockSize - p.length % cstc.blockSize = 0
          then cstc.blockSize else cstc.blockSize - p.length % cstc.blockSize)), fun tape => ?_⟩
      unfold CryptoSymmetricContext.AddPadding PKCS7Padding
      dsimp only
      rw [if_neg h0, h, if_neg (show ¬ (PKCS7 = Zeros) by decide),
        if_neg (show ¬ (PKCS7 = ANSIX923) by decide), if_pos rfl, if_neg hL]
      rfl

theorem cfb_encrypt_ok {σ : Type} (cstc : CryptoSymmetricContext σ)
    (hbs : 1 ≤ cstc.blockSize) (hiv : cstc.iv.length = cstc.blockSize)
    (hcipher : ∀ b : Bytes, b.length = cstc.blockSize →
      ∃ c, cstc.cipher.Encrypt cstc.obj b = Except.ok c ∧ c.length = cstc.blockSize)
    (data : Bytes) (n : Nat) (hd : data.length = n * cstc.blockSize) :
    ∃ c, cstc.encryptCFB data = Except.ok c := by
  obtain ⟨henc, hlen⟩ := encBlock_spec cstc hcipher
  obtain ⟨c, h, _⟩ := cfb_round_trip_enc cstc _ henc hlen hbs hiv data n hd
  exact ⟨c, h⟩

theorem ofb_encrypt_ok {σ : Type} (cstc : CryptoSymmetricContext σ)
    (hbs : 1 ≤ cstc.blockSize) (hiv : cstc.iv.length = cstc.blockSize)
    (hcipher : ∀ b : Bytes, b.length = cstc.blockSize →
      ∃ c, cstc.cipher.Encrypt cstc.obj b = Except.ok c ∧ c.length = cstc.blockSize)
    (data : Bytes) :
    ∃ c, cstc.encryptOFB data = Except.ok c := by
  obtain ⟨henc, hlen⟩ := encBlock_spec cstc hcipher
  exact ⟨_, ofb_encrypt_general cstc _ henc hlen hbs hiv data⟩

/-! ## The Galois-field products of the S-boxes -/

theorem testBit_false_of_lt (x n i : Nat) (hx : x < 2 ^ n) (hi : n ≤ i) :
    x.testBit i = false :=
  Nat.testBit_lt_two_pow (Nat.lt_of_lt_of_le hx (Nat.pow_le_pow_right (by decide) hi))

theorem lt_two_pow_of_testBit_false (x n : Nat) (h : ∀ i, n ≤ i → x.testBit i = false) :
    x < 2 ^ n :=
  Nat.lt_pow_two_of_testBit x h

/-- One reduction step of the 13-bit field: the shifted operand, reduced by
`0x2911` when its bit 13 is set, is below `2 ^ 13` again. -/
theorem galois13_step (ax : Nat) (h : ax < 2 ^ 13) :
    (if (ax <<< 1) % 2 ^ 16 &&& ((1 <<< 13) % 2 ^ 16) ≠ 0
      then (ax <<< 1) % 2 ^ 16 ^^^ 0x2911 else (ax <<< 1) % 2 ^ 16) < 2 ^ 13 := by
  have e1 : (ax <<< 1) % 2 ^ 16 = 2 * ax := by
    rw [Nat.shiftLeft_eq, Nat.mod_eq_of_lt (by omega)]
    omega
  have e2 : (1 <<< 13) % 2 ^ 16 = 2 ^ 13 := by decide
  rw [e1, e2]
  have hlt : 2 * ax < 2 ^ 14 := by omega
  have hbit : (2 * ax &&& 2 ^ 13 ≠ 0) ↔ (2 * ax).testBit 13 = true := by
    rw [Nat.and_two_pow]
    cases (2 * ax).testBit 13 <;> simp
  apply lt_two_pow_of_testBit_false
  intro i hi
  split
  · rename_i hc
    rw [Nat.testBit_xor]
    rcases Nat.eq_or_lt_of_le hi with h13 | h14
    · subst h13
      rw [hbit.mp hc]
      decide
    · rw [testBit_false_of_lt _ 14 i hlt (by omega),
        testBit_false_of_lt 0x2911 14 i (by decide) (by omega)]
      rfl
  · rename_i hc
    rcases Nat.eq_or_lt_of_le hi with h13 | h14
    · subst h13
      by_contra hb
      exact hc (hbit.mpr (by simpa using hb))
    · exact testBit_false_of_lt _ 14 i hlt (by omega)

theorem galois13_loop_lt : ∀ (fuel ax b result : Nat), ax < 2 ^ 13 → result < 2 ^ 13 →
    galoisMultiply.loop 0x2911 13 fuel ax b result < 2 ^ 13 := by
  intro fuel
  induction fuel with
  | zero => intro ax b result _ hr; exact hr
  | succ fuel ih =>
    intro ax b result ha hr
    rw [galoisMultiply.loop]
    apply ih
    · exact galois13_step ax ha
    · split
      · exact Nat.xor_lt_two_pow hr ha
      · exact hr

/-- C21. The product in the 11-bit instantiation leaves the field: with the
modulus `0xA7`, which has no bit 11, `galoisMultiply(0x400, 2, 0xA7, 11)` is
`0x8A7 = 2215` and `galoisCube(16, 0xA7, 11)` is `4430`, both at least `2 ^ 11`,
for operands below `2 ^ 11`. In the 13-bit instantiation with the modulus
`0x2911` every product and every cube of operands below `2 ^ 13` is below
`2 ^ 13`. -/
theorem galois_product_leaves_11_bit_field :
    galoisMultiply 0x400 2 0xA7 11 = 2215 ∧ 2 ^ 11 ≤ galoisMultiply 0x400 2 0xA7 11 ∧
      galoisCube 16 0xA7 11 = 4430 ∧ 2 ^ 11 ≤ galoisCube 16 0xA7 11 ∧
      (∀ a b : Nat, a < 2 ^ 13 → galoisMultiply a b 0x2911 13 < 2 ^ 13) ∧
      (∀ x : Nat, x < 2 ^ 13 → galoisCube x 0x2911 13 < 2 ^ 13) := by
  refine ⟨by decide, by decide, by decide, by decide, ?_, ?_⟩
  · intro a b ha
    exact galois13_loop_lt 13 a b 0 ha (by decide)
  · intro x hx
    exact galois13_loop_lt 13 _ x 0 (galois13_loop_lt 13 x x 0 hx (by decide)) (by decide)

/-! ## RC5 with 16- and 32-bit words -/

set_option maxRecDepth 1000000 in
/-- C22, counterexample. RC5 with 16-bit and with 32-bit words does not
round-trip: under the one-byte key `1` and 12 rounds the all-zero block is
encrypted to a block that `decryptBlock` turns into a block other than the
all-zero one. -/
theorem rc5_small_words_round_trip_fails :
    ∃ rc16 rc32,
      RC5.SetKey { S := [], r := 12, w := 16, b := 16 } [1] = Except.ok rc16 ∧
        RC5.encryptBlock rc16 [0, 0, 0, 0] = Except.ok [17, 23, 17, 237] ∧
        RC5.decryptBlock rc16 [17, 23, 17, 237] = Except.ok [221, 253, 98, 245] ∧
      RC5.SetKey { S := [], r := 12, w := 32, b := 16 } [1] = Except.ok rc32 ∧
        RC5.encryptBlock rc32 [0, 0, 0, 0, 0, 0, 0, 0]
          = Except.ok [143, 46, 55, 176, 213, 132, 137, 242] ∧
        RC5.decryptBlock rc32 [143, 46, 55, 176, 213, 132, 137, 242]
          = Except.ok [47, 175, 104, 250, 114, 45, 210, 142] :=
  ⟨_, _, rfl, rfl, rfl, rfl, rfl, rfl⟩

/-! ## The inverse helpers of the substitution-diffusion cipher -/

/-- C24. The helpers `invSbox` and `invHadamard` do not invert `sbox` and
`hadamard`: `invSbox(sbox(1)) = 33` and `invHadamard(hadamard(1)) = 3`. -/
theorem magenta_inverse_helpers_fail :
    Magenta.sbox 1 = 8 ∧ Magenta.invSbox (Magenta.sbox 1) = 33 ∧
      Magenta.hadamard 1 = 1 ∧ Magenta.invHadamard (Magenta.hadamard 1) = 3 := by
  decide

/-! ## `Decrypt` on a RandomDelta ciphertext that holds the delta block only -/

set_option maxRecDepth 1000000 in
/-- C25. `Decrypt` panics in the mode RandomDelta with ANSI X9.23 padding on an
input of exactly `blockSize` bytes (RC5 under a 16-byte key, block size 16, an
IV of 16 bytes): the payload after the delta block is empty and
`removeANSIX923Padding` indexes its last byte. With PKCS#7 and ISO 10126 the
same input gives an error, with Zeros the empty string. -/
theorem decrypt_panics_on_empty_payload :
    ∃ ctxA ctxP ctxI ctxZ,
      NewCryptoSymmetricContext (List.replicate 16 1) rc5Algorithm NewRC5 RandomDelta ANSIX923
          (List.replicate 16 0) 16 = Except.ok ctxA ∧
        (ctxA.Decrypt (List.replicate 16 0)).isPanic = true ∧
      NewCryptoSymmetricContext (List.replicate 16 1) rc5Algorithm NewRC5 RandomDelta PKCS7
          (List.replicate 16 0) 16 = Except.ok ctxP ∧
        (ctxP.Decrypt (List.replicate 16 0)).isError = true ∧
      NewCryptoSymmetricContext (List.replicate 16 1) rc5Algorithm NewRC5 RandomDelta ISO10126
          (List.replicate 16 0) 16 = Except.ok ctxI ∧
        (ctxI.Decrypt (List.replicate 16 0)).isError = true ∧
      NewCryptoSymmetricContext (List.replicate 16 1) rc5Algorithm NewRC5 RandomDelta Zeros
          (List.replicate 16 0) 16 = Except.ok ctxZ ∧
        ctxZ.Decrypt (List.replicate 16 0) = Except.ok [] :=
  ⟨_, _, _, _, rfl, rfl, rfl, rfl, rfl, rfl, rfl, rfl⟩

/-! ## The key schedule of RC5 -/

theorem getD_set_eq (L : List Nat) (j v : Nat) (h : j < L.length) :
    (L.set j v).getD j 0 = v := by
  rw [List.getD_eq_getElem?_getD, List.getElem?_set_self h]
  rfl

theorem getD_set_ne (L : List Nat) (j k v : Nat) (h : j ≠ k) :
    (L.set j v).getD k 0 = L.getD k 0 := by
  rw [List.getD_eq_getElem?_getD, List.getD_eq_getElem?_getD, List.getElem?_set_ne h]

theorem getD_of_lt (L : List Nat) (j : Nat) (h : j < L.length) :
    L.getD j 0 = L.get ⟨j, h⟩ := by
  rw [List.getD_eq_getElem?_getD, List.getElem?_eq_getElem h]
  rfl

/-- The loop `for i := 1; i < t; i++` fills the table with `Pw + i * Qw`. -/
theorem rc5_init_spec (Pw Qw n : Nat) :
    ∀ (fuel i : Nat) (S : List Nat), 1 ≤ i → S.length = n → i + fuel ≤ n →
      (∀ k, k < i → S.getD k 0 = (Pw + k * Qw) % 2 ^ 64) →
      ∃ S1, RC5.keyExpansion.init Qw fuel i S = Except.ok S1 ∧ S1.length = n ∧
        ∀ k, k < i + fuel → S1.getD k 0 = (Pw + k * Qw) % 2 ^ 64 := by
  intro fuel
  induction fuel with
  | zero =>
    intro i S _ hn _ hS
    exact ⟨S, rfl, hn, hS⟩
  | succ fuel ih =>
    intro i S hi hn hf hS
    have hi1 : i - 1 < S.length := by omega
    rw [RC5.keyExpansion.init, idx_of_lt _ _ hi1, ok_bind, if_pos (show i < S.length by omega)]
    obtain ⟨S1, e1, e2, e3⟩ := ih (i + 1) (S.set i (add64 (S.get ⟨i - 1, hi1⟩) Qw)) (by omega)
      (by rw [List.length_set]; exact hn) (by omega) (by
        intro k hk
        by_cases hki : k = i
        · subst hki
          rw [getD_set_eq _ _ _ (by omega), ← getD_of_lt, hS (k - 1) (by omega), add64,
            Nat.mod_add_mod]
          congr 1
          have : k = (k - 1) + 1 := by omega
          conv_rhs => rw [this, Nat.add_mul]
          omega
        · rw [getD_set_ne _ _ _ _ (fun h => hki h.symm)]
          exact hS k (by omega))
    exact ⟨S1, e1, e2, fun k hk => e3 k (by omega)⟩

/-- The bytes of key word `j` (of 8 bytes) whose index is at least `i`. -/
theorem rc5_pack_spec (K : Bytes) (n : Nat) (hn8 : K.length ≤ 8 * n) :
    ∀ (i : Nat) (L : List Nat), i ≤ K.length → L.length = n →
      (∀ j, j < n → L.getD j 0 = leUint ((K.take ((j + 1) * 8)).drop (max i (j * 8)))) →
      ∃ L1, RC5.keyExpansion.pack K 8 i L = Except.ok L1 ∧ L1.length = n ∧
        ∀ j, j < n → L1.getD j 0 = leUint ((K.drop (j * 8)).take 8) := by
  intro i
  induction i with
  | zero =>
    intro L _ hn hL
    refine ⟨L, rfl, hn, fun j hj => ?_⟩
    rw [hL j hj, Nat.zero_max, List.drop_take]
    congr 2
    omega
  | succ i ih =>
    intro L hi hn hL
    have hj0 : i / 8 < L.length := by omega
    have hik : i < K.length := by omega
    rw [RC5.keyExpansion.pack, idx_of_lt _ _ hj0, ok_bind, idx_of_lt _ _ hik, ok_bind]
    apply ih _ (by omega) (by rw [List.length_set]; exact hn)
    intro j hj
    by_cases hjj : j = i / 8
    · subst hjj
      rw [getD_set_eq _ _ _ hj0, ← getD_of_lt, hL _ hj]
      have hm1 : max (i + 1) (i / 8 * 8) = i + 1 := by omega
      have hm2 : max i (i / 8 * 8) = i := by omega
      have hlt : i < (K.take ((i / 8 + 1) * 8)).length := by
        rw [List.length_take]; omega
      rw [hm1, hm2, List.drop_eq_getElem_cons hlt, leUint, List.getElem_take]
      have hlen : ((K.take ((i / 8 + 1) * 8)).drop (i + 1)).length ≤ 7 := by
        rw [List.length_drop, List.length_take]; omega
      have hv := leUint_lt ((K.take ((i / 8 + 1) * 8)).drop (i + 1))
      have hp : 256 ^ ((K.take ((i / 8 + 1) * 8)).drop (i + 1)).length ≤ 256 ^ 7 :=
        Nat.pow_le_pow_right (by decide) hlen
      have hk := (K.get ⟨i, hik⟩).isLt
      have h56 : (256 : Nat) ^ 7 * 256 = 2 ^ 64 := by norm_num
      rw [add64, shl64, Nat.shiftLeft_eq, Nat.mod_eq_of_lt (by omega),
        Nat.mod_eq_of_lt (by omega)]
      show _ = (K.get ⟨i, hik⟩).val + 256 * _
      omega
    · rw [getD_set_ne _ _ _ _ (fun h => hjj h.symm), hL _ hj]
      by_cases hlow : j < i / 8
      · rw [List.drop_of_length_le (by rw [List.length_take]; omega),
          List.drop_of_length_le (by rw [List.length_take]; omega)]
      · have hm1 : max (i + 1) (j * 8) = j * 8 := by omega
        have hm2 : max i (j * 8) = j * 8 := by omega
        rw [hm1, hm2]

theorem goMax_eq_max (a b : Nat) : goMax a b = max a b := by
  unfold goMax
  split <;> omega

set_option maxRecDepth 1000000 in
/-- C23, counterexample. For the default RC5 (64-bit words, 12 rounds) and the
16-byte key `1, ..., 16`, whose two little-endian key words are `L` and whose
initial table is `S0`, the table after 36 mixing steps is not the table that
`keyExpansion` returns, which is the table after 78 mixing steps: they differ
in their first word. -/
theorem rc5_key_schedule_not_36_iterations :
    RC5.keyExpansion.pack [1, 2, 3, 4, 5, 6, 7, 8, 9, 10, 11, 12, 13, 14, 15, 16] 8 16
        (List.replicate 2 0) = Except.ok [578437695752307201, 1157159078456920585] ∧
      (RC5.keyExpansion.init 0x9e3779b97f4a7c15 25 1
        ((List.replicate 26 0).set 0 0xb7e151628aed2a6b)).map (fun S => S.take 3)
        = Except.ok [13249961062380153451, 6203931807993800320, 17604646627316998805] ∧
      (do
        let L ← RC5.keyExpansion.pack [1, 2, 3, 4, 5, 6, 7, 8, 9, 10, 11, 12, 13, 14, 15, 16] 8 16
          (List.replicate 2 0)
        let S0 ← RC5.keyExpansion.init 0x9e3779b97f4a7c15 25 1
          ((List.replicate 26 0).set 0 0xb7e151628aed2a6b)
        let S36 ← RC5.keyExpansion.mix 64 26 2 36 0 0 0 0 S0 L
        let S78 ← RC5.keyExpansion.mix 64 26 2 78 0 0 0 0 S0 L
        let S ← RC5.keyExpansion NewRC5 [1, 2, 3, 4, 5, 6, 7, 8, 9, 10, 11, 12, 13, 14, 15, 16]
        pure (S36.getD 0 0, S78.getD 0 0, S.getD 0 0, decide (S78 = S)))
        = Except.ok (2748466854705007598, 2017047207589541521, 2017047207589541521, true) :=
  ⟨rfl, rfl, rfl⟩

/-- C23, amended. For an RC5 object with 64-bit words and every non-empty key
`K`, `keyExpansion` returns a table of exactly `2 * (rounds + 1)` words: the
table `S0` with `S0[k] = Pw + k * Qw` (so `S0[0] = Pw` and
`S0[k] = S0[k-1] + Qw`) and the `c = ⌈len(K) / 8⌉` little-endian key words `L`
after exactly `3 * max(2 * (rounds + 1), c)` mixing steps, which is 78 steps for
12 rounds and a 16-byte key. -/
theorem rc5_key_schedule_shape (rc5 : RC5) (K : Bytes) (hw : rc5.w = 64)
    (hb : rc5.b = K.length) (hK : K ≠ []) :
    ∃ L S0 S,
      L.length = (K.length + 7) / 8 ∧
        (∀ j, j < (K.length + 7) / 8 → L.getD j 0 = leUint ((K.drop (j * 8)).take 8)) ∧
        S0.length = 2 * (rc5.r + 1) ∧
        (∀ k, k < 2 * (rc5.r + 1) →
          S0.getD k 0 = (0xb7e151628aed2a6b + k * 0x9e3779b97f4a7c15) % 2 ^ 64) ∧
        RC5.keyExpansion.mix 64 (2 * (rc5.r + 1)) ((K.length + 7) / 8)
          (3 * max (2 * (rc5.r + 1)) ((K.length + 7) / 8)) 0 0 0 0 S0 L = Except.ok S ∧
        RC5.keyExpansion rc5 K = Except.ok S ∧ S.length = 2 * (rc5.r + 1) ∧
        (rc5.r = 12 → K.length = 16 →
          3 * max (2 * (rc5.r + 1)) ((K.length + 7) / 8) = 78) := by
  have hl : 0 < K.length := List.length_pos.mpr hK
  have hc : K.length + 64 / 8 - 1 = K.length + 7 := by omega
  obtain ⟨L, e1, e2, e3⟩ := rc5_pack_spec K ((K.length + 7) / 8) (by omega) K.length
    (List.replicate ((K.length + 7) / 8) 0) (le_refl _) (List.length_replicate _ _)
    (fun j hj => by
      rw [List.getD_eq_getElem?_getD, List.getElem?_replicate, if_pos hj,
        List.drop_of_length_le (by rw [List.length_take]; omega)]
      rfl)
  obtain ⟨S0, e4, e5, e6⟩ := rc5_init_spec 0xb7e151628aed2a6b 0x9e3779b97f4a7c15
    (2 * (rc5.r + 1)) (2 * (rc5.r + 1) - 1) 1
    ((List.replicate (2 * (rc5.r + 1)) 0).set 0 0xb7e151628aed2a6b)
    (le_refl _) (by rw [List.length_set, List.length_replicate]) (by omega)
    (fun k hk => by
      have hk0 : k = 0 := by omega
      subst hk0
      rw [getD_set_eq _ _ _ (by rw [List.length_replicate]; omega)]
      rfl)
  obtain ⟨S, e7, e8⟩ := rc5_mix_ok 64 (2 * (rc5.r + 1)) ((K.length + 7) / 8) (by omega)
    (by omega) (3 * max (2 * (rc5.r + 1)) ((K.length + 7) / 8)) 0 0 0 0 S0 L e5 e2
    (by omega) (by omega)
  refine ⟨L, S0, S, e2, e3, e5, fun k hk => e6 k (by omega), e7, ?_, e8, ?_⟩
  · unfold RC5.keyExpansion
    simp only [hw, hb]
    rw [if_neg (by decide), hc, if_neg (by decide), if_neg (by decide), if_neg (by decide),
      if_neg (by decide), goMax_eq_max]
    simp only [Nat.reduceDiv]
    rw [e1, ok_bind, e4, ok_bind, e7]
  · intro hr hk
    rw [hr, hk]
    rfl

theorem rc5_key_schedule_shape_witness :
    ∃ S, RC5.keyExpansion NewRC5 [1, 2, 3, 4, 5, 6, 7, 8, 9, 10, 11, 12, 13, 14, 15, 16]
        = Except.ok S ∧ S.length = 26 := by
  obtain ⟨_, _, S, _, _, _, _, _, h1, h2, _⟩ := rc5_key_schedule_shape NewRC5
    [1, 2, 3, 4, 5, 6, 7, 8, 9, 10, 11, 12, 13, 14, 15, 16] rfl rfl (by decide)
  exact ⟨S, h1, h2⟩

/-! ## The key schedule of the substitution-diffusion cipher -/

/-- The loop of `keyExpansion` writes `S[k] = k << 32 | key[k % len(key)]`. -/
theorem magenta_keyExpansion_loop_spec (key : Bytes) (hk : key ≠ []) (n : Nat) :
    ∀ (fuel i : Nat) (S : List Nat), S.length = n → i + fuel ≤ n →
      (∀ k, k < i → S.getD k 0 = (shl64 k 32 ||| (key.getD (k % key.length) 0).val)) →
      ∃ S1, Magenta.keyExpansion.loop key fuel i S = Except.ok S1 ∧ S1.length = n ∧
        ∀ k, k < i + fuel →
          S1.getD k 0 = (shl64 k 32 ||| (key.getD (k % key.length) 0).val) := by
  have hl : 0 < key.length := List.length_pos.mpr hk
  intro fuel
  induction fuel with
  | zero =>
    intro i S hn _ hS
    exact ⟨S, rfl, hn, hS⟩
  | succ fuel ih =>
    intro i S hn hf hS
    have hm : i % key.length < key.length := Nat.mod_lt _ hl
    rw [Magenta.keyExpansion.loop, if_neg (by omega), idx_of_lt _ _ hm, ok_bind,
      if_pos (show i < S.length by omega)]
    obtain ⟨S1, e1, e2, e3⟩ := ih (i + 1)
      (S.set i (shl64 i 32 ||| (key.get ⟨i % key.length, hm⟩).val))
      (by rw [List.length_set]; exact hn) (by omega) (by
        intro k hk1
        by_cases hki : k = i
        · subst hki
          rw [getD_set_eq _ _ _ (by omega), List.getD_eq_getElem?_getD,
            List.getElem?_eq_getElem hm]
          rfl
        · rw [getD_set_ne _ _ _ _ (fun h => hki h.symm)]
          exact hS k (by omega))
    exact ⟨S1, e1, e2, fun k hk1 => e3 k (by omega)⟩

theorem magenta_SetKey_ok (m : Magenta) (key : Bytes) (hk : key ≠ []) :
    ∃ S, Magenta.SetKey m key
        = Except.ok { S := S, r := m.r, w := m.w, b := key.length } ∧
      S.length = 2 * (m.r + 1) ∧
      ∀ k, k < 2 * (m.r + 1) →
        S.getD k 0 = (shl64 k 32 ||| (key.getD (k % key.length) 0).val) := by
  have hl : key.length ≠ 0 := fun h => hk (List.length_eq_zero.mp h)
  obtain ⟨S, e1, e2, e3⟩ := magenta_keyExpansion_loop_spec key hk (2 * (m.r + 1))
    (2 * (m.r + 1)) 0 (List.replicate (2 * (m.r + 1)) 0) (List.length_replicate _ _)
    (by omega) (fun k hk0 => by omega)
  refine ⟨S, ?_, e2, fun k hk1 => e3 k (by omega)⟩
  unfold Magenta.SetKey Magenta.keyExpansion
  rw [if_neg hl]
  dsimp only
  rw [e1]
  rfl

/-! ## Only the first twelve subkeys are used -/

theorem magenta_encrypt_loop_congr (m1 m2 : Magenta) (n : Nat) (hn : 12 ≤ n)
    (h1 : m1.S.length = n) (h2 : m2.S.length = n)
    (hS : ∀ k, k < 12 → m1.S.getD k 0 = m2.S.getD k 0) :
    ∀ (fuel i A B : Nat), i + fuel ≤ 12 →
      Magenta.encryptBlock.loop m1 fuel i A B = Magenta.encryptBlock.loop m2 fuel i A B := by
  intro fuel
  induction fuel with
  | zero => intro i A B _; rfl
  | succ fuel ih =>
    intro i A B hi
    have hm : i % n = i := Nat.mod_eq_of_lt (by omega)
    have e : m1.S.get ⟨i % m1.S.length, by rw [h1, hm]; omega⟩
        = m2.S.get ⟨i % m2.S.length, by rw [h2, hm]; omega⟩ := by
      rw [← getD_of_lt, ← getD_of_lt]
      simp only [h1, h2, hm]
      exact hS i (by omega)
    rw [Magenta.encryptBlock.loop, Magenta.encryptBlock.loop, if_neg (by omega),
      if_neg (by omega), idx_of_lt _ _ (show i % m1.S.length < m1.S.length by
        rw [h1, hm]; omega),
      idx_of_lt _ _ (show i % m2.S.length < m2.S.length by rw [h2, hm]; omega), ok_bind,
      ok_bind, e]
    exact ih _ _ _ (by omega)

theorem magenta_decrypt_loop_congr (m1 m2 : Magenta) (n : Nat) (hn : 12 ≤ n)
    (h1 : m1.S.length = n) (h2 : m2.S.length = n)
    (hS : ∀ k, k < 12 → m1.S.getD k 0 = m2.S.getD k 0) :
    ∀ (i A B : Nat), i ≤ 12 →
      Magenta.decryptBlock.loop m1 i A B = Magenta.decryptBlock.loop m2 i A B := by
  intro i
  induction i with
  | zero => intro A B _; rfl
  | succ i ih =>
    intro A B hi
    have hm : i % n = i := Nat.mod_eq_of_lt (by omega)
    have e : m1.S.get ⟨i % m1.S.length, by rw [h1, hm]; omega⟩
        = m2.S.get ⟨i % m2.S.length, by rw [h2, hm]; omega⟩ := by
      rw [← getD_of_lt, ← getD_of_lt]
      simp only [h1, h2, hm]
      exact hS i (by omega)
    rw [Magenta.decryptBlock.loop, Magenta.decryptBlock.loop, if_neg (by omega),
      if_neg (by omega)]
    dsimp only
    rw [idx_of_lt _ _ (show i % m1.S.length < m1.S.length by rw [h1, hm]; omega),
      idx_of_lt _ _ (show i % m2.S.length < m2.S.length by rw [h2, hm]; omega), ok_bind,
      ok_bind, e]
    exact ih _ _ (by omega)

/-- Two keyed objects with 12 rounds whose first twelve subkeys agree encrypt
and decrypt alike. -/
theorem magenta_same_subkeys (m1 m2 : Magenta) (n : Nat) (hn : 12 ≤ n)
    (h1 : m1.S.length = n) (h2 : m2.S.length = n)
    (hS : ∀ k, k < 12 → m1.S.getD k 0 = m2.S.getD k 0)
    (hr1 : m1.r = 12) (hr2 : m2.r = 12) (hw : m1.w = m2.w) (d : Bytes) :
    Magenta.Encrypt m1 d = Magenta.Encrypt m2 d ∧
      Magenta.Decrypt m1 d = Magenta.Decrypt m2 d := by
  have he : Magenta.encryptBlock m1 = Magenta.encryptBlock m2 := by
    funext b
    unfold Magenta.encryptBlock
    rw [hr1, hr2, hw]
    simp only [magenta_encrypt_loop_congr m1 m2 n hn h1 h2 hS 12 0 _ _ (by omega)]
  have hd : Magenta.decryptBlock m1 = Magenta.decryptBlock m2 := by
    funext b
    unfold Magenta.decryptBlock
    rw [hr1, hr2, hw]
    simp only [magenta_decrypt_loop_congr m1 m2 n hn h1 h2 hS 12 _ _ (by omega)]
  unfold Magenta.Encrypt Magenta.Decrypt
  rw [he, hd, hw]
  exact ⟨rfl, rfl⟩

/-- C29. The substitution-diffusion cipher uses only the first 12 key bytes:
for two keys of at least 12 bytes (of the same length or not) that agree on
their first 12 bytes, `SetKey` on a new object succeeds for both, and the two
keyed objects return the same result of `Encrypt` and of `Decrypt` on every
input. -/
theorem magenta_uses_first_12_key_bytes (k1 k2 : Bytes) (h1 : 12 ≤ k1.length)
    (h2 : 12 ≤ k2.length) (h : k1.take 12 = k2.take 12) :
    ∃ m1 m2, Magenta.SetKey NewMagenta k1 = Except.ok m1 ∧
      Magenta.SetKey NewMagenta k2 = Except.ok m2 ∧
      ∀ d : Bytes, Magenta.Encrypt m1 d = Magenta.Encrypt m2 d ∧
        Magenta.Decrypt m1 d = Magenta.Decrypt m2 d := by
  obtain ⟨S1, e1, l1, s1⟩ := magenta_SetKey_ok NewMagenta k1
    (fun hk => by rw [hk] at h1; simp at h1)
  obtain ⟨S2, e2, l2, s2⟩ := magenta_SetKey_ok NewMagenta k2
    (fun hk => by rw [hk] at h2; simp at h2)
  have hS : ∀ k, k < 12 → S1.getD k 0 = S2.getD k 0 := by
    intro k hk
    have hb : (k1.getD k 0) = (k2.getD k 0) := by
      have a1 := getD_take k1 12 k hk
      have a2 := getD_take k2 12 k hk
      rw [← a1, ← a2, h]
    rw [s1 k (show k < 2 * (NewMagenta.r + 1) by show k < 26; omega),
      s2 k (show k < 2 * (NewMagenta.r + 1) by show k < 26; omega),
      Nat.mod_eq_of_lt (by omega), Nat.mod_eq_of_lt (by omega), hb]
  exact ⟨_, _, e1, e2, fun d => magenta_same_subkeys
    { S := S1, r := NewMagenta.r, w := NewMagenta.w, b := k1.length }
    { S := S2, r := NewMagenta.r, w := NewMagenta.w, b := k2.length }
    26 (by decide) l1 l2 hS rfl rfl rfl d⟩

theorem magenta_uses_first_12_key_bytes_witness :
    ∃ m1 m2,
      Magenta.SetKey NewMagenta [1, 2, 3, 4, 5, 6, 7, 8, 9, 10, 11, 12, 13, 14, 15, 16]
          = Except.ok m1 ∧
        Magenta.SetKey NewMagenta [1, 2, 3, 4, 5, 6, 7, 8, 9, 10, 11, 12, 99, 98, 97, 96]
          = Except.ok m2 ∧
        Magenta.Encrypt m1 (List.replicate 16 5) = Magenta.Encrypt m2 (List.replicate 16 5) := by
  obtain ⟨m1, m2, e1, e2, e3⟩ := magenta_uses_first_12_key_bytes
    [1, 2, 3, 4, 5, 6, 7, 8, 9, 10, 11, 12, 13, 14, 15, 16]
    [1, 2, 3, 4, 5, 6, 7, 8, 9, 10, 11, 12, 99, 98, 97, 96] (by decide) (by decide) rfl
  exact ⟨m1, m2, e1, e2, (e3 _).1⟩

/-! ## Two blocks with the same ciphertext -/

/-- The word `0x2108421084210842` has the bits `1, 6, 11, ..., 61` set; `sbox`
maps it to zero, as it maps zero. -/
theorem magenta_sbox_kernel :
    Magenta.sbox 2380225041768974402 = 0 ∧ Magenta.sbox 0 = 0 := by
  decide

theorem magenta_first_round_collision (m : Magenta) :
    Magenta.encryptBlock.loop m 12 0 2380225041768974402 0
      = Magenta.encryptBlock.loop m 12 0 0 0 := by
  show Magenta.encryptBlock.loop m (11 + 1) 0 2380225041768974402 0
    = Magenta.encryptBlock.loop m (11 + 1) 0 0 0
  rw [Magenta.encryptBlock.loop, Magenta.encryptBlock.loop, magenta_sbox_kernel.1,
    magenta_sbox_kernel.2]

theorem magenta_encryptBlock_collision (m : Magenta) (hw : m.w = 64) (hr : m.r = 12) :
    Magenta.encryptBlock m ([66, 8, 33, 132, 16, 66, 8, 33] ++ List.replicate 8 0)
      = Magenta.encryptBlock m (List.replicate 16 0) := by
  have a1 : slice ([66, 8, 33, 132, 16, 66, 8, 33] ++ List.replicate 8 (0 : Byte)) 0 8
      = Except.ok [66, 8, 33, 132, 16, 66, 8, 33] := rfl
  have a2 : slice ([66, 8, 33, 132, 16, 66, 8, 33] ++ List.replicate 8 (0 : Byte)) 8 16
      = Except.ok (List.replicate 8 0) := rfl
  have b1 : slice (List.replicate 16 (0 : Byte)) 0 8 = Except.ok (List.replicate 8 0) := rfl
  have b2 : slice (List.replicate 16 (0 : Byte)) 8 16 = Except.ok (List.replicate 8 0) := rfl
  have v1 : leUint [66, 8, 33, 132, 16, 66, 8, 33] = 2380225041768974402 := by decide
  have v0 : leUint (List.replicate 8 0) = 0 := by decide
  unfold Magenta.encryptBlock
  simp only [hw, hr, Nat.reduceDiv, Nat.reduceMul]
  rw [if_neg (by decide), if_neg (by decide), a1, a2, b1, b2]
  simp only [ok_bind]
  rw [v1, v0, magenta_first_round_collision m]

theorem magenta_Encrypt_collision (m : Magenta) (hw : m.w = 64) (hr : m.r = 12) :
    Magenta.Encrypt m ([66, 8, 33, 132, 16, 66, 8, 33] ++ List.replicate 8 0)
      = Magenta.Encrypt m (List.replicate 16 0) := by
  have a : slice ([66, 8, 33, 132, 16, 66, 8, 33] ++ List.replicate 8 (0 : Byte)) 0 (0 + 16)
      = Except.ok ([66, 8, 33, 132, 16, 66, 8, 33] ++ List.replicate 8 0) := rfl
  have b : slice (List.replicate 16 (0 : Byte)) 0 (0 + 16)
      = Except.ok (List.replicate 16 0) := rfl
  unfold Magenta.Encrypt
  simp only [hw, Nat.reduceDiv]
  rw [if_neg (by decide), if_neg (by decide), if_neg (by decide)]
  show blocksLoop m.encryptBlock _ 16 1 0 (zeros 16) = blocksLoop m.encryptBlock _ 16 1 0 (zeros 16)
  rw [blocksLoop, blocksLoop, a, b, ok_bind, ok_bind, magenta_encryptBlock_collision m hw hr]
  simp only [blocksLoop]

/-- C30. `Magenta.Encrypt` is not injective on 16-byte blocks: under every
non-empty key the block of sixteen zero bytes and the block
`66, 8, 33, 132, 16, 66, 8, 33` followed by eight zero bytes, which differ, are
encrypted to the same ciphertext, because `sbox` maps the word
`0x2108421084210842` to zero, as it maps zero. -/
theorem magenta_encrypt_not_injective (key : Bytes) (hk : key ≠ []) :
    ∃ m c, Magenta.SetKey NewMagenta key = Except.ok m ∧
      Magenta.Encrypt m (List.replicate 16 0) = Except.ok c ∧
      Magenta.Encrypt m ([66, 8, 33, 132, 16, 66, 8, 33] ++ List.replicate 8 0)
        = Except.ok c ∧
      (List.replicate 16 0 : Bytes) ≠ [66, 8, 33, 132, 16, 66, 8, 33] ++ List.replicate 8 0 ∧
      Magenta.sbox 0x2108421084210842 = Magenta.sbox 0 := by
  obtain ⟨S, e1, l1, _⟩ := magenta_SetKey_ok NewMagenta key hk
  obtain ⟨c, h1, _⟩ := magenta_encrypts_blocks
    { S := S, r := NewMagenta.r, w := NewMagenta.w, b := key.length } rfl
    (by rw [l1]; decide) (List.replicate 16 0) (by decide)
  refine ⟨_, c, e1, h1, ?_, by decide, by decide⟩
  rw [magenta_Encrypt_collision _ rfl rfl]
  exact h1

theorem magenta_encrypt_not_injective_witness :
    ∃ m c, Magenta.SetKey NewMagenta [1] = Except.ok m ∧
      Magenta.Encrypt m (List.replicate 16 0) = Except.ok c ∧
      Magenta.Encrypt m ([66, 8, 33, 132, 16, 66, 8, 33] ++ List.replicate 8 0)
        = Except.ok c := by
  obtain ⟨m, c, h1, h2, h3, _⟩ := magenta_encrypt_not_injective [1] (by decide)
  exact ⟨m, c, h1, h2, h3⟩

/-! ## RandomDelta does not use the key, the IV or the cipher -/

/-- C27. RandomDelta is independent of the key: two contexts in the mode
RandomDelta with the same block size and the same padding scheme, whatever
their keys, IVs, ciphers and cipher objects are, return the same result of
`Decrypt` on every input, and the same result of `Encrypt` on every input when
the random source delivers the same bytes (the same delta block). -/
theorem random_delta_ignores_key {σ τ : Type} (c1 : CryptoSymmetricContext σ)
    (c2 : CryptoSymmetricContext τ) (tape x : Bytes)
    (hm1 : c1.mode = RandomDelta) (hm2 : c2.mode = RandomDelta)
    (hbs : c1.blockSize = c2.blockSize) (hpad : c1.padding = c2.padding) :
    c1.Decrypt x = c2.Decrypt x ∧ c1.Encrypt tape x = c2.Encrypt tape x := by
  have hadd : ∀ t d, c1.AddPadding t d = c2.AddPadding t d := by
    intro t d
    unfold CryptoSymmetricContext.AddPadding
    rw [hbs, hpad]
  have hrem : ∀ d, c1.RemovePadding d = c2.RemovePadding d := by
    intro d
    unfold CryptoSymmetricContext.RemovePadding
    rw [hpad]
  have henc : ∀ t d, c1.encryptRandomDelta t d = c2.encryptRandomDelta t d := by
    intro t d
    unfold CryptoSymmetricContext.encryptRandomDelta
    rw [hbs]
  have hdec : ∀ d, c1.decryptRandomDelta d = c2.decryptRandomDelta d := by
    intro d
    unfold CryptoSymmetricContext.decryptRandomDelta
    rw [hbs]
  have n1 : ¬ (RandomDelta = ECB) := by decide
  have n2 : ¬ (RandomDelta = CBC) := by decide
  have n3 : ¬ (RandomDelta = PCBC) := by decide
  have n4 : ¬ (RandomDelta = CFB) := by decide
  have n5 : ¬ (RandomDelta = OFB) := by decide
  have n6 : ¬ (RandomDelta = CTR) := by decide
  constructor
  · unfold CryptoSymmetricContext.Decrypt
    simp only [hm1, hm2, if_neg n1, if_neg n2, if_neg n3, if_neg n4, if_neg n5, if_neg n6,
      if_true, hdec, hrem]
  · unfold CryptoSymmetricContext.Encrypt
    simp only [hm1, hm2, if_neg n1, if_neg n2, if_neg n3, if_neg n4, if_neg n5, if_neg n6,
      if_true, henc, hadd]

theorem random_delta_ignores_key_witness :
    CryptoSymmetricContext.Decrypt
        { key := [1, 2, 3], cipher := rc5Algorithm, obj := NewRC5, mode := RandomDelta,
          padding := PKCS7, iv := [7], blockSize := 4 } [1, 2, 3, 4, 5, 6, 7, 8]
      = CryptoSymmetricContext.Decrypt
        { key := [9], cipher := magentaAlgorithm, obj := NewMagenta, mode := RandomDelta,
          padding := PKCS7, iv := [], blockSize := 4 } [1, 2, 3, 4, 5, 6, 7, 8] :=
  (random_delta_ignores_key
    { key := [1, 2, 3], cipher := rc5Algorithm, obj := NewRC5, mode := RandomDelta,
      padding := PKCS7, iv := [7], blockSize := 4 }
    { key := [9], cipher := magentaAlgorithm, obj := NewMagenta, mode := RandomDelta,
      padding := PKCS7, iv := [], blockSize := 4 }
    [] [1, 2, 3, 4, 5, 6, 7, 8] rfl rfl rfl rfl).1

/-! ## The key and the IV of the session cipher -/

theorem fatal_ok {α : Type} (msg : String) (a : α) :
    fatal msg (Except.ok a : Result α) = Except.ok a := rfl

theorem fatal_eq_ok {α : Type} {msg : String} {r : Result α} {a : α}
    (h : fatal msg r = Except.ok a) : r = Except.ok a := by
  rcases r with (_ | _) | _
  · exact absurd h (by simp [fatal])
  · exact absurd h (by simp [fatal])
  · exact h

/-- The context that `sessionContext` returns holds the key it is given and
the first 16 bytes of the hash as its IV. -/
theorem sessionContext_fields {σ : Type} (cipher : SymmetricAlgorithm σ) (obj : σ)
    (sha256 : Bytes → Bytes) (h finalKey : Bytes) (mode padding : String)
    (ctx : CryptoSymmetricContext σ)
    (hok : sessionContext cipher obj sha256 h finalKey mode padding = Except.ok ctx) :
    ctx.key = finalKey ∧ ctx.iv = (sha256 h).take 16 ∧ ctx.blockSize = 16 := by
  unfold sessionContext at hok
  obtain ⟨obj1, _, hok⟩ := bind_eq_ok hok
  obtain ⟨m, _, hok⟩ := bind_eq_ok hok
  obtain ⟨p, _, hok⟩ := bind_eq_ok hok
  obtain ⟨f1, _, _, _, f5, f6, _⟩ :=
    NewCryptoSymmetricContext_fields _ _ _ _ _ _ _ ctx (fatal_eq_ok hok)
  exact ⟨f1, f5, f6⟩

theorem sessionContext_ok {σ : Type} (cipher : SymmetricAlgorithm σ) (obj obj1 obj2 : σ)
    (sha256 : Bytes → Bytes) (h finalKey : Bytes) (mode padding : String) (m p : Nat)
    (hk : finalKey.length = 16) (hs1 : cipher.SetKey obj finalKey = Except.ok obj1)
    (hs2 : cipher.SetKey obj1 finalKey = Except.ok obj2)
    (hm : sessionMode mode = Except.ok m) (hp : sessionPadding padding = Except.ok p) :
    ∃ ctx, sessionContext cipher obj sha256 h finalKey mode padding = Except.ok ctx := by
  unfold sessionContext
  rw [hs1, fatal_ok, ok_bind, hm, ok_bind, hp, ok_bind]
  dsimp only
  rw [NewCryptoSymmetricContext_ok finalKey cipher obj1 obj2 m p ((sha256 h).take 16) 16
    (Or.inl hk) hs2, fatal_ok]
  exact ⟨_, rfl⟩

theorem rc5_SetKey_twice (key : Bytes) (hk : key ≠ []) :
    ∃ obj1 obj2, rc5Algorithm.SetKey NewRC5 key = Except.ok obj1 ∧
      rc5Algorithm.SetKey obj1 key = Except.ok obj2 := by
  obtain ⟨S1, e1, _⟩ := rc5_SetKey_ok NewRC5 key rfl hk
  obtain ⟨S2, e2, _⟩ := rc5_SetKey_ok
    { S := S1, r := NewRC5.r, w := 64, b := key.length } key rfl hk
  exact ⟨_, _, e1, e2⟩

theorem magenta_SetKey_twice (key : Bytes) (hk : key ≠ []) :
    ∃ obj1 obj2, magentaAlgorithm.SetKey NewMagenta key = Except.ok obj1 ∧
      magentaAlgorithm.SetKey obj1 key = Except.ok obj2 := by
  obtain ⟨S1, e1, _⟩ := magenta_SetKey_ok NewMagenta key hk
  obtain ⟨S2, e2, _⟩ := magenta_SetKey_ok
    { S := S1, r := NewMagenta.r, w := NewMagenta.w, b := key.length } key hk
  exact ⟨_, _, e1, e2⟩

/-- C28. Session key and IV coincide: whenever `InitCipher` (web handler) or
`initCipher` (client) returns a context for the hashed shared secret `h`, the
key and the IV passed to `NewCryptoSymmetricContext`, which the context holds,
are the same 16 bytes, the first 16 bytes of `sha256 h`, for every function
`sha256` to 32 bytes. For the algorithm names `rc5` and `magenta` and every
mode and padding name that the two switches know, both functions return the
same context. -/
theorem session_key_equals_iv (sha256 : Bytes → Bytes) (h : Bytes)
    (algorithmName mode padding : String) (hsha : ∀ x, (sha256 x).length = 32) :
    (∀ ctx, InitCipher sha256 h algorithmName mode padding = Except.ok ctx →
        ctx.key = (sha256 h).take 16 ∧ ctx.iv = (sha256 h).take 16 ∧ ctx.key = ctx.iv ∧
          ctx.key.length = 16) ∧
      (∀ ctx, initCipher sha256 h algorithmName mode padding = Except.ok ctx →
        ctx.key = (sha256 h).take 16 ∧ ctx.iv = (sha256 h).take 16 ∧ ctx.key = ctx.iv ∧
          ctx.key.length = 16) ∧
      (algorithmName = "rc5" ∨ algorithmName = "magenta" →
        (∃ m, sessionMode mode = Except.ok m) → (∃ p, sessionPadding padding = Except.ok p) →
        ∃ ctx, InitCipher sha256 h algorithmName mode padding = Except.ok ctx ∧
          initCipher sha256 h algorithmName mode padding = Except.ok ctx) := by
  have hl : ((sha256 h).take 16).length = 16 := by
    rw [List.length_take, hsha]
    rfl
  have hne : (sha256 h).take 16 ≠ [] := by
    intro he
    rw [he] at hl
    exact absurd hl (by decide)
  have key : ∀ {σ : Type} (cipher : SymmetricAlgorithm σ) (obj : σ)
      (ctx : CryptoSymmetricContext σ),
      sessionContext cipher obj sha256 h ((sha256 h).take 16) mode padding = Except.ok ctx →
      ctx.key = (sha256 h).take 16 ∧ ctx.iv = (sha256 h).take 16 ∧ ctx.key = ctx.iv ∧
        ctx.key.length = 16 := by
    intro σ cipher obj ctx hok
    obtain ⟨f1, f2, _⟩ := sessionContext_fields cipher obj sha256 h _ mode padding ctx hok
    exact ⟨f1, f2, by rw [f1, f2], by rw [f1, hl]⟩
  refine ⟨?_, ?_, ?_⟩
  · intro ctx hok
    unfold InitCipher at hok
    dsimp only at hok
    by_cases ha : algorithmName = "magenta"
    · rw [if_pos ha] at hok
      obtain ⟨c, hc, hr⟩ := bind_eq_ok hok
      rw [← Except.ok.inj hr]
      exact key _ _ c hc
    · rw [if_neg ha] at hok
      by_cases hb : algorithmName = "rc5"
      · rw [if_pos hb] at hok
        obtain ⟨c, hc, hr⟩ := bind_eq_ok hok
        rw [← Except.ok.inj hr]
        exact key _ _ c hc
      · rw [if_neg hb] at hok
        exact absurd hok (by simp)
  · intro ctx hok
    unfold initCipher at hok
    dsimp only at hok
    by_cases hb : algorithmName = "rc5"
    · rw [if_pos hb] at hok
      obtain ⟨c, hc, hr⟩ := bind_eq_ok hok
      rw [← Except.ok.inj hr]
      exact key _ _ c hc
    · rw [if_neg hb] at hok
      by_cases ha : algorithmName = "magenta"
      · rw [if_pos ha] at hok
        obtain ⟨c, hc, hr⟩ := bind_eq_ok hok
        rw [← Except.ok.inj hr]
        exact key _ _ c hc
      · rw [if_neg ha] at hok
        exact absurd hok (by simp)
  · intro halg ⟨m, hm⟩ ⟨p, hp⟩
    unfold InitCipher initCipher
    dsimp only
    rcases halg with ha | ha
    · obtain ⟨o1, o2, s1, s2⟩ := rc5_SetKey_twice _ hne
      obtain ⟨ctx, hc⟩ := sessionContext_ok rc5Algorithm NewRC5 o1 o2 sha256 h _ mode padding
        m p hl s1 s2 hm hp
      rw [ha, if_neg (by decide), if_pos rfl, if_pos rfl, hc]
      exact ⟨_, rfl, rfl⟩
    · obtain ⟨o1, o2, s1, s2⟩ := magenta_SetKey_twice _ hne
      obtain ⟨ctx, hc⟩ := sessionContext_ok magentaAlgorithm NewMagenta o1 o2 sha256 h _ mode
        padding m p hl s1 s2 hm hp
      rw [ha, if_pos rfl, if_neg (by decide), if_pos rfl, hc]
      exact ⟨_, rfl, rfl⟩

theorem session_key_equals_iv_witness :
    ∃ ctx, InitCipher (fun _ => List.replicate 32 7) [1, 2, 3] "rc5" "CBC" "PKCS7"
          = Except.ok ctx ∧
        initCipher (fun _ => List.replicate 32 7) [1, 2, 3] "rc5" "CBC" "PKCS7"
          = Except.ok ctx ∧
        ctx.key = List.replicate 16 7 ∧ ctx.key = ctx.iv := by
  obtain ⟨h1, _, h3⟩ := session_key_equals_iv (fun _ => List.replicate 32 7)
    [1, 2, 3] "rc5" "CBC" "PKCS7" (fun _ => List.length_replicate _ _)
  obtain ⟨ctx, e1, e2⟩ := h3 (Or.inl rfl) ⟨CBC, rfl⟩ ⟨PKCS7, rfl⟩
  obtain ⟨k1, _, k3, _⟩ := h1 ctx e1
  exact ⟨ctx, e1, e2, k1, k3⟩

/-! ## Streaming file encryption -/

theorem ecbSpec_add (E : Bytes → Bytes) (bs : Nat) :
    ∀ (n1 n2 : Nat) (X : Bytes),
      ecbSpec E bs (n1 + n2) X = ecbSpec E bs n1 X ++ ecbSpec E bs n2 (X.drop (n1 * bs)) := by
  intro n1
  induction n1 with
  | zero =>
    intro n2 X
    rw [Nat.zero_add, Nat.zero_mul, List.drop_zero]
    rfl
  | succ n1 ih =>
    intro n2 X
    have e : n1 + 1 + n2 = (n1 + n2) + 1 := by omega
    rw [e, ecbSpec, ecbSpec, ih, List.drop_drop, List.append_assoc]
    congr 3
    congr 1
    ring

theorem ecbSpec_append_left (E : Bytes → Bytes) (bs : Nat) :
    ∀ (n : Nat) (A B : Bytes), n * bs ≤ A.length →
      ecbSpec E bs n (A ++ B) = ecbSpec E bs n A := by
  intro n
  induction n with
  | zero => intro A B _; rfl
  | succ n ih =>
    intro A B h
    have e1 : (n + 1) * bs = n * bs + bs := by ring
    have hb : bs ≤ A.length := by omega
    rw [ecbSpec, ecbSpec, List.take_append_of_le_length hb,
      List.drop_append_of_le_length hb, ih _ _ (by rw [List.length_drop]; omega)]

theorem ecbSpec_one (E : Bytes → Bytes) (bs : Nat) (X : Bytes) (h : X.length = bs) :
    ecbSpec E bs 1 X = E X := by
  rw [ecbSpec, ecbSpec, List.append_nil, List.take_of_length_le (by omega)]

/-- The loop over the pending data encrypts its `len / bs` whole blocks and
leaves the rest. -/
theorem encryptFile_blocks_spec (enc : Bytes → Result Bytes) (E : Bytes → Bytes) (bs : Nat)
    (hbs : 1 ≤ bs) (henc : ∀ b : Bytes, b.length = bs → enc b = Except.ok (E b)) :
    ∀ (n : Nat) (P out : Bytes), P.length / bs = n →
      encryptFile.blocks enc bs n P out
        = Except.ok (P.drop (n * bs), out ++ ecbSpec E bs n P) := by
  intro n
  induction n with
  | zero =>
    intro P out _
    rw [encryptFile.blocks, Nat.zero_mul, List.drop_zero, ecbSpec, List.append_nil]
    rfl
  | succ n ih =>
    intro P out h
    have hle : (n + 1) * bs ≤ P.length := by
      rw [← h]; exact Nat.div_mul_le_self _ _
    have e1 : (n + 1) * bs = n * bs + bs := by ring
    have hb : bs ≤ P.length := by omega
    have hd : (P.drop bs).length / bs = n := by
      have := Nat.div_eq_sub_div (show 0 < bs by omega) hb
      rw [List.length_drop]
      omega
    have hs : slice P 0 bs = Except.ok (P.take bs) := by
      unfold slice
      rw [if_pos ⟨by omega, hb⟩]
      rfl
    rw [encryptFile.blocks, if_pos hb, hs, ok_bind,
      henc _ (by rw [List.length_take]; omega), wrapf_ok, ok_bind, ih _ _ hd, ecbSpec,
      List.drop_drop, List.append_assoc]
    congr 3
    ring

/-- The read loop encrypts the whole blocks of the concatenation of what is
pending and what the reads deliver, and leaves the rest. -/
theorem encryptFile_read_spec (enc : Bytes → Result Bytes) (E : Bytes → Bytes) (bs : Nat)
    (hbs : 1 ≤ bs) (henc : ∀ b : Bytes, b.length = bs → enc b = Except.ok (E b)) :
    ∀ (reads : List Bytes) (P out : Bytes),
      encryptFile.read enc bs reads P out
        = Except.ok ((P ++ reads.flatten).drop ((P ++ reads.flatten).length / bs * bs),
            out ++ ecbSpec E bs ((P ++ reads.flatten).length / bs) (P ++ reads.flatten)) := by
  intro reads
  induction reads with
  | nil =>
    intro P out
    rw [encryptFile.read, List.flatten_nil, List.append_nil,
      encryptFile_blocks_spec enc E bs hbs henc _ P out rfl]
  | cons chunk rest ih =>
    intro P out
    have hX := Nat.div_mul_le_self (P ++ chunk).length bs
    have hdrop : (P ++ chunk).drop ((P ++ chunk).length / bs * bs) ++ rest.flatten
        = (P ++ (chunk :: rest).flatten).drop ((P ++ chunk).length / bs * bs) := by
      rw [List.flatten_cons, ← List.append_assoc, List.drop_append_of_le_length hX]
    have hlen : (P ++ (chunk :: rest).flatten).length
        = ((P ++ (chunk :: rest).flatten).drop ((P ++ chunk).length / bs * bs)).length
          + (P ++ chunk).length / bs * bs := by
      rw [List.length_drop, List.flatten_cons, ← List.append_assoc,
        List.length_append (P ++ chunk)]
      omega
    have hdiv : (P ++ (chunk :: rest).flatten).length / bs
        = (P ++ chunk).length / bs
          + ((P ++ (chunk :: rest).flatten).drop ((P ++ chunk).length / bs * bs)).length
            / bs := by
      conv_lhs => rw [hlen]
      rw [Nat.add_mul_div_right _ _ (show 0 < bs by omega), Nat.add_comm]
    rw [encryptFile.read]
    dsimp only
    rw [encryptFile_blocks_spec enc E bs hbs henc _ (P ++ chunk) out rfl, ok_bind, ih, hdrop,
      hdiv, ecbSpec_add, List.drop_drop, Nat.add_mul, List.append_assoc]
    have hA : ecbSpec E bs ((P ++ chunk).length / bs) (P ++ (chunk :: rest).flatten)
        = ecbSpec E bs ((P ++ chunk).length / bs) (P ++ chunk) := by
      rw [List.flatten_cons, ← List.append_assoc, ecbSpec_append_left E bs _ _ _ hX]
    rw [hA]

theorem ecb_encrypt_loop_enc {σ : Type} (cstc : CryptoSymmetricContext σ) (E : Bytes → Bytes)
    (bs : Nat)
    (henc : ∀ b : Bytes, b.length = bs → cstc.cipher.Encrypt cstc.obj b = Except.ok (E b))
    (hlen : ∀ b : Bytes, b.length = bs → (E b).length = bs) (data : Bytes) :
    ∀ (n i : Nat) (out : Bytes), out.length = data.length → i * bs + n * bs ≤ data.length →
      ecbLoop (cstc.cipher.Encrypt cstc.obj) data bs n i out
        = Except.ok (out.take (i * bs) ++ (ecbSpec E bs n (data.drop (i * bs))
            ++ out.drop (i * bs + n * bs))) := by
  intro n
  induction n with
  | zero =>
    intro i out _ _
    simp [ecbLoop, ecbSpec]
  | succ n ih =>
    intro i out ho hi
    have e1 : (n + 1) * bs = bs + n * bs := by ring
    have e2 : (i + 1) * bs = i * bs + bs := by ring
    have hb : i * bs + bs ≤ data.length := by omega
    have hbl := block_length data (i * bs) bs hb
    have hEl := hlen _ hbl
    rw [ecbLoop, slice_block _ _ _ hb, ok_bind, henc _ hbl, wrapf_ok, ok_bind,
      ih (i + 1) _ (by rw [copyAt_length]; exact ho) (by omega), ecbSpec, e2]
    congr 1
    have h1 := copyAt_take_end out (E ((data.drop (i * bs)).take bs)) (i * bs)
      (by rw [hEl]; omega)
    have h2 := copyAt_drop_end out (E ((data.drop (i * bs)).take bs)) (i * bs) (n * bs)
      (by rw [hEl]; omega)
    rw [hEl] at h1 h2
    rw [h1, h2, List.drop_drop, List.append_assoc, List.append_assoc]
    congr 3
    congr 1
    omega

theorem ecb_encrypt_enc {σ : Type} (cstc : CryptoSymmetricContext σ) (E : Bytes → Bytes)
    (henc : ∀ b : Bytes, b.length = cstc.blockSize →
      cstc.cipher.Encrypt cstc.obj b = Except.ok (E b))
    (hlen : ∀ b : Bytes, b.length = cstc.blockSize → (E b).length = cstc.blockSize)
    (hbs : 1 ≤ cstc.blockSize) (data : Bytes) (n : Nat)
    (hd : data.length = n * cstc.blockSize) :
    cstc.encryptECB data = Except.ok (ecbSpec E cstc.blockSize n data) := by
  obtain ⟨a1, a2, _⟩ := aligned_facts data.length cstc.blockSize n hbs hd
  unfold CryptoSymmetricContext.encryptECB
  dsimp only
  rw [if_neg (by omega), if_neg (by omega), a2,
    ecb_encrypt_loop_enc cstc E _ henc hlen data n 0 _ (zeros_length _) (by omega),
    frame_zero _ _ _ _ (by rw [zeros_length]; exact hd), Nat.zero_mul, List.drop_zero]

/-- The deterministic paddings append a fill that depends on the pad length
only and leave the random source untouched. -/
theorem AddPadding_deterministic {σ : Type} (cstc : CryptoSymmetricContext σ)
    (hbs1 : 1 ≤ cstc.blockSize) (hbs2 : cstc.blockSize ≤ 255)
    (hpad : cstc.padding = Zeros ∨ cstc.padding = ANSIX923 ∨ cstc.padding = PKCS7) :
    ∃ fill : Nat → Bytes, (∀ k, 1 ≤ k → (fill k).length = k) ∧
      ∀ tape p : Bytes, cstc.AddPadding tape p
        = Except.ok (p ++ fill (cstc.blockSize - p.length % cstc.blockSize), tape) := by
  rcases hpad with h | h | h
  · refine ⟨fun k => List.replicate k 0, fun k _ => List.length_replicate _ _,
      fun tape p => ?_⟩
    obtain ⟨b1, b2⟩ := padLen_bounds cstc.blockSize p.length hbs1
    unfold CryptoSymmetricContext.AddPadding
    rw [if_neg (by omega)]
    dsimp only
    rw [if_neg (show ¬ (cstc.blockSize - p.length % cstc.blockSize = 0) by omega), if_pos h]
    rfl
  · refine ⟨fun k => List.replicate (k - 1) 0 ++ [toByte k], fun k hk => ?_, fun tape p => ?_⟩
    · rw [List.length_append, List.length_replicate, List.length_singleton]
      omega
    · obtain ⟨b1, b2⟩ := padLen_bounds cstc.blockSize p.length hbs1
      unfold CryptoSymmetricContext.AddPadding ANSIX923Padding
      rw [if_neg (by omega)]
      dsimp only
      rw [if_neg (show ¬ (cstc.blockSize - p.length % cstc.blockSize = 0) by omega), h,
        if_neg (show ¬ (ANSIX923 = Zeros) by decide), if_pos rfl, if_neg (by omega)]
      rfl
  · refine ⟨fun k => List.replicate k (toByte k), fun k _ => List.length_replicate _ _,
      fun tape p => ?_⟩
    obtain ⟨b1, b2⟩ := padLen_bounds cstc.blockSize p.length hbs1
    unfold CryptoSymmetricContext.AddPadding PKCS7Padding
    rw [if_neg (by omega)]
    dsimp only
    rw [if_neg (show ¬ (cstc.blockSize - p.length % cstc.blockSize = 0) by omega), h,
      if_neg (show ¬ (PKCS7 = Zeros) by decide), if_neg (show ¬ (PKCS7 = ANSIX923) by decide),
      if_pos rfl, if_neg (by omega)]
    rfl

/-- What `encryptFile` writes: the encrypted whole blocks of the file followed
by the encrypted padded rest. -/
theorem encryptFile_spec {σ : Type} (cstc : CryptoSymmetricContext σ) (E : Bytes → Bytes)
    (fill : Nat → Bytes) (tape : Bytes) (reads : List Bytes)
    (henc : ∀ b : Bytes, b.length = cstc.blockSize →
      cstc.cipher.Encrypt cstc.obj b = Except.ok (E b))
    (hbs : 1 ≤ cstc.blockSize) (hfl : ∀ k, 1 ≤ k → (fill k).length = k)
    (hadd : ∀ tape p : Bytes, cstc.AddPadding tape p
      = Except.ok (p ++ fill (cstc.blockSize - p.length % cstc.blockSize), tape)) :
    cstc.encryptFile tape reads
      = Except.ok (ecbSpec E cstc.blockSize (reads.flatten.length / cstc.blockSize)
          reads.flatten
        ++ E (reads.flatten.drop (reads.flatten.length / cstc.blockSize * cstc.blockSize)
          ++ fill (cstc.blockSize - reads.flatten.length % cstc.blockSize))) := by
  generalize hD : reads.flatten = D
  generalize hbsv : cstc.blockSize = bs at *
  have hm := Nat.mod_lt D.length (show 0 < bs by omega)
  have hdm := Nat.div_add_mod D.length bs
  have hmul : bs * (D.length / bs) = D.length / bs * bs := Nat.mul_comm _ _
  have hR : (D.drop (D.length / bs * bs)).length = D.length % bs := by
    rw [List.length_drop]; omega
  have hRm : (D.drop (D.length / bs * bs)).length % bs = D.length % bs := by
    rw [hR, Nat.mod_eq_of_lt hm]
  have hk : 1 ≤ bs - D.length % bs := by omega
  have hread := encryptFile_read_spec (cstc.cipher.Encrypt cstc.obj) E bs hbs henc reads [] []
  rw [List.nil_append, List.nil_append, hD] at hread
  unfold CryptoSymmetricContext.encryptFile
  simp only [hbsv]
  rw [if_neg (by omega), hread, ok_bind]
  dsimp only
  by_cases hpos : (D.drop (D.length / bs * bs)).length > 0
  · have hpl : (D.drop (D.length / bs * bs) ++ fill (bs - D.length % bs)).length = bs := by
      rw [List.length_append, hR, hfl _ hk]; omega
    rw [if_pos hpos, hadd, wrapf_ok, ok_bind]
    dsimp only
    rw [hRm, hpl, Nat.div_self (by omega),
      encryptFile_blocks_spec (cstc.cipher.Encrypt cstc.obj) E bs hbs henc 1 _ _
        (by rw [hpl]; exact Nat.div_self (by omega)), ok_bind, ecbSpec_one E bs _ hpl]
    rfl
  · have hnil : D.drop (D.length / bs * bs) = [] := List.length_eq_zero.mp (by omega)
    have h0 : D.length % bs = 0 := by rw [← hR, hnil]; rfl
    rw [if_neg hpos, hadd, wrapf_ok, ok_bind]
    dsimp only
    rw [hnil, h0, List.nil_append, List.length_nil, Nat.zero_mod, Nat.sub_zero,
      if_pos (by rw [hfl _ hbs]; omega), henc _ (hfl _ hbs), wrapf_ok, ok_bind]
    rfl

/-- ECB encryption of the padded file content. -/
theorem encryptECB_padded_spec {σ : Type} (cstc : CryptoSymmetricContext σ) (E : Bytes → Bytes)
    (fill : Nat → Bytes) (D : Bytes)
    (henc : ∀ b : Bytes, b.length = cstc.blockSize →
      cstc.cipher.Encrypt cstc.obj b = Except.ok (E b))
    (hlen : ∀ b : Bytes, b.length = cstc.blockSize → (E b).length = cstc.blockSize)
    (hbs : 1 ≤ cstc.blockSize) (hfl : ∀ k, 1 ≤ k → (fill k).length = k) :
    cstc.encryptECB (D ++ fill (cstc.blockSize - D.length % cstc.blockSize))
      = Except.ok (ecbSpec E cstc.blockSize (D.length / cstc.blockSize) D
        ++ E (D.drop (D.length / cstc.blockSize * cstc.blockSize)
          ++ fill (cstc.blockSize - D.length % cstc.blockSize))) := by
  have hm := Nat.mod_lt D.length (show 0 < cstc.blockSize by omega)
  have hdm := Nat.div_add_mod D.length cstc.blockSize
  have hmul : cstc.blockSize * (D.length / cstc.blockSize)
      = D.length / cstc.blockSize * cstc.blockSize := Nat.mul_comm _ _
  have hk : 1 ≤ cstc.blockSize - D.length % cstc.blockSize := by omega
  have hle : D.length / cstc.blockSize * cstc.blockSize ≤ D.length :=
    Nat.div_mul_le_self _ _
  have hpl : (D ++ fill (cstc.blockSize - D.length % cstc.blockSize)).length
      = (D.length / cstc.blockSize + 1) * cstc.blockSize := by
    rw [List.length_append, hfl _ hk, Nat.add_mul, Nat.one_mul]
    omega
  have hrl : (D.drop (D.length / cstc.blockSize * cstc.blockSize)
      ++ fill (cstc.blockSize - D.length % cstc.blockSize)).length = cstc.blockSize := by
    rw [List.length_append, List.length_drop, hfl _ hk]
    omega
  rw [ecb_encrypt_enc cstc E henc hlen hbs _ _ hpl, ecbSpec_add,
    ecbSpec_append_left E _ _ _ _ hle, List.drop_append_of_le_length hle,
    ecbSpec_one E _ _ hrl]

/-- C26. Streaming file encryption ignores the mode and the IV: for a context
with `1 ≤ blockSize ≤ 255`, a deterministic padding scheme (Zeros, ANSI X9.23,
PKCS#7) and a cipher that encrypts blocks to blocks, and for a file whose
content `d` is delivered by any sequence of reads (`d` may be empty),
`encryptFile` succeeds and writes exactly what `encryptECB` returns on
`AddPadding(d)`; the same bytes are written when the mode and the IV of the
context are replaced by any others. -/
theorem encryptFile_is_ecb {σ : Type} (cstc : CryptoSymmetricContext σ) (tape : Bytes)
    (reads : List Bytes) (hbs1 : 1 ≤ cstc.blockSize) (hbs2 : cstc.blockSize ≤ 255)
    (hpad : cstc.padding = Zeros ∨ cstc.padding = ANSIX923 ∨ cstc.padding = PKCS7)
    (hcipher : ∀ b : Bytes, b.length = cstc.blockSize →
      ∃ c, cstc.cipher.Encrypt cstc.obj b = Except.ok c ∧ c.length = cstc.blockSize) :
    ∃ padded c, cstc.AddPadding tape reads.flatten = Except.ok (padded, tape) ∧
      cstc.encryptECB padded = Except.ok c ∧
      cstc.encryptFile tape reads = Except.ok c ∧
      ∀ (mode : Nat) (iv : Bytes),
        CryptoSymmetricContext.encryptFile { cstc with mode := mode, iv := iv } tape reads
          = Except.ok c := by
  obtain ⟨henc, hlen⟩ := encBlock_spec cstc hcipher
  obtain ⟨fill, hfl, hadd⟩ := AddPadding_deterministic cstc hbs1 hbs2 hpad
  have hfile := encryptFile_spec cstc cstc.encBlock fill tape reads henc hbs1 hfl hadd
  exact ⟨_, _, hadd tape reads.flatten,
    encryptECB_padded_spec cstc cstc.encBlock fill reads.flatten henc hlen hbs1 hfl,
    hfile, fun mode iv => hfile⟩

theorem encryptFile_is_ecb_witness :
    ∃ S padded c,
      RC5.SetKey NewRC5 (List.replicate 16 1) = Except.ok
          { S := S, r := NewRC5.r, w := 64, b := (List.replicate 16 1).length } ∧
        CryptoSymmetricContext.AddPadding
            { key := List.replicate 16 1, cipher := rc5Algorithm,
              obj := { S := S, r := NewRC5.r, w := 64, b := (List.replicate 16 1).length },
              mode := CBC, padding := PKCS7, iv := List.replicate 16 0, blockSize := 16 }
            [] (List.replicate 20 9) = Except.ok (padded, []) ∧
        CryptoSymmetricContext.encryptECB
            { key := List.replicate 16 1, cipher := rc5Algorithm,
              obj := { S := S, r := NewRC5.r, w := 64, b := (List.replicate 16 1).length },
              mode := CBC, padding := PKCS7, iv := List.replicate 16 0, blockSize := 16 }
            padded = Except.ok c ∧
        CryptoSymmetricContext.encryptFile
            { key := List.replicate 16 1, cipher := rc5Algorithm,
              obj := { S := S, r := NewRC5.r, w := 64, b := (List.replicate 16 1).length },
              mode := CBC, padding := PKCS7, iv := List.replicate 16 0, blockSize := 16 }
            [] [List.replicate 7 9, List.replicate 13 9] = Except.ok c := by
  obtain ⟨S, e1, e2⟩ := rc5_SetKey_ok NewRC5 (List.replicate 16 1) rfl (by decide)
  obtain ⟨padded, c, h1, h2, h3, _⟩ := encryptFile_is_ecb
    { key := List.replicate 16 1, cipher := rc5Algorithm,
      obj := { S := S, r := NewRC5.r, w := 64, b := (List.replicate 16 1).length },
      mode := CBC, padding := PKCS7, iv := List.replicate 16 0, blockSize := 16 }
    [] [List.replicate 7 9, List.replicate 13 9]
    (show 1 ≤ 16 by decide) (show 16 ≤ 255 by decide) (Or.inr (Or.inr rfl))
    (fun b hb => rc5_encrypts_blocks _ rfl (by rw [e2]) b hb)
  exact ⟨S, padded, c, e1, h1, h2, h3⟩

/-! ## The word sizes of RC5 -/

theorem rc5_keyExpansion_total (rc5 : RC5) (K : Bytes)
    (hw : rc5.w = 16 ∨ rc5.w = 32 ∨ rc5.w = 64) (hb : rc5.b = K.length) (hK : K ≠ []) :
    ∃ S, RC5.keyExpansion rc5 K = Except.ok S ∧ S.length = 2 * (rc5.r + 1) := by
  have hl : 0 < K.length := List.length_pos.mpr hK
  have hu : 0 < rc5.w / 8 := by
    rcases hw with h | h | h <;> rw [h] <;> decide
  unfold RC5.keyExpansion
  dsimp only
  rw [if_neg (by omega), hb]
  obtain ⟨L1, e1, e2⟩ := rc5_pack_ok K (rc5.w / 8) ((K.length + rc5.w / 8 - 1) / (rc5.w / 8))
    K.length (List.replicate ((K.length + rc5.w / 8 - 1) / (rc5.w / 8)) 0) (le_refl _)
    (List.length_replicate _ _)
    (fun j hj => by
      rw [Nat.div_lt_iff_lt_mul hu]
      have h1 : (K.length + rc5.w / 8 - 1) / (rc5.w / 8) * (rc5.w / 8)
          + (K.length + rc5.w / 8 - 1) % (rc5.w / 8) = K.length + rc5.w / 8 - 1 :=
        Nat.div_add_mod' _ _
      have h2 := Nat.mod_lt (K.length + rc5.w / 8 - 1) hu
      omega)
  rw [e1, ok_bind]
  obtain ⟨S1, e3, e4⟩ := rc5_init_ok
    (if rc5.w = 16 then 0x9e37 else if rc5.w = 32 then 0x9e3779b9 else 0x9e3779b97f4a7c15)
    (2 * (rc5.r + 1)) (2 * (rc5.r + 1) - 1) 1
    ((List.replicate (2 * (rc5.r + 1)) 0).set 0
      (if rc5.w = 16 then 0xb7e1 else if rc5.w = 32 then 0xb7e15163 else 0xb7e151628aed2a6b))
    (le_refl _) (by rw [List.length_set, List.length_replicate]) (by omega)
  rw [e3, ok_bind]
  have hc : 0 < (K.length + rc5.w / 8 - 1) / (rc5.w / 8) :=
    Nat.div_pos (by omega) hu
  exact rc5_mix_ok rc5.w _ _ (by omega) hc _ 0 0 0 0 S1 L1 e4 e2 (by omega) hc

theorem rc5_SetKey_total (rc5 : RC5) (k : Bytes)
    (hw : rc5.w = 16 ∨ rc5.w = 32 ∨ rc5.w = 64) (hk : k ≠ []) :
    ∃ S, RC5.SetKey rc5 k = Except.ok { S := S, r := rc5.r, w := rc5.w, b := k.length } ∧
      S.length = 2 * (rc5.r + 1) := by
  have hl : k.length ≠ 0 := fun h => hk (List.length_eq_zero.mp h)
  obtain ⟨S, e1, e2⟩ := rc5_keyExpansion_total { rc5 with b := k.length } k hw rfl hk
  refine ⟨S, ?_, e2⟩
  unfold RC5.SetKey
  rw [if_neg hl]
  dsimp only
  rw [e1, ok_bind]
  rfl

theorem rc5_encryptBlock_total (rc5 : RC5) (hw : rc5.w = 16 ∨ rc5.w = 32 ∨ rc5.w = 64)
    (hS : 2 * (rc5.r + 1) ≤ rc5.S.length) (b : Bytes) (hb : b.length = 2 * (rc5.w / 8)) :
    ∃ c, RC5.encryptBlock rc5 b = Except.ok c ∧ c.length = 2 * (rc5.w / 8) := by
  obtain ⟨A1, B1, e1⟩ := rc5_encrypt_loop_ok rc5 rc5.r 1
    (add64 (leUint (b.take (rc5.w / 8))) (rc5.S.get ⟨0, by omega⟩))
    (add64 (leUint ((b.drop (rc5.w / 8)).take (rc5.w / 8))) (rc5.S.get ⟨1, by omega⟩))
    (by omega)
  refine ⟨lePut (rc5.w / 8) A1 ++ lePut (rc5.w / 8) B1, ?_, by
    rw [List.length_append, lePut_length, lePut_length]; omega⟩
  unfold RC5.encryptBlock
  dsimp only
  rw [if_neg (by omega), if_neg (by omega), idx_of_lt _ _ (show 0 < rc5.S.length by omega),
    ok_bind, idx_of_lt _ _ (show 1 < rc5.S.length by omega), ok_bind, e1]
  rfl

theorem rc5_decryptBlock_total (rc5 : RC5) (hw : rc5.w = 16 ∨ rc5.w = 32 ∨ rc5.w = 64)
    (hS : 2 * (rc5.r + 1) ≤ rc5.S.length) (b : Bytes) (hb : b.length = 2 * (rc5.w / 8)) :
    ∃ c, RC5.decryptBlock rc5 b = Except.ok c ∧ c.length = 2 * (rc5.w / 8) := by
  obtain ⟨A1, B1, e1⟩ := rc5_decrypt_loop_ok rc5 rc5.r (leUint (b.take (rc5.w / 8)))
    (leUint ((b.drop (rc5.w / 8)).take (rc5.w / 8))) (by omega)
  refine ⟨lePut (rc5.w / 8) (sub64 A1 (rc5.S.get ⟨0, by omega⟩))
    ++ lePut (rc5.w / 8) (sub64 B1 (rc5.S.get ⟨1, by omega⟩)), ?_, by
    rw [List.length_append, lePut_length, lePut_length]; omega⟩
  unfold RC5.decryptBlock
  dsimp only
  rw [if_neg (by omega), if_neg (by omega), e1, ok_bind]
  dsimp only
  rw [idx_of_lt _ _ (show 1 < rc5.S.length by omega), ok_bind,
    idx_of_lt _ _ (show 0 < rc5.S.length by omega), ok_bind]
  rfl

theorem rc5_block_size_error (rc5 : RC5) (b : Bytes) (hb : b.length ≠ 2 * (rc5.w / 8)) :
    RC5.encryptBlock rc5 b = Except.error (Fault.error "block size is wrong") ∧
      RC5.decryptBlock rc5 b = Except.error (Fault.error "block size is wrong") := by
  unfold RC5.encryptBlock RC5.decryptBlock
  dsimp only
  rw [if_pos (by omega), if_pos (by omega)]
  exact ⟨rfl, rfl⟩

/-- C22, amended. The word sizes of RC5. An object made by `NewRC5` and keyed
by `SetKey` with a non-empty key has 64-bit words and 12 rounds, and for every
16-byte block `decryptBlock(encryptBlock(block))` is the block. On an object
with 16- or 32-bit words and any number of rounds, `SetKey` with a non-empty
key succeeds and keeps the word size and the rounds, `encryptBlock` and
`decryptBlock` reject every block whose length is not `2 * (w / 8)`, and on a
block of `2 * (w / 8)` bytes `encryptBlock` followed by `decryptBlock` succeeds
and returns `2 * (w / 8)` bytes (which need not be the block). -/
theorem rc5_word_sizes (k : Bytes) (hk : k ≠ []) :
    (∃ rc5, RC5.SetKey NewRC5 k = Except.ok rc5 ∧ rc5.w = 64 ∧ rc5.r = 12 ∧
      ∀ b : Bytes, b.length = 16 →
        ∃ c, RC5.encryptBlock rc5 b = Except.ok c ∧ c.length = 16 ∧
          RC5.decryptBlock rc5 c = Except.ok b) ∧
    (∀ rc0 : RC5, rc0.w = 16 ∨ rc0.w = 32 →
      ∃ rc5, RC5.SetKey rc0 k = Except.ok rc5 ∧ rc5.w = rc0.w ∧ rc5.r = rc0.r ∧
        (∀ b : Bytes, b.length ≠ 2 * (rc0.w / 8) →
          RC5.encryptBlock rc5 b = Except.error (Fault.error "block size is wrong") ∧
          RC5.decryptBlock rc5 b = Except.error (Fault.error "block size is wrong")) ∧
        (∀ b : Bytes, b.length = 2 * (rc0.w / 8) →
          ∃ c d, RC5.encryptBlock rc5 b = Except.ok c ∧ c.length = 2 * (rc0.w / 8) ∧
            RC5.decryptBlock rc5 c = Except.ok d ∧ d.length = 2 * (rc0.w / 8))) := by
  constructor
  · obtain ⟨S, e1, e2⟩ := rc5_SetKey_ok NewRC5 k rfl hk
    refine ⟨_, e1, rfl, rfl, fun b hb => ?_⟩
    exact rc5_block_round_trip { S := S, r := NewRC5.r, w := 64, b := k.length } rfl
      (by rw [e2]) b hb
  · intro rc0 hw
    have hw3 : rc0.w = 16 ∨ rc0.w = 32 ∨ rc0.w = 64 := by omega
    obtain ⟨S, e1, e2⟩ := rc5_SetKey_total rc0 k hw3 hk
    refine ⟨_, e1, rfl, rfl, fun b hb => ?_, fun b hb => ?_⟩
    · exact rc5_block_size_error { S := S, r := rc0.r, w := rc0.w, b := k.length } b hb
    · obtain ⟨c, h1, h2⟩ := rc5_encryptBlock_total
        { S := S, r := rc0.r, w := rc0.w, b := k.length } hw3 (by rw [e2]) b hb
      obtain ⟨d, h3, h4⟩ := rc5_decryptBlock_total
        { S := S, r := rc0.r, w := rc0.w, b := k.length } hw3 (by rw [e2]) c h2
      exact ⟨c, d, h1, h2, h3, h4⟩

theorem rc5_word_sizes_witness :
    ([1] : Bytes) ≠ [] ∧
    (∃ rc5, RC5.SetKey NewRC5 [1] = Except.ok rc5 ∧ rc5.w = 64 ∧ rc5.r = 12 ∧
      ∃ c, RC5.encryptBlock rc5 (List.replicate 16 0) = Except.ok c ∧ c.length = 16 ∧
        RC5.decryptBlock rc5 c = Except.ok (List.replicate 16 0)) ∧
    (∃ rc5, RC5.SetKey { S := [], r := 12, w := 16, b := 16 } [1] = Except.ok rc5 ∧
      ∃ c d, RC5.encryptBlock rc5 [0, 0, 0, 0] = Except.ok c ∧ c.length = 4 ∧
        RC5.decryptBlock rc5 c = Except.ok d ∧ d.length = 4) := by
  obtain ⟨⟨rc5, h1, h2, h3, h4⟩, hsmall⟩ := rc5_word_sizes [1] (by decide)
  obtain ⟨rc16, g1, _, _, _, g5⟩ := hsmall { S := [], r := 12, w := 16, b := 16 } (Or.inl rfl)
  refine ⟨by decide, ⟨rc5, h1, h2, h3, h4 _ (by decide)⟩, ⟨rc16, g1, ?_⟩⟩
  exact g5 [0, 0, 0, 0] (by decide)

/-! ## ECB and CTR under every order of the block workers -/

theorem copyAt_getElem_opt {α : Type} (dst src : List α) (a : Nat)
    (h : a + src.length ≤ dst.length) (p : Nat) :
    (copyAt dst a src)[p]? =
      if p < a then dst[p]? else if p < a + src.length then src[p - a]? else dst[p]? := by
  rw [copyAt_fit _ _ _ h]
  have hl : (dst.take a).length = a := by rw [List.length_take]; omega
  by_cases h1 : p < a
  · rw [if_pos h1, List.getElem?_append_left (by omega), List.getElem?_take_of_lt h1]
  · rw [if_neg h1, List.getElem?_append_right (by omega), hl]
    by_cases h2 : p < a + src.length
    · rw [if_pos h2, List.getElem?_append_left (by omega)]
    · rw [if_neg h2, List.getElem?_append_right (by omega), List.getElem?_drop]
      congr 1
      omega

theorem copyAt_comm {α : Type} (dst X Y : List α) (a b : Nat)
    (hab : a + X.length ≤ b) (hb : b + Y.length ≤ dst.length) :
    copyAt (copyAt dst a X) b Y = copyAt (copyAt dst b Y) a X := by
  apply List.ext_getElem?
  intro p
  rw [copyAt_getElem_opt _ _ _ (by rw [copyAt_length]; omega),
    copyAt_getElem_opt _ _ _ (by omega),
    copyAt_getElem_opt _ _ _ (by rw [copyAt_length]; omega),
    copyAt_getElem_opt _ _ _ (by omega)]
  split_ifs <;> first | rfl | (exfalso; omega)


theorem runWorkers_ok_iff (w : Nat → Bytes → Result Bytes) :
    ∀ (order : List Nat) (out : Bytes) (err : Option String) (c : Bytes),
      runWorkers w order out err = Except.ok c ↔
        err = none ∧ List.foldlM (fun o i => w i o) out order = Except.ok c := by
  intro order
  induction order with
  | nil =>
    intro out err c
    cases err with
    | none =>
      rw [runWorkers, List.foldlM_nil]
      exact ⟨fun h => ⟨rfl, h⟩, fun h => h.2⟩
    | some m =>
      rw [runWorkers]
      constructor
      · intro h
        exact absurd h (by simp [throw, throwThe, MonadExceptOf.throw])
      · intro h
        exact absurd h.1 (by simp)
  | cons i rest ih =>
    intro out err c
    rw [runWorkers, List.foldlM_cons]
    cases hw : w i out with
    | ok o1 =>
      dsimp only
      rw [ok_bind]
      exact ih o1 err c
    | error f =>
      cases f with
      | error msg =>
        dsimp only
        rw [ih]
        constructor
        · intro h
          exact absurd h.1 (by simp)
        · intro h
          exact absurd h.2 (by simp [bind, Except.bind])
      | panic msg =>
        dsimp only
        constructor
        · intro h
          exact absurd h (by simp [throw, throwThe, MonadExceptOf.throw])
        · intro h
          exact absurd h.2 (by simp [bind, Except.bind])

/-- Workers that write disjoint ranges of the buffer can run in any order: the
worker `i` writes its payload `pay i`, at most `bs` bytes that do not depend on
the buffer, at the offset `i * bs`. -/
theorem workers_perm (w : Nat → Bytes → Result Bytes) (pay : Nat → Result Bytes)
    (bs len N : Nat)
    (hw : ∀ i out, w i out = (pay i).bind (fun X => Except.ok (copyAt out (i * bs) X)))
    (hgood : ∀ i X, i < N → pay i = Except.ok X → X.length ≤ bs ∧ i * bs + X.length ≤ len)
    {l1 l2 : List Nat} (hp : l1.Perm l2) :
    (∀ i ∈ l1, i < N) → ∀ out : Bytes, out.length = len → ∀ c : Bytes,
      (List.foldlM (fun o i => w i o) out l1 = Except.ok c ↔
        List.foldlM (fun o i => w i o) out l2 = Except.ok c) := by
  induction hp with
  | nil => intro _ out _ c; exact Iff.rfl
  | cons x hp ih =>
    intro hmem out hout c
    rw [List.foldlM_cons, List.foldlM_cons, hw x out]
    cases hx : pay x with
    | error e => exact Iff.rfl
    | ok X =>
      change (List.foldlM (fun o i => w i o) (copyAt out (x * bs) X) _ = Except.ok c ↔
        List.foldlM (fun o i => w i o) (copyAt out (x * bs) X) _ = Except.ok c)
      exact ih (fun i hi => hmem i (List.mem_cons_of_mem _ hi)) _
        (by rw [copyAt_length]; exact hout) c
  | swap x y l =>
    intro hmem out hout c
    have hxN : x < N := hmem x (by simp)
    have hyN : y < N := hmem y (by simp)
    simp only [List.foldlM_cons]
    cases hx : pay x with
    | error e =>
      have wx : ∀ o, w x o = Except.error e := fun o => by rw [hw, hx]; rfl
      cases hy : pay y with
      | error e2 =>
        have wy : ∀ o, w y o = Except.error e2 := fun o => by rw [hw, hy]; rfl
        simp only [wx, wy, error_bind]
        constructor <;> intro h <;> exact absurd h (by simp)
      | ok Y =>
        have wy : ∀ o, w y o = Except.ok (copyAt o (y * bs) Y) := fun o => by
          rw [hw, hy]; rfl
        simp only [wx, wy, error_bind, ok_bind]
    | ok X =>
      have wx : ∀ o, w x o = Except.ok (copyAt o (x * bs) X) := fun o => by
        rw [hw, hx]; rfl
      cases hy : pay y with
      | error e2 =>
        have wy : ∀ o, w y o = Except.error e2 := fun o => by rw [hw, hy]; rfl
        simp only [wx, wy, error_bind, ok_bind]
      | ok Y =>
        have wy : ∀ o, w y o = Except.ok (copyAt o (y * bs) Y) := fun o => by
          rw [hw, hy]; rfl
        simp only [wx, wy, ok_bind]
        obtain ⟨gx1, gx2⟩ := hgood x X hxN hx
        obtain ⟨gy1, gy2⟩ := hgood y Y hyN hy
        have hcomm : copyAt (copyAt out (y * bs) Y) (x * bs) X
            = copyAt (copyAt out (x * bs) X) (y * bs) Y := by
          rcases Nat.lt_trichotomy x y with hlt | heq | hgt
          · have : (x + 1) * bs ≤ y * bs := Nat.mul_le_mul_right _ hlt
            rw [Nat.add_mul, Nat.one_mul] at this
            exact (copyAt_comm out X Y (x * bs) (y * bs) (by omega) (by omega)).symm
          · subst heq
            rw [hx] at hy
            cases hy
            rfl
          · have : (y + 1) * bs ≤ x * bs := Nat.mul_le_mul_right _ hgt
            rw [Nat.add_mul, Nat.one_mul] at this
            exact copyAt_comm out Y X (y * bs) (x * bs) (by omega) (by omega)
        rw [hcomm]
  | trans h1 h2 ih1 ih2 =>
    intro hmem out hout c
    exact (ih1 hmem out hout c).trans
      (ih2 (fun i hi => hmem i (h1.mem_iff.mpr hi)) out hout c)

theorem ecbWorker_eq (op : Bytes → Result Bytes) (data : Bytes) (bs i : Nat) (out : Bytes) :
    ecbWorker op data bs i out
      = (slice data (i * bs) (i * bs + bs) >>= fun block =>
          wrapf "failed at block" (op block) >>= fun outBlock =>
          pure (copyAt out (i * bs) outBlock)) := rfl

theorem ecbWorker_payload (op : Bytes → Result Bytes) (data : Bytes) (bs i : Nat)
    (out : Bytes) :
    ecbWorker op data bs i out
      = ((slice data (i * bs) (i * bs + bs)).bind
          (fun block => wrapf "failed at block" (op block))).bind
        (fun X => Except.ok (copyAt out (i * bs) X)) := by
  rw [ecbWorker_eq]
  generalize slice data (i * bs) (i * bs + bs) = r
  cases r with
  | error e => rfl
  | ok block =>
    rw [ok_bind]
    change _ = (wrapf "failed at block" (op block)).bind _
    generalize wrapf "failed at block" (op block) = r2
    cases r2 with
    | error e => rfl
    | ok X => rfl

theorem ecbWorker_good (op : Bytes → Result Bytes) (data : Bytes) (bs : Nat)
    (hlen : ∀ b c : Bytes, b.length = bs → op b = Except.ok c → c.length ≤ bs)
    (i : Nat) (X : Bytes)
    (h : ((slice data (i * bs) (i * bs + bs)).bind
        (fun block => wrapf "failed at block" (op block))) = Except.ok X) :
    X.length ≤ bs ∧ i * bs + X.length ≤ data.length := by
  by_cases hs : i * bs + bs ≤ data.length
  · rw [slice_block _ _ _ hs] at h
    have h1 : op ((data.drop (i * bs)).take bs) = Except.ok X := wrapf_eq_ok h
    have h2 := hlen _ X (block_length data (i * bs) bs hs) h1
    omega
  · unfold slice at h
    rw [if_neg (by omega)] at h
    exact absurd h (by simp [Except.bind])

theorem ecbLoop_eq_foldlM (op : Bytes → Result Bytes) (data : Bytes) (bs : Nat) :
    ∀ (n i : Nat) (out : Bytes),
      ecbLoop op data bs n i out
        = List.foldlM (fun o k => ecbWorker op data bs k o) out (List.range' i n) := by
  intro n
  induction n with
  | zero => intro i out; rfl
  | succ n ih =>
    intro i out
    rw [ecbLoop, List.range'_succ, List.foldlM_cons, ecbWorker_eq]
    generalize slice data (i * bs) (i * bs + bs) = r
    cases r with
    | error e => rfl
    | ok block =>
      rw [ok_bind, ok_bind]
      generalize wrapf "failed at block" (op block) = r2
      cases r2 with
      | error e => rfl
      | ok X =>
        rw [ok_bind, ok_bind, pure_eq_ok, ok_bind]
        exact ih (i + 1) _

theorem ctrWorker_eq {σ : Type} (cstc : CryptoSymmetricContext σ) (data counter : Bytes)
    (i : Nat) (out : Bytes) :
    cstc.ctrWorker data counter i out
      = (wrapf "encryption failed at block" (cstc.cipher.Encrypt cstc.obj
            (incrementCounter (copyAt (zeros cstc.blockSize) 0 counter) i)) >>= fun ks =>
          xorChunk out data (i * cstc.blockSize)
            (if i * cstc.blockSize + cstc.blockSize > data.length then data.length
              else i * cstc.blockSize + cstc.blockSize) ks) := rfl

theorem ctrWorker_payload {σ : Type} (cstc : CryptoSymmetricContext σ) (data counter : Bytes)
    (i : Nat) (out : Bytes) :
    cstc.ctrWorker data counter i out
      = ((wrapf "encryption failed at block" (cstc.cipher.Encrypt cstc.obj
            (incrementCounter (copyAt (zeros cstc.blockSize) 0 counter) i))).bind
          (fun ks => (firstN ks ((if i * cstc.blockSize + cstc.blockSize > data.length
              then data.length else i * cstc.blockSize + cstc.blockSize) - i * cstc.blockSize)).bind
            (fun ks1 => Except.ok (xorBytes ((data.drop (i * cstc.blockSize)).take
              ((if i * cstc.blockSize + cstc.blockSize > data.length
                then data.length else i * cstc.blockSize + cstc.blockSize) - i * cstc.blockSize))
              ks1)))).bind
        (fun X => Except.ok (copyAt out (i * cstc.blockSize) X)) := by
  rw [ctrWorker_eq]
  generalize wrapf "encryption failed at block" (cstc.cipher.Encrypt cstc.obj
      (incrementCounter (copyAt (zeros cstc.blockSize) 0 counter) i)) = r
  cases r with
  | error e => rfl
  | ok ks =>
    rw [ok_bind]
    unfold xorChunk
    change _ = ((firstN ks _).bind _).bind _
    generalize firstN ks ((if i * cstc.blockSize + cstc.blockSize > data.length
        then data.length else i * cstc.blockSize + cstc.blockSize) - i * cstc.blockSize) = r2
    cases r2 with
    | error e => rfl
    | ok ks1 => rfl

theorem ctrWorker_good {σ : Type} (cstc : CryptoSymmetricContext σ) (data counter : Bytes)
    (i : Nat) (X : Bytes) (hi : i < (data.length + cstc.blockSize - 1) / cstc.blockSize)
    (h : ((wrapf "encryption failed at block" (cstc.cipher.Encrypt cstc.obj
            (incrementCounter (copyAt (zeros cstc.blockSize) 0 counter) i))).bind
          (fun ks => (firstN ks ((if i * cstc.blockSize + cstc.blockSize > data.length
              then data.length else i * cstc.blockSize + cstc.blockSize) - i * cstc.blockSize)).bind
            (fun ks1 => Except.ok (xorBytes ((data.drop (i * cstc.blockSize)).take
              ((if i * cstc.blockSize + cstc.blockSize > data.length
                then data.length else i * cstc.blockSize + cstc.blockSize) - i * cstc.blockSize))
              ks1)))) = Except.ok X) :
    X.length ≤ cstc.blockSize ∧ i * cstc.blockSize + X.length ≤ data.length := by
  generalize hbs : cstc.blockSize = bs at *
  have hoff : i * bs + 1 ≤ data.length := by
    have h1 : (i + 1) * bs ≤ (data.length + bs - 1) / bs * bs := Nat.mul_le_mul_right _ hi
    have h2 := Nat.div_mul_le_self (data.length + bs - 1) bs
    rw [Nat.add_mul, Nat.one_mul] at h1
    have h3 : 0 < bs := by
      rcases Nat.eq_zero_or_pos bs with h0 | h0
      · subst h0
        simp at hi
      · exact h0
    omega
  cases hk : wrapf "encryption failed at block" (cstc.cipher.Encrypt cstc.obj
      (incrementCounter (copyAt (zeros bs) 0 counter) i)) with
  | error e =>
    rw [hk] at h
    exact absurd h (by simp [Except.bind])
  | ok ks =>
    rw [hk] at h
    change ((firstN ks ((if i * bs + bs > data.length
        then data.length else i * bs + bs) - i * bs)).bind _) = Except.ok X at h
    unfold firstN at h
    by_cases hl : ks.length < (if i * bs + bs > data.length
        then data.length else i * bs + bs) - i * bs
    · rw [if_pos hl] at h
      exact absurd h (by simp [Except.bind, throw, throwThe, MonadExceptOf.throw])
    · rw [if_neg hl] at h
      have hX : X = xorBytes ((data.drop (i * bs)).take
          ((if i * bs + bs > data.length then data.length else i * bs + bs) - i * bs))
          (ks.take ((if i * bs + bs > data.length
            then data.length else i * bs + bs) - i * bs)) := by
        simp only [pure_eq_ok, Except.bind] at h
        exact (Except.ok.inj h).symm
      have hlenX : X.length ≤ (if i * bs + bs > data.length
          then data.length else i * bs + bs) - i * bs := by
        rw [hX, xorBytes, List.length_zipWith, List.length_take, List.length_take]
        omega
      split_ifs at hlenX <;> omega

theorem ctrLoop_eq_foldlM {σ : Type} (cstc : CryptoSymmetricContext σ) (data counter : Bytes) :
    ∀ (n i : Nat) (out : Bytes),
      CryptoSymmetricContext.encryptCTR.loop cstc data counter n i out
        = List.foldlM (fun o k => cstc.ctrWorker data counter k o) out (List.range' i n) := by
  intro n
  induction n with
  | zero => intro i out; rfl
  | succ n ih =>
    intro i out
    rw [CryptoSymmetricContext.encryptCTR.loop, List.range'_succ, List.foldlM_cons, ctrWorker_eq]
    dsimp only
    generalize wrapf "encryption failed at block" (cstc.cipher.Encrypt cstc.obj
      (incrementCounter (copyAt (zeros cstc.blockSize) 0 counter) i)) = r
    cases r with
    | error e => rfl
    | ok ks =>
      rw [ok_bind, ok_bind]
      generalize xorChunk out data (i * cstc.blockSize)
        (if i * cstc.blockSize + cstc.blockSize > data.length then data.length
          else i * cstc.blockSize + cstc.blockSize) ks = r2
      cases r2 with
      | error e => rfl
      | ok o1 =>
        rw [ok_bind, ok_bind]
        exact ih (i + 1) _

theorem write_frame (out X : Bytes) (a bs : Nat) (hX : X.length ≤ bs)
    (hfit : a + X.length ≤ out.length) :
    (copyAt out a X).length = out.length ∧ (copyAt out a X).take a = out.take a ∧
      (copyAt out a X).drop (a + bs) = out.drop (a + bs) := by
  refine ⟨copyAt_length _ _ _, ?_, ?_⟩
  · rw [copyAt_fit _ _ _ hfit]
    exact List.take_left' (by rw [List.length_take]; omega)
  · have h := copyAt_drop_end out X a (bs - X.length) hfit
    rw [show a + X.length + (bs - X.length) = a + bs by omega] at h
    exact h

theorem payload_ok {w : Result Bytes} {out r : Bytes} {a : Nat}
    (h : w.bind (fun X => Except.ok (copyAt out a X)) = Except.ok r) :
    ∃ X, w = Except.ok X ∧ r = copyAt out a X := by
  cases w with
  | error e => exact absurd h (by simp [Except.bind])
  | ok X => exact ⟨X, rfl, (Except.ok.inj h).symm⟩

theorem ecbWorker_frame (op : Bytes → Result Bytes) (data : Bytes) (bs : Nat)
    (hlen : ∀ b c : Bytes, b.length = bs → op b = Except.ok c → c.length ≤ bs)
    (i : Nat) (out r : Bytes) (hout : out.length = data.length)
    (h : ecbWorker op data bs i out = Except.ok r) :
    r.length = out.length ∧ r.take (i * bs) = out.take (i * bs) ∧
      r.drop (i * bs + bs) = out.drop (i * bs + bs) := by
  rw [ecbWorker_payload] at h
  obtain ⟨X, hX, hr⟩ := payload_ok h
  obtain ⟨g1, g2⟩ := ecbWorker_good op data bs hlen i X hX
  rw [hr]
  exact write_frame out X (i * bs) bs g1 (by omega)

theorem ctrWorker_frame {σ : Type} (cstc : CryptoSymmetricContext σ) (data counter : Bytes)
    (i : Nat) (hi : i < (data.length + cstc.blockSize - 1) / cstc.blockSize)
    (out r : Bytes) (hout : out.length = data.length)
    (h : cstc.ctrWorker data counter i out = Except.ok r) :
    r.length = out.length ∧ r.take (i * cstc.blockSize) = out.take (i * cstc.blockSize) ∧
      r.drop (i * cstc.blockSize + cstc.blockSize)
        = out.drop (i * cstc.blockSize + cstc.blockSize) := by
  rw [ctrWorker_payload] at h
  obtain ⟨X, hX, hr⟩ := payload_ok h
  obtain ⟨g1, g2⟩ := ctrWorker_good cstc data counter i X hi hX
  rw [hr]
  exact write_frame out X (i * cstc.blockSize) cstc.blockSize g1 (by omega)

theorem ecb_scheduled_iff {σ : Type} (cstc : CryptoSymmetricContext σ) (data : Bytes)
    (order : List Nat) (hperm : order.Perm (List.range (data.length / cstc.blockSize)))
    (hlen : ∀ b c : Bytes, b.length = cstc.blockSize →
      cstc.cipher.Encrypt cstc.obj b = Except.ok c → c.length ≤ cstc.blockSize)
    (c : Bytes) :
    cstc.encryptECBScheduled order data = Except.ok c ↔ cstc.encryptECB data = Except.ok c := by
  unfold CryptoSymmetricContext.encryptECBScheduled CryptoSymmetricContext.encryptECB
  dsimp only
  by_cases h0 : cstc.blockSize = 0
  · rw [if_pos h0, if_pos h0]
  · rw [if_neg h0, if_neg h0]
    by_cases ha : data.length % cstc.blockSize ≠ 0
    · rw [if_pos ha, if_pos ha]
    · rw [if_neg ha, if_neg ha, runWorkers_ok_iff, ecbLoop_eq_foldlM, ← List.range_eq_range']
      have hp := workers_perm (ecbWorker (cstc.cipher.Encrypt cstc.obj) data cstc.blockSize)
        (fun i => (slice data (i * cstc.blockSize) (i * cstc.blockSize + cstc.blockSize)).bind
          (fun block => wrapf "failed at block" (cstc.cipher.Encrypt cstc.obj block)))
        cstc.blockSize data.length (data.length / cstc.blockSize)
        (fun i out => ecbWorker_payload _ data cstc.blockSize i out)
        (fun i X _ h => ecbWorker_good _ data cstc.blockSize hlen i X h)
        hperm (fun i hi => List.mem_range.mp (hperm.mem_iff.mp hi))
        (zeros data.length) (zeros_length _) c
      exact ⟨fun h => hp.mp h.2, fun h => ⟨rfl, hp.mpr h⟩⟩

theorem ctr_scheduled_iff {σ : Type} (cstc : CryptoSymmetricContext σ) (data : Bytes)
    (order : List Nat)
    (hperm : order.Perm (List.range ((data.length + cstc.blockSize - 1) / cstc.blockSize)))
    (c : Bytes) :
    cstc.encryptCTRScheduled order data = Except.ok c ↔ cstc.encryptCTR data = Except.ok c := by
  unfold CryptoSymmetricContext.encryptCTRScheduled CryptoSymmetricContext.encryptCTR
  dsimp only
  by_cases hiv : cstc.iv.length ≠ cstc.blockSize
  · rw [if_pos hiv, if_pos hiv]
  · rw [if_neg hiv, if_neg hiv]
    by_cases h0 : cstc.blockSize = 0
    · rw [if_pos h0, if_pos h0]
    · rw [if_neg h0, if_neg h0, runWorkers_ok_iff, ctrLoop_eq_foldlM, ← List.range_eq_range']
      have hp := workers_perm (cstc.ctrWorker data (copyAt (zeros cstc.blockSize) 0 cstc.iv))
        _ cstc.blockSize data.length ((data.length + cstc.blockSize - 1) / cstc.blockSize)
        (fun i out => ctrWorker_payload cstc data _ i out)
        (fun i X hi h => ctrWorker_good cstc data _ i X hi h)
        hperm (fun i hi => List.mem_range.mp (hperm.mem_iff.mp hi))
        (zeros data.length) (zeros_length _) c
      exact ⟨fun h => hp.mp h.2, fun h => ⟨rfl, hp.mpr h⟩⟩

theorem blocksLoop_length (fn : Bytes → Result Bytes) (data : Bytes) (bs : Nat) :
    ∀ (n i : Nat) (out r : Bytes), blocksLoop fn data bs n i out = Except.ok r →
      r.length = out.length := by
  intro n
  induction n with
  | zero =>
    intro i out r h
    rw [blocksLoop] at h
    rw [← Except.ok.inj h]
  | succ n ih =>
    intro i out r h
    rw [blocksLoop] at h
    obtain ⟨blk, _, h⟩ := bind_eq_ok h
    obtain ⟨ob, _, h⟩ := bind_eq_ok h
    rw [ih _ _ _ h, copyAt_length]

/-- The three ciphers of the repository return as many bytes as they are given:
RC5 and the substitution-diffusion cipher on every object, LOKI97 on an object
keyed by `SetKey`. -/
theorem ciphers_keep_length :
    (∀ (rc5 : RC5) (b c : Bytes), rc5Algorithm.Encrypt rc5 b = Except.ok c →
      c.length = b.length) ∧
    (∀ (m : Magenta) (b c : Bytes), magentaAlgorithm.Encrypt m b = Except.ok c →
      c.length = b.length) ∧
    (∀ (l0 l : Loki97) (k b c : Bytes), loki97Algorithm.SetKey l0 k = Except.ok l →
      loki97Algorithm.Encrypt l b = Except.ok c → c.length = b.length) := by
  refine ⟨fun rc5 b c h => ?_, fun m b c h => ?_, fun l0 l k b c hk h => ?_⟩
  · change RC5.Encrypt rc5 b = Except.ok c at h
    unfold RC5.Encrypt at h
    dsimp only at h
    split_ifs at h
    rw [blocksLoop_length _ _ _ _ _ _ _ h, zeros_length]
  · change Magenta.Encrypt m b = Except.ok c at h
    unfold Magenta.Encrypt at h
    dsimp only at h
    split_ifs at h
    rw [blocksLoop_length _ _ _ _ _ _ _ h, zeros_length]
  · change Loki97.SetKey l0 k = Except.ok l at hk
    change Loki97.Encrypt l b = Except.ok c at h
    by_cases hk16 : k.length = 16
    · obtain ⟨subKeys, e1, e2⟩ := Loki97_SetKey_ok l0 k hk16
      rw [e1] at hk
      have hl := (Except.ok.inj hk).symm
      by_cases hb : b.length = 16
      · obtain ⟨c1, e3, e4⟩ := loki97_Encrypt_ok l (by rw [hl]) (by rw [hl]; exact e2) b hb
        rw [e3] at h
        rw [← Except.ok.inj h, e4, hb]
      · unfold Loki97.Encrypt at h
        rw [if_pos (by rw [hl]; exact hb)] at h
        exact absurd h (by simp)
    · unfold Loki97.SetKey at hk
      rw [if_pos hk16] at hk
      exact absurd hk (by simp)

/-- C16. ECB and CTR return the same bytes under every order of their block
workers. For every order `order` of the block indices `0, ..., N - 1` in which
the goroutines take effect, `encryptECB` under that order returns a buffer
exactly when `encryptECB` with the workers in index order returns it, provided
the cipher returns at most `blockSize` bytes for a block (as the three ciphers
of the repository do), and `encryptCTR` under that order returns a buffer
exactly when `encryptCTR` in index order returns it, for every cipher. The
reason is the frame of a worker: the worker of block `i` changes only the
bytes `i * blockSize ≤ j < (i + 1) * blockSize` of the buffer. When the cipher
encrypts blocks to blocks, both functions do return a buffer under every
order (ECB on data of a whole number of blocks, CTR with an IV of `blockSize`
bytes). -/
theorem ecb_ctr_block_order_independent {σ : Type} (cstc : CryptoSymmetricContext σ)
    (data : Bytes) (order : List Nat) :
    (order.Perm (List.range (data.length / cstc.blockSize)) →
      (∀ b c : Bytes, b.length = cstc.blockSize →
        cstc.cipher.Encrypt cstc.obj b = Except.ok c → c.length ≤ cstc.blockSize) →
      (∀ c, cstc.encryptECBScheduled order data = Except.ok c ↔
        cstc.encryptECB data = Except.ok c) ∧
      (∀ (i : Nat) (out r : Bytes), out.length = data.length →
        ecbWorker (cstc.cipher.Encrypt cstc.obj) data cstc.blockSize i out = Except.ok r →
        r.length = out.length ∧
          r.take (i * cstc.blockSize) = out.take (i * cstc.blockSize) ∧
          r.drop (i * cstc.blockSize + cstc.blockSize)
            = out.drop (i * cstc.blockSize + cstc.blockSize))) ∧
    (order.Perm (List.range ((data.length + cstc.blockSize - 1) / cstc.blockSize)) →
      (∀ c, cstc.encryptCTRScheduled order data = Except.ok c ↔
        cstc.encryptCTR data = Except.ok c) ∧
      (∀ (i : Nat) (out r : Bytes), i ∈ order → out.length = data.length →
        cstc.ctrWorker data (copyAt (zeros cstc.blockSize) 0 cstc.iv) i out = Except.ok r →
        r.length = out.length ∧
          r.take (i * cstc.blockSize) = out.take (i * cstc.blockSize) ∧
          r.drop (i * cstc.blockSize + cstc.blockSize)
            = out.drop (i * cstc.blockSize + cstc.blockSize))) ∧
    (1 ≤ cstc.blockSize →
      (∀ b : Bytes, b.length = cstc.blockSize →
        ∃ c, cstc.cipher.Encrypt cstc.obj b = Except.ok c ∧ c.length = cstc.blockSize) →
      (data.length % cstc.blockSize = 0 →
        order.Perm (List.range (data.length / cstc.blockSize)) →
        ∃ c, cstc.encryptECBScheduled order data = Except.ok c ∧
          cstc.encryptECB data = Except.ok c ∧ c.length = data.length) ∧
      (cstc.iv.length = cstc.blockSize →
        order.Perm (List.range ((data.length + cstc.blockSize - 1) / cstc.blockSize)) →
        ∃ c, cstc.encryptCTRScheduled order data = Except.ok c ∧
          cstc.encryptCTR data = Except.ok c ∧ c.length = data.length)) := by
  refine ⟨fun hperm hlen => ⟨fun c => ecb_scheduled_iff cstc data order hperm hlen c,
      fun i out r hout h => ecbWorker_frame _ data cstc.blockSize hlen i out r hout h⟩,
    fun hperm => ⟨fun c => ctr_scheduled_iff cstc data order hperm c,
      fun i out r hi hout h => ctrWorker_frame cstc data _ i
        (List.mem_range.mp (hperm.mem_iff.mp hi)) out r hout h⟩,
    fun hbs hcipher => ?_⟩
  obtain ⟨henc, hEl⟩ := encBlock_spec cstc hcipher
  have hlen : ∀ b c : Bytes, b.length = cstc.blockSize →
      cstc.cipher.Encrypt cstc.obj b = Except.ok c → c.length ≤ cstc.blockSize := by
    intro b c hb hc
    rw [henc b hb] at hc
    rw [← Except.ok.inj hc, hEl b hb]
  constructor
  · intro hal hperm
    have hd : data.length = data.length / cstc.blockSize * cstc.blockSize :=
      (Nat.div_mul_cancel (Nat.dvd_of_mod_eq_zero hal)).symm
    have h := ecb_encrypt_enc cstc _ henc hEl hbs data _ hd
    exact ⟨_, (ecb_scheduled_iff cstc data order hperm hlen _).mpr h, h,
      (mode_encrypt_length cstc [] data _).1 h⟩
  · intro hiv hperm
    have h := ctr_encrypt_general cstc _ henc hEl hbs hiv data
    exact ⟨_, (ctr_scheduled_iff cstc data order hperm _).mpr h, h,
      (mode_encrypt_length cstc [] data _).2.2.2.2.2.1 h⟩

theorem ecb_ctr_block_order_independent_witness :
    ∃ ctx c1 c2,
      NewCryptoSymmetricContext (List.replicate 16 1) rc5Algorithm NewRC5 ECB PKCS7
          (List.replicate 16 0) 16 = Except.ok ctx ∧
        ctx.encryptECBScheduled [2, 0, 1] (List.replicate 48 7) = Except.ok c1 ∧
        ctx.encryptECB (List.replicate 48 7) = Except.ok c1 ∧
        ctx.encryptCTRScheduled [2, 0, 1] (List.replicate 41 7) = Except.ok c2 ∧
        ctx.encryptCTR (List.replicate 41 7) = Except.ok c2 := by
  obtain ⟨S, e1, e2⟩ := rc5_SetKey_ok NewRC5 (List.replicate 16 1) rfl (by decide)
  have hnew := NewCryptoSymmetricContext_ok (List.replicate 16 1) rc5Algorithm NewRC5 _
    ECB PKCS7 (List.replicate 16 0) 16 (Or.inl rfl) e1
  have hcipher : ∀ b : Bytes, b.length = 16 →
      ∃ c, RC5.Encrypt { S := S, r := NewRC5.r, w := 64, b := (List.replicate 16 1).length } b
        = Except.ok c ∧ c.length = 16 :=
    fun b hb => rc5_encrypts_blocks _ rfl (by rw [e2]) b hb
  obtain ⟨c1, h1, h2, _⟩ := ((ecb_ctr_block_order_independent
    { key := List.replicate 16 1, cipher := rc5Algorithm,
      obj := { S := S, r := NewRC5.r, w := 64, b := (List.replicate 16 1).length },
      mode := ECB, padding := PKCS7, iv := List.replicate 16 0, blockSize := 16 }
    (List.replicate 48 7) [2, 0, 1]).2.2 (show 1 ≤ 16 by decide) hcipher).1
    (show (List.replicate 48 (7 : Byte)).length % 16 = 0 by decide)
    (show [2, 0, 1].Perm (List.range ((List.replicate 48 (7 : Byte)).length / 16)) by decide)
  obtain ⟨c2, h3, h4, _⟩ := ((ecb_ctr_block_order_independent
    { key := List.replicate 16 1, cipher := rc5Algorithm,
      obj := { S := S, r := NewRC5.r, w := 64, b := (List.replicate 16 1).length },
      mode := ECB, padding := PKCS7, iv := List.replicate 16 0, blockSize := 16 }
    (List.replicate 41 7) [2, 0, 1]).2.2 (show 1 ≤ 16 by decide) hcipher).2
    (show (List.replicate 16 (0 : Byte)).length = 16 by decide)
    (show [2, 0, 1].Perm
      (List.range (((List.replicate 41 (7 : Byte)).length + 16 - 1) / 16)) by decide)
  exact ⟨_, c1, c2, hnew, h1, h2, h3, h4⟩

/-! ## `Encrypt` as a method on the receiver: frame and repeatability -/

theorem Method.run_pure {σ α : Type} (a : α) (s : CallState σ) :
    (pure a : Method σ α).run s = (Except.ok a, s) := rfl

theorem Method.run_bind {σ α β : Type} (m : Method σ α) (f : α → Method σ β)
    (s : CallState σ) :
    (m >>= f).run s
      = match m.run s with
        | (Except.ok a, s1) => (f a).run s1
        | (Except.error e, s1) => (Except.error e, s1) := rfl

theorem Method.run_call_bind {σ α β : Type} (r : Result α) (f : α → Method σ β)
    (s : CallState σ) :
    (Method.call r >>= f).run s
      = match r with
        | Except.ok a => (f a).run s
        | Except.error e => (Except.error e, s) := by
  rw [Method.run_bind]
  cases r <;> rfl

theorem Method.run_receiver_bind {σ β : Type} (f : CryptoSymmetricContext σ → Method σ β)
    (s : CallState σ) :
    (Method.receiver >>= f).run s = (f s.cstc).run s := rfl

theorem Method.run_call {σ α : Type} (r : Result α) (s : CallState σ) :
    (Method.call r : Method σ α).run s = (r, s) := rfl

theorem Method.run_wrapf {σ α : Type} (pre : String) (m : Method σ α) (s : CallState σ) :
    (Method.wrapf pre m).run s = (ChatYouCry.wrapf pre (m.run s).1, (m.run s).2) := rfl

theorem Method.run_ite {σ α : Type} (c : Prop) [Decidable c] (m1 m2 : Method σ α)
    (s : CallState σ) :
    (if c then m1 else m2).run s = if c then m1.run s else m2.run s := by
  split <;> rfl

theorem Method.encryptCFB_loop_run {σ : Type} (cstc : CryptoSymmetricContext σ)
    (tape data : Bytes) :
    ∀ (fuel i : Nat) (encrypted feedback : Bytes),
      (Method.encryptCFB.loop data cstc.blockSize fuel i encrypted feedback).run
          { cstc := cstc, tape := tape }
        = (CryptoSymmetricContext.encryptCFB.loop cstc data fuel i encrypted feedback,
            { cstc := cstc, tape := tape }) := by
  intro fuel
  induction fuel with
  | zero => intro i encrypted feedback; rfl
  | succ fuel ih =>
    intro i encrypted feedback
    rw [Method.encryptCFB.loop, CryptoSymmetricContext.encryptCFB.loop]
    dsimp only
    rw [Method.run_call_bind]
    generalize slice data (i * cstc.blockSize) (i * cstc.blockSize + cstc.blockSize) = r1
    cases r1 with
    | error e => rfl
    | ok plaintextBlock =>
      dsimp only
      rw [ok_bind, Method.run_receiver_bind, Method.run_call_bind]
      dsimp only
      generalize ChatYouCry.wrapf "encryption failed at block"
        (cstc.cipher.Encrypt cstc.obj feedback) = r2
      cases r2 with
      | error e => rfl
      | ok outputBlock =>
        dsimp only
        rw [ok_bind, Method.run_call_bind]
        generalize firstN outputBlock cstc.blockSize = r3
        cases r3 with
        | error e => rfl
        | ok ob =>
          dsimp only
          rw [ok_bind, Method.run_call_bind]
          generalize slice (copyAt encrypted (i * cstc.blockSize) (xorBytes plaintextBlock ob))
            (i * cstc.blockSize) (i * cstc.blockSize + cstc.blockSize) = r4
          cases r4 with
          | error e => rfl
          | ok written =>
            dsimp only
            rw [ok_bind]
            exact ih _ _ _

theorem Method.encryptOFB_loop_run {σ : Type} (cstc : CryptoSymmetricContext σ)
    (tape data : Bytes) :
    ∀ (fuel k : Nat) (encrypted feedback : Bytes),
      (Method.encryptOFB.loop data cstc.blockSize fuel k encrypted feedback).run
          { cstc := cstc, tape := tape }
        = (CryptoSymmetricContext.encryptOFB.loop cstc data fuel k encrypted feedback,
            { cstc := cstc, tape := tape }) := by
  intro fuel
  induction fuel with
  | zero => intro k encrypted feedback; rfl
  | succ fuel ih =>
    intro k encrypted feedback
    rw [Method.encryptOFB.loop, CryptoSymmetricContext.encryptOFB.loop]
    rw [Method.run_receiver_bind, Method.run_call_bind]
    dsimp only
    generalize ChatYouCry.wrapf "encryption failed at block"
      (cstc.cipher.Encrypt cstc.obj feedback) = r2
    cases r2 with
    | error e => rfl
    | ok outputBlock =>
      dsimp only
      rw [ok_bind, Method.run_call_bind]
      generalize xorChunk encrypted data (k * cstc.blockSize)
        (min (k * cstc.blockSize + cstc.blockSize) data.length) outputBlock = r3
      cases r3 with
      | error e => rfl
      | ok enc1 =>
        dsimp only
        rw [ok_bind]
        exact ih _ _ _

theorem Method.encryptCFB_run {σ : Type} (cstc : CryptoSymmetricContext σ) (tape data : Bytes) :
    (Method.encryptCFB data).run { cstc := cstc, tape := tape }
      = (cstc.encryptCFB data, { cstc := cstc, tape := tape }) := by
  unfold Method.encryptCFB CryptoSymmetricContext.encryptCFB
  rw [Method.run_receiver_bind]
  dsimp only
  by_cases h1 : cstc.iv.length ≠ cstc.blockSize
  · rw [if_pos h1, if_pos h1]
    rfl
  · rw [if_neg h1, if_neg h1]
    by_cases h2 : cstc.blockSize = 0
    · rw [if_pos h2, if_pos h2]
      rfl
    · rw [if_neg h2, if_neg h2]
      exact Method.encryptCFB_loop_run cstc tape data _ _ _ _

theorem Method.encryptOFB_run {σ : Type} (cstc : CryptoSymmetricContext σ) (tape data : Bytes) :
    (Method.encryptOFB data).run { cstc := cstc, tape := tape }
      = (cstc.encryptOFB data, { cstc := cstc, tape := tape }) := by
  unfold Method.encryptOFB CryptoSymmetricContext.encryptOFB
  rw [Method.run_receiver_bind]
  dsimp only
  by_cases h1 : cstc.iv.length ≠ cstc.blockSize
  · rw [if_pos h1, if_pos h1]
    rfl
  · rw [if_neg h1, if_neg h1]
    by_cases h2 : cstc.blockSize = 0 ∧ data.length ≠ 0
    · rw [if_pos h2, if_pos h2]
      rfl
    · rw [if_neg h2, if_neg h2]
      exact Method.encryptOFB_loop_run cstc tape data _ _ _ _

theorem Method.AddPadding_run {σ : Type} (cstc : CryptoSymmetricContext σ) (tape data : Bytes) :
    (Method.AddPadding data).run { cstc := cstc, tape := tape }
      = match cstc.AddPadding tape data with
        | Except.ok (padded, tape1) => (Except.ok padded, { cstc := cstc, tape := tape1 })
        | Except.error e => (Except.error e, { cstc := cstc, tape := tape }) := by
  unfold Method.AddPadding CryptoSymmetricContext.AddPadding
  rw [Method.run_receiver_bind]
  dsimp only
  by_cases h0 : cstc.blockSize = 0
  · rw [if_pos h0, if_pos h0]
    rfl
  · rw [if_neg h0, if_neg h0]
    by_cases h1 : cstc.padding = Zeros
    · rw [if_pos h1, if_pos h1]
      rfl
    · rw [if_neg h1, if_neg h1]
      by_cases h2 : cstc.padding = ANSIX923
      · rw [if_pos h2, if_pos h2, Method.run_call]
        generalize ANSIX923Padding data _ = r
        cases r <;> rfl
      · rw [if_neg h2, if_neg h2]
        by_cases h3 : cstc.padding = PKCS7
        · rw [if_pos h3, if_pos h3, Method.run_call]
          generalize PKCS7Padding data _ = r
          cases r <;> rfl
        · rw [if_neg h3, if_neg h3]
          by_cases h4 : cstc.padding = ISO10126
          · rw [if_pos h4, if_pos h4]
            unfold Method.random
            dsimp only
            generalize ISO10126Padding tape data _ = r
            rcases r with e | ⟨padded, tape1⟩ <;> rfl
          · rw [if_neg h4, if_neg h4]
            rfl

theorem Method.run_bind_ok {σ α β : Type} (m : Method σ α) (f : α → Method σ β)
    (s s1 : CallState σ) (a : α) (h : m.run s = (Except.ok a, s1)) :
    (m >>= f).run s = (f a).run s1 := by
  rw [Method.run_bind, h]

theorem Method.run_bind_error {σ α β : Type} (m : Method σ α) (f : α → Method σ β)
    (s s1 : CallState σ) (e : Fault) (h : m.run s = (Except.error e, s1)) :
    (m >>= f).run s = (Except.error e, s1) := by
  rw [Method.run_bind, h]

theorem AddPadding_tape_kept {σ : Type} (cstc : CryptoSymmetricContext σ)
    (tape p padded tape1 : Bytes) (hiso : cstc.padding ≠ ISO10126)
    (h : cstc.AddPadding tape p = Except.ok (padded, tape1)) : tape1 = tape := by
  unfold CryptoSymmetricContext.AddPadding at h
  dsimp only at h
  by_cases h0 : cstc.blockSize = 0
  · rw [if_pos h0] at h
    exact absurd h (by simp)
  rw [if_neg h0] at h
  by_cases h1 : cstc.padding = Zeros
  · rw [if_pos h1] at h
    exact (Prod.mk.inj (Except.ok.inj h)).2.symm
  rw [if_neg h1] at h
  by_cases h2 : cstc.padding = ANSIX923
  · rw [if_pos h2] at h
    obtain ⟨a, _, h⟩ := bind_eq_ok h
    exact (Prod.mk.inj (Except.ok.inj h)).2.symm
  rw [if_neg h2] at h
  by_cases h3 : cstc.padding = PKCS7
  · rw [if_pos h3] at h
    obtain ⟨a, _, h⟩ := bind_eq_ok h
    exact (Prod.mk.inj (Except.ok.inj h)).2.symm
  rw [if_neg h3, if_neg hiso] at h
  exact absurd h (by simp)

/-- In the modes CFB and OFB the method `Encrypt` returns what the value-level
`Encrypt` returns, and the receiver after the call is the receiver before it;
the random source is untouched unless the padding is ISO 10126. -/
theorem Method.Encrypt_run {σ : Type} (cstc : CryptoSymmetricContext σ) (tape p : Bytes)
    (hmode : cstc.mode = CFB ∨ cstc.mode = OFB) :
    ∃ tape1, (Method.Encrypt p).run { cstc := cstc, tape := tape }
        = (cstc.Encrypt tape p, { cstc := cstc, tape := tape1 }) ∧
      (cstc.padding ≠ ISO10126 → tape1 = tape) := by
  unfold Method.Encrypt CryptoSymmetricContext.Encrypt
  by_cases hp : p.length = 0
  · rw [if_pos hp, if_pos hp]
    exact ⟨tape, rfl, fun _ => rfl⟩
  · rw [if_neg hp, if_neg hp]
    cases hpad : cstc.AddPadding tape p with
    | error e =>
      refine ⟨tape, ?_, fun _ => rfl⟩
      have hrun : (Method.wrapf "failed to add padding" (Method.AddPadding p)).run
          { cstc := cstc, tape := tape }
          = (ChatYouCry.wrapf "failed to add padding" (Except.error e),
              { cstc := cstc, tape := tape }) := by
        rw [Method.run_wrapf, Method.AddPadding_run, hpad]
      cases e with
      | error msg => rw [Method.run_bind_error _ _ _ _ _ hrun]; rfl
      | panic msg => rw [Method.run_bind_error _ _ _ _ _ hrun]; rfl
    | ok r =>
      obtain ⟨padded, tape1⟩ := r
      refine ⟨tape1, ?_, fun hiso => AddPadding_tape_kept cstc tape p padded tape1 hiso hpad⟩
      have hrun : (Method.wrapf "failed to add padding" (Method.AddPadding p)).run
          { cstc := cstc, tape := tape } = (Except.ok padded, { cstc := cstc, tape := tape1 }) := by
        rw [Method.run_wrapf, Method.AddPadding_run, hpad]
        rfl
      rw [Method.run_bind_ok _ _ _ _ _ hrun, wrapf_ok, ok_bind, Method.run_receiver_bind,
        Method.run_wrapf]
      dsimp only
      rcases hmode with hm | hm
      · rw [hm, if_neg (show ¬ (CFB = ECB) by decide), if_neg (show ¬ (CFB = CBC) by decide),
          if_neg (show ¬ (CFB = PCBC) by decide), if_pos rfl,
          if_neg (show ¬ (CFB = ECB) by decide), if_neg (show ¬ (CFB = CBC) by decide),
          if_neg (show ¬ (CFB = PCBC) by decide), if_pos rfl,
          Method.encryptCFB_run]
      · rw [hm, if_neg (show ¬ (OFB = ECB) by decide), if_neg (show ¬ (OFB = CBC) by decide),
          if_neg (show ¬ (OFB = PCBC) by decide), if_neg (show ¬ (OFB = CFB) by decide),
          if_pos rfl,
          if_neg (show ¬ (OFB = ECB) by decide), if_neg (show ¬ (OFB = CBC) by decide),
          if_neg (show ¬ (OFB = PCBC) by decide), if_neg (show ¬ (OFB = CFB) by decide),
          if_pos rfl,
          Method.encryptOFB_run]

theorem AddPadding_tape_free_all {σ : Type} (cstc : CryptoSymmetricContext σ) (p : Bytes)
    (hiso : cstc.padding ≠ ISO10126) :
    (∃ padded, ∀ tape, cstc.AddPadding tape p = Except.ok (padded, tape)) ∨
      (∃ e, ∀ tape, cstc.AddPadding tape p = Except.error e) := by
  by_cases hpad : cstc.padding = Zeros ∨ cstc.padding = ANSIX923 ∨ cstc.padding = PKCS7
  · exact AddPadding_tape_free cstc p hpad
  · right
    by_cases h0 : cstc.blockSize = 0
    · refine ⟨Fault.panic "integer divide by zero", fun tape => ?_⟩
      unfold CryptoSymmetricContext.AddPadding
      dsimp only
      rw [if_pos h0]
      rfl
    · refine ⟨Fault.error "unsupported padding mode", fun tape => ?_⟩
      unfold CryptoSymmetricContext.AddPadding
      dsimp only
      rw [if_neg h0, if_neg (fun h => hpad (Or.inl h)),
        if_neg (fun h => hpad (Or.inr (Or.inl h))),
        if_neg (fun h => hpad (Or.inr (Or.inr h))), if_neg hiso]
      rfl

theorem AddPadding_iso_fill {σ : Type} (cstc : CryptoSymmetricContext σ) (tape tape2 p : Bytes)
    (hiso : cstc.padding = ISO10126)
    (htake : tape2.take (cstc.blockSize - p.length % cstc.blockSize - 1)
      = tape.take (cstc.blockSize - p.length % cstc.blockSize - 1)) :
    (∃ padded t1 t2, cstc.AddPadding tape p = Except.ok (padded, t1) ∧
        cstc.AddPadding tape2 p = Except.ok (padded, t2)) ∨
      (∃ e, cstc.AddPadding tape p = Except.error e ∧
        cstc.AddPadding tape2 p = Except.error e) := by
  generalize hbs : cstc.blockSize = bs at *
  by_cases h0 : bs = 0
  · right
    refine ⟨Fault.panic "integer divide by zero", ?_, ?_⟩ <;>
    · unfold CryptoSymmetricContext.AddPadding
      dsimp only
      rw [hbs, if_pos h0]
      rfl
  · have hlt : p.length % bs < bs := Nat.mod_lt _ (by omega)
    have hL : (if bs - p.length % bs = 0 then bs else bs - p.length % bs)
        = bs - p.length % bs := by
      rw [if_neg (by omega)]
    have key : ∀ t : Bytes, cstc.AddPadding t p
        = ISO10126Padding t p (bs - p.length % bs) := by
      intro t
      unfold CryptoSymmetricContext.AddPadding
      dsimp only
      rw [hbs, if_neg h0, hL, hiso, if_neg (show ¬ (ISO10126 = Zeros) by decide),
        if_neg (show ¬ (ISO10126 = ANSIX923) by decide),
        if_neg (show ¬ (ISO10126 = PKCS7) by decide), if_pos rfl]
    rw [key tape, key tape2]
    by_cases hr : bs - p.length % bs < 1 ∨ bs - p.length % bs > 255
    · right
      have e : ∀ t : Bytes, ISO10126Padding t p (bs - p.length % bs)
          = Except.error (Fault.error "paddingLen must be between 1 and 255") := by
        intro t
        unfold ISO10126Padding
        rw [if_pos hr]
        rfl
      exact ⟨_, e tape, e tape2⟩
    · have hlen : min (bs - p.length % bs - 1) tape2.length
          = min (bs - p.length % bs - 1) tape.length := by
        have := congrArg List.length htake
        rw [List.length_take, List.length_take] at this
        exact this
      by_cases hn : bs - p.length % bs - 1 ≤ tape.length
      · left
        have e : ∀ t : Bytes, bs - p.length % bs - 1 ≤ t.length →
            ISO10126Padding t p (bs - p.length % bs)
              = Except.ok (p ++ (t.take (bs - p.length % bs - 1)
                  ++ [toByte (bs - p.length % bs)]), t.drop (bs - p.length % bs - 1)) := by
          intro t ht
          unfold ISO10126Padding randRead
          rw [if_neg hr, if_pos ht]
          rfl
        refine ⟨_, _, tape2.drop (bs - p.length % bs - 1), e tape hn, ?_⟩
        rw [e tape2 (by omega), htake]
      · right
        have e : ∀ t : Bytes, ¬ (bs - p.length % bs - 1 ≤ t.length) →
            ISO10126Padding t p (bs - p.length % bs)
              = Except.error (Fault.error "entropy source failed") := by
          intro t ht
          unfold ISO10126Padding randRead
          rw [if_neg hr, if_neg ht]
          rfl
        exact ⟨_, e tape hn, e tape2 (by omega)⟩

theorem Encrypt_of_padded {σ : Type} (cstc : CryptoSymmetricContext σ)
    (hmode : cstc.mode = CFB ∨ cstc.mode = OFB) (tape tape2 p padded t1 t2 : Bytes)
    (h1 : cstc.AddPadding tape p = Except.ok (padded, t1))
    (h2 : cstc.AddPadding tape2 p = Except.ok (padded, t2)) :
    cstc.Encrypt tape2 p = cstc.Encrypt tape p := by
  unfold CryptoSymmetricContext.Encrypt
  by_cases hp : p.length = 0
  · rw [if_pos hp, if_pos hp]
  · rw [if_neg hp, if_neg hp, h1, h2, wrapf_ok, wrapf_ok, ok_bind, ok_bind]
    dsimp only
    rcases hmode with hm | hm
    · rw [hm, if_neg (show ¬ (CFB = ECB) by decide), if_neg (show ¬ (CFB = CBC) by decide),
        if_neg (show ¬ (CFB = PCBC) by decide), if_pos rfl,
        if_neg (show ¬ (CFB = ECB) by decide), if_neg (show ¬ (CFB = CBC) by decide),
        if_neg (show ¬ (CFB = PCBC) by decide), if_pos rfl]
    · rw [hm, if_neg (show ¬ (OFB = ECB) by decide), if_neg (show ¬ (OFB = CBC) by decide),
        if_neg (show ¬ (OFB = PCBC) by decide), if_neg (show ¬ (OFB = CFB) by decide),
        if_pos rfl,
        if_neg (show ¬ (OFB = ECB) by decide), if_neg (show ¬ (OFB = CBC) by decide),
        if_neg (show ¬ (OFB = PCBC) by decide), if_neg (show ¬ (OFB = CFB) by decide),
        if_pos rfl]

theorem Encrypt_of_padding_error {σ : Type} (cstc : CryptoSymmetricContext σ)
    (tape tape2 p : Bytes) (e : Fault)
    (h1 : cstc.AddPadding tape p = Except.error e)
    (h2 : cstc.AddPadding tape2 p = Except.error e) :
    cstc.Encrypt tape2 p = cstc.Encrypt tape p := by
  unfold CryptoSymmetricContext.Encrypt
  by_cases hp : p.length = 0
  · rw [if_pos hp, if_pos hp]
  · rw [if_neg hp, if_neg hp, h1, h2]

/-- In the modes CFB and OFB the result of `Encrypt` depends on the random
source only through the fill of the ISO 10126 padding. -/
theorem Encrypt_tape_dependence {σ : Type} (cstc : CryptoSymmetricContext σ)
    (hmode : cstc.mode = CFB ∨ cstc.mode = OFB) (tape tape2 p : Bytes)
    (h : cstc.padding = ISO10126 →
      tape2.take (cstc.blockSize - p.length % cstc.blockSize - 1)
        = tape.take (cstc.blockSize - p.length % cstc.blockSize - 1)) :
    cstc.Encrypt tape2 p = cstc.Encrypt tape p := by
  by_cases hiso : cstc.padding = ISO10126
  · rcases AddPadding_iso_fill cstc tape tape2 p hiso (h hiso) with
      ⟨padded, t1, t2, h1, h2⟩ | ⟨e, h1, h2⟩
    · exact Encrypt_of_padded cstc hmode tape tape2 p padded t1 t2 h1 h2
    · exact Encrypt_of_padding_error cstc tape tape2 p e h1 h2
  · rcases AddPadding_tape_free_all cstc p hiso with ⟨padded, h1⟩ | ⟨e, h1⟩
    · exact Encrypt_of_padded cstc hmode tape tape2 p padded _ _ (h1 tape) (h1 tape2)
    · exact Encrypt_of_padding_error cstc tape tape2 p e (h1 tape) (h1 tape2)

/-- With the paddings Zeros, ANSI X9.23 and PKCS#7, `1 ≤ blockSize ≤ 255`, an IV
of `blockSize` bytes and a cipher that encrypts blocks to blocks, `Encrypt` in
the mode CFB or OFB returns a ciphertext for every non-empty plaintext. -/
theorem cfb_ofb_Encrypt_ok {σ : Type} (cstc : CryptoSymmetricContext σ) (tape p : Bytes)
    (hmode : cstc.mode = CFB ∨ cstc.mode = OFB)
    (hpad : cstc.padding = Zeros ∨ cstc.padding = ANSIX923 ∨ cstc.padding = PKCS7)
    (hbs1 : 1 ≤ cstc.blockSize) (hbs2 : cstc.blockSize ≤ 255)
    (hiv : cstc.iv.length = cstc.blockSize)
    (hcipher : ∀ b : Bytes, b.length = cstc.blockSize →
      ∃ c, cstc.cipher.Encrypt cstc.obj b = Except.ok c ∧ c.length = cstc.blockSize)
    (hp : p ≠ []) :
    ∃ c, cstc.Encrypt tape p = Except.ok c := by
  have hpl : p.length ≠ 0 := fun h => hp (List.length_eq_zero.mp h)
  rcases AddPadding_cases cstc tape p hbs1 hbs2 with ⟨r, hr, _⟩ | ⟨msg, hr⟩
  · obtain ⟨padded, tape1⟩ := r
    have hl := AddPadding_length cstc tape p padded tape1 hbs1 hr
    unfold CryptoSymmetricContext.Encrypt
    rw [if_neg hpl, hr, wrapf_ok, ok_bind]
    dsimp only
    rcases hmode with hm | hm
    · obtain ⟨c, hc⟩ := cfb_encrypt_ok cstc hbs1 hiv hcipher padded _
        (hl.trans (Nat.mul_comm _ _))
      rw [hm, if_neg (show ¬ (CFB = ECB) by decide), if_neg (show ¬ (CFB = CBC) by decide),
        if_neg (show ¬ (CFB = PCBC) by decide), if_pos rfl, hc, wrapf_ok]
      exact ⟨c, rfl⟩
    · obtain ⟨c, hc⟩ := ofb_encrypt_ok cstc hbs1 hiv hcipher padded
      rw [hm, if_neg (show ¬ (OFB = ECB) by decide), if_neg (show ¬ (OFB = CBC) by decide),
        if_neg (show ¬ (OFB = PCBC) by decide), if_neg (show ¬ (OFB = CFB) by decide),
        if_pos rfl, hc, wrapf_ok]
      exact ⟨c, rfl⟩
  · exfalso
    unfold CryptoSymmetricContext.AddPadding at hr
    rw [if_neg (by omega)] at hr
    dsimp only at hr
    obtain ⟨b1, b2⟩ := padLen_bounds cstc.blockSize p.length hbs1
    rw [if_neg (show ¬ (cstc.blockSize - p.length % cstc.blockSize = 0) by omega)] at hr
    rcases hpad with hq | hq | hq
    · rw [if_pos hq] at hr
      exact absurd hr (by simp)
    · unfold ANSIX923Padding at hr
      rw [hq, if_neg (show ¬ (ANSIX923 = Zeros) by decide), if_pos rfl,
        if_neg (by omega)] at hr
      exact absurd hr (by simp)
    · unfold PKCS7Padding at hr
      rw [hq, if_neg (show ¬ (PKCS7 = Zeros) by decide),
        if_neg (show ¬ (PKCS7 = ANSIX923) by decide), if_pos rfl,
        if_neg (by omega)] at hr
      exact absurd hr (by simp)

/-- The method `SetKey` of the context does change the receiver: after the call
the cipher object is the rekeyed one. -/
theorem Method.SetKey_run {σ : Type} (cstc : CryptoSymmetricContext σ) (tape key : Bytes)
    (obj1 : σ) (h : cstc.cipher.SetKey cstc.obj key = Except.ok obj1) :
    (Method.SetKey key).run { cstc := cstc, tape := tape }
      = (Except.ok (), { cstc := { cstc with obj := obj1 }, tape := tape }) := by
  unfold Method.SetKey
  rw [Method.run_receiver_bind, Method.run_call_bind]
  dsimp only
  rw [h]
  rfl

/-- C15, amended. No persisted chaining state in the modes CFB and OFB. With
the receiver as explicit state, a call of `Encrypt` leaves the receiver as it
was (key, IV, mode, padding, block size and cipher object), whatever the
padding and whether the call succeeds or fails, and so does a second call;
the value returned is that of the value-level `Encrypt`. With every padding
other than ISO 10126 the second of two consecutive calls with the same
plaintext returns what the first returned. In general the value returned
depends on the random source only through the `blockSize - len(p) % blockSize
- 1` bytes that fill the ISO 10126 padding: two calls whose random sources
start with the same fill return the same value. With the padding Zeros, ANSI
X9.23 or PKCS#7, `1 ≤ blockSize ≤ 255`, an IV of `blockSize` bytes, a cipher
that encrypts blocks to blocks and a non-empty plaintext, both calls return the
same ciphertext. -/
theorem cfb_ofb_encrypt_repeatable {σ : Type} (cstc : CryptoSymmetricContext σ)
    (tape p : Bytes) (hmode : cstc.mode = CFB ∨ cstc.mode = OFB) :
    ((Method.Encrypt p).run { cstc := cstc, tape := tape }).2.cstc = cstc ∧
    ((Method.Encrypt p).run
      ((Method.Encrypt p).run { cstc := cstc, tape := tape }).2).2.cstc = cstc ∧
    ((Method.Encrypt p).run { cstc := cstc, tape := tape }).1 = cstc.Encrypt tape p ∧
    (cstc.padding ≠ ISO10126 →
      ((Method.Encrypt p).run ((Method.Encrypt p).run { cstc := cstc, tape := tape }).2).1
        = ((Method.Encrypt p).run { cstc := cstc, tape := tape }).1) ∧
    (∀ tape2 : Bytes,
      (cstc.padding = ISO10126 →
        tape2.take (cstc.blockSize - p.length % cstc.blockSize - 1)
          = tape.take (cstc.blockSize - p.length % cstc.blockSize - 1)) →
      ((Method.Encrypt p).run { cstc := cstc, tape := tape2 }).1
        = ((Method.Encrypt p).run { cstc := cstc, tape := tape }).1) ∧
    (cstc.padding = Zeros ∨ cstc.padding = ANSIX923 ∨ cstc.padding = PKCS7 →
      1 ≤ cstc.blockSize → cstc.blockSize ≤ 255 → cstc.iv.length = cstc.blockSize →
      (∀ b : Bytes, b.length = cstc.blockSize →
        ∃ c, cstc.cipher.Encrypt cstc.obj b = Except.ok c ∧ c.length = cstc.blockSize) →
      p ≠ [] →
      ∃ c, ((Method.Encrypt p).run { cstc := cstc, tape := tape }).1 = Except.ok c ∧
        ((Method.Encrypt p).run
          ((Method.Encrypt p).run { cstc := cstc, tape := tape }).2).1 = Except.ok c) := by
  obtain ⟨tape1, h1, ht1⟩ := Method.Encrypt_run cstc tape p hmode
  obtain ⟨tape3, h3, _⟩ := Method.Encrypt_run cstc tape1 p hmode
  have hsecond : ∀ hiso : cstc.padding ≠ ISO10126,
      ((Method.Encrypt p).run ((Method.Encrypt p).run { cstc := cstc, tape := tape }).2).1
        = ((Method.Encrypt p).run { cstc := cstc, tape := tape }).1 := by
    intro hiso
    rw [h1]
    dsimp only
    rw [ht1 hiso, h1]
  refine ⟨by rw [h1], by rw [h1]; dsimp only; rw [h3], by rw [h1], hsecond, ?_, ?_⟩
  · intro tape2 ht
    obtain ⟨tape4, h4, _⟩ := Method.Encrypt_run cstc tape2 p hmode
    rw [h1, h4]
    exact Encrypt_tape_dependence cstc hmode tape tape2 p ht
  · intro hpad hbs1 hbs2 hiv hcipher hp
    obtain ⟨c, hc⟩ := cfb_ofb_Encrypt_ok cstc tape p hmode hpad hbs1 hbs2 hiv hcipher hp
    have hiso : cstc.padding ≠ ISO10126 := by
      rcases hpad with h | h | h <;> rw [h] <;> decide
    refine ⟨c, by rw [h1]; exact hc, ?_⟩
    rw [hsecond hiso, h1]
    exact hc

theorem cfb_ofb_encrypt_repeatable_witness :
    ∃ ctx c,
      NewCryptoSymmetricContext (List.replicate 16 1) rc5Algorithm NewRC5 CFB PKCS7
          (List.replicate 16 0) 16 = Except.ok ctx ∧
        ((Method.Encrypt [104, 101, 108, 108, 111]).run { cstc := ctx, tape := [9, 9, 9] }).1
          = Except.ok c ∧
        ((Method.Encrypt [104, 101, 108, 108, 111]).run
          ((Method.Encrypt [104, 101, 108, 108, 111]).run
            { cstc := ctx, tape := [9, 9, 9] }).2).1 = Except.ok c ∧
        ((Method.Encrypt [104, 101, 108, 108, 111]).run
          ((Method.Encrypt [104, 101, 108, 108, 111]).run
            { cstc := ctx, tape := [9, 9, 9] }).2).2.cstc = ctx := by
  obtain ⟨S, e1, e2⟩ := rc5_SetKey_ok NewRC5 (List.replicate 16 1) rfl (by decide)
  have hnew := NewCryptoSymmetricContext_ok (List.replicate 16 1) rc5Algorithm NewRC5 _
    CFB PKCS7 (List.replicate 16 0) 16 (Or.inl rfl) e1
  have h := cfb_ofb_encrypt_repeatable
    { key := List.replicate 16 1, cipher := rc5Algorithm,
      obj := { S := S, r := NewRC5.r, w := 64, b := (List.replicate 16 1).length },
      mode := CFB, padding := PKCS7, iv := List.replicate 16 0, blockSize := 16 }
    [9, 9, 9] [104, 101, 108, 108, 111] (Or.inl rfl)
  obtain ⟨c, h1, h2⟩ := h.2.2.2.2.2 (Or.inr (Or.inr rfl))
    (show 1 ≤ 16 by decide) (show 16 ≤ 255 by decide)
    (show (List.replicate 16 (0 : Byte)).length = 16 by decide)
    (fun b hb => rc5_encrypts_blocks _ rfl (by rw [e2]) b hb) (by decide)
  exact ⟨_, c, hnew, h1, h2, h.2.1⟩

end ChatYouCry
